import Mathlib

/-!
trumtorrent: bencode codec and torrent model

A shallow embedding of the Go sources `bencode/encoder.go`, `bencode/decoder.go`,
`bencode/marshaler.go`, `bencode/unmarshaler.go`, `piece/piece.go`, `torrent/torrent.go`,
`bitfield/bitfield.go`, `handshake/handshake.go`, `message/message.go`,
`extension/extension.go`, `metadata/metadata.go`, `peer/peer.go`, `tracker/tracker.go` and
`client/client.go`, together with theorems about them.

Conventions of the embedding:

* a Go `string` / `[]byte` is a list of byte values (`Bytes`), each byte a natural number;
* a Go `int` is an `Int`; the 64-bit range is an explicit side condition where it matters;
* a Go `map[string]X` is the list of its entries, every key once; `dict[key] = value` is
  `GoMap.set`, which keeps the entries in ascending key order (every map has exactly one such
  listing), `dict[key]` is `GoMap.get`; a `range` over a map visits the entries in the order
  of the list, which stands for any order: what the encoder returns is shown for every
  listing of a map;
* a function returning `(T, error)` returns `Except _ T` or `Option T`; a loop that Lean
  cannot see to terminate takes a bound on its steps, shown below never to be reached.
-/

/-- A Go string or byte slice: the sequence of its bytes. -/
abbrev Bytes := List Nat

/-- The entries of a Go `map[string]β`, every key once. -/
abbrev GoMap (β : Type) := List (Bytes × β)

namespace GoMap

/-- The statement `m[k] = v` on a map: replaces the entry of an existing key, adds one for a
new key; a listing in ascending key order stays one. -/
def set {β : Type} : GoMap β → Bytes → β → GoMap β
  | [], k, v => [(k, v)]
  | (k', v') :: rest, k, v =>
    if k < k' then (k, v) :: (k', v') :: rest
    else if k = k' then (k, v) :: rest
    else (k', v') :: set rest k v

/-- The expression `m[k]` with the comma-ok form: the value stored under `k`, if any. -/
def get {β : Type} : GoMap β → Bytes → Option β
  | [], _ => none
  | (k', v') :: rest, k => if k = k' then some v' else get rest k

/-- The keys of a map as `for key := range m` visits them: each key once, in the order of the
listing, which is any order. -/
def keys {β : Type} (m : GoMap β) : List Bytes := m.map Prod.fst

end GoMap

/-- Range of the Go type `int` on a 64-bit platform. -/
def inIntRange (n : Int) : Prop := -(2 : Int) ^ 63 ≤ n ∧ n < (2 : Int) ^ 63

instance (n : Int) : Decidable (inIntRange n) := by
  unfold inIntRange; exact inferInstance

namespace strconv

/-- Decimal digits of a natural number, most significant first, as ASCII bytes
(`fuel` bounds the number of digits). -/
def formatNatAux : Nat → Nat → Bytes
  | 0, _ => []
  | fuel + 1, n => if n < 10 then [48 + n] else formatNatAux fuel (n / 10) ++ [48 + n % 10]

/-- The text that `fmt.Sprintf("%v", n)` produces for a non-negative `n`. -/
def formatNat (n : Nat) : Bytes := formatNatAux (n + 1) n

/-- The text that `fmt.Sprintf("%v", i)` produces for an `int`: decimal, `-` for negatives. -/
def formatInt (i : Int) : Bytes :=
  if i < 0 then 45 :: formatNat i.natAbs else formatNat i.natAbs

/-- The digit loop of `strconv.Atoi`: every byte must be an ASCII digit. -/
def parseDigits : Bytes → Nat → Option Nat
  | [], acc => some acc
  | c :: cs, acc => if 48 ≤ c ∧ c ≤ 57 then parseDigits cs (acc * 10 + (c - 48)) else none

/-- The function `strconv.Atoi`: an optional sign `+` or `-`, then one or more decimal digits;
a value outside the `int` range is an error. -/
def Atoi (s : Bytes) : Option Int :=
  match s with
  | [] => none
  | c :: cs =>
    let neg := c == 45
    let ds := if c = 45 ∨ c = 43 then cs else s
    if ds = [] then none
    else match parseDigits ds 0 with
      | none => none
      | some n =>
        let v : Int := if neg then -(n : Int) else (n : Int)
        if inIntRange v then some v else none

end strconv

namespace bencode

/-- A dynamic Go value (`any`) as the codec sees it: the four shapes the encoder accepts,
and `other` for a value of any other dynamic type. -/
inductive Value where
  | int (n : Int)
  | str (s : Bytes)
  | list (l : List Value)
  | dict (d : List (Bytes × Value))
  | other
  deriving Inhabited

/-! ## Encoder (`bencode/encoder.go`) -/

namespace Encoder

/-- Collects the keys of the dictionary in the order in which `range` visits them and sorts
them (`sort.Strings`). -/
def getSortedDictionaryKeys {β : Type} (dict : GoMap β) : List Bytes :=
  List.insertionSort (· ≤ ·) (GoMap.keys dict)

/-- Writes `<len>:<str>`. -/
def consumeString (str : Bytes) : Bytes :=
  strconv.formatNat str.length ++ [58] ++ str

/-- Writes `i<n>e`. -/
def consumeInteger (i : Int) : Bytes :=
  [105] ++ strconv.formatInt i ++ [101]

/-- The loop of `consumeDictionary` over the sorted keys: writes the key, then the encoding of
`dict[key]`; `encoded` holds for every key the result of `consume` on its value. -/
def writeEntries (encoded : GoMap (Option Bytes)) : List Bytes → Option Bytes
  | [] => some []
  | key :: keys =>
    match GoMap.get encoded key with
    | some (some value) =>
      (writeEntries encoded keys).map (fun rest => consumeString key ++ value ++ rest)
    | _ => none

mutual
/-- The type switch of `consume`; `none` is the error "unable to consume unknown type". For a
dictionary the calls `consume(dict[key])` of the loop of `consumeDictionary` are collected in
`consumeValues`, and `writeEntries` runs the loop over the sorted keys. -/
def consume : Value → Option Bytes
  | .str v => some (consumeString v)
  | .int v => some (consumeInteger v)
  | .list v => (consumeItems v).map (fun body => [108] ++ body ++ [101])
  | .dict v =>
    (writeEntries (consumeValues v) (getSortedDictionaryKeys v)).map
      (fun body => [100] ++ body ++ [101])
  | .other => none
/-- The loop of `consumeList`: the encodings of the elements, in order. -/
def consumeItems : List Value → Option Bytes
  | [] => some []
  | value :: rest =>
    match consume value with
    | none => none
    | some a => (consumeItems rest).map (fun b => a ++ b)
/-- The result of `consume` on `dict[key]`, for every key of the dictionary. -/
def consumeValues : GoMap Value → GoMap (Option Bytes)
  | [] => []
  | (key, value) :: rest => (key, consume value) :: consumeValues rest
end

end Encoder

/-- The function `Encode`: the bytes written by `consume`, or an error. -/
def Encode (data : Value) : Option Bytes := Encoder.consume data

/-! ## Decoder (`bencode/decoder.go`) -/

/-- The errors of the decoder; `makeslice` is no returned error but the run-time panic of
`make` for a length that cannot be allocated, and `fuel` the bound of the embedding. -/
inductive DecodeError where
  | eof
  | atoi
  | negativeLength
  | shortInteger
  | negativeZero
  | leadingZero
  | makeslice
  | fuel
  deriving DecidableEq, Repr

/-- The largest length that `make([]byte, n)` accepts on a 64-bit platform (`maxAlloc` of the
run time); a buffer of at most this length is taken to be allocated. -/
def maxAlloc : Nat := 2 ^ 48

namespace Decoder

/-- The call `reader.ReadString(delim)`: the bytes up to and including the first `delim`, and
the unread rest; `none` when the input ends before a `delim` is found. -/
def readString (delim : Nat) : Bytes → Option (Bytes × Bytes)
  | [] => none
  | b :: rest =>
    if b = delim then some ([b], rest)
    else match readString delim rest with
      | none => none
      | some (s, rest') => some (b :: s, rest')

/-- Reads `<len>:<bytes>`. The buffer `make([]byte, size)` is allocated before the bytes are
read, and `make` panics for a length beyond `maxAlloc`. A byte slice holds at most `maxAlloc`
bytes, so a length beyond `maxAlloc` is a length beyond the input: that is where the test
stands here; a smaller length beyond the input is the read error of `io.ReadFull`. -/
def consumeString (input : Bytes) : Except DecodeError (Bytes × Bytes) :=
  match readString 58 input with
  | none => .error .eof
  | some (sizeStr, rest) =>
    match strconv.Atoi (sizeStr.take (sizeStr.length - 1)) with
    | none => .error .atoi
    | some size =>
      if size < 0 then .error .negativeLength
      else if size = 0 then .ok ([], rest)
      else if rest.length < size.toNat then
        if maxAlloc < size.toNat then .error .makeslice else .error .eof
      else .ok (rest.take size.toNat, rest.drop size.toNat)

/-- Reads `i<digits>e`; the leading `i` is still in the input. -/
def consumeInteger (input : Bytes) : Except DecodeError (Int × Bytes) :=
  match readString 101 input with
  | none => .error .eof
  | some (iStr, rest) =>
    if iStr.length < 3 then .error .shortInteger
    else if iStr.length > 3 ∧ iStr.getD 1 0 = 45 ∧ iStr.getD 2 0 = 48 then .error .negativeZero
    else if iStr.length > 3 ∧ iStr.getD 1 0 = 48 ∧ iStr.getD 2 0 ≠ 101 then .error .leadingZero
    else match strconv.Atoi ((iStr.drop 1).take (iStr.length - 2)) with
      | none => .error .atoi
      | some i => .ok (i, rest)

/-- The loop of `consumeList`, after the leading `l` was skipped. `item` is `consume`;
`fuel` bounds the number of iterations. -/
def listLoop (item : Bytes → Except DecodeError (Value × Bytes)) :
    Nat → Bytes → List Value → Except DecodeError (List Value × Bytes)
  | 0, _, _ => .error .fuel
  | _ + 1, [], _ => .error .eof
  | fuel + 1, char :: rest, list =>
    if char = 101 then .ok (list, rest)
    else match item (char :: rest) with
      | .error e => .error e
      | .ok (value, rest') => listLoop item fuel rest' (list ++ [value])

/-- The loop of `consumeDictionary`, after the leading `d` was skipped. -/
def dictLoop (item : Bytes → Except DecodeError (Value × Bytes)) :
    Nat → Bytes → GoMap Value → Except DecodeError (GoMap Value × Bytes)
  | 0, _, _ => .error .fuel
  | _ + 1, [], _ => .error .eof
  | fuel + 1, char :: rest, dict =>
    if char = 101 then .ok (dict, rest)
    else match consumeString (char :: rest) with
      | .error e => .error e
      | .ok (key, rest') =>
        match item rest' with
        | .error e => .error e
        | .ok (value, rest'') => dictLoop item fuel rest'' (GoMap.set dict key value)

/-- The dispatch of `consume` on the next byte. `fuel` bounds the nesting depth and the
number of loop iterations. -/
def consume : Nat → Bytes → Except DecodeError (Value × Bytes)
  | 0, _ => .error .fuel
  | _ + 1, [] => .error .eof
  | fuel + 1, char :: rest =>
    if char = 108 then
      match listLoop (consume fuel) fuel rest [] with
      | .error e => .error e
      | .ok (list, rest') => .ok (.list list, rest')
    else if char = 100 then
      match dictLoop (consume fuel) fuel rest [] with
      | .error e => .error e
      | .ok (dict, rest') => .ok (.dict dict, rest')
    else if char = 105 then
      match consumeInteger (char :: rest) with
      | .error e => .error e
      | .ok (i, rest') => .ok (.int i, rest')
    else
      match consumeString (char :: rest) with
      | .error e => .error e
      | .ok (s, rest') => .ok (.str s, rest')

end Decoder

/-- The function `Decode`: the first top-level value and the unread rest. Every call of
`consume` and every loop iteration reads at least one byte, so `len(data) + 1` steps
always suffice. -/
def Decode (data : Bytes) : Except DecodeError (Value × Bytes) :=
  Decoder.consume (data.length + 1) data

/-! ## Well-formed values and the reference encoding -/

mutual
/-- A value of the four supported shapes at every level, every dictionary being a map
(its entries listed with strictly ascending keys). -/
def Value.wellFormed : Value → Bool
  | .int _ => true
  | .str _ => true
  | .list l => wellFormedList l
  | .dict d => wellFormedEntries d && decide (List.Sorted (· < ·) (GoMap.keys d))
  | .other => false
/-- Every element of a list is well formed. -/
def wellFormedList : List Value → Bool
  | [] => true
  | v :: rest => v.wellFormed && wellFormedList rest
/-- Every value of a dictionary is well formed. -/
def wellFormedEntries : List (Bytes × Value) → Bool
  | [] => true
  | (_, v) :: rest => v.wellFormed && wellFormedEntries rest
end

mutual
/-- Every integer is a Go `int` and every string and key has a length that is a Go `int`. -/
def Value.fitsInt : Value → Bool
  | .int n => decide (inIntRange n)
  | .str s => decide (s.length < 2 ^ 63)
  | .list l => fitsIntList l
  | .dict d => fitsIntEntries d
  | .other => true
/-- The elements of a list fit. -/
def fitsIntList : List Value → Bool
  | [] => true
  | v :: rest => v.fitsInt && fitsIntList rest
/-- The keys and values of a dictionary fit. -/
def fitsIntEntries : List (Bytes × Value) → Bool
  | [] => true
  | (k, v) :: rest => decide (k.length < 2 ^ 63) && v.fitsInt && fitsIntEntries rest
end

mutual
/-- Every string and key is a byte string that can be held in memory: its length is at most
`maxAlloc`. -/
def Value.allocatable : Value → Bool
  | .int _ => true
  | .str s => decide (s.length ≤ maxAlloc)
  | .list l => allocatableList l
  | .dict d => allocatableEntries d
  | .other => true
/-- The strings in the elements of a list can be held in memory. -/
def allocatableList : List Value → Bool
  | [] => true
  | v :: rest => v.allocatable && allocatableList rest
/-- The keys of a dictionary and the strings in its values can be held in memory. -/
def allocatableEntries : List (Bytes × Value) → Bool
  | [] => true
  | (k, v) :: rest => decide (k.length ≤ maxAlloc) && v.allocatable && allocatableEntries rest
end

/-- Reference: the decimal ASCII digits of a natural number, most significant first. -/
def refDecimal (n : Nat) : Bytes :=
  if n = 0 then [48] else (Nat.digits 10 n).reverse.map (fun d => 48 + d)

/-- Reference: the decimal form of an integer, with `-` for negatives. -/
def refDecimalInt (i : Int) : Bytes :=
  if i < 0 then 45 :: refDecimal i.natAbs else refDecimal i.natAbs

/-- Reference: a byte string is `<decimal byte length>:<bytes>`. -/
def refString (s : Bytes) : Bytes := refDecimal s.length ++ [58] ++ s

mutual
/-- Reference bencoding, following the words of the format: an integer is `i<decimal>e`,
a list is `l`, its elements in order, `e`, a dictionary is `d`, then key and value for each
key in ascending order, `e`. -/
def refEncode : Value → Bytes
  | .int n => [105] ++ refDecimalInt n ++ [101]
  | .str s => refString s
  | .list l => [108] ++ refEncodeList l ++ [101]
  | .dict d => [100] ++ refEncodeDict d ++ [101]
  | .other => []
/-- Reference: the encodings of the elements, concatenated in order. -/
def refEncodeList : List Value → Bytes
  | [] => []
  | v :: rest => refEncode v ++ refEncodeList rest
/-- Reference: encoded key, then encoded value, for each entry in ascending key order. -/
def refEncodeDict : List (Bytes × Value) → Bytes
  | [] => []
  | (k, v) :: rest => refString k ++ refEncode v ++ refEncodeDict rest
end

mutual
/-- A value that the encoder supports: of the four shapes at every level, no key occurring
twice in the entries of a dictionary. The entries of a dictionary stand in the order in which
`for key := range dict` visits them, which may be any order. -/
def Value.supported : Value → Bool
  | .int _ => true
  | .str _ => true
  | .list l => supportedList l
  | .dict d => supportedEntries d && decide ((GoMap.keys d).Nodup)
  | .other => false
/-- Every element of a list is supported. -/
def supportedList : List Value → Bool
  | [] => true
  | v :: rest => v.supported && supportedList rest
/-- Every value of a dictionary is supported. -/
def supportedEntries : List (Bytes × Value) → Bool
  | [] => true
  | (_, v) :: rest => v.supported && supportedEntries rest
end

mutual
/-- Reference: the same value with the entries of every dictionary, at every level, listed in
ascending key order. -/
def Value.canonical : Value → Value
  | .int n => .int n
  | .str s => .str s
  | .list l => .list (canonicalList l)
  | .dict d => .dict (canonicalEntries d)
  | .other => .other
/-- Reference: the elements of a list, each in its canonical form. -/
def canonicalList : List Value → List Value
  | [] => []
  | v :: rest => v.canonical :: canonicalList rest
/-- Reference: the entries of a dictionary in ascending key order, each value in its
canonical form. -/
def canonicalEntries : List (Bytes × Value) → List (Bytes × Value)
  | [] => []
  | (k, v) :: rest => GoMap.set (canonicalEntries rest) k v.canonical
end

end bencode

/-! ## Marshal and Unmarshal (`bencode/marshaler.go`, `bencode/unmarshaler.go`)

The reflection API is embedded as a universe of Go types and of values of those types: the
kinds `int`, `string`, slice and struct (a record), every struct field being exported and
carrying its `bencode` tag. -/

namespace bencode

/-- The bytes of a string literal. -/
def bytesOf (s : String) : Bytes := s.toList.map Char.toNat

/-- A Go type: `int`, `string`, a slice type, or a struct type given by the `bencode` tag and
the type of each field, in declaration order. -/
inductive GoType where
  | int
  | string
  | slice (elem : GoType)
  | struct (fields : List (Bytes × GoType))
  deriving Inhabited

/-- A Go value of such a type; a slice is either `nil` or a sequence of elements, a struct is
the sequence of its field values. -/
inductive GoValue where
  | int (n : Int)
  | str (s : Bytes)
  | nilSlice
  | slice (items : List GoValue)
  | struct (fields : List GoValue)
  deriving Inhabited

mutual
/-- The value `v` is a value of the type `t`. -/
def GoValue.hasType : GoValue → GoType → Bool
  | .int n, t => match t with
    | .int => decide (inIntRange n)
    | _ => false
  | .str s, t => match t with
    | .string => decide (s.length < 2 ^ 63)
    | _ => false
  | .nilSlice, t => match t with
    | .slice _ => true
    | _ => false
  | .slice items, t => match t with
    | .slice elem => itemsHaveType items elem
    | _ => false
  | .struct vs, t => match t with
    | .struct fields => fieldsHaveType vs fields
    | _ => false
/-- Every element has the element type. -/
def itemsHaveType : List GoValue → GoType → Bool
  | [], _ => true
  | v :: rest, elem => v.hasType elem && itemsHaveType rest elem
/-- The field values match the declared fields, one by one. -/
def fieldsHaveType : List GoValue → List (Bytes × GoType) → Bool
  | [], fields => fields.isEmpty
  | v :: rest, fields => match fields with
    | [] => false
    | (_, t) :: more => v.hasType t && fieldsHaveType rest more
end

mutual
/-- A record schema: in every struct type the tags are pairwise distinct (the tags map to the
fields) and have a length that is a Go `int`. -/
def GoType.wellFormed : GoType → Bool
  | .int => true
  | .string => true
  | .slice elem => elem.wellFormed
  | .struct fields =>
    fieldsWellFormed fields && decide ((fields.map Prod.fst).Nodup)
/-- Every field type is well formed and every tag has a length that is a Go `int`. -/
def fieldsWellFormed : List (Bytes × GoType) → Bool
  | [] => true
  | (key, t) :: rest => decide (key.length < 2 ^ 63) && t.wellFormed && fieldsWellFormed rest
end

mutual
/-- No element of a slice is itself a nil slice (a nil slice may only be a field). -/
def GoValue.noNilItems : GoValue → Bool
  | .slice items => itemsNotNil items
  | .struct vs => fieldsNoNilItems vs
  | _ => true
/-- No element is a nil slice, nor has one as an element further down. -/
def itemsNotNil : List GoValue → Bool
  | [] => true
  | v :: rest =>
    (match v with
      | .nilSlice => false
      | _ => true) && v.noNilItems && itemsNotNil rest
/-- The fields have no nil slice among the elements of their slices. -/
def fieldsNoNilItems : List GoValue → Bool
  | [] => true
  | v :: rest => v.noNilItems && fieldsNoNilItems rest
end

mutual
/-- The method `reflect.Value.IsZero`: zero `int`, empty string, nil slice, struct whose fields
are all zero. -/
def GoValue.IsZero : GoValue → Bool
  | .int n => n == 0
  | .str s => s.isEmpty
  | .nilSlice => true
  | .slice _ => false
  | .struct vs => allZero vs
/-- Every field is zero. -/
def allZero : List GoValue → Bool
  | [] => true
  | v :: rest => v.IsZero && allZero rest
end

mutual
/-- The zero value of a type (`reflect.New(t).Elem()`). -/
def GoType.zero : GoType → GoValue
  | .int => .int 0
  | .string => .str []
  | .slice _ => .nilSlice
  | .struct fields => .struct (zeroFields fields)
/-- The zero values of the fields. -/
def zeroFields : List (Bytes × GoType) → List GoValue
  | [] => []
  | (_, t) :: rest => t.zero :: zeroFields rest
end

mutual
/-- The function `unpackValue`: the switch on `v.Kind()`. A struct becomes the map from tag
to unpacked field, without the zero fields; a slice becomes a `[]any` of the same length. -/
def unpackValue : GoValue → GoType → Value
  | .str s, _ => .str s
  | .int n, _ => .int n
  | .struct vs, t => match t with
    | .struct fields => .dict (unpackFields vs fields [])
    | _ => .other
  | .slice items, t => match t with
    | .slice elem => .list (unpackItems items elem)
    | _ => .other
  | .nilSlice, _ => .list []
/-- The loop over the fields of a struct; `fieldsByBencodeTag` is the map built so far. -/
def unpackFields : List GoValue → List (Bytes × GoType) → GoMap Value → GoMap Value
  | [], _, fieldsByBencodeTag => fieldsByBencodeTag
  | fieldValue :: rest, fields, fieldsByBencodeTag => match fields with
    | [] => fieldsByBencodeTag
    | (key, t) :: more =>
      if fieldValue.IsZero then unpackFields rest more fieldsByBencodeTag
      else unpackFields rest more (GoMap.set fieldsByBencodeTag key (unpackValue fieldValue t))
/-- The loop over the elements of a slice. -/
def unpackItems : List GoValue → GoType → List Value
  | [], _ => []
  | value :: rest, elem => unpackValue value elem :: unpackItems rest elem
end

/-- The property that `unpackFields` maintains for the entries of the map it builds: a
well-formed value under a key whose length is a Go `int`. -/
def EntryOk (e : Bytes × Value) : Prop :=
  e.2.wellFormed = true ∧ e.1.length < 2 ^ 63 ∧ e.2.fitsInt = true

/-- The function `Marshal` on a value `v` of type `t`. For a struct the unpacked value is
encoded. For any other kind `Encode(v)` is called on the value itself and its error is
dropped: a typed slice is not a `[]any`, so the result is the nil byte slice. -/
def Marshal (t : GoType) (v : GoValue) : Option Bytes :=
  match t with
  | .struct _ => Encode (unpackValue v t)
  | .slice _ => some []
  | _ => some ((Encode (unpackValue v t)).getD [])

/-- The fields whose tag is `tag`, each with its index (`i` is the index of the first field
of the list) and its type. -/
def fieldsWithTag (tag : Bytes) : List (Bytes × GoType) → Nat → List (Nat × GoType)
  | [], _ => []
  | (key, t) :: rest, i =>
    if key = tag then (i, t) :: fieldsWithTag tag rest (i + 1)
    else fieldsWithTag tag rest (i + 1)

/-- The call `structT.FieldByNameFunc(...)` of `unmarshalStruct`: the index and type of the
field whose tag is `tag`; no field when none or more than one field carries the tag. -/
def fieldByTag (fields : List (Bytes × GoType)) (tag : Bytes) : Option (Nat × GoType) :=
  match fieldsWithTag tag fields 0 with
  | [f] => some f
  | _ => none

mutual
/-- The function `unmarshalByType` together with the `Set` that its caller applies to the
result; `none` is a run-time panic of the reflection API (a decoded value of another kind
than the declared one: `Len`, `Cap` or `MapRange` on a wrong kind, `Set` of a value that is
not assignable). -/
def unmarshalByType : Value → GoType → Option GoValue
  | .list items, t => match t with
    | .slice elem => (unmarshalSlice items elem).map GoValue.slice
    | _ => none
  | .dict d, t => match t with
    | .struct fields => (unmarshalStruct d fields (zeroFields fields)).map GoValue.struct
    | _ => none
  | .str s, t => match t with
    | .string => some (.str s)
    | _ => none
  | .int n, t => match t with
    | .int => some (.int n)
    | _ => none
  | .other, _ => none
/-- The loop of `unmarshalSlice`: a new slice of the same length, element by element. -/
def unmarshalSlice : List Value → GoType → Option (List GoValue)
  | [], _ => some []
  | value :: rest, itemT =>
    match unmarshalByType value itemT with
    | none => none
    | some valueT => (unmarshalSlice rest itemT).map (fun more => valueT :: more)
/-- The loop of `unmarshalStruct` over the entries of the decoded map; `structT` holds the
fields set so far. A key that matches no field is skipped. -/
def unmarshalStruct : List (Bytes × Value) → List (Bytes × GoType) → List GoValue →
    Option (List GoValue)
  | [], _, structT => some structT
  | (tag, value) :: rest, fields, structT =>
    match fieldByTag fields tag with
    | none => unmarshalStruct rest fields structT
    | some (i, fieldT) =>
      match unmarshalByType value fieldT with
      | none => none
      | some valueT => unmarshalStruct rest fields (structT.set i valueT)
end

/-- How `Unmarshal` can fail: with a returned error, or with a run-time panic. -/
inductive UnmarshalError where
  | decode (e : DecodeError)
  | notMap
  | notStruct
  | panic
  deriving DecidableEq, Repr

/-- The function `Unmarshal` into a pointer to a variable of type `t`: the new value of the
variable. A panic of `Decode` is a panic of `Unmarshal`. -/
def Unmarshal (data : Bytes) (t : GoType) : Except UnmarshalError GoValue :=
  match Decode data with
  | .error .makeslice => .error .panic
  | .error e => .error (.decode e)
  | .ok (values, _) =>
    match values with
    | .dict _ =>
      match t with
      | .struct _ =>
        match unmarshalByType values t with
        | none => .error .panic
        | some value => .ok value
      | _ => .error .notStruct
    | _ => .error .notMap

end bencode

/-! ## Pieces (`piece/piece.go`) -/

namespace piece

/-- Where data of a piece is written: `Data[Start:End]` goes to file `Path` at `Offset`. -/
structure Destination where
  Path : Bytes
  Offset : Int
  Start : Int
  End : Int
  deriving DecidableEq, Repr

/-- One piece of the torrent data (the in-flight counters start at zero). -/
structure Piece where
  Index : Int
  Length : Int
  Offset : Int
  Data : Bytes := []
  Received : Int := 0
  Requested : Int := 0
  QueuedRequests : Int := 0
  Destinations : List Destination
  deriving DecidableEq, Repr

end piece

/-! ## Torrent model (`torrent/torrent.go`) -/

namespace torrent

open piece

/-- One of the files of a multi-file torrent. -/
structure InfoFile where
  Length : Int
  Path : List Bytes
  deriving DecidableEq, Repr

/-- The info dictionary of a torrent. -/
structure Info where
  Files : List InfoFile := []
  Length : Int := 0
  Name : Bytes := []
  PieceLength : Int := 0
  Pieces : Bytes := []
  Private : Int := 0
  deriving DecidableEq, Repr

/-- The top-level dictionary of a torrent file. -/
structure MetaInfo where
  AnnounceList : List (List Bytes) := []
  Announce : Bytes := []
  Comment : Bytes := []
  CreatedBy : Bytes := []
  CreationDate : Int := 0
  Encoding : Bytes := []
  Info : Info := {}
  deriving DecidableEq, Repr

/-- True when the metadata still has to be downloaded (magnet link). -/
def MetaInfo.Incomplete (m : MetaInfo) : Bool :=
  m.Info.Pieces == [] || m.Info.PieceLength == 0

/-- The torrent; `length` caches the size. The piece channel holds the result of `pieces`;
the metadata buffer plays no role here. -/
structure Torrent where
  MetaInfo : MetaInfo
  InfoHash : Bytes := []
  PeerId : Bytes := []
  length : Int := 0
  deriving DecidableEq, Repr

namespace Torrent

/-- The method `Name`. -/
def Name (t : Torrent) : Bytes := t.MetaInfo.Info.Name

/-- The value of an `int` expression whose exact value is `x`: the arithmetic of a 64-bit
`int` wraps around. -/
def wrapInt (x : Int) : Int := (x + 2 ^ 63) % 2 ^ 64 - 2 ^ 63

/-- The method `cacheLength` (pointer receiver: returns the updated torrent). The `if` has no
`return`, so the assignment after the loop always runs. -/
def cacheLength (t : Torrent) : Torrent :=
  let t1 : Torrent :=
    if t.MetaInfo.Info.Length > 0 then { t with length := t.MetaInfo.Info.Length } else t
  let size : Int :=
    t1.MetaInfo.Info.Files.foldl (fun size file => wrapInt (size + file.Length)) 0
  { t1 with length := size }

/-- The method `Length` (value receiver: the update of the cache is made on a copy). -/
def Length (t : Torrent) : Int :=
  let t1 : Torrent := if t.length = 0 then t.cacheLength else t
  t1.length

/-- The method `PieceLength`. -/
def PieceLength (t : Torrent) : Int := t.MetaInfo.Info.PieceLength

/-- The method `IsMultipleFileMode`. -/
def IsMultipleFileMode (t : Torrent) : Bool := t.MetaInfo.Info.Files.length > 0

/-- The slice expression `s[lo:hi]` on a string; `none` is the run-time panic for bounds out
of range. -/
def sliceBytes (s : Bytes) (lo hi : Int) : Option Bytes :=
  if 0 ≤ lo ∧ lo ≤ hi ∧ hi ≤ s.length then some ((s.drop lo.toNat).take (hi - lo).toNat)
  else none

/-- The method `PieceHash`: the empty (nil) slice when the hash lies beyond `Info.Pieces`. -/
def PieceHash (t : Torrent) (index : Int) : Option Bytes :=
  let begin_ := index * 20
  let length := begin_ + 20
  if length > t.MetaInfo.Info.Pieces.length then some []
  else sliceBytes t.MetaInfo.Info.Pieces begin_ length

/-- The method `IsValidPieceHash`; `sha1` is `crypto/sha1.Sum`, `bytes.Equal` compares the
contents. -/
def IsValidPieceHash (sha1 : Bytes → Bytes) (t : Torrent) (p : Piece) : Option Bool :=
  (t.PieceHash p.Index).map (fun hash => decide (hash = sha1 p.Data))

/-- The function `strings.Join`. -/
def stringsJoin : List Bytes → Bytes → Bytes
  | [], _ => []
  | [s], _ => s
  | s :: rest, sep => s ++ sep ++ stringsJoin rest sep

/-- The loop of `destinations` over the files, with the loop variables `currOffset`,
`overlap` and `destinations`; every sum and difference is that of the type `int`. -/
def destinationsLoop (name : Bytes) (offset length : Int) :
    List InfoFile → Int → Int → List Destination → List Destination
  | [], _, _, destinations => destinations
  | file :: rest, currOffset, overlap, destinations =>
    let boundary := wrapInt (currOffset + file.Length)
    let path := name ++ [47] ++ stringsJoin file.Path [47]
    if wrapInt (offset + length) ≤ boundary then
      if overlap > 0 then
        destinations ++ [{ Path := path, Offset := 0, Start := overlap, End := length }]
      else
        destinations ++
          [{ Path := path, Offset := wrapInt (offset - currOffset), Start := 0, End := length }]
    else if offset < boundary then
      let overlap1 := wrapInt (boundary - offset)
      destinationsLoop name offset length rest
        (wrapInt (currOffset + wrapInt (file.Length - overlap1))) overlap1
        (destinations ++
          [{ Path := path, Offset := wrapInt (offset - currOffset), Start := 0,
             End := overlap1 }])
    else
      destinationsLoop name offset length rest
        (wrapInt (currOffset + wrapInt (file.Length - overlap))) overlap destinations

/-- The method `destinations`: where the data of the piece at `offset` is to be written. -/
def destinations (t : Torrent) (offset length : Int) : List Destination :=
  if !t.IsMultipleFileMode then
    [{ Path := t.Name, Offset := offset, Start := 0, End := length }]
  else
    destinationsLoop t.Name offset length t.MetaInfo.Info.Files 0 0 []

/-- The body of the loop of `pieces` for one index. -/
def pieceAt (t : Torrent) (index : Int) : Piece :=
  let length := t.PieceLength
  let offset := index * t.PieceLength
  let length1 := if index * length + length > t.Length then t.Length - index * length else length
  { Index := index, Length := length1, Offset := offset,
    Destinations := t.destinations offset length1 }

/-- The method `pieces`: one piece per 20-byte hash; `shuffle` is the permutation that
`rand.Shuffle` applies at the end. -/
def pieces (shuffle : List Piece → List Piece) (t : Torrent) : List Piece :=
  let n := t.MetaInfo.Info.Pieces.length / 20
  if n = 0 then []
  else shuffle ((List.range n).map (fun (index : Nat) => t.pieceAt (index : Int)))

/-- The method `populatePieceChannel`: the pieces put on the channel `t.Pieces`. -/
def populatePieceChannel (shuffle : List Piece → List Piece) (t : Torrent) : List Piece :=
  if t.MetaInfo.Incomplete then [] else t.pieces shuffle

end Torrent

/-! ### The record types as seen by the reflection API, and `Open` -/

open bencode

/-- The Go type `InfoFile` with its tags. -/
def InfoFileType : GoType :=
  .struct [(bytesOf "length", .int), (bytesOf "path", .slice .string)]

/-- The Go type `Info` with its tags. -/
def InfoType : GoType :=
  .struct [(bytesOf "files", .slice InfoFileType), (bytesOf "length", .int),
    (bytesOf "name", .string), (bytesOf "piece length", .int), (bytesOf "pieces", .string),
    (bytesOf "private", .int)]

/-- The Go type `MetaInfo` with its tags. -/
def MetaInfoType : GoType :=
  .struct [(bytesOf "announce-list", .slice (.slice .string)), (bytesOf "announce", .string),
    (bytesOf "comment", .string), (bytesOf "created by", .string),
    (bytesOf "creation date", .int), (bytesOf "encoding", .string), (bytesOf "info", InfoType)]

/-- An `int` field. -/
def asInt : GoValue → Option Int
  | .int n => some n
  | _ => none

/-- A `string` field. -/
def asString : GoValue → Option Bytes
  | .str s => some s
  | _ => none

/-- A slice field, its elements read by `f`; a nil slice has no elements. -/
def asSlice {α : Type} (f : GoValue → Option α) : GoValue → Option (List α)
  | .nilSlice => some []
  | .slice items => items.mapM f
  | _ => none

/-- Reads a value of type `InfoFile`. -/
def InfoFile.ofGoValue : GoValue → Option InfoFile
  | .struct [length, path] => do
    let length ← asInt length
    let path ← asSlice asString path
    pure { Length := length, Path := path }
  | _ => none

/-- Reads a value of type `Info`. -/
def Info.ofGoValue : GoValue → Option Info
  | .struct [files, length, name, pieceLength, pieces, priv] => do
    let files ← asSlice InfoFile.ofGoValue files
    let length ← asInt length
    let name ← asString name
    let pieceLength ← asInt pieceLength
    let pieces ← asString pieces
    let priv ← asInt priv
    pure { Files := files, Length := length, Name := name, PieceLength := pieceLength,
           Pieces := pieces, Private := priv }
  | _ => none

/-- Reads a value of type `MetaInfo`. -/
def MetaInfo.ofGoValue : GoValue → Option MetaInfo
  | .struct [announceList, announce, comment, createdBy, creationDate, encoding, info] => do
    let announceList ← asSlice (asSlice asString) announceList
    let announce ← asString announce
    let comment ← asString comment
    let createdBy ← asString createdBy
    let creationDate ← asInt creationDate
    let encoding ← asString encoding
    let info ← Info.ofGoValue info
    pure { AnnounceList := announceList, Announce := announce, Comment := comment,
           CreatedBy := createdBy, CreationDate := creationDate, Encoding := encoding,
           Info := info }
  | _ => none

/-- The field `Info` of a value of type `MetaInfo`. -/
def infoField : GoValue → GoValue
  | .struct [_, _, _, _, _, _, info] => info
  | _ => InfoType.zero

/-- The bytes that `generateInfoHash` hashes: `bencode.Marshal(i)`. -/
def infoHashInput (i : GoValue) : Option Bytes := Marshal InfoType i

/-- The function `generateInfoHash` on a value of type `Info`; `sha1` is `crypto/sha1.Sum`. -/
def generateInfoHash (sha1 : Bytes → Bytes) (i : GoValue) : Option Bytes :=
  (infoHashInput i).map sha1

/-- How `Open` can fail. -/
inductive OpenError where
  | unmarshal (e : UnmarshalError)
  | marshal
  deriving DecidableEq, Repr

/-- The function `Open` for a path that is not a magnet link: `data` is the content of the
file, `peerId` the generated peer id, `shuffle` the permutation of `rand.Shuffle`. The result
is the torrent and the pieces put on its channel. -/
def Open (sha1 : Bytes → Bytes) (peerId : Bytes) (shuffle : List Piece → List Piece)
    (data : Bytes) : Except OpenError (Torrent × List Piece) :=
  match Unmarshal data MetaInfoType with
  | .error e => .error (.unmarshal e)
  | .ok metainfoV =>
    match generateInfoHash sha1 (infoField metainfoV), MetaInfo.ofGoValue metainfoV with
    | some hash, some metainfo =>
      let t : Torrent := { MetaInfo := metainfo, InfoHash := hash, PeerId := peerId }
      let pieces := t.populatePieceChannel shuffle
      .ok (t.cacheLength, pieces)
    | _, _ => .error .marshal

end torrent

/-! ## Concrete inputs used by the scenarios below -/

namespace bencode

/-- The dictionary `{"hello": "world"}`. -/
def helloWorld : Value := .dict [(bytesOf "hello", .str (bytesOf "world"))]

/-- The dictionary `{"hello": "world", "number": 42, "values": ["foo", 24, "bar"]}`. -/
def helloNumberValues : Value :=
  .dict [(bytesOf "hello", .str (bytesOf "world")), (bytesOf "number", .int 42),
    (bytesOf "values", .list [.str (bytesOf "foo"), .int 24, .str (bytesOf "bar")])]

/-- The same dictionary with its entries in the order `values`, `hello`, `number`, one of the
orders in which a `range` over the map may visit them. -/
def valuesHelloNumber : Value :=
  .dict [(bytesOf "values", .list [.str (bytesOf "foo"), .int 24, .str (bytesOf "bar")]),
    (bytesOf "hello", .str (bytesOf "world")), (bytesOf "number", .int 42)]

end bencode

namespace torrent

open piece bencode

/-- Three 20-byte piece hashes (their content plays no role for the layout). -/
def threeHashes : Bytes := List.replicate 60 7

/-- A torrent file with piece length 32768, three pieces and the two files `f1` (40000 bytes)
and `f2` (25768 bytes), in directory `t`. -/
def twoFilesTorrentFile : Bytes :=
  bytesOf "d8:announce3:url4:infod5:filesld6:lengthi40000e4:pathl2:f1eed6:lengthi25768e4:pathl2:f2eee4:name1:t12:piece lengthi32768e6:pieces60:"
    ++ threeHashes ++ bytesOf "ee"

/-- The torrent of `twoFilesTorrentFile`, before `Open` caches its length. -/
def twoFilesTorrent : Torrent :=
  { MetaInfo :=
      { Announce := bytesOf "url",
        Info :=
          { Files := [{ Length := 40000, Path := [bytesOf "f1"] },
                      { Length := 25768, Path := [bytesOf "f2"] }],
            Name := bytesOf "t", PieceLength := 32768, Pieces := threeHashes } } }

/-- A single-file torrent: 10 bytes of content named `t`, piece length 4, three pieces. -/
def singleFileTorrent : Torrent :=
  { MetaInfo :=
      { Announce := bytesOf "url",
        Info := { Length := 10, Name := bytesOf "t", PieceLength := 4, Pieces := threeHashes } } }

/-- A value of type `Info` in multi-file mode: two files, no `length`, no `private`. -/
def twoFilesInfo : GoValue :=
  .struct [.slice [.struct [.int 40000, .slice [.str (bytesOf "f1")]],
                   .struct [.int 25768, .slice [.str (bytesOf "f2")]]],
    .int 0, .str (bytesOf "t"), .int 32768, .str threeHashes, .int 0]

/-- The value `MetaInfo{AnnounceList: [][]string{nil}}`: one tier, a nil slice. -/
def nilTierMetaInfo : GoValue :=
  .struct [.slice [.nilSlice], .str [], .str [], .str [], .int 0, .str [], InfoType.zero]

/-- The value `MetaInfo{AnnounceList: [][]string{{}}}`: one tier, empty but not nil. -/
def emptyTierMetaInfo : GoValue :=
  .struct [.slice [.slice []], .str [], .str [], .str [], .int 0, .str [], InfoType.zero]

/-- An info dictionary of a single-file torrent that carries, besides the keys of `Info`, the
key `source`. -/
def infoDictWithSource : Value :=
  .dict [(bytesOf "length", .int 10), (bytesOf "name", .str (bytesOf "t")),
    (bytesOf "piece length", .int 4), (bytesOf "pieces", .str (List.replicate 20 7)),
    (bytesOf "source", .str (bytesOf "x"))]

/-- The value of type `Info` that `Unmarshal` reads from `infoDictWithSource`. -/
def infoWithoutSource : GoValue :=
  .struct [.nilSlice, .int 10, .str (bytesOf "t"), .int 4, .str (List.replicate 20 7), .int 0]

/-- The sum over all pieces and all their destinations of `End - Start`. -/
def destinationBytes (pieces : List Piece) : Int :=
  (pieces.map (fun p => (p.Destinations.map (fun d => d.End - d.Start)).sum)).sum

/-- A stand-in for a 20-byte digest, used where only the length of the digest matters. -/
def constantDigest : Bytes → Bytes := fun _ => List.replicate 20 0

/-- A torrent with a single piece whose hash is `constantDigest`. -/
def onePieceTorrent : Torrent :=
  { MetaInfo := { Info := { Length := 3, Name := bytesOf "t", PieceLength := 4,
                            Pieces := List.replicate 20 0 } } }

/-- The piece 0 of `onePieceTorrent` with its data received. -/
def onePiece : Piece :=
  { Index := 0, Length := 3, Offset := 0, Data := [1, 2, 3], Destinations := [] }

end torrent

/-! ## Bitfield (`bitfield/bitfield.go`) -/

namespace bitfield

/-- The type `Bitfield`: a byte slice. -/
abbrev Bitfield := Bytes

/-- The method `HasPiece`. The quotient and remainder of Go truncate towards zero; `none` is
the run-time panic of an index out of range. The shift is that of a `uint8`. -/
def HasPiece (b : Bitfield) (piece : Int) : Option Bool :=
  let index := piece.tdiv 8
  if index < 0 ∨ index ≥ (b.length : Int) then some false
  else
    let offset := 7 - piece.tmod 8
    match b[index.toNat]? with
    | none => none
    | some x => some (((x >>> offset.toNat) &&& 1) == 1)

/-- The method `SetPiece`: the content of the slice after the call. The constant `1` of
`1 << uint(offset)` takes the type `uint8` of `b[index]`, so the shift is taken modulo 256. -/
def SetPiece (b : Bitfield) (piece : Int) : Option Bitfield :=
  let index := piece.tdiv 8
  if index < 0 ∨ index ≥ (b.length : Int) then some b
  else
    let offset := 7 - piece.tmod 8
    match b[index.toNat]? with
    | none => none
    | some x => some (b.set index.toNat (x ||| ((1 <<< offset.toNat) % 256)))

end bitfield

/-! ## Handshake (`handshake/handshake.go`) -/

/-- The built-in `copy(dst, src)` for `dst = buf[n:hi]`: the buffer after the copy and the
number of bytes copied, the smaller of the two lengths. -/
def copyInto (buf : Bytes) (n hi : Nat) (src : Bytes) : Bytes × Nat :=
  let k := min (hi - n) src.length
  (buf.take n ++ src.take k ++ buf.drop (n + k), k)

namespace handshake

/-- A handshake between a client and a peer. -/
structure Handshake where
  pstr : Bytes
  reserved : Bytes
  InfoHash : Bytes
  peerId : Bytes
  deriving DecidableEq, Repr

/-- The method `pstrlen`. -/
def Handshake.pstrlen (h : Handshake) : Nat := h.pstr.length

/-- The method `Bytes`. The buffer has `49 + pstrlen` bytes; `none` is the run-time panic of
the slice expression `buf[n:n+20]` when `n + 20` exceeds the buffer. -/
def Handshake.Bytes (h : Handshake) : Option Bytes :=
  let size := 49 + h.pstrlen
  let buf0 := (List.replicate size 0).set 0 (h.pstrlen % 256)
  let n0 := 1
  let c1 := copyInto buf0 n0 size h.pstr
  let n1 := n0 + c1.2
  let c2 := copyInto c1.1 n1 size h.reserved
  let n2 := n1 + c2.2
  if n2 + 20 > size then none
  else
    let c3 := copyInto c2.1 n2 (n2 + 20) h.InfoHash
    let n3 := n2 + c3.2
    if n3 + 20 > size then none
    else some (copyInto c3.1 n3 (n3 + 20) h.peerId).1

/-- The method `SupportsExtensionProtocol`; `none` is the run-time panic of an index out of
range. -/
def Handshake.SupportsExtensionProtocol (h : Handshake) : Option Bool :=
  if h.reserved.length < 6 then some false
  else
    match h.reserved[5]? with
    | none => none
    | some x => some ((x &&& 16) == 16)

/-- The function `New`: the handshake of the client. -/
def New (infoHash peerId : Bytes) : Handshake :=
  { pstr := bencode.bytesOf "BitTorrent protocol",
    reserved := [0, 0, 0, 0, 0, 16, 0, 0],
    InfoHash := infoHash,
    peerId := peerId }

end handshake

/-! ## Peer-wire messages (`message/message.go`) -/

namespace piece

/-- One part of a piece; `Index` and `Begin` are `uint32`. -/
structure Block where
  Index : Nat
  Begin : Nat
  Data : Bytes
  deriving DecidableEq, Repr

end piece

namespace binary

/-- The method `binary.BigEndian.PutUint32` on the `uint32` conversion of `v`: four bytes,
the most significant first. -/
def PutUint32 (v : Nat) : Bytes :=
  let u := v % 2 ^ 32
  [(u >>> 24) % 256, (u >>> 16) % 256, (u >>> 8) % 256, u % 256]

/-- The method `binary.BigEndian.Uint32` on the first four bytes of `b`; `none` is the
run-time panic for fewer than four bytes. -/
def Uint32 (b : Bytes) : Option Nat :=
  match b with
  | b0 :: b1 :: b2 :: b3 :: _ => some (b3 ||| b2 <<< 8 ||| b1 <<< 16 ||| b0 <<< 24)
  | _ => none

/-- Reference: the number that a sequence of bytes denotes, most significant byte first. -/
def bigEndian (bs : Bytes) : Nat := bs.foldl (fun acc b => acc * 256 + b) 0

end binary

namespace message

/-- The message ids. -/
def Choke : Nat := 0
/-- The id of `unchoke`. -/
def Unchoke : Nat := 1
/-- The id of `interested`. -/
def Interested : Nat := 2
/-- The id of `not interested`. -/
def NotInterested : Nat := 3
/-- The id of `have`. -/
def Have : Nat := 4
/-- The id of `bitfield`. -/
def Bitfield : Nat := 5
/-- The id of `request`. -/
def Request : Nat := 6
/-- The id of `piece`. -/
def Piece : Nat := 7
/-- The id of `cancel`. -/
def Cancel : Nat := 8
/-- The id of `port`. -/
def Port : Nat := 9
/-- The id of `extended`. -/
def Extended : Nat := 20

/-- A message from or to a peer; `Id` is a `uint8`. A `*Message` is an `Option Message`, the
nil pointer (keep-alive) being `none`. -/
structure Message where
  Payload : Bytes
  Id : Nat
  deriving DecidableEq, Repr

/-- The method `Bytes`. -/
def Message.Bytes (m : Option Message) : Bytes :=
  match m with
  | none => []
  | some m => binary.PutUint32 (1 + m.Payload.length) ++ [m.Id % 256] ++ m.Payload

/-- How `Read` can fail: the connection ends (or times out) before the bytes asked for. -/
inductive ReadError where
  | short
  | panic
  deriving DecidableEq, Repr

/-- The function `Read` on the bytes that the connection delivers: the message (`none` for a
keep-alive) and the bytes not yet read. -/
def Read (conn : Bytes) : Except ReadError (Option Message × Bytes) :=
  if conn.length < 4 then .error .short
  else
    match binary.Uint32 (conn.take 4) with
    | none => .error .panic
    | some length =>
      if length = 0 then .ok (none, conn.drop 4)
      else
        let rest := conn.drop 4
        if rest.length < length then .error .short
        else
          match rest.take length with
          | [] => .error .panic
          | id :: payload => .ok (some { Id := id, Payload := payload }, rest.drop length)

/-- The function `Is` for an id of type `Id`. -/
def Is (msg : Option Message) (id : Nat) : Bool :=
  match msg with
  | none => false
  | some m => m.Id == id

/-- The function `ParsePieceBlock`; `none` is the error "unable to parse message as piece". -/
def ParsePieceBlock (m : Option Message) : Option piece.Block :=
  match m with
  | none => none
  | some msg =>
    if !Is m Piece || msg.Payload.length < 8 then none
    else
      match binary.Uint32 (msg.Payload.take 4), binary.Uint32 ((msg.Payload.drop 4).take 4) with
      | some index, some begin_ =>
        some { Index := index, Begin := begin_, Data := msg.Payload.drop 8 }
      | _, _ => none

end message

/-! ## What `Unmarshal` is to produce -/

namespace bencode

mutual
/-- The decoded value `v` has the kind that the type declares: an integer for `int`, a byte
string for `string`, a list of such values for a slice, and for a record a dictionary whose
values have the kinds of the fields they are stored under (other keys are free). -/
def conforms : GoType → Value → Bool
  | .int, v => match v with
    | .int _ => true
    | _ => false
  | .string, v => match v with
    | .str _ => true
    | _ => false
  | .slice elem, v => match v with
    | .list items => items.all (conforms elem)
    | _ => false
  | .struct fields, v => match v with
    | .dict d => conformsFields fields d
    | _ => false
/-- The values stored under the tags of the fields have the kinds of the fields. -/
def conformsFields : List (Bytes × GoType) → GoMap Value → Bool
  | [], _ => true
  | (tag, t) :: rest, d =>
    (match GoMap.get d tag with
      | none => true
      | some v => conforms t v) && conformsFields rest d
end

mutual
/-- Reference: the Go value that corresponds to a decoded value: an `int` for an integer, a
`string` for a byte string, for a list the slice of the corresponding elements in order, and
for a dictionary the record given by `expectedFields`. -/
def expected : GoType → Value → GoValue
  | .int, v => match v with
    | .int n => .int n
    | _ => .int 0
  | .string, v => match v with
    | .str s => .str s
    | _ => .str []
  | .slice elem, v => match v with
    | .list items => .slice (items.map (expected elem))
    | _ => .nilSlice
  | .struct fields, v => match v with
    | .dict d => .struct (expectedFields fields d)
    | _ => .struct (zeroFields fields)
/-- Reference: each field whose tag is a key of the dictionary holds the value that
corresponds to the one stored under the key; each field whose tag is absent holds the zero
value; the keys that are no tag play no role. -/
def expectedFields : List (Bytes × GoType) → GoMap Value → List GoValue
  | [], _ => []
  | (tag, t) :: rest, d =>
    (match GoMap.get d tag with
      | none => t.zero
      | some v => expected t v) :: expectedFields rest d
end

/-- The record type `Container` of the tests: `A []int` tagged `a`, `B []string` tagged `b`. -/
def containerType : GoType :=
  .struct [(bytesOf "a", .slice .int), (bytesOf "b", .slice .string)]

/-- The dictionary `{"a": [42, 41], "b": ["Hello", "World"], "c": 7}`; no field is tagged
`c`. -/
def containerDict : List (Bytes × Value) :=
  [(bytesOf "a", .list [.int 42, .int 41]),
   (bytesOf "b", .list [.str (bytesOf "Hello"), .str (bytesOf "World")]),
   (bytesOf "c", .int 7)]

end bencode

/-! ## Extension protocol messages (`extension/extension.go`, `message/message.go`) -/

namespace extension

open bencode

/-- The message type `request` of the metadata extension. -/
def MessageRequest : Int := 0
/-- The message type `data`. -/
def MessageData : Int := 1
/-- The message type `reject`. -/
def MessageReject : Int := 2

/-- The extension ids of a connection (the type `m`): only `ut_metadata` is kept. -/
structure m where
  Metadata : Int := 0
  deriving DecidableEq, Repr

/-- The extension handshake between a client and a peer. -/
structure Handshake where
  Ids : m := {}
  MetadataSize : Int := 0
  deriving DecidableEq, Repr

/-- The method `SupportsMetadataExtension`. -/
def Handshake.SupportsMetadataExtension (hs : Handshake) : Bool := hs.Ids.Metadata > 0

/-- The method `MetadataMessageId`. -/
def Handshake.MetadataMessageId (hs : Handshake) : Int := hs.Ids.Metadata

/-- The extension protocol message; `Id` is a `uint8` (`MessageId`), `Type_` is the field
`Type`. -/
structure Message where
  Id : Nat := 0
  Type_ : Int := 0
  Piece : Int := 0
  TotalSize : Int := 0
  Metadata : Bytes := []
  deriving DecidableEq, Repr

/-- The Go type `Message` as the reflection API sees it, in declaration order. The fields `Id`
and `Metadata` carry no tag, so `field.Tag.Get("bencode")` is the empty string for both: the
two fields cancel each other in `FieldByNameFunc` whatever the key, and `Unmarshal` never
assigns to them. Their kinds (`uint8`, `[]uint8`) therefore play no role; they stand here as
`int` and `[]int`, which have the same zero values. -/
def MessageType : GoType :=
  .struct [([], .int), (bytesOf "msg_type", .int), (bytesOf "piece", .int),
    (bytesOf "total_size", .int), ([], .slice .int)]

/-- Reads the tagged fields of a value of type `Message`. -/
def Message.ofGoValue : GoValue → Option Message
  | .struct [_, type, piece, totalSize, _] => do
    let type ← torrent.asInt type
    let piece ← torrent.asInt piece
    let totalSize ← torrent.asInt totalSize
    pure { Type_ := type, Piece := piece, TotalSize := totalSize }
  | _ => none

/-- The function `NewMessage`: the dictionary is unmarshalled into the message, then the data
is decoded once more for the bytes that follow the dictionary, which become `Metadata`. -/
def NewMessage (id : Nat) (data : Bytes) : Except UnmarshalError Message :=
  match Unmarshal data MessageType with
  | .error e => .error e
  | .ok msgV =>
    match Decode data with
    | .error .makeslice => .error .panic
    | .error e => .error (.decode e)
    | .ok (_, rest) =>
      match Message.ofGoValue msgV with
      | none => .error .panic
      | some msg => .ok { msg with Id := id, Metadata := rest }

end extension

namespace message

/-- How parsing an `extended` message can fail. -/
inductive ParseError where
  | notExtended
  | notExtensionMessage
  | unmarshal (e : bencode.UnmarshalError)
  deriving DecidableEq, Repr

/-- The function `ParseExtensionMessage`: the first byte of the payload is the extension id,
`0` being the handshake; the rest goes to `extension.NewMessage`. -/
def ParseExtensionMessage (m : Option Message) : Except ParseError extension.Message :=
  match m with
  | none => .error .notExtended
  | some msg =>
    if !Is m Extended || msg.Payload.length == 0 then .error .notExtended
    else
      match msg.Payload with
      | [] => .error .notExtended
      | id :: data =>
        if id = 0 then .error .notExtensionMessage
        else
          match extension.NewMessage id data with
          | .error e => .error (.unmarshal e)
          | .ok em => .ok em

/-- The function `NewMetadataRequest`: the request is written with `fmt.Sprintf`, not encoded
from a map; `byte(id)` keeps the low eight bits of `id`. -/
def NewMetadataRequest (id : Int) (piece : Int) : Message :=
  let data :=
    bencode.bytesOf "d8:msg_typei0e5:piecei" ++ strconv.formatInt piece ++ bencode.bytesOf "ee"
  let buf := List.replicate (1 + data.length) 0
  let buf := buf.set 0 (id % 256).toNat
  let buf := (copyInto buf 1 buf.length data).1
  { Id := Extended, Payload := buf }

end message

/-! ## Metadata buffer (`metadata/metadata.go`) -/

namespace metadata

/-- The conversion `float64(x)` of an `int`, as the integer it denotes: exact below `2^53`,
and beyond that the nearest multiple of the spacing of the 53-bit significand, ties going to
the even significand. -/
def float64OfInt (x : Int) : Int :=
  let a := x.natAbs
  if a < 2 ^ 53 then x
  else
    let ulp := 2 ^ (Nat.log2 a - 52)
    let q := a / ulp
    let r := a % ulp
    let q1 := if 2 * r > ulp ∨ (2 * r = ulp ∧ q % 2 = 1) then q + 1 else q
    x.sign * ((q1 * ulp : Nat) : Int)

/-- The expression `int(math.Ceil(float64(x) / d))` for a power of two `d`: dividing a
`float64` by a power of two and `math.Ceil` are exact, so only the conversion of `x` rounds. -/
def ceilDiv (x : Int) (d : Int) : Int := -(-(float64OfInt x) / d)

/-- The metadata buffer. `Pieces` lists the values waiting on the channel, oldest first; the
channel `Wait` carries no value and is left out. -/
structure Metadata where
  Data : Bytes
  written : Int := 0
  received : bitfield.Bitfield
  Pieces : List Int
  deriving DecidableEq, Repr

/-- The function `New`; `none` is the run-time panic of `make` for a negative size. -/
def New (size : Int) : Option Metadata :=
  let n := ceilDiv size 16384
  if n < 0 then none
  else
    let pieces := (List.range n.toNat).map (fun (piece : Nat) => (piece : Int))
    let bs := ceilDiv n 8
    some { Data := List.replicate n.toNat 0, received := List.replicate bs.toNat 0,
           Pieces := pieces }

/-- The method `Receive` (pointer receiver: returns the updated buffer); `none` is the
run-time panic of the slice expression `m.Data[offset:]` for an offset outside the buffer.
The product `msg.Piece * BlockSize` is that of the type `int`. -/
def Metadata.Receive (m : Metadata) (msg : extension.Message) : Option Metadata :=
  let offset := torrent.Torrent.wrapInt (msg.Piece * 16384)
  if offset < 0 ∨ offset > m.Data.length then none
  else
    let copied := copyInto m.Data offset.toNat m.Data.length msg.Metadata
    match bitfield.SetPiece m.received msg.Piece with
    | none => none
    | some received =>
      some { m with Data := copied.1, written := m.written + copied.2, received := received }

/-- The method `HasPiece`. -/
def Metadata.HasPiece (m : Metadata) (piece : Int) : Option Bool :=
  bitfield.HasPiece m.received piece

/-- The method `Complete`. -/
def Metadata.Complete (m : Metadata) : Bool := m.written == (m.Data.length : Int)

end metadata

/-! ## Magnet links (`torrent/torrent.go`, `openTorrentFromMagnet`) -/

namespace hex

/-- The value of a hexadecimal digit (`0-9`, `a-f`, `A-F`), if the byte is one. -/
def fromHexChar (c : Nat) : Option Nat :=
  if 48 ≤ c ∧ c ≤ 57 then some (c - 48)
  else if 97 ≤ c ∧ c ≤ 102 then some (c - 97 + 10)
  else if 65 ≤ c ∧ c ≤ 70 then some (c - 65 + 10)
  else none

/-- The function `hex.Decode` of the standard library: two digits give one byte, the first
digit being the high half; `none` is the error for a byte that is no hexadecimal digit or for
an odd number of digits. -/
def Decode : Bytes → Option Bytes
  | [] => some []
  | [_] => none
  | p :: q :: rest =>
    match fromHexChar p, fromHexChar q with
    | some a, some b => (Decode rest).map (fun more => ((a <<< 4) ||| b) :: more)
    | _, _ => none

end hex

namespace url

/-- The type `url.Values`: a map from a parameter name to the list of its values. -/
abbrev Values := GoMap (List Bytes)

/-- The method `Has`: the key is set. -/
def Values.Has (v : Values) (key : Bytes) : Bool := (GoMap.get v key).isSome

/-- The method `Get`: the first value of the key, the empty string when there is none. -/
def Values.Get (v : Values) (key : Bytes) : Bytes :=
  match GoMap.get v key with
  | some (first :: _) => first
  | _ => []

/-- The index expression `v[key]`: the values of the key, the nil slice when not set. -/
def Values.index (v : Values) (key : Bytes) : List Bytes := (GoMap.get v key).getD []

end url

namespace torrent

open bencode

/-- The errors of `openTorrentFromMagnet`. -/
inductive MagnetError where
  | missingParam
  | invalidPrefix
  | noTrackers
  | decodeHash
  | emptyName
  deriving DecidableEq, Repr

/-- The function `openTorrentFromMagnet` from the parsed link on: `values` is the result of
`url.Parse(magnetLink)` followed by `Query()`, `peerId` the generated peer id. -/
def openTorrentFromMagnet (values : url.Values) (peerId : Bytes) : Except MagnetError Torrent :=
  if !values.Has (bytesOf "xt") || !values.Has (bytesOf "dn") || !values.Has (bytesOf "tr") then
    .error .missingParam
  else
    let xt := values.Get (bytesOf "xt")
    if !(bytesOf "urn:btih:").isPrefixOf xt then .error .invalidPrefix
    else
      let tr := values.index (bytesOf "tr")
      match tr with
      | [] => .error .noTrackers
      | first :: _ =>
        let trackers := tr.map (fun tracker => [tracker])
        let hashAsHex := xt.drop 9
        match hex.Decode hashAsHex with
        | none => .error .decodeHash
        | some hash =>
          let name := values.Get (bytesOf "dn")
          if name.length = 0 then .error .emptyName
          else
            .ok { MetaInfo := { AnnounceList := trackers, Announce := first,
                                Info := { Name := name } },
                  InfoHash := hash, PeerId := peerId }

end torrent

/-! ## Peers and trackers (`peer/peer.go`, `tracker/tracker.go`) -/

namespace binary

/-- The method `binary.BigEndian.Uint16` on the first two bytes of `b`; `none` is the
run-time panic for fewer than two bytes. -/
def Uint16 (b : Bytes) : Option Nat :=
  match b with
  | b0 :: b1 :: _ => some (b1 ||| b0 <<< 8)
  | _ => none

/-- The method `binary.BigEndian.PutUint16` on the `uint16` conversion of `v`. -/
def PutUint16 (v : Nat) : Bytes :=
  let u := v % 2 ^ 16
  [(u >>> 8) % 256, u % 256]

/-- The method `binary.BigEndian.Uint64` on the first eight bytes of `b`; `none` is the
run-time panic for fewer than eight bytes. -/
def Uint64 (b : Bytes) : Option Nat :=
  match b with
  | b0 :: b1 :: b2 :: b3 :: b4 :: b5 :: b6 :: b7 :: _ =>
    some (b7 ||| b6 <<< 8 ||| b5 <<< 16 ||| b4 <<< 24 ||| b3 <<< 32 ||| b2 <<< 40
      ||| b1 <<< 48 ||| b0 <<< 56)
  | _ => none

/-- The method `binary.BigEndian.PutUint64` on the `uint64` conversion of `v`: eight bytes,
the most significant first. -/
def PutUint64 (v : Nat) : Bytes :=
  let u := v % 2 ^ 64
  [(u >>> 56) % 256, (u >>> 48) % 256, (u >>> 40) % 256, (u >>> 32) % 256,
   (u >>> 24) % 256, (u >>> 16) % 256, (u >>> 8) % 256, u % 256]

end binary

namespace peer

/-- The connection details of a peer; `Port` is a `uint16`. -/
structure Addr where
  IP : Bytes
  Port : Nat
  deriving DecidableEq, Repr

/-- What is known about a peer. -/
structure Peer where
  Addr : Addr
  bitfield : bitfield.Bitfield := []
  handshake : handshake.Handshake := { pstr := [], reserved := [], InfoHash := [], peerId := [] }
  extension : extension.Handshake := {}
  deriving DecidableEq, Repr

/-- The function `New`. -/
def New (ip : Bytes) (port : Nat) : Peer := { Addr := { IP := ip, Port := port } }

end peer

namespace tracker

/-- The UDP action `connect`. -/
def ActionConnect : Nat := 0
/-- The UDP action `announce`. -/
def ActionAnnounce : Nat := 1
/-- The UDP action `scrape`. -/
def ActionScrape : Nat := 2
/-- The UDP action `error`. -/
def ActionError : Nat := 3

/-- The errors of the UDP tracker; `read` is an error of the connection (a timeout included),
`panic` a run-time panic. -/
inductive TrackerError where
  | retransmissionLimit
  | read
  | connectTooSmall
  | connectTransactionId
  | connectAction
  | invalidPeerLength
  | panic
  deriving DecidableEq, Repr

/-- The state of a UDP tracker that the functions below use: `timeout` is the `float64`
counter of receive steps, which only takes the values 0, 1, 2, ... -/
structure UDPTracker where
  torrent : torrent.Torrent
  peers : List peer.Peer := []
  interval : Int := 0
  port : Int := 6881
  timeout : Nat := 0
  deriving DecidableEq, Repr

/-- The function `NewUDPTracker`. -/
def NewUDPTracker (t : torrent.Torrent) : UDPTracker := { torrent := t, port := 6881 }

/-- The method `buildAnnouncePacket`; `none` is the run-time panic of `Uint64` or `Uint32`
on an id that is too short. -/
def UDPTracker.buildAnnouncePacket (t : UDPTracker) (transactionId connectionId : Bytes) :
    Option Bytes :=
  match binary.Uint64 connectionId, binary.Uint32 transactionId with
  | some connId, some transId =>
    let payload := List.replicate 98 0
    let payload := (copyInto payload 0 8 (binary.PutUint64 connId)).1
    let payload := (copyInto payload 8 12 (binary.PutUint32 ActionAnnounce)).1
    let payload := (copyInto payload 12 16 (binary.PutUint32 transId)).1
    let payload := (copyInto payload 16 36 t.torrent.InfoHash).1
    let payload := (copyInto payload 36 56 t.torrent.PeerId).1
    let payload := (copyInto payload 56 64 (binary.PutUint64 0)).1
    let payload := (copyInto payload 64 72 (binary.PutUint64 (t.torrent.Length % 2 ^ 64).toNat)).1
    let payload := (copyInto payload 72 80 (binary.PutUint64 0)).1
    let payload := (copyInto payload 80 84 (binary.PutUint32 0)).1
    let payload := (copyInto payload 84 88 (binary.PutUint32 0)).1
    let payload := (copyInto payload 88 92 (binary.PutUint32 0)).1
    let payload := (copyInto payload 92 96 (binary.PutUint32 50)).1
    let payload := (copyInto payload 96 98 (binary.PutUint16 (t.port % 2 ^ 16).toNat)).1
    some payload
  | _, _ => none

/-- The method `setDeadline` (pointer receiver): the updated tracker, the read deadline that
was set, as a duration in nanoseconds from now (`15 * 2^timeout` times `time.Second`), and
the error if there is one. The counter is incremented before it is compared with 8. -/
def UDPTracker.setDeadline (t : UDPTracker) : UDPTracker × Nat × Option TrackerError :=
  let timeout := 15 * 2 ^ t.timeout
  let deadline := timeout * 1000000000
  let t1 := { t with timeout := t.timeout + 1 }
  if t1.timeout > 8 then (t1, deadline, some .retransmissionLimit)
  else (t1, deadline, none)

/-- The method `receiveConnect`: the updated tracker and the connection id or the error.
`reply` is what `t.conn.Read` finds before the deadline: the datagram, or `none` for a read
error; the first 16 bytes of the datagram go to `buf`. -/
def UDPTracker.receiveConnect (t : UDPTracker) (transactionId : Bytes) (reply : Option Bytes) :
    UDPTracker × Except TrackerError Bytes :=
  match t.setDeadline with
  | (t1, _, some err) => (t1, .error err)
  | (t1, _, none) =>
    match reply with
    | none => (t1, .error .read)
    | some datagram =>
      let copied := copyInto (List.replicate 16 0) 0 16 datagram
      let buf := copied.1
      let read := copied.2
      if read < 16 then (t1, .error .connectTooSmall)
      else if !(transactionId == (buf.drop 4).take 4) then (t1, .error .connectTransactionId)
      else
        match binary.Uint32 (buf.take 4) with
        | none => (t1, .error .panic)
        | some action =>
          if action != ActionConnect then (t1, .error .connectAction)
          else (t1, .ok ((buf.drop 8).take 8))

/-- The function `parseCompactPeers`: six bytes per peer, four of address and two of port. -/
def parseCompactPeers (data : Bytes) : Except TrackerError (List peer.Peer) :=
  if data.length % 6 ≠ 0 then .error .invalidPeerLength
  else
    let peers := (List.range (data.length / 6)).mapM (fun (i : Nat) =>
      let offset := i * 6
      match torrent.Torrent.sliceBytes data offset (offset + 4),
            torrent.Torrent.sliceBytes data (offset + 4) (offset + 6) with
      | some ip, some portBytes => (binary.Uint16 portBytes).map (fun port => peer.New ip port)
      | _, _ => none)
    match peers with
    | none => .error .panic
    | some peers => .ok peers

end tracker

namespace tracker

/-- A UDP tracker for the two-file torrent of 65768 bytes, with the info-hash `01 .. 01` and
the peer id `02 .. 02`. -/
def exampleTracker : UDPTracker :=
  NewUDPTracker
    { torrent.twoFilesTorrent with InfoHash := List.replicate 20 1, PeerId := List.replicate 20 2 }

end tracker

/-! ## More of the peer wire (`message/message.go`, `handshake/handshake.go`,
`extension/extension.go`, `piece/piece.go`, `peer/peer.go`, `torrent/torrent.go`) -/

namespace message

/-- The function `ParseHave`; `none` is the error "unable to parse message as have". -/
def ParseHave (m : Option Message) : Option Int :=
  match m with
  | none => none
  | some msg =>
    if !Is m Have || msg.Payload.length != 4 then none
    else (binary.Uint32 msg.Payload).map (fun (index : Nat) => (index : Int))

/-- The function `NewRequest`: three `uint32`, each the conversion of an `int`. -/
def NewRequest (index begin_ length : Int) : Message :=
  let buf := List.replicate 12 0
  let buf := (copyInto buf 0 4 (binary.PutUint32 (index % 2 ^ 32).toNat)).1
  let buf := (copyInto buf 4 8 (binary.PutUint32 (begin_ % 2 ^ 32).toNat)).1
  let buf := (copyInto buf 8 12 (binary.PutUint32 (length % 2 ^ 32).toNat)).1
  { Id := Request, Payload := buf }

/-- The function `NewInterested`. -/
def NewInterested : Message := { Id := Interested, Payload := [] }

/-- The function `NewUnchoke`. -/
def NewUnchoke : Message := { Id := Unchoke, Payload := [] }

/-- The function `isExtensionHandshake`, which is `Is(m, extension.Handshake{})`. -/
def isExtensionHandshake (m : Option Message) : Bool :=
  match m with
  | none => false
  | some msg =>
    if !Is m Extended || msg.Payload.length == 0 then false
    else msg.Payload.head? == some 0

end message

namespace extension

open bencode

/-- The Go type `Handshake` with its tags; the field `Ids` has the struct type `m`. -/
def HandshakeType : GoType :=
  .struct [(bytesOf "m", .struct [(bytesOf "ut_metadata", .int)]),
    (bytesOf "metadata_size", .int)]

/-- Reads a value of type `Handshake`. -/
def Handshake.ofGoValue : GoValue → Option Handshake
  | .struct [.struct [metadata], metadataSize] => do
    let metadata ← torrent.asInt metadata
    let metadataSize ← torrent.asInt metadataSize
    pure { Ids := { Metadata := metadata }, MetadataSize := metadataSize }
  | _ => none

/-- The function `NewHandshake`. -/
def NewHandshake (data : Bytes) : Except UnmarshalError Handshake :=
  match Unmarshal data HandshakeType with
  | .error e => .error e
  | .ok hsV =>
    match Handshake.ofGoValue hsV with
    | none => .error .panic
    | some hs => .ok hs

end extension

namespace message

/-- How parsing an extension handshake can fail. -/
inductive HandshakeParseError where
  | notExtended
  | notExtensionHandshake
  | unmarshal (e : bencode.UnmarshalError)
  deriving DecidableEq, Repr

/-- The function `ParseExtensionHandshake`. -/
def ParseExtensionHandshake (m : Option Message) :
    Except HandshakeParseError extension.Handshake :=
  match m with
  | none => .error .notExtended
  | some msg =>
    if !Is m Extended || msg.Payload.length == 0 then .error .notExtended
    else
      match msg.Payload with
      | [] => .error .notExtended
      | id :: data =>
        if id ≠ 0 then .error .notExtensionHandshake
        else
          match extension.NewHandshake data with
          | .error e => .error (.unmarshal e)
          | .ok hs => .ok hs

end message

namespace handshake

/-- How `Read` can fail: the connection ends before the bytes asked for, or the length of the
protocol string is 0. -/
inductive ReadError where
  | short
  | zeroLength
  deriving DecidableEq, Repr

/-- The function `Read` on the bytes that the connection delivers: the handshake and the
bytes not yet read. One byte is read for the length of the protocol string, then that many
bytes and 48 more. -/
def Read (conn : Bytes) : Except ReadError (Handshake × Bytes) :=
  match conn with
  | [] => .error .short
  | first :: rest =>
    let pstrlen := first
    if pstrlen = 0 then .error .zeroLength
    else if rest.length < pstrlen + 48 then .error .short
    else
      let buf := rest.take (pstrlen + 48)
      let offset := pstrlen + 8
      .ok ({ pstr := buf.take pstrlen,
             reserved := (buf.drop pstrlen).take 8,
             InfoHash := (buf.drop offset).take 20,
             peerId := (buf.drop (offset + 20)).take 20 },
           rest.drop (pstrlen + 48))

end handshake

namespace piece

/-- The method `Incomplete`. -/
def Piece.Incomplete (p : Piece) : Bool := p.Received < p.Length

/-- The method `CanQueueRequest`: at most five requests are queued at a time. -/
def Piece.CanQueueRequest (p : Piece) : Bool := p.Requested < p.Length && p.QueuedRequests < 5

/-- The method `Reset` (pointer receiver: returns the piece after the call); `none` is the
run-time panic of `make` for a negative length. -/
def Piece.Reset (p : Piece) : Option Piece :=
  if p.Length < 0 then none
  else some { p with Data := List.replicate p.Length.toNat 0, Received := 0, Requested := 0,
                     QueuedRequests := 0 }

/-- The method `Write` without the file system (every call of it is taken to succeed): for
each destination the path, the offset in the file and the bytes `p.Data[dst.Start:dst.End]`
written there; `none` is the run-time panic of the slice expression. -/
def Piece.Write (p : Piece) : Option (List (Bytes × Int × Bytes)) :=
  p.Destinations.mapM (fun dst =>
    (torrent.Torrent.sliceBytes p.Data dst.Start dst.End).map (fun data =>
      (dst.Path, dst.Offset, data)))

end piece

namespace peer

/-- The method `HasBitfield`. -/
def Peer.HasBitfield (p : Peer) : Bool := p.bitfield.length > 0

/-- The method `SetBitfield` (pointer receiver: returns the peer after the call). -/
def Peer.SetBitfield (p : Peer) (data : Bytes) : Peer := { p with bitfield := data }

/-- The method `HasPiece`. -/
def Peer.HasPiece (p : Peer) (piece : Int) : Option Bool := bitfield.HasPiece p.bitfield piece

/-- The method `SetPiece`: the receiver is a copy of the peer, but the bitfield is a slice, so
the bit is set in the bitfield of the peer itself. -/
def Peer.SetPiece (p : Peer) (piece : Int) : Option Peer :=
  (bitfield.SetPiece p.bitfield piece).map (fun b => { p with bitfield := b })

/-- The method `SetHandshake`. -/
def Peer.SetHandshake (p : Peer) (hs : handshake.Handshake) : Peer := { p with handshake := hs }

/-- The method `SupportsExtensionProtocol`. -/
def Peer.SupportsExtensionProtocol (p : Peer) : Option Bool :=
  p.handshake.SupportsExtensionProtocol

/-- The method `SetExtensionHandshake`. -/
def Peer.SetExtensionHandshake (p : Peer) (hs : extension.Handshake) : Peer :=
  { p with extension := hs }

/-- The method `SupportsMetadataExtension`. -/
def Peer.SupportsMetadataExtension (p : Peer) : Bool := p.extension.SupportsMetadataExtension

/-- The method `MetadataMessageId`. -/
def Peer.MetadataMessageId (p : Peer) : Int := p.extension.MetadataMessageId

/-- The method `MetadataSize`. -/
def Peer.MetadataSize (p : Peer) : Int := p.extension.MetadataSize

end peer

namespace torrent

open piece bencode

/-- The method `Trackers`; `none` is the run-time panic of `announce[0]` on an empty tier. -/
def Torrent.Trackers (t : Torrent) : Option (List Bytes) :=
  if t.MetaInfo.AnnounceList.length = 0 then
    if t.MetaInfo.Announce = [] then some []
    else some [t.MetaInfo.Announce]
  else
    t.MetaInfo.AnnounceList.mapM (fun announce => announce[0]?)

/-- The torrent as the clients share it: the `Torrent` together with the fields left out
there, the piece channel `Pieces` (the pieces waiting on it, oldest first, and its capacity)
and the metadata buffer `Metadata` (`none` for nil) with the state of its channel `Wait`. A
send on `Pieces` is the addition of the piece at the end. -/
structure Shared where
  torrent : Torrent
  Pieces : List Piece := []
  PiecesCap : Nat := 0
  Metadata : Option metadata.Metadata := none
  WaitClosed : Bool := false
  deriving DecidableEq, Repr

/-- The method `populatePieceChannel` on the shared torrent: a new channel with room for all
pieces, filled with them; nothing for an incomplete MetaInfo. -/
def Shared.populatePieceChannel (shuffle : List Piece → List Piece) (s : Shared) : Shared :=
  if s.torrent.MetaInfo.Incomplete then s
  else
    let pieces := s.torrent.pieces shuffle
    { s with Pieces := pieces, PiecesCap := pieces.length }

/-- The method `ReceiveMetadata` (pointer receiver: returns the torrent after the call);
`none` is a run-time panic: no metadata buffer, a block outside the buffer, a panic of
`Unmarshal`, or `close` of the closed channel `Wait`. An error of `Unmarshal` is printed and
the call returns. -/
def Shared.ReceiveMetadata (shuffle : List Piece → List Piece) (s : Shared)
    (msg : extension.Message) : Option Shared :=
  match s.Metadata with
  | none => none
  | some md =>
    match md.Receive msg with
    | none => none
    | some md1 =>
      let s1 := { s with Metadata := some md1 }
      if md1.Complete && s1.torrent.MetaInfo.Incomplete then
        match Unmarshal md1.Data InfoType with
        | .error .panic => none
        | .error _ => some s1
        | .ok infoV =>
          match Info.ofGoValue infoV with
          | none => none
          | some info =>
            let t1 : Torrent := { s1.torrent with MetaInfo := { s1.torrent.MetaInfo with Info := info } }
            let s2 := Shared.populatePieceChannel shuffle { s1 with torrent := t1 }
            let s3 := { s2 with torrent := s2.torrent.cacheLength }
            if s3.WaitClosed then none
            else some { s3 with WaitClosed := true }
      else some s1

end torrent

/-! ## Peer client (`client/client.go`)

The network is an input of the embedding: a connection carries the outcomes of the reads and
writes to come. A method with a pointer receiver returns the client after the call; for a
method with a value receiver the caller keeps its own fields and sees the changes made to
the objects it shares with the copy (connection, torrent, peer, piece in flight). The result
`none` of a method stands for a call that does not return: a run-time panic, or a wait on a
channel that is never served. -/

namespace client

open piece

/-- The states of a client. -/
inductive state where
  | Idle
  | Connecting
  | Connected
  | Disconnected
  | Downloading
  | Done
  deriving DecidableEq, Repr

/-- The size of a block in a request. -/
def BlockSize : Int := 16384

/-- What a call of `message.Read(c.conn)` finds: a message (`none` for a keep-alive), a
timeout, or another error. -/
inductive ReadEvent where
  | message (m : Option message.Message)
  | timeout
  | failure
  deriving DecidableEq, Repr

/-- The connection to a peer: `greeting` holds the bytes that the peer sends first, from
which `handshake.Read` reads; `reads` the outcomes of the calls of `message.Read` to come
(after the last one the connection is at its end and a read fails); `writes` the outcomes of
the writes to come, `false` for an error (after the last one every write succeeds); `sent`
the byte sequences written so far, by the calls of `Write` that returned no error. -/
structure Conn where
  greeting : Bytes := []
  reads : List ReadEvent := []
  writes : List Bool := []
  sent : List Bytes := []
  closed : Bool := false
  deriving DecidableEq, Repr

/-- The errors that the methods of a client return; `fuel` is the bound on the steps of a
loop of the embedding. -/
inductive ClientError where
  | write
  | read
  | timeout
  | parseHave
  | parsePiece
  | parseHandshake (e : message.HandshakeParseError)
  | parseExtension (e : message.ParseError)
  | dial
  | handshakeRead (e : handshake.ReadError)
  | invalidInfoHash
  | noExtensionProtocol
  | bitfieldWait
  | fuel
  deriving DecidableEq, Repr

/-- The client of one peer. The pointers `torrent`, `Peer` and `piece` are the objects they
point to, `conn` and `piece` being `none` for nil. -/
structure Client where
  conn : Option Conn := none
  torrent : torrent.Shared
  Peer : peer.Peer
  piece : Option Piece := none
  haveBuf : List Int := []
  State : state := .Idle
  choked : Bool := true
  interested : Bool := false
  deriving DecidableEq, Repr

/-- The function `New`. -/
def New (peer : peer.Peer) (t : torrent.Shared) : Client :=
  { State := .Idle, Peer := peer, torrent := t, choked := true, interested := false }

/-- The number of reads to come on the connection of the client. -/
def Client.readsLeft (c : Client) : Nat :=
  match c.conn with
  | none => 0
  | some conn => conn.reads.length

/-- The call `conn.Write(data)`: the connection afterwards and whether the write succeeded. -/
def Conn.Write (conn : Conn) (data : Bytes) : Conn × Bool :=
  match conn.writes with
  | [] => ({ conn with sent := conn.sent ++ [data] }, true)
  | true :: rest => ({ conn with writes := rest, sent := conn.sent ++ [data] }, true)
  | false :: rest => ({ conn with writes := rest }, false)

/-- The method `send`. -/
def Client.send (c : Client) (m : Option message.Message) :
    Option (Client × Option ClientError) :=
  match c.conn with
  | none => none
  | some conn =>
    let w := conn.Write (message.Message.Bytes m)
    some ({ c with conn := some w.1 }, if w.2 then none else some .write)

/-- The method `sendRequest`. -/
def Client.sendRequest (c : Client) (index begin_ length : Int) :
    Option (Client × Option ClientError) :=
  c.send (some (message.NewRequest index begin_ length))

/-- The method `sendInterested`. -/
def Client.sendInterested (c : Client) : Option (Client × Option ClientError) :=
  c.send (some message.NewInterested)

/-- The method `sendUnchoke`. -/
def Client.sendUnchoke (c : Client) : Option (Client × Option ClientError) :=
  c.send (some message.NewUnchoke)

/-- The method `sendMetadataRequest`. -/
def Client.sendMetadataRequest (c : Client) (piece : Int) :
    Option (Client × Option ClientError) :=
  c.send (some (message.NewMetadataRequest c.Peer.MetadataMessageId piece))

/-- The method `flushHaveBuffer`. -/
def Client.flushHaveBuffer (c : Client) : Option Client :=
  (c.haveBuf.foldlM (fun (peer : peer.Peer) (p : Int) => peer.SetPiece p) c.Peer).map
    (fun peer => { c with Peer := peer, haveBuf := [] })

/-- The method `handleHaveMessage`. The size of a new bitfield is computed from the capacity
of the piece channel, in `float64`. -/
def Client.handleHaveMessage (c : Client) (msg : Option message.Message) :
    Option (Client × Option ClientError) :=
  match message.ParseHave msg with
  | none => some (c, some .parseHave)
  | some piece =>
    let c1 :=
      if c.torrent.torrent.MetaInfo.Incomplete then { c with haveBuf := c.haveBuf ++ [piece] }
      else c
    let c2 :=
      if !c1.Peer.HasBitfield && !c1.torrent.torrent.MetaInfo.Incomplete then
        let size := metadata.ceilDiv (c1.torrent.PiecesCap : Int) 8
        { c1 with Peer := c1.Peer.SetBitfield (List.replicate size.toNat 0) }
      else c1
    match c2.Peer.SetPiece piece with
    | none => none
    | some peer => some ({ c2 with Peer := peer }, none)

/-- The method `handlePieceMessage`; `none` is the run-time panic of `c.piece.Data[begin:]`
for a `begin` beyond the buffer, or of the nil pointer `c.piece`. -/
def Client.handlePieceMessage (c : Client) (msg : Option message.Message) :
    Option (Client × Option ClientError) :=
  match message.ParsePieceBlock msg with
  | none => some (c, some .parsePiece)
  | some block =>
    match c.piece with
    | none => none
    | some p =>
      if block.Begin > p.Data.length then none
      else
        let copied := copyInto p.Data block.Begin p.Data.length block.Data
        some ({ c with piece := some { p with Data := copied.1,
                                              Received := p.Received + copied.2,
                                              QueuedRequests := p.QueuedRequests - 1 } }, none)

/-- The method `handleExtendedMessage`; `shuffle` is the permutation of `rand.Shuffle` used
when the metadata is complete and the pieces are created. -/
def Client.handleExtendedMessage (shuffle : List Piece → List Piece) (c : Client)
    (msg : Option message.Message) : Option (Client × Option ClientError) :=
  if message.isExtensionHandshake msg then
    match message.ParseExtensionHandshake msg with
    | .error (.unmarshal .panic) => none
    | .error e => some (c, some (.parseHandshake e))
    | .ok hs =>
      let peer := c.Peer.SetExtensionHandshake hs
      if c.torrent.torrent.MetaInfo.Incomplete && peer.SupportsMetadataExtension
          && c.torrent.Metadata.isNone then
        match metadata.New peer.MetadataSize with
        | none => none
        | some md =>
          some ({ c with Peer := peer,
                         torrent := { c.torrent with Metadata := some md, WaitClosed := false } },
                none)
      else some ({ c with Peer := peer }, none)
  else
    match message.ParseExtensionMessage msg with
    | .error (.unmarshal .panic) => none
    | .error e => some (c, some (.parseExtension e))
    | .ok m =>
      if m.Type_ = extension.MessageData then
        match c.torrent.ReceiveMetadata shuffle m with
        | none => none
        | some t => some ({ c with torrent := t }, none)
      else some (c, none)

/-- The loop of `receive` around `message.Read`; `left` is `5 - retries`. -/
def readLoop : Nat → Conn → Conn × Except ClientError (Option message.Message)
  | 0, conn => (conn, .error .timeout)
  | left + 1, conn =>
    match conn.reads with
    | [] => (conn, .error .read)
    | .message m :: rest => ({ conn with reads := rest }, .ok m)
    | .timeout :: rest => readLoop left { conn with reads := rest }
    | .failure :: rest => ({ conn with reads := rest }, .error .read)

/-- The method `receive`. -/
def Client.receive (shuffle : List Piece → List Piece) (c : Client) :
    Option (Client × Option ClientError) :=
  match c.conn with
  | none => none
  | some conn =>
    let r := readLoop 5 conn
    let c1 := { c with conn := some r.1 }
    match r.2 with
    | .error err => some (c1, some err)
    | .ok none => some (c1, none)
    | .ok (some msg) =>
      if msg.Id = message.Choke then some ({ c1 with choked := true }, none)
      else if msg.Id = message.Unchoke then some ({ c1 with choked := false }, none)
      else if msg.Id = message.Bitfield then
        some ({ c1 with Peer := c1.Peer.SetBitfield msg.Payload }, none)
      else if msg.Id = message.Have then c1.handleHaveMessage (some msg)
      else if msg.Id = message.Piece then c1.handlePieceMessage (some msg)
      else if msg.Id = message.Extended then c1.handleExtendedMessage shuffle (some msg)
      else some (c1, none)

/-- The loop `for p.CanQueueRequest()` of `requestPiece`, on the piece in flight; `fuel`
bounds the number of requests. -/
def Client.queueRequests : Nat → Client → Option (Client × Option ClientError)
  | 0, c =>
    match c.piece with
    | none => none
    | some p => if !p.CanQueueRequest then some (c, none) else some (c, some .fuel)
  | fuel + 1, c =>
    match c.piece with
    | none => none
    | some p =>
      if !p.CanQueueRequest then some (c, none)
      else
        let length :=
          if p.Requested + BlockSize > p.Length then p.Length.tmod BlockSize else BlockSize
        match c.sendRequest p.Index p.Requested length with
        | none => none
        | some (c1, some err) => some (c1, some err)
        | some (c1, none) =>
          queueRequests fuel
            { c1 with piece := some { p with Requested := p.Requested + length,
                                             QueuedRequests := p.QueuedRequests + 1 } }

/-- The loop `for p.Incomplete()` of `requestPiece`, on the piece in flight; `fuel` bounds
the number of iterations. The inner loop queues one request per iteration until five are
queued, so `5 - QueuedRequests` iterations suffice for it. -/
def Client.requestPieceLoop (shuffle : List Piece → List Piece) :
    Nat → Client → Option (Client × Option ClientError)
  | 0, c =>
    match c.piece with
    | none => none
    | some p => if !p.Incomplete then some (c, none) else some (c, some .fuel)
  | fuel + 1, c =>
    match c.piece with
    | none => none
    | some p =>
      if !p.Incomplete then some (c, none)
      else
        let queued :=
          if !c.choked then c.queueRequests (5 - p.QueuedRequests).toNat else some (c, none)
        match queued with
        | none => none
        | some (c1, some err) => some (c1, some err)
        | some (c1, none) =>
          match c1.receive shuffle with
          | none => none
          | some (c2, some err) => some (c2, some err)
          | some (c2, none) => requestPieceLoop shuffle fuel c2

/-- The method `requestPiece`: the client, the piece as the call leaves it, and the error.
Every iteration of the loop reads from the connection, so one iteration more than there are
reads to come suffices. `none` also stands for the panic of `make` on a negative length. -/
def Client.requestPiece (shuffle : List Piece → List Piece) (c : Client) (p : Piece) :
    Option (Client × Piece × Option ClientError) :=
  if p.Length < 0 then none
  else
    let p1 : Piece := { p with Data := List.replicate p.Length.toNat 0 }
    let c1 := { c with piece := some p1 }
    match c1.requestPieceLoop shuffle (c1.readsLeft + 1) with
    | none => none
    | some (c2, err) =>
      match c2.piece with
      | none => none
      | some p2 => some ({ c2 with piece := none }, p2, err)

/-- The body of the loop of `requestPieces` for the piece `p` that was taken from the piece
channel: the client, the channel of downloaded pieces, and `some err` when `requestPieces`
returns `err` (otherwise the loop goes on). `sha1` is `crypto/sha1.Sum`. -/
def Client.requestPulledPiece (sha1 : Bytes → Bytes) (shuffle : List Piece → List Piece)
    (c : Client) (p : Piece) (downloaded : List Piece) :
    Option (Client × List Piece × Option ClientError) :=
  match c.Peer.HasPiece p.Index with
  | none => none
  | some false =>
    some ({ c with torrent := { c.torrent with Pieces := c.torrent.Pieces ++ [p] } },
          downloaded, none)
  | some true =>
    match c.requestPiece shuffle p with
    | none => none
    | some (c1, p1, some err) =>
      match p1.Reset with
      | none => none
      | some p2 =>
        some ({ c1 with torrent := { c1.torrent with Pieces := c1.torrent.Pieces ++ [p2] } },
              downloaded, some err)
    | some (c1, p1, none) =>
      match torrent.Torrent.IsValidPieceHash sha1 c1.torrent.torrent p1 with
      | none => none
      | some false =>
        match p1.Reset with
        | none => none
        | some p2 =>
          some ({ c1 with torrent := { c1.torrent with Pieces := c1.torrent.Pieces ++ [p2] } },
                downloaded, none)
      | some true => some (c1, downloaded ++ [p1], none)

/-- The method `requestPieces` with the channel `downloaded`: the loop takes a piece from the
piece channel until the channel is empty. `fuel` bounds the number of pieces taken: the loop
need not end, since a piece that the peer does not have goes back on the channel. -/
def Client.requestPieces (sha1 : Bytes → Bytes) (shuffle : List Piece → List Piece) :
    Nat → Client → List Piece → Option (Client × List Piece × Option ClientError)
  | 0, c, downloaded =>
    match c.torrent.Pieces with
    | [] => some (c, downloaded, none)
    | _ :: _ => some (c, downloaded, some .fuel)
  | fuel + 1, c, downloaded =>
    match c.torrent.Pieces with
    | [] => some (c, downloaded, none)
    | p :: rest =>
      match Client.requestPulledPiece sha1 shuffle
          { c with torrent := { c.torrent with Pieces := rest } } p downloaded with
      | none => none
      | some (c1, downloaded1, some err) => some (c1, downloaded1, some err)
      | some (c1, downloaded1, none) => requestPieces sha1 shuffle fuel c1 downloaded1

/-- The loop of `receiveMetadataPiece`. -/
def Client.receiveMetadataPiece (shuffle : List Piece → List Piece) (piece : Int) :
    Nat → Client → Option (Client × Option ClientError)
  | 0, c =>
    match c.torrent.Metadata with
    | none => none
    | some md =>
      match md.HasPiece piece with
      | none => none
      | some true => some (c, none)
      | some false => some (c, some .fuel)
  | fuel + 1, c =>
    match c.torrent.Metadata with
    | none => none
    | some md =>
      match md.HasPiece piece with
      | none => none
      | some true => some (c, none)
      | some false =>
        match c.receive shuffle with
        | none => none
        | some (c1, some err) => some (c1, some err)
        | some (c1, none) => receiveMetadataPiece shuffle piece fuel c1

/-- Puts a block index back on the channel `Metadata.Pieces`. -/
def Client.requeueMetadataPiece (c : Client) (piece : Int) : Option Client :=
  match c.torrent.Metadata with
  | none => none
  | some md =>
    some { c with torrent := { c.torrent with
                               Metadata := some { md with Pieces := md.Pieces ++ [piece] } } }

/-- The method `requestMetadataPieces`: one block index after the other is taken from the
channel, requested and waited for; `fuel` bounds the number of indices taken. -/
def Client.requestMetadataPieces (shuffle : List Piece → List Piece) :
    Nat → Client → Option (Client × Option ClientError)
  | 0, c =>
    match c.torrent.Metadata with
    | none => none
    | some md =>
      match md.Pieces with
      | [] => some (c, none)
      | _ :: _ => some (c, some .fuel)
  | fuel + 1, c =>
    match c.torrent.Metadata with
    | none => none
    | some md =>
      match md.Pieces with
      | [] => some (c, none)
      | piece :: rest =>
        let c0 := { c with torrent := { c.torrent with
                                        Metadata := some { md with Pieces := rest } } }
        match c0.sendMetadataRequest piece with
        | none => none
        | some (c1, some err) => (c1.requeueMetadataPiece piece).map (fun c2 => (c2, some err))
        | some (c1, none) =>
          match c1.receiveMetadataPiece shuffle piece (c1.readsLeft + 1) with
          | none => none
          | some (c2, some err) =>
            -- the receiver of `receiveMetadataPiece` is a copy
            let c3 := { c1 with conn := c2.conn, torrent := c2.torrent, Peer := c2.Peer,
                                piece := c2.piece }
            (c3.requeueMetadataPiece piece).map (fun c4 => (c4, some err))
          | some (c2, none) =>
            requestMetadataPieces shuffle fuel
              { c1 with conn := c2.conn, torrent := c2.torrent, Peer := c2.Peer,
                        piece := c2.piece }

/-- The method `establishHandshake`: sends the handshake `chs`, reads the handshake of the
peer and compares the info-hashes. -/
def Client.establishHandshake (c : Client) (chs : handshake.Handshake) :
    Option (Client × Option ClientError) :=
  match c.conn, chs.Bytes with
  | some conn, some bytes =>
    let w := conn.Write bytes
    if !w.2 then some ({ c with conn := some w.1 }, some .write)
    else
      match handshake.Read w.1.greeting with
      | .error e => some ({ c with conn := some w.1 }, some (.handshakeRead e))
      | .ok (phs, rest) =>
        let conn1 := { w.1 with greeting := rest }
        if chs.InfoHash != phs.InfoHash then
          some ({ c with conn := some conn1 }, some .invalidInfoHash)
        else some ({ c with conn := some conn1, Peer := c.Peer.SetHandshake phs }, none)
  | _, _ => none

/-- The method `close`. -/
def Client.close (c : Client) (err : Option ClientError) : Client :=
  match err with
  | none => c
  | some _ =>
    { c with conn := c.conn.map (fun conn => { conn with closed := true }),
             State := .Disconnected }

/-- The outcome of a call of `net.DialTimeout`. -/
inductive DialResult where
  | ok (conn : Conn)
  | timeout
  | failure
  deriving DecidableEq, Repr

/-- The loop of `Connect` around `net.DialTimeout`; `left` is `5 - retries`, the list holds
the outcomes of the calls to come (after the last one a call fails). -/
def dialLoop : Nat → List DialResult → Except ClientError Conn
  | 0, _ => .error .timeout
  | _ + 1, [] => .error .dial
  | _ + 1, .ok conn :: _ => .ok conn
  | left + 1, .timeout :: rest => dialLoop left rest
  | _ + 1, .failure :: _ => .error .dial

/-- The method `Connect`. The statement `defer c.close(err)` evaluates its argument when it
is executed, at the start of the method, where the result `err` is still nil; the deferred
call that runs on return is therefore `c.close(nil)`. -/
def Client.Connect (dials : List DialResult) (c : Client) :
    Option (Client × Option ClientError) :=
  let c0 := { c with State := .Connecting }
  let deferred : Option ClientError := none
  let body : Option (Client × Option ClientError) :=
    match dialLoop 5 dials with
    | .error err => some (c0, some err)
    | .ok conn =>
      let c1 := { c0 with conn := some conn }
      let hs := handshake.New c1.torrent.torrent.InfoHash c1.torrent.torrent.PeerId
      match c1.establishHandshake hs with
      | none => none
      | some (c2, some err) => some (c2, some err)
      | some (c2, none) => some ({ c2 with State := .Connected }, none)
  body.map (fun r => (r.1.close deferred, r.2))

/-- The method `downloadMetadata`; `fuel` bounds the number of iterations. `none` also stands
for the receive `<-c.torrent.Metadata.Wait` on a channel that has not been closed. -/
def Client.downloadMetadata (shuffle : List Piece → List Piece) :
    Nat → Client → Option (Client × Option ClientError)
  | 0, c => if !c.torrent.torrent.MetaInfo.Incomplete then some (c, none) else some (c, some .fuel)
  | fuel + 1, c =>
    if !c.torrent.torrent.MetaInfo.Incomplete then some (c, none)
    else
      match c.receive shuffle with
      | none => none
      | some (c1, some err) => some (c1, some err)
      | some (c1, none) =>
        match c1.Peer.SupportsExtensionProtocol with
        | none => none
        | some false => some (c1, some .noExtensionProtocol)
        | some true =>
          if !c1.Peer.SupportsMetadataExtension then downloadMetadata shuffle fuel c1
          else
            let queued :=
              match c1.torrent.Metadata with
              | none => 0
              | some md => md.Pieces.length
            match c1.requestMetadataPieces shuffle (queued + 1) with
            | none => none
            | some (c2, some err) => some (c2, some err)
            | some (c2, none) =>
              match c2.torrent.Metadata with
              | none => none
              | some _ => if c2.torrent.WaitClosed then downloadMetadata shuffle fuel c2 else none

/-- The waiting loop of `Download` for a bitfield; `tries` counts the messages received. -/
def Client.waitForBitfield (shuffle : List Piece → List Piece) :
    Nat → Nat → Client → Option (Client × Option ClientError)
  | 0, _, c => some (c, some .fuel)
  | fuel + 1, tries, c =>
    if c.Peer.HasBitfield then some (c, none)
    else if tries > 10 then some (c, some .bitfieldWait)
    else
      match c.receive shuffle with
      | none => none
      | some (c1, some err) => some (c1, some err)
      | some (c1, none) => waitForBitfield shuffle fuel (tries + 1) c1

/-- The method `Download` with the channel `downloaded`; `fuel` bounds the number of pieces
that `requestPieces` takes. As in `Connect`, the deferred call is `c.close(nil)`. The error
of `downloadMetadata` is dropped, and so are the changes that it and `requestPieces` make to
the fields of their copy of the client. -/
def Client.Download (sha1 : Bytes → Bytes) (shuffle : List Piece → List Piece) (fuel : Nat)
    (c : Client) (downloaded : List Piece) :
    Option (Client × List Piece × Option ClientError) :=
  let c0 := { c with State := .Downloading }
  let deferred : Option ClientError := none
  let afterMetadata : Option Client :=
    if c0.torrent.torrent.MetaInfo.Incomplete then
      (c0.downloadMetadata shuffle (c0.readsLeft + 1)).map (fun r =>
        { c0 with conn := r.1.conn, torrent := r.1.torrent, Peer := r.1.Peer,
                  piece := r.1.piece })
    else some c0
  let body : Option (Client × List Piece × Option ClientError) :=
    match afterMetadata with
    | none => none
    | some c1 =>
      match (if c1.haveBuf.length > 0 then c1.flushHaveBuffer else some c1) with
      | none => none
      | some c2 =>
        match c2.waitForBitfield shuffle 12 0 with
        | none => none
        | some (c3, some err) => some (c3, downloaded, some err)
        | some (c3, none) =>
          match c3.sendInterested with
          | none => none
          | some (c4, some err) => some (c4, downloaded, some err)
          | some (c4, none) =>
            match c4.requestPieces sha1 shuffle fuel downloaded with
            | none => none
            | some (c5, downloaded1, some err) =>
              some ({ c4 with conn := c5.conn, torrent := c5.torrent, Peer := c5.Peer },
                    downloaded1, some err)
            | some (c5, downloaded1, none) =>
              match c5.conn with
              | none => none
              | some conn =>
                some ({ c4 with conn := some { conn with closed := true },
                                torrent := c5.torrent, Peer := c5.Peer, State := .Done },
                      downloaded1, none)
  body.map (fun r => (r.1.close deferred, r.2.1, r.2.2))

end client

/-! ## More concrete inputs -/

namespace torrent

open bencode

/-- A torrent file whose `announce-list` holds one tier, and that tier is empty. -/
def emptyTierTorrentFile : Bytes :=
  bytesOf "d8:announce3:url13:announce-listllee4:infod6:lengthi10e4:name1:t12:piece lengthi4e6:pieces60:"
    ++ threeHashes ++ bytesOf "ee"

end torrent

namespace client

open piece

/-- A peer at 127.0.0.1:6881 of which nothing is known yet. -/
def examplePeer : peer.Peer := peer.New [127, 0, 0, 1] 6881

/-- A torrent of ten pieces: one file of 40 bytes in multi-file mode, piece length 4. -/
def tenPiecesTorrent : torrent.Torrent :=
  { MetaInfo :=
      { Announce := bencode.bytesOf "url",
        Info := { Files := [{ Length := 40, Path := [bencode.bytesOf "f"] }],
                  Name := bencode.bytesOf "t", PieceLength := 4,
                  Pieces := List.replicate 200 7 } } }

/-- The torrent `tenPiecesTorrent` as the clients share it, its piece channel filled. -/
def tenPieces : torrent.Shared :=
  torrent.Shared.populatePieceChannel id { torrent := tenPiecesTorrent }

/-- The message `Have` for the piece 9. -/
def have9 : message.Message := { Id := message.Have, Payload := [0, 0, 0, 9] }

/-- A message `Bitfield` of a single byte. -/
def shortBitfield : message.Message := { Id := message.Bitfield, Payload := [128] }

/-- A piece of 40000 bytes, as `pieces` creates it. -/
def largePiece : Piece := { Index := 2, Length := 40000, Offset := 80000, Destinations := [] }

/-- A piece of 4 bytes in flight: its buffer is allocated, nothing is received. -/
def smallPiece : Piece :=
  { Index := 0, Length := 4, Offset := 0, Data := [0, 0, 0, 0], Destinations := [] }

/-- A message `Piece` for the piece 0 with `begin = 5` and one byte of data. -/
def blockBeyond : message.Message :=
  { Id := message.Piece, Payload := [0, 0, 0, 0, 0, 0, 0, 5, 1] }

/-- A message `Piece` for the piece 0 with `begin = 2` and three bytes of data. -/
def blockAcrossEnd : message.Message :=
  { Id := message.Piece, Payload := [0, 0, 0, 0, 0, 0, 0, 2, 1, 2, 3] }

end client

namespace client

open piece

/-- A client that is unchoked, with the piece `largePiece` in flight and nothing read yet. -/
def unchokedClient : Client :=
  { New examplePeer tenPieces with conn := some {}, piece := some largePiece, choked := false }

/-- A client as `New` makes it, with the piece `largePiece` in flight and a connection on
which the peer sends `Unchoke` and nothing more. -/
def chokedClient : Client :=
  { New examplePeer tenPieces with
      conn := some { reads := [.message (some message.NewUnchoke)] }, piece := some largePiece }

end client

namespace client

open piece

/-- A stand-in for `sha1.Sum` that returns the digest stored for every piece of
`tenPiecesTorrent`. -/
def storedDigest : Bytes → Bytes := fun _ => List.replicate 20 7

/-- The piece 0 of `tenPiecesTorrent` as it waits on the piece channel. -/
def firstPiece : Piece :=
  { Index := 0, Length := 4, Offset := 0,
    Destinations := [{ Path := bencode.bytesOf "t/f", Offset := 0, Start := 0, End := 4 }] }

/-- A message `Piece` for the piece 0 with `begin = 0` and four bytes of data. -/
def wholeBlock : message.Message :=
  { Id := message.Piece, Payload := [0, 0, 0, 0, 0, 0, 0, 0, 1, 2, 3, 4] }

/-- A client that has taken `firstPiece` from the piece channel; its peer has all the pieces,
unchokes the client and sends the block asked for. -/
def servedClient : Client :=
  { New { examplePeer with bitfield := [255, 255] }
        { tenPieces with Pieces := tenPieces.Pieces.drop 1 } with
      conn := some { reads := [.message (some message.NewUnchoke), .message (some wholeBlock)] } }

end client

namespace torrent

open bencode

/-- A torrent in multi-file mode whose files have the lengths `2^63 - 6`, 12 and 0: their
sum is beyond the range of an `int`. -/
def hugeFilesTorrent : Torrent :=
  { MetaInfo :=
      { Announce := bytesOf "url",
        Info := { Files := [{ Length := 2 ^ 63 - 6, Path := [bytesOf "a"] },
                            { Length := 12, Path := [bytesOf "b"] },
                            { Length := 0, Path := [bytesOf "c"] }],
                  Name := bytesOf "t", PieceLength := 10, Pieces := threeHashes } } }

end torrent

namespace client

open piece

/-- A client of the torrent of ten pieces with `firstPiece` on the piece channel; its peer has
all the pieces and sends, unasked, the block `blockBeyond`, which begins beyond the piece. -/
def misledClient : Client :=
  { New { examplePeer with bitfield := [255, 255] }
        { tenPieces with Pieces := [firstPiece] } with
      conn := some { reads := [.message (some blockBeyond)] } }

/-- A client of the single-file torrent of 10 bytes, whose pieces `pieces` creates with the
lengths 0, -4 and -8; its peer has all the pieces. -/
def singleFileClient : Client :=
  { New { examplePeer with bitfield := [255] }
        (torrent.Shared.populatePieceChannel id { torrent := torrent.singleFileTorrent }) with
      conn := some {} }

end client

/-! ## Reference: the blocks of a piece -/

namespace client

/-- Reference: the number of blocks of a piece of `L` bytes, `ceil(L / 16384)`. -/
def blockCount (L : Int) : Nat := ((L + 16383) / 16384).toNat

/-- Reference: the bytes of the `Request` for the block `j` of the piece `index` of `L` bytes;
the block begins at `16384 * j` and has the length `min(16384, L - 16384 * j)`. -/
def blockRequest (index L : Int) (j : Nat) : Bytes :=
  message.Message.Bytes
    (some (message.NewRequest index (16384 * (j : Int)) (min 16384 (L - 16384 * (j : Int)))))

/-- Reference: the requests for the `m` blocks from the block `k` on, in ascending order. -/
def blockRequests (index L : Int) (k m : Nat) : List Bytes :=
  (List.range m).map (fun (j : Nat) => blockRequest index L (k + j))

end client

/-! ## Arithmetic of the type `int` -/

namespace torrent

/-- Within the range of an `int` nothing wraps around. -/
theorem wrapInt_eq (x : Int) (h1 : -(2 : Int) ^ 63 ≤ x) (h2 : x < (2 : Int) ^ 63) :
    Torrent.wrapInt x = x := by
  unfold Torrent.wrapInt
  omega

end torrent

/-! ## Facts about decimal formatting and parsing -/

namespace strconv

theorem formatNatAux_fuel (f g n : Nat) (hf : n < f) (hg : n < g) :
    formatNatAux f n = formatNatAux g n := by
  induction f generalizing g n with
  | zero => omega
  | succ f ih =>
    cases g with
    | zero => omega
    | succ g =>
      simp only [formatNatAux]
      split
      · rfl
      · rw [ih g (n / 10) (by omega) (by omega)]

theorem formatNat_lt (n : Nat) (h : n < 10) : formatNat n = [48 + n] := by
  simp [formatNat, formatNatAux, h]

theorem formatNat_ge (n : Nat) (h : 10 ≤ n) :
    formatNat n = formatNat (n / 10) ++ [48 + n % 10] := by
  have h1 : ¬ n < 10 := by omega
  unfold formatNat
  rw [formatNatAux, if_neg h1, formatNatAux_fuel n (n / 10 + 1) (n / 10) (by omega) (by omega)]

theorem formatNat_digits (n : Nat) : ∀ c ∈ formatNat n, 48 ≤ c ∧ c ≤ 57 := by
  induction n using Nat.strong_induction_on with
  | _ n ih =>
    by_cases h : n < 10
    · rw [formatNat_lt n h]; intro c hc; simp at hc; omega
    · rw [formatNat_ge n (by omega)]
      intro c hc
      rcases List.mem_append.1 hc with hc | hc
      · exact ih (n / 10) (by omega) c hc
      · simp at hc; omega

theorem formatNat_ne_nil (n : Nat) : formatNat n ≠ [] := by
  by_cases h : n < 10
  · rw [formatNat_lt n h]; simp
  · rw [formatNat_ge n (by omega)]; simp

theorem formatNat_head (n : Nat) (hn : 0 < n) : (formatNat n).head? ≠ some 48 := by
  induction n using Nat.strong_induction_on with
  | _ n ih =>
    by_cases h : n < 10
    · rw [formatNat_lt n h]; simp; omega
    · rw [formatNat_ge n (by omega)]
      have hne := formatNat_ne_nil (n / 10)
      have := ih (n / 10) (by omega) (by omega)
      cases hfm : formatNat (n / 10) with
      | nil => exact absurd hfm hne
      | cons c cs => rw [hfm] at this; simpa using this

theorem parseDigits_append (xs ys : Bytes) (a : Nat) :
    parseDigits (xs ++ ys) a = (parseDigits xs a).bind (parseDigits ys) := by
  induction xs generalizing a with
  | nil => simp [parseDigits]
  | cons c cs ih =>
    simp only [List.cons_append, parseDigits]
    split
    · exact ih _
    · rfl

theorem parseDigits_formatNat (n : Nat) : parseDigits (formatNat n) 0 = some n := by
  induction n using Nat.strong_induction_on with
  | _ n ih =>
    by_cases h : n < 10
    · rw [formatNat_lt n h]; simp [parseDigits]; omega
    · rw [formatNat_ge n (by omega), parseDigits_append, ih (n / 10) (by omega)]
      simp [parseDigits]
      omega

theorem Atoi_formatInt (i : Int) (h : inIntRange i) : Atoi (formatInt i) = some i := by
  unfold formatInt
  by_cases hneg : i < 0
  · simp only [hneg, if_true, Atoi]
    simp only [beq_self_eq_true, true_or, if_true, formatNat_ne_nil, if_false,
      parseDigits_formatNat]
    have : -(i.natAbs : Int) = i := by omega
    rw [this]; simp [h]
  · simp only [hneg, if_false]
    cases hfm : formatNat i.natAbs with
    | nil => exact absurd hfm (formatNat_ne_nil _)
    | cons c cs =>
      have hc := formatNat_digits i.natAbs c (by rw [hfm]; simp)
      have h45 : c ≠ 45 := by omega
      have h43 : c ≠ 43 := by omega
      simp only [Atoi, h45, h43, or_self, if_false]
      rw [← hfm, parseDigits_formatNat]
      have : ((i.natAbs : Nat) : Int) = i := by omega
      have hb : (c == 45) = false := by simpa using h45
      simp only [formatNat_ne_nil, if_false, hb, this, Bool.false_eq_true]
      simp [h]

end strconv

/-! ## The encoder agrees with the reference encoding -/

namespace GoMap

theorem get_of_mem {β : Type} (m : GoMap β) (k : Bytes) (v : β)
    (hnd : (GoMap.keys m).Nodup) (hmem : (k, v) ∈ m) : GoMap.get m k = some v := by
  induction m with
  | nil => simp at hmem
  | cons e rest ih =>
    obtain ⟨k', v'⟩ := e
    simp only [GoMap.keys, List.map_cons, List.nodup_cons] at hnd
    rcases List.mem_cons.1 hmem with h | h
    · cases h; simp [GoMap.get]
    · have hne : k ≠ k' := by
        rintro rfl
        exact hnd.1 (List.mem_map.2 ⟨(k, v), h, rfl⟩)
      simp only [GoMap.get, hne, if_false]
      exact ih hnd.2 h

end GoMap

namespace bencode

theorem refDecimal_eq_formatNat (n : Nat) : refDecimal n = strconv.formatNat n := by
  induction n using Nat.strong_induction_on with
  | _ n ih =>
    by_cases h : n < 10
    · rw [strconv.formatNat_lt n h]
      by_cases h0 : n = 0
      · simp [refDecimal, h0]
      · simp [refDecimal, h0, Nat.digits_of_lt 10 n h0 h]
    · rw [strconv.formatNat_ge n (by omega), ← ih (n / 10) (by omega)]
      have h0 : n ≠ 0 := by omega
      have h1 : n / 10 ≠ 0 := by omega
      simp only [refDecimal, h0, h1, if_false]
      rw [Nat.digits_def' (by norm_num) (by omega)]
      simp

theorem refDecimalInt_eq_formatInt (i : Int) : refDecimalInt i = strconv.formatInt i := by
  simp [refDecimalInt, strconv.formatInt, refDecimal_eq_formatNat]

theorem refString_eq_consumeString (s : Bytes) : refString s = Encoder.consumeString s := by
  simp [refString, Encoder.consumeString, refDecimal_eq_formatNat]

theorem sortedKeys_eq {β : Type} (d : GoMap β) (h : List.Sorted (· < ·) (GoMap.keys d)) :
    Encoder.getSortedDictionaryKeys d = GoMap.keys d := by
  unfold Encoder.getSortedDictionaryKeys
  exact List.Sorted.insertionSort_eq (List.Pairwise.imp le_of_lt h)

theorem writeEntries_eq_ref (enc : GoMap (Option Bytes)) (hnd : (GoMap.keys enc).Nodup)
    (d : List (Bytes × Value))
    (hsub : ∀ e ∈ d, (e.1, some (refEncode e.2)) ∈ enc) :
    Encoder.writeEntries enc (GoMap.keys d) = some (refEncodeDict d) := by
  induction d with
  | nil => simp [GoMap.keys, Encoder.writeEntries, refEncodeDict]
  | cons e rest ih =>
    obtain ⟨k, v⟩ := e
    have hget := GoMap.get_of_mem enc k (some (refEncode v)) hnd (hsub (k, v) (by simp))
    have hrest := ih (fun e he => hsub e (List.mem_cons_of_mem _ he))
    simp only [GoMap.keys, List.map_cons] at hrest ⊢
    simp [Encoder.writeEntries, hget, hrest, refEncodeDict, refString_eq_consumeString]

mutual
theorem consume_eq_ref : (v : Value) → v.wellFormed = true →
    Encoder.consume v = some (refEncode v)
  | .int n, _ => by
    simp [Encoder.consume, refEncode, Encoder.consumeInteger, refDecimalInt_eq_formatInt]
  | .str s, _ => by
    simp [Encoder.consume, refEncode, refString_eq_consumeString]
  | .list l, h => by
    simp only [Value.wellFormed] at h
    simp [Encoder.consume, refEncode, consumeItems_eq_ref l h]
  | .dict d, h => by
    simp only [Value.wellFormed, Bool.and_eq_true, decide_eq_true_eq] at h
    have hvals := consumeValues_eq_ref d h.1
    have hkeys : GoMap.keys (Encoder.consumeValues d) = GoMap.keys d := by
      rw [hvals]; simp [GoMap.keys, Function.comp_def]
    have hnd : (GoMap.keys (Encoder.consumeValues d)).Nodup := by
      rw [hkeys]; exact (List.Sorted.nodup h.2)
    have hw := writeEntries_eq_ref (Encoder.consumeValues d) hnd d (by
      intro e he; rw [hvals]; exact List.mem_map.2 ⟨e, he, rfl⟩)
    simp [Encoder.consume, refEncode, sortedKeys_eq d h.2, hw]
  | .other, h => by simp [Value.wellFormed] at h
theorem consumeItems_eq_ref : (l : List Value) → wellFormedList l = true →
    Encoder.consumeItems l = some (refEncodeList l)
  | [], _ => by simp [Encoder.consumeItems, refEncodeList]
  | v :: rest, h => by
    simp only [wellFormedList, Bool.and_eq_true] at h
    simp [Encoder.consumeItems, refEncodeList, consume_eq_ref v h.1,
      consumeItems_eq_ref rest h.2]
theorem consumeValues_eq_ref : (d : List (Bytes × Value)) → wellFormedEntries d = true →
    Encoder.consumeValues d = d.map (fun e => (e.1, some (refEncode e.2)))
  | [], _ => by simp [Encoder.consumeValues]
  | (k, v) :: rest, h => by
    simp only [wellFormedEntries, Bool.and_eq_true] at h
    simp [Encoder.consumeValues, consume_eq_ref v h.1, consumeValues_eq_ref rest h.2]
end

end bencode

/-! ## Decoding an encoded value -/

namespace bencode

namespace Decoder

theorem readString_append (delim : Nat) (xs rest : Bytes) (h : delim ∉ xs) :
    readString delim (xs ++ delim :: rest) = some (xs ++ [delim], rest) := by
  induction xs with
  | nil => simp [readString]
  | cons x xs ih =>
    have hx : x ≠ delim := fun e => h (by simp [e])
    have hxs : delim ∉ xs := fun e => h (by simp [e])
    simp [readString, hx, ih hxs]

theorem consumeString_encode (s tail : Bytes) (h : s.length < 2 ^ 63) :
    consumeString (Encoder.consumeString s ++ tail) = .ok (s, tail) := by
  have hnot : (58 : Nat) ∉ strconv.formatNat s.length := by
    intro hmem
    have := strconv.formatNat_digits _ _ hmem
    omega
  have hin : inIntRange (s.length : Int) := by
    unfold inIntRange
    constructor
    · have : (0 : Int) ≤ (s.length : Int) := Int.ofNat_nonneg _
      omega
    · have : ((s.length : Nat) : Int) < ((2 ^ 63 : Nat) : Int) := Int.ofNat_lt.2 h
      simpa using this
  have hfmt : strconv.formatInt (s.length : Int) = strconv.formatNat s.length := by
    simp [strconv.formatInt]
  have hatoi : strconv.Atoi (strconv.formatNat s.length) = some (s.length : Int) := by
    rw [← hfmt]; exact strconv.Atoi_formatInt _ hin
  have hinput : Encoder.consumeString s ++ tail
      = strconv.formatNat s.length ++ 58 :: (s ++ tail) := by
    simp [Encoder.consumeString]
  rw [hinput]
  unfold consumeString
  rw [readString_append 58 _ _ hnot]
  simp only [List.length_append, List.length_singleton, Nat.add_sub_cancel, List.take_left',
    hatoi]
  by_cases h0 : s.length = 0
  · have hs : s = [] := List.length_eq_zero.1 h0
    subst hs
    simp
  · have hpos : ¬ ((s.length : Int) < 0) := by omega
    have hne : ¬ ((s.length : Int) = 0) := by omega
    simp [hpos, hne]

theorem consumeInteger_encode (n : Int) (tail : Bytes) (h : inIntRange n) :
    consumeInteger (Encoder.consumeInteger n ++ tail) = .ok (n, tail) := by
  have hnot : (101 : Nat) ∉ (105 :: strconv.formatInt n) := by
    intro hmem
    rcases List.mem_cons.1 hmem with h1 | h1
    · omega
    · unfold strconv.formatInt at h1
      split at h1
      · rcases List.mem_cons.1 h1 with h2 | h2
        · omega
        · have := strconv.formatNat_digits _ _ h2; omega
      · have := strconv.formatNat_digits _ _ h1; omega
  have hinput : Encoder.consumeInteger n ++ tail
      = (105 :: strconv.formatInt n) ++ 101 :: tail := by
    simp [Encoder.consumeInteger]
  rw [hinput]
  unfold consumeInteger
  rw [readString_append 101 _ _ hnot]
  have hne := strconv.formatNat_ne_nil n.natAbs
  obtain ⟨c, cs, hfm⟩ : ∃ c cs, strconv.formatNat n.natAbs = c :: cs := by
    cases hfm : strconv.formatNat n.natAbs with
    | nil => exact absurd hfm hne
    | cons c cs => exact ⟨c, cs, rfl⟩
  have hdig := strconv.formatNat_digits n.natAbs c (by rw [hfm]; simp)
  have hhead : 0 < n.natAbs → c ≠ 48 := by
    intro hpos hc
    have := strconv.formatNat_head n.natAbs hpos
    rw [hfm] at this
    simp [hc] at this
  have hzero : n.natAbs = 0 → cs = [] := by
    intro hz
    rw [hz, strconv.formatNat_lt 0 (by omega)] at hfm
    simp at hfm
    exact hfm.2
  have h3 : ¬ ((105 :: strconv.formatInt n ++ [101]).length < 3) := by
    unfold strconv.formatInt
    split <;> simp [hfm]
  have hnz : ¬ ((105 :: strconv.formatInt n ++ [101]).length > 3 ∧
      (105 :: strconv.formatInt n ++ [101]).getD 1 0 = 45 ∧
      (105 :: strconv.formatInt n ++ [101]).getD 2 0 = 48) := by
    rintro ⟨_, h45, h48⟩
    by_cases hneg : n < 0
    · simp [strconv.formatInt, hneg, hfm] at h48
      exact hhead (by omega) h48
    · simp [strconv.formatInt, hneg, hfm] at h45
      omega
  have hlz : ¬ ((105 :: strconv.formatInt n ++ [101]).length > 3 ∧
      (105 :: strconv.formatInt n ++ [101]).getD 1 0 = 48 ∧
      (105 :: strconv.formatInt n ++ [101]).getD 2 0 ≠ 101) := by
    rintro ⟨hl, h48, _⟩
    by_cases hneg : n < 0
    · simp [strconv.formatInt, hneg, hfm] at h48
    · simp [strconv.formatInt, hneg, hfm] at h48 hl
      by_cases hz : n.natAbs = 0
      · rw [hzero hz] at hl
        simp at hl
      · exact hhead (by omega) h48
  have htake : (List.drop 1 (105 :: strconv.formatInt n ++ [101])).take
      ((105 :: strconv.formatInt n ++ [101]).length - 2) = strconv.formatInt n := by
    simp
  simp only [List.cons_append] at h3 hnz hlz htake ⊢
  rw [if_neg h3, if_neg hnz, if_neg hlz, htake, strconv.Atoi_formatInt n h]

end Decoder

end bencode

namespace GoMap

theorem set_last {β : Type} (m : GoMap β) (k : Bytes) (v : β) (h : ∀ e ∈ m, e.1 < k) :
    GoMap.set m k v = m ++ [(k, v)] := by
  induction m with
  | nil => rfl
  | cons e rest ih =>
    obtain ⟨k', v'⟩ := e
    have hlt : k' < k := h (k', v') (by simp)
    have h1 : ¬ k < k' := not_lt_of_gt hlt
    have h2 : ¬ k = k' := fun e => (ne_of_gt hlt) e
    simp only [GoMap.set, h1, h2, if_false, List.cons_append]
    rw [ih (fun e he => h e (List.mem_cons_of_mem _ he))]

theorem foldl_set_sorted {β : Type} (d acc : GoMap β)
    (h : List.Sorted (· < ·) (GoMap.keys (acc ++ d))) :
    d.foldl (fun m e => GoMap.set m e.1 e.2) acc = acc ++ d := by
  induction d generalizing acc with
  | nil => simp
  | cons e rest ih =>
    have hlast : ∀ x ∈ acc, x.1 < e.1 := by
      intro x hx
      simp only [GoMap.keys, List.map_append, List.map_cons] at h
      have := (List.pairwise_append.1 h).2.2 x.1 (List.mem_map.2 ⟨x, hx, rfl⟩) e.1 (by simp)
      exact this
    simp only [List.foldl_cons]
    rw [set_last acc e.1 e.2 hlast, ih (acc ++ [(e.1, e.2)]) (by simpa using h)]
    simp

end GoMap

namespace bencode

theorem refString_append_cons (s tail : Bytes) :
    ∃ c cs, refString s ++ tail = c :: cs ∧ 48 ≤ c ∧ c ≤ 57 := by
  rw [refString, refDecimal_eq_formatNat]
  cases hfm : strconv.formatNat s.length with
  | nil => exact absurd hfm (strconv.formatNat_ne_nil _)
  | cons c cs =>
    have := strconv.formatNat_digits s.length c (by rw [hfm]; simp)
    exact ⟨c, cs ++ 58 :: (s ++ tail), by simp, this⟩

theorem refEncode_cons (v : Value) (h : v.wellFormed = true) :
    ∃ c cs, refEncode v = c :: cs ∧ c ≠ 101 := by
  cases v with
  | int n => exact ⟨105, refDecimalInt n ++ [101], by simp [refEncode], by omega⟩
  | str s =>
    obtain ⟨c, cs, hc, h1, h2⟩ := refString_append_cons s []
    exact ⟨c, cs, by simpa [refEncode] using hc, by omega⟩
  | list l => exact ⟨108, refEncodeList l ++ [101], by simp [refEncode], by omega⟩
  | dict d => exact ⟨100, refEncodeDict d ++ [101], by simp [refEncode], by omega⟩
  | other => simp [Value.wellFormed] at h

mutual
theorem consume_refEncode : (v : Value) → v.wellFormed = true → v.fitsInt = true →
    ∀ (fuel : Nat) (tail : Bytes), (refEncode v).length ≤ fuel →
      Decoder.consume fuel (refEncode v ++ tail) = .ok (v, tail)
  | .int n, _, hf => fun fuel tail hlen => by
    simp only [Value.fitsInt, decide_eq_true_eq] at hf
    cases fuel with
    | zero => simp [refEncode] at hlen
    | succ f =>
      have hin : refEncode (.int n) ++ tail = 105 :: (strconv.formatInt n ++ 101 :: tail) := by
        simp [refEncode, refDecimalInt_eq_formatInt]
      have hdec := Decoder.consumeInteger_encode n tail hf
      have hin2 : Encoder.consumeInteger n ++ tail
          = 105 :: (strconv.formatInt n ++ 101 :: tail) := by
        simp [Encoder.consumeInteger]
      rw [hin2] at hdec
      rw [hin]
      simp [Decoder.consume, hdec]
  | .str s, _, hf => fun fuel tail hlen => by
    simp only [Value.fitsInt, decide_eq_true_eq] at hf
    obtain ⟨c, cs, hc, h1, h2⟩ := refString_append_cons s tail
    cases fuel with
    | zero =>
      have hpos : 0 < (refString s).length := by simp [refString]
      simp only [refEncode] at hlen
      omega
    | succ f =>
      have hdec := Decoder.consumeString_encode s tail hf
      rw [← refString_eq_consumeString, hc] at hdec
      simp only [refEncode]
      rw [hc]
      have e1 : c ≠ 108 := by omega
      have e2 : c ≠ 100 := by omega
      have e3 : c ≠ 105 := by omega
      simp [Decoder.consume, e1, e2, e3, hdec]
  | .list l, hw, hf => fun fuel tail hlen => by
    simp only [Value.wellFormed] at hw
    simp only [Value.fitsInt] at hf
    cases fuel with
    | zero => simp [refEncode] at hlen
    | succ f =>
      have hlen2 : (refEncodeList l).length < f := by
        simp [refEncode] at hlen; omega
      have hloop := listLoop_refEncode l hw hf f f tail [] (by omega) hlen2
      have hin : refEncode (.list l) ++ tail = 108 :: (refEncodeList l ++ 101 :: tail) := by
        simp [refEncode]
      rw [hin]
      simp [Decoder.consume, hloop]
  | .dict d, hw, hf => fun fuel tail hlen => by
    simp only [Value.wellFormed, Bool.and_eq_true, decide_eq_true_eq] at hw
    simp only [Value.fitsInt] at hf
    cases fuel with
    | zero => simp [refEncode] at hlen
    | succ f =>
      have hlen2 : (refEncodeDict d).length < f := by
        simp [refEncode] at hlen; omega
      have hloop := dictLoop_refEncode d hw.1 hf f f tail [] (by omega) hlen2
      rw [GoMap.foldl_set_sorted d [] (by simpa using hw.2)] at hloop
      have hin : refEncode (.dict d) ++ tail = 100 :: (refEncodeDict d ++ 101 :: tail) := by
        simp [refEncode]
      rw [hin]
      simp [Decoder.consume, hloop]
  | .other, hw, _ => by simp [Value.wellFormed] at hw
theorem listLoop_refEncode : (l : List Value) → wellFormedList l = true →
    fitsIntList l = true →
    ∀ (f n : Nat) (tail : Bytes) (acc : List Value),
      (refEncodeList l).length ≤ f → (refEncodeList l).length < n →
      Decoder.listLoop (Decoder.consume f) n (refEncodeList l ++ 101 :: tail) acc
        = .ok (acc ++ l, tail)
  | [], _, _ => fun f n tail acc _ hn => by
    cases n with
    | zero => omega
    | succ n => simp [refEncodeList, Decoder.listLoop]
  | v :: rest, hw, hf => fun f n tail acc hlen hn => by
    simp only [wellFormedList, Bool.and_eq_true] at hw
    simp only [fitsIntList, Bool.and_eq_true] at hf
    obtain ⟨c, cs, hc, hne⟩ := refEncode_cons v hw.1
    have hpos : 0 < (refEncode v).length := by rw [hc]; simp
    simp only [refEncodeList, List.length_append] at hlen hn
    cases n with
    | zero => omega
    | succ n =>
      have hitem := consume_refEncode v hw.1 hf.1 f (refEncodeList rest ++ 101 :: tail)
        (by omega)
      have hrest := listLoop_refEncode rest hw.2 hf.2 f n tail (acc ++ [v]) (by omega)
        (by omega)
      have hin : refEncodeList (v :: rest) ++ 101 :: tail
          = c :: (cs ++ (refEncodeList rest ++ 101 :: tail)) := by
        simp [refEncodeList, hc]
      rw [hc] at hitem
      rw [hin]
      simp only [List.cons_append] at hitem
      simp [Decoder.listLoop, hne, hitem, hrest]
theorem dictLoop_refEncode : (d : List (Bytes × Value)) → wellFormedEntries d = true →
    fitsIntEntries d = true →
    ∀ (f n : Nat) (tail : Bytes) (acc : GoMap Value),
      (refEncodeDict d).length ≤ f → (refEncodeDict d).length < n →
      Decoder.dictLoop (Decoder.consume f) n (refEncodeDict d ++ 101 :: tail) acc
        = .ok (d.foldl (fun m e => GoMap.set m e.1 e.2) acc, tail)
  | [], _, _ => fun f n tail acc _ hn => by
    cases n with
    | zero => omega
    | succ n => simp [refEncodeDict, Decoder.dictLoop]
  | (k, v) :: rest, hw, hf => fun f n tail acc hlen hn => by
    simp only [wellFormedEntries, Bool.and_eq_true] at hw
    simp only [fitsIntEntries, Bool.and_eq_true, decide_eq_true_eq] at hf
    obtain ⟨c, cs, hc, h1, h2⟩ :=
      refString_append_cons k (refEncode v ++ (refEncodeDict rest ++ 101 :: tail))
    have hne : c ≠ 101 := by omega
    have hkpos : 0 < (refString k).length := by simp [refString]
    simp only [refEncodeDict, List.length_append] at hlen hn
    cases n with
    | zero => omega
    | succ n =>
      have hkey := Decoder.consumeString_encode k
        (refEncode v ++ (refEncodeDict rest ++ 101 :: tail)) hf.1.1
      rw [← refString_eq_consumeString, hc] at hkey
      have hitem := consume_refEncode v hw.1 hf.1.2 f (refEncodeDict rest ++ 101 :: tail)
        (by omega)
      have hrest := dictLoop_refEncode rest hw.2 hf.2 f n tail (GoMap.set acc k v)
        (by omega) (by omega)
      have hin : refEncodeDict ((k, v) :: rest) ++ 101 :: tail = c :: cs := by
        rw [← hc]; simp [refEncodeDict]
      rw [hin]
      simp [Decoder.dictLoop, hne, hkey, hitem, hrest]
end

end bencode

/-! ## Facts about maps -/

namespace GoMap

theorem mem_set {β : Type} (m : GoMap β) (k : Bytes) (v : β) (e : Bytes × β)
    (h : e ∈ GoMap.set m k v) : e = (k, v) ∨ e ∈ m := by
  induction m with
  | nil => simp [GoMap.set] at h; exact Or.inl h
  | cons x rest ih =>
    obtain ⟨k', v'⟩ := x
    unfold GoMap.set at h
    split at h
    · rcases List.mem_cons.1 h with h | h
      · exact Or.inl h
      · exact Or.inr h
    · split at h
      · rcases List.mem_cons.1 h with h | h
        · exact Or.inl h
        · exact Or.inr (List.mem_cons_of_mem _ h)
      · rcases List.mem_cons.1 h with h | h
        · exact Or.inr (by rw [h]; exact List.mem_cons_self _ _)
        · rcases ih h with h | h
          · exact Or.inl h
          · exact Or.inr (List.mem_cons_of_mem _ h)

theorem mem_keys_set {β : Type} (m : GoMap β) (k : Bytes) (v : β) (k' : Bytes)
    (h : k' ∈ GoMap.keys (GoMap.set m k v)) : k' = k ∨ k' ∈ GoMap.keys m := by
  obtain ⟨e, he, rfl⟩ := List.mem_map.1 h
  rcases mem_set m k v e he with h | h
  · exact Or.inl (by rw [h])
  · exact Or.inr (List.mem_map.2 ⟨e, h, rfl⟩)

theorem key_mem_set {β : Type} (m : GoMap β) (k : Bytes) (v : β) :
    k ∈ GoMap.keys (GoMap.set m k v) := by
  induction m with
  | nil => simp [GoMap.set, GoMap.keys]
  | cons x rest ih =>
    obtain ⟨k', v'⟩ := x
    unfold GoMap.set
    split
    · simp [GoMap.keys]
    · split
      · simp [GoMap.keys]
      · simp only [GoMap.keys, List.map_cons, List.mem_cons]
        exact Or.inr ih

theorem keys_subset_set {β : Type} (m : GoMap β) (k : Bytes) (v : β) (k' : Bytes)
    (h : k' ∈ GoMap.keys m) : k' ∈ GoMap.keys (GoMap.set m k v) := by
  induction m with
  | nil => simp [GoMap.keys] at h
  | cons x rest ih =>
    obtain ⟨k'', v''⟩ := x
    simp only [GoMap.keys, List.map_cons, List.mem_cons] at h
    unfold GoMap.set
    split
    · simp only [GoMap.keys, List.map_cons, List.mem_cons]
      rcases h with h | h
      · exact Or.inr (Or.inl h)
      · exact Or.inr (Or.inr h)
    · split
      · rename_i _ heq
        simp only [GoMap.keys, List.map_cons, List.mem_cons]
        rcases h with h | h
        · exact Or.inl (by rw [h, heq])
        · exact Or.inr h
      · simp only [GoMap.keys, List.map_cons, List.mem_cons]
        rcases h with h | h
        · exact Or.inl h
        · exact Or.inr (ih h)

theorem get_set_self {β : Type} (m : GoMap β) (k : Bytes) (v : β) :
    GoMap.get (GoMap.set m k v) k = some v := by
  induction m with
  | nil => simp [GoMap.set, GoMap.get]
  | cons x rest ih =>
    obtain ⟨k', v'⟩ := x
    unfold GoMap.set
    split
    · simp [GoMap.get]
    · split
      · simp [GoMap.get]
      · rename_i _ hne
        simp only [GoMap.get, hne, if_false]
        exact ih

theorem get_set_ne {β : Type} (m : GoMap β) (k : Bytes) (v : β) (k' : Bytes) (h : k' ≠ k) :
    GoMap.get (GoMap.set m k v) k' = GoMap.get m k' := by
  induction m with
  | nil => simp [GoMap.set, GoMap.get, h]
  | cons x rest ih =>
    obtain ⟨k'', v''⟩ := x
    unfold GoMap.set
    split
    · simp [GoMap.get, h]
    · split
      · rename_i _ heq
        have h2 : k' ≠ k'' := by rw [← heq]; exact h
        simp [GoMap.get, h, h2]
      · simp only [GoMap.get]
        split
        · rfl
        · exact ih

theorem sorted_set {β : Type} (m : GoMap β) (k : Bytes) (v : β)
    (h : List.Sorted (· < ·) (GoMap.keys m)) :
    List.Sorted (· < ·) (GoMap.keys (GoMap.set m k v)) := by
  induction m with
  | nil => simp [GoMap.set, GoMap.keys]
  | cons x rest ih =>
    obtain ⟨k', v'⟩ := x
    simp only [GoMap.keys, List.map_cons, List.sorted_cons] at h
    unfold GoMap.set
    split
    · rename_i hlt
      simp only [GoMap.keys, List.map_cons, List.sorted_cons, List.mem_cons]
      refine ⟨?_, h⟩
      intro b hb
      rcases hb with hb | hb
      · rw [hb]; exact hlt
      · exact lt_trans hlt (h.1 b hb)
    · split
      · rename_i _ heq
        simp only [GoMap.keys, List.map_cons, List.sorted_cons]
        rw [heq]
        exact h
      · rename_i hnlt hne
        simp only [GoMap.keys, List.map_cons, List.sorted_cons]
        refine ⟨?_, ih h.2⟩
        intro b hb
        rcases mem_keys_set rest k v b hb with hb | hb
        · rw [hb]
          rcases lt_trichotomy k k' with h1 | h1 | h1
          · exact absurd h1 hnlt
          · exact absurd h1 hne
          · exact h1
        · exact h.1 b hb

end GoMap

namespace bencode

theorem wellFormedList_iff (l : List Value) :
    wellFormedList l = true ↔ ∀ v ∈ l, v.wellFormed = true := by
  induction l with
  | nil => simp [wellFormedList]
  | cons v rest ih => simp [wellFormedList, ih]

theorem wellFormedEntries_iff (d : List (Bytes × Value)) :
    wellFormedEntries d = true ↔ ∀ e ∈ d, e.2.wellFormed = true := by
  induction d with
  | nil => simp [wellFormedEntries]
  | cons e rest ih =>
    obtain ⟨k, v⟩ := e
    simp [wellFormedEntries, ih]

theorem fitsIntEntries_iff (d : List (Bytes × Value)) :
    fitsIntEntries d = true ↔ ∀ e ∈ d, e.1.length < 2 ^ 63 ∧ e.2.fitsInt = true := by
  induction d with
  | nil => simp [fitsIntEntries]
  | cons e rest ih =>
    obtain ⟨k, v⟩ := e
    simp [fitsIntEntries, ih, and_assoc]

end bencode

/-! ## Facts about unpacking a record and reading it back -/

namespace bencode

theorem fieldsWithTag_absent (tag : Bytes) (fields : List (Bytes × GoType)) (s : Nat)
    (h : tag ∉ fields.map Prod.fst) : fieldsWithTag tag fields s = [] := by
  induction fields generalizing s with
  | nil => rfl
  | cons f rest ih =>
    obtain ⟨k, t⟩ := f
    simp only [List.map_cons, List.mem_cons, not_or] at h
    have hne : ¬ k = tag := fun e => h.1 e.symm
    simp only [fieldsWithTag, hne, if_false]
    exact ih (s + 1) h.2

theorem fieldsWithTag_unique (fields : List (Bytes × GoType)) (s i : Nat) (k : Bytes)
    (t : GoType) (hnd : (fields.map Prod.fst).Nodup) (hi : fields[i]? = some (k, t)) :
    fieldsWithTag k fields s = [(s + i, t)] := by
  induction fields generalizing s i with
  | nil => simp at hi
  | cons f rest ih =>
    obtain ⟨k0, t0⟩ := f
    simp only [List.map_cons, List.nodup_cons] at hnd
    cases i with
    | zero =>
      simp only [List.getElem?_cons_zero, Option.some.injEq, Prod.mk.injEq] at hi
      obtain ⟨hk, ht⟩ := hi
      subst hk; subst ht
      simp [fieldsWithTag, fieldsWithTag_absent k0 rest (s + 1) hnd.1]
    | succ j =>
      simp only [List.getElem?_cons_succ] at hi
      have hmem : k ∈ rest.map Prod.fst :=
        List.mem_map.2 ⟨(k, t), List.getElem?_mem hi, rfl⟩
      have hne : ¬ k0 = k := fun e => hnd.1 (e ▸ hmem)
      simp only [fieldsWithTag, hne, if_false]
      rw [ih (s + 1) j hnd.2 hi]
      simp; omega

theorem fieldByTag_of_getElem (fields : List (Bytes × GoType)) (i : Nat) (k : Bytes)
    (t : GoType) (hnd : (fields.map Prod.fst).Nodup) (hi : fields[i]? = some (k, t)) :
    fieldByTag fields k = some (i, t) := by
  unfold fieldByTag
  rw [fieldsWithTag_unique fields 0 i k t hnd hi]
  simp

theorem tag_index_unique (fields : List (Bytes × GoType)) (i j : Nat) (k : Bytes)
    (t t' : GoType) (hnd : (fields.map Prod.fst).Nodup) (hi : fields[i]? = some (k, t))
    (hj : fields[j]? = some (k, t')) : i = j := by
  have h1 := fieldsWithTag_unique fields 0 i k t hnd hi
  have h2 := fieldsWithTag_unique fields 0 j k t' hnd hj
  rw [h1] at h2
  simp at h2
  exact h2.1

theorem mem_unpackFields (vs : List GoValue) (fields : List (Bytes × GoType))
    (acc : GoMap Value) (e : Bytes × Value) (h : e ∈ unpackFields vs fields acc) :
    e ∈ acc ∨ ∃ (i : Nat) (v : GoValue) (t : GoType), vs[i]? = some v ∧ fields[i]? = some (e.1, t) ∧ v.IsZero = false ∧
      e.2 = unpackValue v t := by
  induction vs generalizing fields acc with
  | nil => simp [unpackFields] at h; exact Or.inl h
  | cons v0 rest ih =>
    cases fields with
    | nil => simp [unpackFields] at h; exact Or.inl h
    | cons f more =>
      obtain ⟨k0, t0⟩ := f
      simp only [unpackFields] at h
      have shift : (∃ (i : Nat) (v : GoValue) (t : GoType), rest[i]? = some v ∧ more[i]? = some (e.1, t) ∧
          v.IsZero = false ∧ e.2 = unpackValue v t) →
          ∃ (i : Nat) (v : GoValue) (t : GoType), (v0 :: rest)[i]? = some v ∧ ((k0, t0) :: more)[i]? = some (e.1, t) ∧
          v.IsZero = false ∧ e.2 = unpackValue v t := by
        rintro ⟨i, v, t, h1, h2, h3, h4⟩
        exact ⟨i + 1, v, t, by simpa using h1, by simpa using h2, h3, h4⟩
      split at h
      · rcases ih more acc h with h | h
        · exact Or.inl h
        · exact Or.inr (shift h)
      · rename_i hz
        rcases ih more _ h with h | h
        · rcases GoMap.mem_set acc k0 _ e h with h | h
          · refine Or.inr ⟨0, v0, t0, by simp, ?_, by simpa using hz, ?_⟩
            · rw [h]; simp
            · rw [h]
          · exact Or.inl h
        · exact Or.inr (shift h)

theorem keys_unpackFields (vs : List GoValue) (fields : List (Bytes × GoType))
    (acc : GoMap Value) :
    (∀ k ∈ GoMap.keys acc, k ∈ GoMap.keys (unpackFields vs fields acc)) ∧
    (∀ (i : Nat) (v : GoValue) (k : Bytes) (t : GoType), vs[i]? = some v → fields[i]? = some (k, t) → v.IsZero = false →
      k ∈ GoMap.keys (unpackFields vs fields acc)) := by
  induction vs generalizing fields acc with
  | nil => simp [unpackFields]
  | cons v0 rest ih =>
    cases fields with
    | nil => simp [unpackFields]
    | cons f more =>
      obtain ⟨k0, t0⟩ := f
      simp only [unpackFields]
      by_cases hz : v0.IsZero = true
      · simp only [hz, if_true]
        refine ⟨(ih more acc).1, ?_⟩
        intro i v k t h1 h2 h3
        cases i with
        | zero =>
          simp only [List.getElem?_cons_zero, Option.some.injEq] at h1
          rw [← h1, hz] at h3
          simp at h3
        | succ j =>
          exact (ih more acc).2 j v k t (by simpa using h1) (by simpa using h2) h3
      · simp only [hz, if_false]
        refine ⟨fun k hk => (ih more _).1 k (GoMap.keys_subset_set acc k0 _ k hk), ?_⟩
        intro i v k t h1 h2 h3
        cases i with
        | zero =>
          simp only [List.getElem?_cons_zero, Option.some.injEq, Prod.mk.injEq] at h2
          rw [← h2.1]
          exact (ih more _).1 k0 (GoMap.key_mem_set acc k0 _)
        | succ j =>
          exact (ih more _).2 j v k t (by simpa using h1) (by simpa using h2) h3

theorem get_unpackFields (vs : List GoValue) (fields : List (Bytes × GoType))
    (acc : GoMap Value) (hnd : (fields.map Prod.fst).Nodup) :
    (∀ k, k ∉ fields.map Prod.fst →
      GoMap.get (unpackFields vs fields acc) k = GoMap.get acc k) ∧
    (∀ (i : Nat) (v : GoValue) (k : Bytes) (t : GoType), vs[i]? = some v → fields[i]? = some (k, t) →
      GoMap.get (unpackFields vs fields acc) k
        = if v.IsZero then GoMap.get acc k else some (unpackValue v t)) := by
  induction vs generalizing fields acc with
  | nil => simp [unpackFields]
  | cons v0 rest ih =>
    cases fields with
    | nil => simp [unpackFields]
    | cons f more =>
      obtain ⟨k0, t0⟩ := f
      simp only [List.map_cons, List.nodup_cons] at hnd
      have step : ∀ k, k ≠ k0 →
          GoMap.get (if v0.IsZero then acc else GoMap.set acc k0 (unpackValue v0 t0)) k
            = GoMap.get acc k := by
        intro k hk
        split
        · rfl
        · exact GoMap.get_set_ne acc k0 _ k hk
      have hunf : unpackFields (v0 :: rest) ((k0, t0) :: more) acc
          = unpackFields rest more
              (if v0.IsZero then acc else GoMap.set acc k0 (unpackValue v0 t0)) := by
        simp only [unpackFields]
        split <;> rfl
      rw [hunf]
      constructor
      · intro k hk
        simp only [List.map_cons, List.mem_cons, not_or] at hk
        rw [(ih more _ hnd.2).1 k hk.2]
        exact step k hk.1
      · intro i v k t h1 h2
        cases i with
        | zero =>
          simp only [List.getElem?_cons_zero, Option.some.injEq, Prod.mk.injEq] at h1 h2
          obtain ⟨hk, ht⟩ := h2
          subst h1; subst hk; subst ht
          rw [(ih more _ hnd.2).1 k0 hnd.1]
          split
          · rfl
          · exact GoMap.get_set_self acc k0 _
        | succ j =>
          simp only [List.getElem?_cons_succ] at h1 h2
          rw [(ih more _ hnd.2).2 j v k t h1 h2]
          have hmem : k ∈ more.map Prod.fst :=
            List.mem_map.2 ⟨(k, t), List.getElem?_mem h2, rfl⟩
          have hne : k ≠ k0 := fun e => hnd.1 (e ▸ hmem)
          rw [step k hne]

end bencode

namespace bencode

theorem fieldsHaveType_length (vs : List GoValue) (fields : List (Bytes × GoType))
    (h : fieldsHaveType vs fields = true) : vs.length = fields.length := by
  induction vs generalizing fields with
  | nil =>
    cases fields with
    | nil => rfl
    | cons f more => simp [fieldsHaveType] at h
  | cons v rest ih =>
    cases fields with
    | nil => simp [fieldsHaveType] at h
    | cons f more =>
      obtain ⟨k, t⟩ := f
      simp only [fieldsHaveType, Bool.and_eq_true] at h
      simp [ih more h.2]

theorem fieldsHaveType_getElem (vs : List GoValue) (fields : List (Bytes × GoType))
    (h : fieldsHaveType vs fields = true) (i : Nat) (v : GoValue) (k : Bytes) (t : GoType)
    (hv : vs[i]? = some v) (hf : fields[i]? = some (k, t)) : v.hasType t = true := by
  induction vs generalizing fields i with
  | nil => simp at hv
  | cons v0 rest ih =>
    cases fields with
    | nil => simp at hf
    | cons f more =>
      obtain ⟨k0, t0⟩ := f
      simp only [fieldsHaveType, Bool.and_eq_true] at h
      cases i with
      | zero =>
        simp only [List.getElem?_cons_zero, Option.some.injEq, Prod.mk.injEq] at hv hf
        rw [← hv, ← hf.2]; exact h.1
      | succ j =>
        exact ih more h.2 j (by simpa using hv) (by simpa using hf)

theorem zeroFields_length (fields : List (Bytes × GoType)) :
    (zeroFields fields).length = fields.length := by
  induction fields with
  | nil => rfl
  | cons f more ih =>
    obtain ⟨k, t⟩ := f
    simp [zeroFields, ih]

theorem zeroFields_getElem (fields : List (Bytes × GoType)) (i : Nat) (k : Bytes)
    (t : GoType) (hf : fields[i]? = some (k, t)) : (zeroFields fields)[i]? = some t.zero := by
  induction fields generalizing i with
  | nil => simp at hf
  | cons f more ih =>
    obtain ⟨k0, t0⟩ := f
    cases i with
    | zero =>
      simp only [List.getElem?_cons_zero, Option.some.injEq, Prod.mk.injEq] at hf
      simp [zeroFields, hf.2]
    | succ j =>
      simp only [List.getElem?_cons_succ] at hf
      simp [zeroFields, ih j hf]

mutual
theorem isZero_eq_zero : (v : GoValue) → (t : GoType) → v.hasType t = true →
    v.IsZero = true → v = t.zero
  | .int n, t, ht, hz => by
    cases t <;> simp [GoValue.hasType] at ht
    simp only [GoValue.IsZero, beq_iff_eq] at hz
    simp [GoType.zero, hz]
  | .str s, t, ht, hz => by
    cases t <;> simp [GoValue.hasType] at ht
    simp only [GoValue.IsZero, List.isEmpty_iff] at hz
    simp [GoType.zero, hz]
  | .nilSlice, t, ht, _ => by
    cases t <;> simp [GoValue.hasType] at ht
    simp [GoType.zero]
  | .slice items, _, _, hz => by simp [GoValue.IsZero] at hz
  | .struct vs, t, ht, hz => by
    cases t <;> simp only [GoValue.hasType, Bool.false_eq_true] at ht
    simp only [GoValue.IsZero] at hz
    simp [GoType.zero, allZero_eq_zero vs _ ht hz]
theorem allZero_eq_zero : (vs : List GoValue) → (fields : List (Bytes × GoType)) →
    fieldsHaveType vs fields = true → allZero vs = true → vs = zeroFields fields
  | [], fields, ht, _ => by
    cases fields with
    | nil => rfl
    | cons f more => simp [fieldsHaveType] at ht
  | v :: rest, fields, ht, hz => by
    cases fields with
    | nil => simp [fieldsHaveType] at ht
    | cons f more =>
      obtain ⟨k, t⟩ := f
      simp only [fieldsHaveType, Bool.and_eq_true] at ht
      simp only [allZero, Bool.and_eq_true] at hz
      simp only [zeroFields]
      rw [← isZero_eq_zero v t ht.1 hz.1, ← allZero_eq_zero rest more ht.2 hz.2]
end

mutual
theorem unpackValue_ok : (v : GoValue) → (t : GoType) → t.wellFormed = true →
    v.hasType t = true →
    (unpackValue v t).wellFormed = true ∧ (unpackValue v t).fitsInt = true
  | .int n, t, _, ht => by
    cases t <;> simp [GoValue.hasType] at ht
    simp [unpackValue, Value.wellFormed, Value.fitsInt, ht]
  | .str s, t, _, ht => by
    cases t <;> simp [GoValue.hasType] at ht
    simp [unpackValue, Value.wellFormed, Value.fitsInt, ht]
  | .nilSlice, _, _, _ => by
    simp [unpackValue, Value.wellFormed, Value.fitsInt, wellFormedList, fitsIntList]
  | .slice items, t, hw, ht => by
    cases t <;> simp only [GoValue.hasType, Bool.false_eq_true] at ht
    simp only [GoType.wellFormed] at hw
    simpa [unpackValue, Value.wellFormed, Value.fitsInt] using unpackItems_ok items _ hw ht
  | .struct vs, t, hw, ht => by
    cases t <;> simp only [GoValue.hasType, Bool.false_eq_true] at ht
    simp only [GoType.wellFormed, Bool.and_eq_true] at hw
    have h := unpackFields_ok vs _ hw.1 ht [] (by simp) (by simp [GoMap.keys])
    simp only [unpackValue, Value.wellFormed, Value.fitsInt, Bool.and_eq_true,
      decide_eq_true_eq, wellFormedEntries_iff, fitsIntEntries_iff]
    exact ⟨⟨fun e he => (h.1 e he).1, h.2⟩, fun e he => ⟨(h.1 e he).2.1, (h.1 e he).2.2⟩⟩
theorem unpackItems_ok : (items : List GoValue) → (elem : GoType) →
    elem.wellFormed = true → itemsHaveType items elem = true →
    wellFormedList (unpackItems items elem) = true ∧
      fitsIntList (unpackItems items elem) = true
  | [], _, _, _ => by simp [unpackItems, wellFormedList, fitsIntList]
  | v :: rest, elem, hw, ht => by
    simp only [itemsHaveType, Bool.and_eq_true] at ht
    have h1 := unpackValue_ok v elem hw ht.1
    have h2 := unpackItems_ok rest elem hw ht.2
    simp [unpackItems, wellFormedList, fitsIntList, h1, h2]
theorem unpackFields_ok : (vs : List GoValue) → (fields : List (Bytes × GoType)) →
    fieldsWellFormed fields = true → fieldsHaveType vs fields = true →
    ∀ acc : GoMap Value, (∀ e ∈ acc, EntryOk e) → List.Sorted (· < ·) (GoMap.keys acc) →
      (∀ e ∈ unpackFields vs fields acc, EntryOk e) ∧
        List.Sorted (· < ·) (GoMap.keys (unpackFields vs fields acc))
  | [], _, _, _ => fun acc h1 h2 => by
    simp only [unpackFields]; exact ⟨h1, h2⟩
  | v :: rest, fields, hw, ht => fun acc h1 h2 => by
    cases fields with
    | nil => simp [fieldsHaveType] at ht
    | cons f more =>
      obtain ⟨k, t⟩ := f
      simp only [fieldsHaveType, Bool.and_eq_true] at ht
      simp only [fieldsWellFormed, Bool.and_eq_true, decide_eq_true_eq] at hw
      simp only [unpackFields]
      split
      · exact unpackFields_ok rest more hw.2 ht.2 acc h1 h2
      · have hv := unpackValue_ok v t hw.1.2 ht.1
        refine unpackFields_ok rest more hw.2 ht.2 _ ?_ (GoMap.sorted_set acc k _ h2)
        intro e he
        rcases GoMap.mem_set acc k _ e he with he | he
        · rw [he]; exact ⟨hv.1, hw.1.1, hv.2⟩
        · exact h1 e he
end

theorem unmarshalStruct_eq (fields : List (Bytes × GoType)) (vs : List GoValue)
    (hnd : (fields.map Prod.fst).Nodup) (hlen : vs.length = fields.length)
    (d : List (Bytes × Value)) (structT : List GoValue) (hst : structT.length = vs.length)
    (hd : ∀ e ∈ d, ∃ (i : Nat) (v : GoValue) (t : GoType), vs[i]? = some v ∧
      fields[i]? = some (e.1, t) ∧ unmarshalByType e.2 t = some v)
    (hs : ∀ (i : Nat) (v : GoValue) (k : Bytes) (t : GoType), vs[i]? = some v →
      fields[i]? = some (k, t) → structT[i]? = some v ∨ k ∈ GoMap.keys d) :
    unmarshalStruct d fields structT = some vs := by
  induction d generalizing structT with
  | nil =>
    simp only [unmarshalStruct, Option.some.injEq]
    apply List.ext_getElem?
    intro i
    by_cases hi : i < vs.length
    · have hv : vs[i]? = some vs[i] := List.getElem?_eq_getElem hi
      have hf : fields[i]? = some fields[i] := List.getElem?_eq_getElem (by omega)
      rcases hs i vs[i] fields[i].1 fields[i].2 hv hf with h | h
      · rw [h, hv]
      · simp [GoMap.keys] at h
    · rw [List.getElem?_eq_none (by omega), List.getElem?_eq_none (by omega)]
  | cons e rest ih =>
    obtain ⟨k, val⟩ := e
    obtain ⟨i, v, t, hv, hf, hu⟩ := hd (k, val) (by simp)
    simp only at hf hu
    simp only [unmarshalStruct, fieldByTag_of_getElem fields i k t hnd hf, hu]
    apply ih
    · simpa using hst
    · intro e he
      exact hd e (List.mem_cons_of_mem _ he)
    · intro j v' k' t' hv' hf'
      by_cases hij : j = i
      · subst hij
        have hvv : v' = v := by rw [hv] at hv'; exact (Option.some.inj hv').symm
        have hlt : j < structT.length := by
          rw [hst]
          exact (List.getElem?_eq_some.1 hv).1
        left
        rw [hvv, List.getElem?_set_self hlt]
      · rcases hs j v' k' t' hv' hf' with h | h
        · left
          rw [List.getElem?_set_ne (fun e => hij e.symm)]
          exact h
        · simp only [GoMap.keys, List.map_cons, List.mem_cons] at h
          rcases h with h | h
          · rw [h] at hf'
            exact absurd (tag_index_unique fields j i k t' t hnd hf' hf) hij
          · right; exact h

end bencode

namespace bencode

mutual
theorem unmarshal_unpack : (v : GoValue) → (t : GoType) → t.wellFormed = true →
    v.hasType t = true → v.noNilItems = true → v ≠ .nilSlice →
    unmarshalByType (unpackValue v t) t = some v
  | .int n, t, _, ht, _, _ => by
    cases t <;> simp [GoValue.hasType] at ht
    simp [unpackValue, unmarshalByType]
  | .str s, t, _, ht, _, _ => by
    cases t <;> simp [GoValue.hasType] at ht
    simp [unpackValue, unmarshalByType]
  | .nilSlice, _, _, _, _, hne => absurd rfl hne
  | .slice items, t, hw, ht, hn, _ => by
    cases t <;> simp only [GoValue.hasType, Bool.false_eq_true] at ht
    simp only [GoType.wellFormed] at hw
    simp only [GoValue.noNilItems] at hn
    simp [unpackValue, unmarshalByType, unmarshal_unpackItems items _ hw ht hn]
  | .struct vs, t, hw, ht, hn, _ => by
    cases t <;> simp only [GoValue.hasType, Bool.false_eq_true] at ht
    rename_i fields
    simp only [GoType.wellFormed, Bool.and_eq_true, decide_eq_true_eq] at hw
    simp only [GoValue.noNilItems] at hn
    have hfields := unmarshal_unpackFields vs fields hw.1 ht hn
    have hlen := fieldsHaveType_length vs fields ht
    have hres := unmarshalStruct_eq fields vs hw.2 hlen (unpackFields vs fields [])
      (zeroFields fields) (by rw [zeroFields_length, hlen])
      (by
        intro e he
        rcases mem_unpackFields vs fields [] e he with h | ⟨i, v, t, h1, h2, h3, h4⟩
        · simp at h
        · exact ⟨i, v, t, h1, h2, by rw [h4]; exact hfields i v e.1 t h1 h2 h3⟩)
      (by
        intro i v k t h1 h2
        by_cases hz : v.IsZero = true
        · left
          have hty := fieldsHaveType_getElem vs fields ht i v k t h1 h2
          rw [zeroFields_getElem fields i k t h2, ← isZero_eq_zero v t hty hz]
        · right
          exact (keys_unpackFields vs fields []).2 i v k t h1 h2 (by simpa using hz))
    simp [unpackValue, unmarshalByType, hres]
theorem unmarshal_unpackItems : (items : List GoValue) → (elem : GoType) →
    elem.wellFormed = true → itemsHaveType items elem = true → itemsNotNil items = true →
    unmarshalSlice (unpackItems items elem) elem = some items
  | [], _, _, _, _ => by simp [unpackItems, unmarshalSlice]
  | v :: rest, elem, hw, ht, hn => by
    simp only [itemsHaveType, Bool.and_eq_true] at ht
    simp only [itemsNotNil, Bool.and_eq_true] at hn
    have hne : v ≠ .nilSlice := by
      intro e; rw [e] at hn; simp at hn
    have h1 := unmarshal_unpack v elem hw ht.1 hn.1.2 hne
    have h2 := unmarshal_unpackItems rest elem hw ht.2 hn.2
    simp [unpackItems, unmarshalSlice, h1, h2]
theorem unmarshal_unpackFields : (vs : List GoValue) → (fields : List (Bytes × GoType)) →
    fieldsWellFormed fields = true → fieldsHaveType vs fields = true →
    fieldsNoNilItems vs = true →
    ∀ (i : Nat) (v : GoValue) (k : Bytes) (t : GoType), vs[i]? = some v →
      fields[i]? = some (k, t) → v.IsZero = false →
      unmarshalByType (unpackValue v t) t = some v
  | [], _, _, _, _ => fun i v k t h1 _ _ => by simp at h1
  | v0 :: rest, fields, hw, ht, hn => fun i v k t h1 h2 h3 => by
    cases fields with
    | nil => simp at h2
    | cons f more =>
      obtain ⟨k0, t0⟩ := f
      simp only [fieldsHaveType, Bool.and_eq_true] at ht
      simp only [fieldsWellFormed, Bool.and_eq_true, decide_eq_true_eq] at hw
      simp only [fieldsNoNilItems, Bool.and_eq_true] at hn
      cases i with
      | zero =>
        simp only [List.getElem?_cons_zero, Option.some.injEq, Prod.mk.injEq] at h1 h2
        obtain ⟨_, ht0⟩ := h2
        subst h1; subst ht0
        have hne : v0 ≠ .nilSlice := by
          intro e; rw [e] at h3; simp [GoValue.IsZero] at h3
        exact unmarshal_unpack v0 t0 hw.1.2 ht.1 hn.1 hne
      | succ j =>
        exact unmarshal_unpackFields rest more hw.2 ht.2 hn.2 j v k t (by simpa using h1)
          (by simpa using h2) h3
end

end bencode

/-! ## The decoder never runs out of steps -/

namespace bencode

namespace Decoder

theorem readString_length (delim : Nat) (input s rest : Bytes)
    (h : readString delim input = some (s, rest)) : rest.length < input.length := by
  induction input generalizing s with
  | nil => simp [readString] at h
  | cons b more ih =>
    simp only [readString] at h
    split at h
    · simp only [Option.some.injEq, Prod.mk.injEq] at h
      rw [← h.2]; simp
    · cases hr : readString delim more with
      | none => simp [hr] at h
      | some p =>
        obtain ⟨s1, r1⟩ := p
        simp only [hr, Option.some.injEq, Prod.mk.injEq] at h
        have := ih s1 (by rw [hr, h.2])
        simp only [List.length_cons]
        omega

theorem consumeString_progress (input : Bytes) :
    consumeString input ≠ .error .fuel ∧
    ∀ s rest, consumeString input = .ok (s, rest) → rest.length < input.length := by
  unfold consumeString
  cases hr : readString 58 input with
  | none => simp
  | some p =>
    obtain ⟨sizeStr, r⟩ := p
    have hlen := readString_length 58 input sizeStr r hr
    simp only
    cases strconv.Atoi (sizeStr.take (sizeStr.length - 1)) with
    | none => simp
    | some size =>
      simp only
      split
      · simp
      · split
        · refine ⟨by simp, ?_⟩
          intro s rest h
          simp only [Except.ok.injEq, Prod.mk.injEq] at h
          rw [← h.2]; exact hlen
        · split
          · split <;> simp
          · refine ⟨by simp, ?_⟩
            intro s rest h
            simp only [Except.ok.injEq, Prod.mk.injEq] at h
            rw [← h.2]
            simp only [List.length_drop]
            omega

theorem consumeInteger_progress (input : Bytes) :
    consumeInteger input ≠ .error .fuel ∧
    ∀ i rest, consumeInteger input = .ok (i, rest) → rest.length < input.length := by
  unfold consumeInteger
  cases hr : readString 101 input with
  | none => simp
  | some p =>
    obtain ⟨iStr, r⟩ := p
    have hlen := readString_length 101 input iStr r hr
    simp only
    split
    · simp
    · split
      · simp
      · split
        · simp
        · cases strconv.Atoi ((iStr.drop 1).take (iStr.length - 2)) with
          | none => simp
          | some i =>
            refine ⟨by simp, ?_⟩
            intro i1 rest h
            simp only [Except.ok.injEq, Prod.mk.injEq] at h
            rw [← h.2]; exact hlen

theorem listLoop_progress (item : Bytes → Except DecodeError (Value × Bytes)) (n : Nat)
    (input : Bytes) (acc : List Value)
    (hitem : ∀ inp : Bytes, inp.length ≤ input.length → item inp ≠ .error .fuel ∧
      ∀ v rest, item inp = .ok (v, rest) → rest.length < inp.length)
    (hn : input.length < n) :
    listLoop item n input acc ≠ .error .fuel ∧
    ∀ l rest, listLoop item n input acc = .ok (l, rest) → rest.length < input.length := by
  induction n generalizing input acc with
  | zero => omega
  | succ n ih =>
    cases input with
    | nil => simp [listLoop]
    | cons c r =>
      simp only [listLoop]
      split
      · refine ⟨by simp, ?_⟩
        intro l rest h
        simp only [Except.ok.injEq, Prod.mk.injEq] at h
        rw [← h.2]; simp
      · have hi := hitem (c :: r) (le_refl _)
        cases hres : item (c :: r) with
        | error e =>
          simp only
          refine ⟨?_, by simp⟩
          intro h
          simp only [Except.error.injEq] at h
          exact hi.1 (by rw [hres, h])
        | ok p =>
          obtain ⟨v, r1⟩ := p
          simp only
          have hshort := hi.2 v r1 hres
          simp only [List.length_cons] at hshort hn
          have := ih r1 (acc ++ [v])
            (fun inp hinp => hitem inp (by simp only [List.length_cons]; omega)) (by omega)
          refine ⟨this.1, ?_⟩
          intro l rest h
          have := this.2 l rest h
          simp only [List.length_cons]
          omega

theorem dictLoop_progress (item : Bytes → Except DecodeError (Value × Bytes)) (n : Nat)
    (input : Bytes) (acc : GoMap Value)
    (hitem : ∀ inp : Bytes, inp.length ≤ input.length → item inp ≠ .error .fuel ∧
      ∀ v rest, item inp = .ok (v, rest) → rest.length < inp.length)
    (hn : input.length < n) :
    dictLoop item n input acc ≠ .error .fuel ∧
    ∀ d rest, dictLoop item n input acc = .ok (d, rest) → rest.length < input.length := by
  induction n generalizing input acc with
  | zero => omega
  | succ n ih =>
    cases input with
    | nil => simp [dictLoop]
    | cons c r =>
      simp only [dictLoop]
      split
      · refine ⟨by simp, ?_⟩
        intro l rest h
        simp only [Except.ok.injEq, Prod.mk.injEq] at h
        rw [← h.2]; simp
      · have hk := consumeString_progress (c :: r)
        cases hkey : consumeString (c :: r) with
        | error e =>
          simp only
          refine ⟨?_, by simp⟩
          intro h
          simp only [Except.error.injEq] at h
          exact hk.1 (by rw [hkey, h])
        | ok p =>
          obtain ⟨key, r1⟩ := p
          simp only
          have hshort1 := hk.2 key r1 hkey
          have hi := hitem r1 (le_of_lt hshort1)
          cases hres : item r1 with
          | error e =>
            simp only
            refine ⟨?_, by simp⟩
            intro h
            simp only [Except.error.injEq] at h
            exact hi.1 (by rw [hres, h])
          | ok q =>
            obtain ⟨v, r2⟩ := q
            simp only
            have hshort2 := hi.2 v r2 hres
            simp only [List.length_cons] at hshort1 hn
            have := ih r2 (GoMap.set acc key v)
              (fun inp hinp => hitem inp (by simp only [List.length_cons]; omega)) (by omega)
            refine ⟨this.1, ?_⟩
            intro l rest h
            have := this.2 l rest h
            simp only [List.length_cons]
            omega

theorem consume_progress (fuel : Nat) (input : Bytes) (hf : input.length < fuel) :
    consume fuel input ≠ .error .fuel ∧
    ∀ v rest, consume fuel input = .ok (v, rest) → rest.length < input.length := by
  induction fuel generalizing input with
  | zero => omega
  | succ f ih =>
    cases input with
    | nil => simp [consume]
    | cons c r =>
      simp only [List.length_cons] at hf
      simp only [consume]
      split
      · have hl := listLoop_progress (consume f) f r []
          (fun inp hinp => ih inp (by omega)) (by omega)
        cases hres : listLoop (consume f) f r [] with
        | error e =>
          simp only
          refine ⟨?_, by simp⟩
          intro h
          simp only [Except.error.injEq] at h
          exact hl.1 (by rw [hres, h])
        | ok p =>
          obtain ⟨l, r1⟩ := p
          simp only
          refine ⟨by simp, ?_⟩
          intro v rest h
          simp only [Except.ok.injEq, Prod.mk.injEq] at h
          have := hl.2 l r1 hres
          rw [← h.2]; simp only [List.length_cons]; omega
      · split
        · have hl := dictLoop_progress (consume f) f r []
            (fun inp hinp => ih inp (by omega)) (by omega)
          cases hres : dictLoop (consume f) f r [] with
          | error e =>
            simp only
            refine ⟨?_, by simp⟩
            intro h
            simp only [Except.error.injEq] at h
            exact hl.1 (by rw [hres, h])
          | ok p =>
            obtain ⟨l, r1⟩ := p
            simp only
            refine ⟨by simp, ?_⟩
            intro v rest h
            simp only [Except.ok.injEq, Prod.mk.injEq] at h
            have := hl.2 l r1 hres
            rw [← h.2]; simp only [List.length_cons]; omega
        · split
          · have hl := consumeInteger_progress (c :: r)
            cases hres : consumeInteger (c :: r) with
            | error e =>
              simp only
              refine ⟨?_, by simp⟩
              intro h
              simp only [Except.error.injEq] at h
              exact hl.1 (by rw [hres, h])
            | ok p =>
              obtain ⟨i, r1⟩ := p
              simp only
              refine ⟨by simp, ?_⟩
              intro v rest h
              simp only [Except.ok.injEq, Prod.mk.injEq] at h
              have := hl.2 i r1 hres
              rw [← h.2]; exact this
          · have hl := consumeString_progress (c :: r)
            cases hres : consumeString (c :: r) with
            | error e =>
              simp only
              refine ⟨?_, by simp⟩
              intro h
              simp only [Except.error.injEq] at h
              exact hl.1 (by rw [hres, h])
            | ok p =>
              obtain ⟨s, r1⟩ := p
              simp only
              refine ⟨by simp, ?_⟩
              intro v rest h
              simp only [Except.ok.injEq, Prod.mk.injEq] at h
              have := hl.2 s r1 hres
              rw [← h.2]; exact this

end Decoder

/-- The step bound of `Decode` is never reached: `Decode` returns a value or one of the errors
of the decoder. -/
theorem Decode_ne_fuel (data : Bytes) : Decode data ≠ .error .fuel :=
  (Decoder.consume_progress (data.length + 1) data (by omega)).1

end bencode

/-! ## The encoder on dictionaries in any iteration order -/

namespace GoMap

theorem keys_set_of_not_mem {β : Type} (m : GoMap β) (k : Bytes) (v : β)
    (h : k ∉ GoMap.keys m) :
    GoMap.keys (GoMap.set m k v) = List.orderedInsert (· ≤ ·) k (GoMap.keys m) := by
  induction m with
  | nil => simp [GoMap.set, GoMap.keys]
  | cons x rest ih =>
    obtain ⟨k', v'⟩ := x
    have hne : k ≠ k' := by
      intro e
      apply h
      simp [GoMap.keys, e]
    have hrest : k ∉ GoMap.keys rest := by
      intro e
      apply h
      simp only [GoMap.keys, List.map_cons, List.mem_cons]
      exact Or.inr e
    unfold GoMap.set
    split
    · rename_i hlt
      simp [GoMap.keys, List.orderedInsert, le_of_lt hlt]
    · rename_i hnlt
      have hnle : ¬ k ≤ k' := fun hle => by
        rcases lt_or_eq_of_le hle with h1 | h1
        · exact hnlt h1
        · exact hne h1
      have := ih hrest
      simp only [GoMap.keys] at this
      simp [GoMap.keys, List.orderedInsert, hnle, this]

end GoMap

namespace bencode

theorem canonicalEntries_cons (k : Bytes) (v : Value) (rest : List (Bytes × Value)) :
    canonicalEntries ((k, v) :: rest) = GoMap.set (canonicalEntries rest) k v.canonical := by
  simp [canonicalEntries]

/-- The keys of the canonical listing are the keys that the encoder sorts. -/
theorem keys_canonicalEntries (d : List (Bytes × Value)) (hnd : (GoMap.keys d).Nodup) :
    GoMap.keys (canonicalEntries d) = Encoder.getSortedDictionaryKeys d := by
  induction d with
  | nil => simp [canonicalEntries, GoMap.keys, Encoder.getSortedDictionaryKeys]
  | cons e rest ih =>
    obtain ⟨k, v⟩ := e
    simp only [GoMap.keys, List.map_cons, List.nodup_cons] at hnd
    have ih1 := ih hnd.2
    have hk : k ∉ GoMap.keys (canonicalEntries rest) := by
      rw [ih1]
      unfold Encoder.getSortedDictionaryKeys
      intro hmem
      exact hnd.1 ((List.perm_insertionSort _ _).mem_iff.1 hmem)
    rw [canonicalEntries_cons, GoMap.keys_set_of_not_mem _ _ _ hk, ih1]
    simp [Encoder.getSortedDictionaryKeys, GoMap.keys]

theorem mem_canonicalEntries (d : List (Bytes × Value)) (e : Bytes × Value)
    (h : e ∈ canonicalEntries d) : ∃ e0 ∈ d, e = (e0.1, e0.2.canonical) := by
  induction d with
  | nil => simp [canonicalEntries] at h
  | cons x rest ih =>
    obtain ⟨k, v⟩ := x
    rw [canonicalEntries_cons] at h
    rcases GoMap.mem_set _ _ _ _ h with h1 | h1
    · exact ⟨(k, v), by simp, h1⟩
    · obtain ⟨e0, he0, he⟩ := ih h1
      exact ⟨e0, List.mem_cons_of_mem _ he0, he⟩

/-- The canonical listing is the same map: under every key the same value, in its canonical
form. -/
theorem get_canonicalEntries (d : List (Bytes × Value)) (k : Bytes) :
    GoMap.get (canonicalEntries d) k = (GoMap.get d k).map Value.canonical := by
  induction d with
  | nil => simp [canonicalEntries, GoMap.get]
  | cons x rest ih =>
    obtain ⟨k0, v0⟩ := x
    rw [canonicalEntries_cons]
    by_cases hk : k = k0
    · subst hk
      simp [GoMap.get_set_self, GoMap.get]
    · rw [GoMap.get_set_ne _ _ _ _ hk, ih]
      simp [GoMap.get, hk]

theorem sorted_canonicalEntries (d : List (Bytes × Value)) :
    List.Sorted (· < ·) (GoMap.keys (canonicalEntries d)) := by
  induction d with
  | nil => simp [canonicalEntries, GoMap.keys]
  | cons x rest ih =>
    obtain ⟨k, v⟩ := x
    rw [canonicalEntries_cons]
    exact GoMap.sorted_set _ _ _ ih

mutual
/-- The encoder returns the reference encoding of the canonical listing, in whatever order
the entries of the dictionaries are visited. -/
theorem consume_eq_canonical : (v : Value) → v.supported = true →
    Encoder.consume v = some (refEncode v.canonical)
  | .int n, _ => by
    simp [Encoder.consume, Value.canonical, refEncode, Encoder.consumeInteger,
      refDecimalInt_eq_formatInt]
  | .str s, _ => by
    simp [Encoder.consume, Value.canonical, refEncode, refString_eq_consumeString]
  | .list l, h => by
    simp only [Value.supported] at h
    simp [Encoder.consume, Value.canonical, refEncode, consumeItems_eq_canonical l h]
  | .dict d, h => by
    simp only [Value.supported, Bool.and_eq_true, decide_eq_true_eq] at h
    have hvals := consumeValues_eq_canonical d h.1
    have hkeys : GoMap.keys (Encoder.consumeValues d) = GoMap.keys d := by
      rw [hvals]; simp [GoMap.keys, Function.comp_def]
    have hnd : (GoMap.keys (Encoder.consumeValues d)).Nodup := by
      rw [hkeys]; exact h.2
    have hw := writeEntries_eq_ref (Encoder.consumeValues d) hnd (canonicalEntries d) (by
      intro e he
      obtain ⟨e0, he0, rfl⟩ := mem_canonicalEntries d e he
      rw [hvals]
      exact List.mem_map.2 ⟨e0, he0, rfl⟩)
    rw [keys_canonicalEntries d h.2] at hw
    simp [Encoder.consume, Value.canonical, refEncode, hw]
  | .other, h => by simp [Value.supported] at h
theorem consumeItems_eq_canonical : (l : List Value) → supportedList l = true →
    Encoder.consumeItems l = some (refEncodeList (canonicalList l))
  | [], _ => by simp [Encoder.consumeItems, canonicalList, refEncodeList]
  | v :: rest, h => by
    simp only [supportedList, Bool.and_eq_true] at h
    simp [Encoder.consumeItems, canonicalList, refEncodeList, consume_eq_canonical v h.1,
      consumeItems_eq_canonical rest h.2]
theorem consumeValues_eq_canonical : (d : List (Bytes × Value)) → supportedEntries d = true →
    Encoder.consumeValues d = d.map (fun e => (e.1, some (refEncode e.2.canonical)))
  | [], _ => by simp [Encoder.consumeValues]
  | (k, v) :: rest, h => by
    simp only [supportedEntries, Bool.and_eq_true] at h
    simp [Encoder.consumeValues, consume_eq_canonical v h.1,
      consumeValues_eq_canonical rest h.2]
end

mutual
/-- The canonical listing of a supported value is well formed: the keys of every dictionary
ascend strictly. -/
theorem canonical_wellFormed : (v : Value) → v.supported = true →
    v.canonical.wellFormed = true
  | .int n, _ => by simp [Value.canonical, Value.wellFormed]
  | .str s, _ => by simp [Value.canonical, Value.wellFormed]
  | .list l, h => by
    simp only [Value.supported] at h
    simp [Value.canonical, Value.wellFormed, canonicalList_wellFormed l h]
  | .dict d, h => by
    simp only [Value.supported, Bool.and_eq_true, decide_eq_true_eq] at h
    simp only [Value.canonical, Value.wellFormed, Bool.and_eq_true, decide_eq_true_eq]
    exact ⟨canonicalEntries_wellFormed d h.1, sorted_canonicalEntries d⟩
  | .other, h => by simp [Value.supported] at h
theorem canonicalList_wellFormed : (l : List Value) → supportedList l = true →
    wellFormedList (canonicalList l) = true
  | [], _ => by simp [canonicalList, wellFormedList]
  | v :: rest, h => by
    simp only [supportedList, Bool.and_eq_true] at h
    simp [canonicalList, wellFormedList, canonical_wellFormed v h.1,
      canonicalList_wellFormed rest h.2]
theorem canonicalEntries_wellFormed : (d : List (Bytes × Value)) → supportedEntries d = true →
    wellFormedEntries (canonicalEntries d) = true
  | [], _ => by simp [canonicalEntries, wellFormedEntries]
  | (k, v) :: rest, h => by
    simp only [supportedEntries, Bool.and_eq_true] at h
    have hv := canonical_wellFormed v h.1
    have hrest := canonicalEntries_wellFormed rest h.2
    rw [canonicalEntries_cons, wellFormedEntries_iff]
    intro e he
    rcases GoMap.mem_set _ _ _ _ he with h1 | h1
    · rw [h1]; exact hv
    · exact (wellFormedEntries_iff _).1 hrest e h1
end

end bencode

/-! ## Theorems: the bencode codec -/

set_option maxRecDepth 100000

namespace bencode

/-- C1: for every well-formed bencoded value `v` (supported shapes at every level, dictionaries
being maps, integers and lengths being Go `int`s) and every byte sequence `tail`, `Encode v`
succeeds and `Decode` of the encoding followed by `tail` returns exactly `(v, tail)` with no
error; in particular `Decode (Encode v)` returns `(v, [])`. -/
theorem Decode_Encode_roundtrip (v : Value) (hw : v.wellFormed = true)
    (hf : v.fitsInt = true) (tail : Bytes) :
    (Encode v).map (fun enc => Decode (enc ++ tail)) = some (.ok (v, tail)) ∧
    (Encode v).map Decode = some (.ok (v, [])) := by
  have henc : Encode v = some (refEncode v) := consume_eq_ref v hw
  have h1 := consume_refEncode v hw hf ((refEncode v ++ tail).length + 1) tail
    (by simp; omega)
  have h2 := consume_refEncode v hw hf ((refEncode v).length + 1) [] (by omega)
  rw [List.append_nil] at h2
  rw [henc]
  simp only [Option.map_some', Decode]
  rw [h1, h2]
  exact ⟨rfl, rfl⟩

/-- C1, at the dictionary `{"hello": "world"}` followed by the bytes `FF 00 FF`. -/
theorem Decode_Encode_roundtrip_witness :
    (Encode helloWorld).map (fun enc => Decode (enc ++ [255, 0, 255]))
        = some (.ok (helloWorld, [255, 0, 255])) ∧
    (Encode helloWorld).map Decode = some (.ok (helloWorld, [])) :=
  Decode_Encode_roundtrip helloWorld (by decide) (by decide) [255, 0, 255]

/-- C2: for every supported value, whatever the order in which the entries of its dictionaries
are visited, `Encode` returns the reference bencoding of its canonical listing: `<decimal
length>:<bytes>` for a string, `i<decimal>e` for an integer (with `-` for negatives), `l`,
the elements in order, `e` for a list, and `d`, key and value for each key in strictly
ascending order, `e` for a dictionary, at every nesting level. The canonical listing has
strictly ascending keys at every level and is the same map: under every key it holds the
same value. For a value that is listed in ascending order already, this is its reference
bencoding. -/
theorem Encode_eq_reference (v : Value) (hs : v.supported = true) :
    Encode v = some (refEncode v.canonical) ∧
    v.canonical.wellFormed = true ∧
    (∀ (d : List (Bytes × Value)) (k : Bytes),
      GoMap.get (canonicalEntries d) k = (GoMap.get d k).map Value.canonical) ∧
    (v.wellFormed = true → Encode v = some (refEncode v)) :=
  ⟨consume_eq_canonical v hs, canonical_wellFormed v hs, get_canonicalEntries,
    fun hw => consume_eq_ref v hw⟩

/-- C2, at the dictionary `{"hello": "world", "number": 42, "values": ["foo", 24, "bar"]}`
visited in the order `values`, `hello`, `number`: the encoding is that of the dictionary
listed in ascending order. -/
theorem Encode_eq_reference_witness :
    Encode valuesHelloNumber = some (refEncode helloNumberValues) ∧
    valuesHelloNumber.canonical = helloNumberValues := by
  have h := (Encode_eq_reference valuesHelloNumber (by decide)).1
  have hc : valuesHelloNumber.canonical = helloNumberValues := rfl
  rw [hc] at h
  exact ⟨h, hc⟩

/-- The encoder on the examples of the format: strings, integers, a list, a dictionary. -/
theorem Encode_examples :
    Encode (.str (bytesOf "hello")) = some (bytesOf "5:hello") ∧
    Encode (.int 42) = some (bytesOf "i42e") ∧
    Encode (.int (-42)) = some (bytesOf "i-42e") ∧
    Encode (.list [.str (bytesOf "hello"), .int 42, .str (bytesOf "world")])
      = some (bytesOf "l5:helloi42e5:worlde") ∧
    Encode helloNumberValues
      = some (bytesOf "d5:hello5:world6:numberi42e6:valuesl3:fooi24e3:baree") ∧
    Encode valuesHelloNumber
      = some (bytesOf "d5:hello5:world6:numberi42e6:valuesl3:fooi24e3:baree") := by
  decide

/-- The decoder on a dictionary followed by three spare bytes. -/
theorem Decode_example :
    Decode (bytesOf "d5:hello5:worlde" ++ [255, 0, 255])
      = .ok (helloWorld, [255, 0, 255]) := by
  rfl

end bencode

/-! ## Theorems: the torrent model -/

namespace torrent

open piece bencode

/-- C4: on the torrent with piece length 32768 and the files `f1` (40000 bytes) and `f2`
(25768 bytes), `destinations` for the middle piece returns for `f2` the range `[0, 25768)` of
the piece, not the range `[7232, 32768)` that the layout of the files requires: the ranges
neither are contiguous nor end at the piece length. -/
theorem destinations_middle_piece :
    twoFilesTorrent.destinations 32768 32768
      = [{ Path := bytesOf "t/f1", Offset := 32768, Start := 0, End := 7232 },
         { Path := bytesOf "t/f2", Offset := 0, Start := 0, End := 25768 }] ∧
    twoFilesTorrent.destinations 32768 32768
      ≠ [{ Path := bytesOf "t/f1", Offset := 32768, Start := 0, End := 7232 },
         { Path := bytesOf "t/f2", Offset := 0, Start := 7232, End := 32768 }] := by
  decide

/-- C5: after `Open` of the two-file torrent the destinations of the three pieces cover
`32768 + (7232 + 25768) + 232 = 66000` bytes, while `Length()` is 65768. -/
theorem Open_destination_bytes :
    (match Open constantDigest [] id twoFilesTorrentFile with
      | .ok (t, pieces) => some (destinationBytes pieces, t.Length)
      | .error _ => none) = some (66000, 65768) := by
  decide

/-- C6: for the single-file torrent with `info.length = 10` and no files list, `Length()`
returns 0, before and after `cacheLength`: the assignment after the loop over the (absent)
files overwrites the length taken from `info.length`. -/
theorem Length_single_file :
    singleFileTorrent.MetaInfo.Info.Length = 10 ∧
    singleFileTorrent.Length = 0 ∧ singleFileTorrent.cacheLength.Length = 0 := by
  decide

/-- C7: for the single-file torrent with 10 bytes of content, piece length 4 and three piece
hashes, `pieces` creates three pieces of the lengths 0, -4 and -8 (offsets 0, 4, 8), not of
the lengths 4, 4 and 2. -/
theorem pieces_single_file :
    (singleFileTorrent.pieces id).map (fun p => (p.Index, p.Offset, p.Length))
      = [(0, 0, 0), (1, 4, -4), (2, 8, -8)] := by
  decide

/-- C8: for every piece `p` with index at least 0 (`20 * Index + 20` being a Go `int`, the
digest `sha1` having 20 bytes), `IsValidPieceHash` returns a result; if it returns true then
`sha1 p.Data` is the slice `Pieces[20 * Index : 20 * Index + 20]`, and when that slice does
not lie within `Pieces` it returns false. -/
theorem IsValidPieceHash_sound (sha1 : Bytes → Bytes) (hsha : ∀ d, (sha1 d).length = 20)
    (t : Torrent) (p : Piece) (hidx : 0 ≤ p.Index) (_hint : inIntRange (p.Index * 20 + 20)) :
    t.IsValidPieceHash sha1 p ≠ none ∧
    (t.IsValidPieceHash sha1 p = some true →
      Torrent.sliceBytes t.MetaInfo.Info.Pieces (p.Index * 20) (p.Index * 20 + 20)
        = some (sha1 p.Data)) ∧
    (Torrent.sliceBytes t.MetaInfo.Info.Pieces (p.Index * 20) (p.Index * 20 + 20) = none →
      t.IsValidPieceHash sha1 p = some false) := by
  unfold Torrent.IsValidPieceHash Torrent.PieceHash
  by_cases hlen : p.Index * 20 + 20 > (t.MetaInfo.Info.Pieces.length : Int)
  · have hne : ([] : Bytes) ≠ sha1 p.Data := by
      intro h
      have := hsha p.Data
      rw [← h] at this
      simp at this
    simp [hlen, hne]
  · have hin : 0 ≤ p.Index * 20 ∧ p.Index * 20 ≤ p.Index * 20 + 20 ∧
        p.Index * 20 + 20 ≤ (t.MetaInfo.Info.Pieces.length : Int) := by omega
    simp only [hlen, if_false]
    simp only [Torrent.sliceBytes, hin, and_self, if_true]
    simp

/-- C8, at a torrent with one piece whose hash is the digest of the received data. -/
theorem IsValidPieceHash_sound_witness :
    onePieceTorrent.IsValidPieceHash constantDigest onePiece ≠ none ∧
    (onePieceTorrent.IsValidPieceHash constantDigest onePiece = some true →
      Torrent.sliceBytes onePieceTorrent.MetaInfo.Info.Pieces (onePiece.Index * 20)
        (onePiece.Index * 20 + 20) = some (constantDigest onePiece.Data)) ∧
    (Torrent.sliceBytes onePieceTorrent.MetaInfo.Info.Pieces (onePiece.Index * 20)
        (onePiece.Index * 20 + 20) = none →
      onePieceTorrent.IsValidPieceHash constantDigest onePiece = some false) :=
  IsValidPieceHash_sound constantDigest (fun _ => rfl) onePieceTorrent onePiece (by decide)
    (by decide)

/-- In multi-file mode, with the cache empty or filled, `Length()` is the sum of the lengths of
the files, added up in the arithmetic of the type `int`. -/
theorem Length_multi_file (t : Torrent)
    (hcache : t.length = 0 ∨
      t.length = t.MetaInfo.Info.Files.foldl
        (fun size file => Torrent.wrapInt (size + file.Length)) 0) :
    t.Length = t.MetaInfo.Info.Files.foldl
      (fun size file => Torrent.wrapInt (size + file.Length)) 0 := by
  unfold Torrent.Length
  rcases hcache with h | h
  · simp only [h, if_true, Torrent.cacheLength]
    split <;> rfl
  · by_cases h0 : t.length = 0
    · simp only [h0, if_true, Torrent.cacheLength]
      split <;> rfl
    · simp only [h0, if_false]
      exact h

/-- Whenever `Length()` is the total length `T` (as it is in multi-file mode), `P > 0` and the
number `N` of piece hashes is `ceil(T / P)`, `pieces` creates exactly `N` pieces, the piece
with index `i` having offset `i * P`, length `P` when `i < N - 1` and `T - (N - 1) * P` when
`i = N - 1`, whatever permutation the shuffle applies. -/
theorem pieces_of_total_length (shuffle : List Piece → List Piece)
    (hperm : ∀ l, (shuffle l).Perm l) (t : Torrent) (P T : Int) (N : Nat)
    (hP : t.PieceLength = P) (hPpos : 0 < P) (hT : t.Length = T)
    (hN : t.MetaInfo.Info.Pieces.length / 20 = N)
    (hlo : ((N : Int) - 1) * P < T) (hhi : T ≤ (N : Int) * P) :
    (t.pieces shuffle).length = N ∧
    ∀ p ∈ t.pieces shuffle, ∃ i : Nat, i < N ∧ p.Index = (i : Int) ∧ p.Offset = (i : Int) * P ∧
      p.Length = if (i : Int) < (N : Int) - 1 then P else T - ((N : Int) - 1) * P := by
  unfold Torrent.pieces
  simp only [hN]
  by_cases h0 : N = 0
  · subst h0
    simp
  · simp only [h0, if_false]
    constructor
    · rw [(hperm _).length_eq]; simp
    · intro p hp
      have hp2 := (hperm _).mem_iff.1 hp
      obtain ⟨i, hi, rfl⟩ := List.mem_map.1 hp2
      have hi2 : i < N := List.mem_range.1 hi
      refine ⟨i, hi2, rfl, by simp [Torrent.pieceAt, hP], ?_⟩
      simp only [Torrent.pieceAt, hP, hT]
      by_cases hlast : (i : Int) < (N : Int) - 1
      · have hle : (i : Int) * P + P ≤ ((N : Int) - 1) * P := by nlinarith
        have : ¬ ((i : Int) * P + P > T) := by omega
        simp [this, hlast]
      · have hi3 : (i : Int) = (N : Int) - 1 := by omega
        simp only [hlast, if_false]
        rw [hi3]
        split
        · rfl
        · rename_i hgt
          have : ((N : Int) - 1) * P + P = (N : Int) * P := by ring
          omega

/-- The two-file torrent has the three pieces of lengths 32768, 32768 and 232. -/
theorem pieces_of_total_length_witness :
    (twoFilesTorrent.pieces id).length = 3 ∧
    ∀ p ∈ twoFilesTorrent.pieces id, ∃ i : Nat, i < 3 ∧ p.Index = (i : Int) ∧
      p.Offset = (i : Int) * 32768 ∧
      p.Length = if (i : Int) < ((3 : Nat) : Int) - 1 then 32768
        else 65768 - (((3 : Nat) : Int) - 1) * 32768 :=
  pieces_of_total_length id (fun l => List.Perm.refl l) twoFilesTorrent 32768 65768 3 rfl
    (by decide) (by decide) (by decide) (by decide) (by decide)

end torrent

/-! ## Theorems: Marshal and Unmarshal -/

namespace bencode

/-- C9 (as stated, refuted): the `MetaInfo` record whose `AnnounceList` holds one nil tier,
`[][]string{nil}`, is marshalled to `d13:announce-listlleee` and read back as the record whose
tier is an empty, non-nil slice, which is a different value. -/
theorem Unmarshal_Marshal_nil_element :
    torrent.MetaInfoType.wellFormed = true ∧
    torrent.nilTierMetaInfo.hasType torrent.MetaInfoType = true ∧
    Marshal torrent.MetaInfoType torrent.nilTierMetaInfo
      = some (bytesOf "d13:announce-listlleee") ∧
    (Marshal torrent.MetaInfoType torrent.nilTierMetaInfo).map
        (fun data => Unmarshal data torrent.MetaInfoType)
      = some (.ok torrent.emptyTierMetaInfo) ∧
    torrent.emptyTierMetaInfo ≠ torrent.nilTierMetaInfo := by
  refine ⟨by decide, by decide, by decide, rfl, ?_⟩
  simp [torrent.emptyTierMetaInfo, torrent.nilTierMetaInfo]

/-- C9 (amended): for every record type with pairwise distinct tags and every record `r` of
that type built from `int`, `string`, nested records and slices of these, in which no element
of a slice is a nil slice, `Marshal r` succeeds and `Unmarshal` of the result yields a record
equal to `r`. -/
theorem Unmarshal_Marshal_roundtrip (fields : List (Bytes × GoType)) (r : GoValue)
    (hw : (GoType.struct fields).wellFormed = true)
    (ht : r.hasType (.struct fields) = true) (hn : r.noNilItems = true) :
    (Marshal (.struct fields) r).map (fun data => Unmarshal data (.struct fields))
      = some (.ok r) := by
  have hne : r ≠ .nilSlice := by
    intro e; rw [e] at ht; simp [GoValue.hasType] at ht
  have hok := unpackValue_ok r (.struct fields) hw ht
  have henc : Encode (unpackValue r (.struct fields))
      = some (refEncode (unpackValue r (.struct fields))) := consume_eq_ref _ hok.1
  have hdec := consume_refEncode _ hok.1 hok.2
    ((refEncode (unpackValue r (.struct fields))).length + 1) [] (by omega)
  rw [List.append_nil] at hdec
  have hun := unmarshal_unpack r (.struct fields) hw ht hn hne
  cases r with
  | struct vs =>
    simp only [Marshal, henc, Option.map_some', Unmarshal, Decode, hdec]
    simp only [unpackValue] at hun ⊢
    simp [hun]
  | int n => simp [GoValue.hasType] at ht
  | str s => simp [GoValue.hasType] at ht
  | nilSlice => simp [GoValue.hasType] at ht
  | slice items => simp [GoValue.hasType] at ht

/-- C9 (amended), at a value of type `Info` with two files. -/
theorem Unmarshal_Marshal_roundtrip_witness :
    (Marshal torrent.InfoType torrent.twoFilesInfo).map
        (fun data => Unmarshal data torrent.InfoType)
      = some (.ok torrent.twoFilesInfo) :=
  Unmarshal_Marshal_roundtrip _ torrent.twoFilesInfo (by decide) (by decide) (by decide)

/-- C10: for every record with pairwise distinct tags, `Marshal` encodes the dictionary built
by `unpackValue`, and for every field of the record that dictionary contains the key given by
the tag of the field if and only if the value of the field is not zero for its kind; the value
stored under the key is then the unpacked (bencoded) form of the field, which for a nested
record is the dictionary built in the same way. -/
theorem Marshal_omits_zero_fields (fields : List (Bytes × GoType)) (vs : List GoValue)
    (hnd : (fields.map Prod.fst).Nodup) (i : Nat) (v : GoValue) (k : Bytes) (t : GoType)
    (hv : vs[i]? = some v) (hf : fields[i]? = some (k, t)) :
    Marshal (.struct fields) (.struct vs) = Encode (.dict (unpackFields vs fields [])) ∧
    ((GoMap.get (unpackFields vs fields []) k).isSome = !v.IsZero) ∧
    (v.IsZero = false → GoMap.get (unpackFields vs fields []) k = some (unpackValue v t)) ∧
    (∀ (vs1 : List GoValue) (fields1 : List (Bytes × GoType)), v = .struct vs1 →
      t = .struct fields1 → unpackValue v t = .dict (unpackFields vs1 fields1 [])) := by
  have hget := (get_unpackFields vs fields [] hnd).2 i v k t hv hf
  refine ⟨rfl, ?_, ?_, ?_⟩
  · rw [hget]
    cases hz : v.IsZero <;> simp [GoMap.get]
  · intro hz
    rw [hget, hz]
    simp
  · intro vs1 fields1 e1 e2
    rw [e1, e2]
    simp [unpackValue]

/-- C10, at the field `files` of a value of type `Info` with two files. -/
theorem Marshal_omits_zero_fields_witness :
    Marshal torrent.InfoType torrent.twoFilesInfo
      = Encode (.dict (unpackFields
          [.slice [.struct [.int 40000, .slice [.str (bytesOf "f1")]],
                   .struct [.int 25768, .slice [.str (bytesOf "f2")]]],
            .int 0, .str (bytesOf "t"), .int 32768, .str torrent.threeHashes, .int 0]
          [(bytesOf "files", .slice torrent.InfoFileType), (bytesOf "length", .int),
            (bytesOf "name", .string), (bytesOf "piece length", .int),
            (bytesOf "pieces", .string), (bytesOf "private", .int)] [])) ∧
    ((GoMap.get (unpackFields
          [.slice [.struct [.int 40000, .slice [.str (bytesOf "f1")]],
                   .struct [.int 25768, .slice [.str (bytesOf "f2")]]],
            .int 0, .str (bytesOf "t"), .int 32768, .str torrent.threeHashes, .int 0]
          [(bytesOf "files", .slice torrent.InfoFileType), (bytesOf "length", .int),
            (bytesOf "name", .string), (bytesOf "piece length", .int),
            (bytesOf "pieces", .string), (bytesOf "private", .int)] [])
        (bytesOf "length")).isSome = !(GoValue.int 0).IsZero) :=
  have h := Marshal_omits_zero_fields
    [(bytesOf "files", .slice torrent.InfoFileType), (bytesOf "length", .int),
      (bytesOf "name", .string), (bytesOf "piece length", .int),
      (bytesOf "pieces", .string), (bytesOf "private", .int)]
    [.slice [.struct [.int 40000, .slice [.str (bytesOf "f1")]],
             .struct [.int 25768, .slice [.str (bytesOf "f2")]]],
      .int 0, .str (bytesOf "t"), .int 32768, .str torrent.threeHashes, .int 0]
    (by decide) 1 (.int 0) (bytesOf "length") .int rfl rfl
  ⟨h.1, h.2.1⟩

end bencode

namespace torrent

open bencode

/-- C3: for the info dictionary with the keys `length`, `name`, `piece length`, `pieces` and
`source`, the `Info` record that `Unmarshal` reads (from the dictionary alone, or as the field
`info` of a torrent file) has lost the key `source`; the bytes that `generateInfoHash` hashes
are the encoding of the first four keys only and differ from the bencoding of the dictionary,
which ends with `6:source1:xe`. -/
theorem infoHashInput_drops_unknown_key :
    (Encode infoDictWithSource).map (fun data => Unmarshal data InfoType)
      = some (.ok infoWithoutSource) ∧
    (Encode infoDictWithSource).map (fun data =>
        (Unmarshal (bytesOf "d8:announce3:url4:info" ++ data ++ bytesOf "e") MetaInfoType).map
          infoField)
      = some (.ok infoWithoutSource) ∧
    infoHashInput infoWithoutSource
      = some (bytesOf "d6:lengthi10e4:name1:t12:piece lengthi4e6:pieces20:"
          ++ List.replicate 20 7 ++ bytesOf "e") ∧
    Encode infoDictWithSource
      = some (bytesOf "d6:lengthi10e4:name1:t12:piece lengthi4e6:pieces20:"
          ++ List.replicate 20 7 ++ bytesOf "6:source1:xe") ∧
    infoHashInput infoWithoutSource ≠ Encode infoDictWithSource := by
  refine ⟨rfl, rfl, by decide, by decide, by decide⟩

end torrent

/-! ## Theorems: Unmarshal of a dictionary -/

namespace GoMap

theorem mem_of_get {β : Type} (m : GoMap β) (k : Bytes) (v : β)
    (h : GoMap.get m k = some v) : (k, v) ∈ m := by
  induction m with
  | nil => simp [GoMap.get] at h
  | cons e rest ih =>
    obtain ⟨k', v'⟩ := e
    simp only [GoMap.get] at h
    split at h
    · rename_i heq
      simp only [Option.some.injEq] at h
      rw [heq, h]; simp
    · exact List.mem_cons_of_mem _ (ih h)

end GoMap

namespace bencode

theorem expectedFields_length (fields : List (Bytes × GoType)) (d : GoMap Value) :
    (expectedFields fields d).length = fields.length := by
  induction fields with
  | nil => rfl
  | cons f rest ih =>
    obtain ⟨k, t⟩ := f
    simp [expectedFields, ih]

theorem expectedFields_getElem (fields : List (Bytes × GoType)) (d : GoMap Value) (i : Nat)
    (k : Bytes) (t : GoType) (h : fields[i]? = some (k, t)) :
    (expectedFields fields d)[i]?
      = some (match GoMap.get d k with
        | none => t.zero
        | some v => expected t v) := by
  induction fields generalizing i with
  | nil => simp at h
  | cons f rest ih =>
    obtain ⟨k0, t0⟩ := f
    cases i with
    | zero =>
      simp only [List.getElem?_cons_zero, Option.some.injEq, Prod.mk.injEq] at h
      simp [expectedFields, h.1, h.2]
    | succ j =>
      simp only [List.getElem?_cons_succ] at h
      simp [expectedFields, ih j h]

theorem conformsFields_getElem (fields : List (Bytes × GoType)) (d : GoMap Value) (i : Nat)
    (k : Bytes) (t : GoType) (v : Value) (hc : conformsFields fields d = true)
    (h : fields[i]? = some (k, t)) (hg : GoMap.get d k = some v) : conforms t v = true := by
  induction fields generalizing i with
  | nil => simp at h
  | cons f rest ih =>
    obtain ⟨k0, t0⟩ := f
    simp only [conformsFields, Bool.and_eq_true] at hc
    cases i with
    | zero =>
      simp only [List.getElem?_cons_zero, Option.some.injEq, Prod.mk.injEq] at h
      have h1 := hc.1
      rw [h.1, hg, h.2] at h1
      exact h1
    | succ j =>
      simp only [List.getElem?_cons_succ] at h
      exact ih j hc.2 h

theorem unmarshalStruct_of_tags (fields : List (Bytes × GoType)) (vs : List GoValue)
    (hnd : (fields.map Prod.fst).Nodup) (hlen : vs.length = fields.length)
    (d : List (Bytes × Value)) (structT : List GoValue) (hst : structT.length = vs.length)
    (hd : ∀ e ∈ d, e.1 ∉ fields.map Prod.fst ∨
      ∃ (i : Nat) (v : GoValue) (t : GoType), vs[i]? = some v ∧
        fields[i]? = some (e.1, t) ∧ unmarshalByType e.2 t = some v)
    (hs : ∀ (i : Nat) (v : GoValue) (k : Bytes) (t : GoType), vs[i]? = some v →
      fields[i]? = some (k, t) → structT[i]? = some v ∨ k ∈ GoMap.keys d) :
    unmarshalStruct d fields structT = some vs := by
  induction d generalizing structT with
  | nil =>
    exact unmarshalStruct_eq fields vs hnd hlen [] structT hst (by simp) hs
  | cons e rest ih =>
    obtain ⟨k, val⟩ := e
    rcases hd (k, val) (by simp) with habs | ⟨i, v, t, hv, hf, hu⟩
    · simp only at habs
      have hnone : fieldByTag fields k = none := by
        unfold fieldByTag
        rw [fieldsWithTag_absent k fields 0 habs]
      simp only [unmarshalStruct, hnone]
      apply ih structT hst
      · intro e he
        exact hd e (List.mem_cons_of_mem _ he)
      · intro j v' k' t' hv' hf'
        rcases hs j v' k' t' hv' hf' with h | h
        · exact Or.inl h
        · simp only [GoMap.keys, List.map_cons, List.mem_cons] at h
          rcases h with h | h
          · exfalso
            apply habs
            rw [← h]
            exact List.mem_map.2 ⟨(k', t'), List.getElem?_mem hf', rfl⟩
          · exact Or.inr h
    · simp only at hf hu
      simp only [unmarshalStruct, fieldByTag_of_getElem fields i k t hnd hf, hu]
      apply ih
      · simpa using hst
      · intro e he
        exact hd e (List.mem_cons_of_mem _ he)
      · intro j v' k' t' hv' hf'
        by_cases hij : j = i
        · subst hij
          have hvv : v' = v := by rw [hv] at hv'; exact (Option.some.inj hv').symm
          have hlt : j < structT.length := by
            rw [hst]
            exact (List.getElem?_eq_some.1 hv).1
          left
          rw [hvv, List.getElem?_set_self hlt]
        · rcases hs j v' k' t' hv' hf' with h | h
          · left
            rw [List.getElem?_set_ne (fun e => hij e.symm)]
            exact h
          · simp only [GoMap.keys, List.map_cons, List.mem_cons] at h
            rcases h with h | h
            · rw [h] at hf'
              exact absurd (tag_index_unique fields j i k t' t hnd hf' hf) hij
            · right; exact h

theorem unmarshalSlice_expected (elem : GoType) (items : List Value)
    (ih : ∀ v : Value, v.wellFormed = true → conforms elem v = true →
      unmarshalByType v elem = some (expected elem v))
    (hw : wellFormedList items = true) (hc : items.all (conforms elem) = true) :
    unmarshalSlice items elem = some (items.map (expected elem)) := by
  induction items with
  | nil => simp [unmarshalSlice]
  | cons v rest ihr =>
    simp only [wellFormedList, Bool.and_eq_true] at hw
    simp only [List.all_cons, Bool.and_eq_true] at hc
    simp [unmarshalSlice, ih v hw.1 hc.1, ihr hw.2 hc.2]

mutual
theorem unmarshal_expected : (t : GoType) → t.wellFormed = true → ∀ v : Value,
    v.wellFormed = true → conforms t v = true →
    unmarshalByType v t = some (expected t v)
  | .int, _ => fun v _ hc => by
    cases v <;> simp [conforms] at hc
    simp [unmarshalByType, expected]
  | .string, _ => fun v _ hc => by
    cases v <;> simp [conforms] at hc
    simp [unmarshalByType, expected]
  | .slice elem, hw => fun v hv hc => by
    simp only [GoType.wellFormed] at hw
    have ih := unmarshal_expected elem hw
    cases v with
    | list items =>
      simp only [Value.wellFormed] at hv
      simp only [conforms] at hc
      simp [unmarshalByType, expected, unmarshalSlice_expected elem items ih hv hc]
    | int n => simp [conforms] at hc
    | str s => simp [conforms] at hc
    | dict d => simp [conforms] at hc
    | other => simp [conforms] at hc
  | .struct fields, hw => fun v hv hc => by
    simp only [GoType.wellFormed, Bool.and_eq_true, decide_eq_true_eq] at hw
    have ihf := unmarshal_expected_fields fields hw.1
    cases v with
    | dict d =>
      simp only [Value.wellFormed, Bool.and_eq_true, decide_eq_true_eq] at hv
      simp only [conforms] at hc
      have hnd : (GoMap.keys d).Nodup := List.Sorted.nodup hv.2
      have hres := unmarshalStruct_of_tags fields (expectedFields fields d) hw.2
        (expectedFields_length fields d) d (zeroFields fields)
        (by rw [zeroFields_length, expectedFields_length])
        (by
          intro e he
          by_cases hmem : e.1 ∈ fields.map Prod.fst
          · right
            obtain ⟨f, hf, hfk⟩ := List.mem_map.1 hmem
            obtain ⟨i, hi⟩ := List.getElem?_of_mem hf
            have hi2 : fields[i]? = some (e.1, f.2) := by rw [hi, ← hfk]
            have hget := GoMap.get_of_mem d e.1 e.2 hnd he
            have hval : e.2.wellFormed = true := (wellFormedEntries_iff d).1 hv.1 e he
            have hconf := conformsFields_getElem fields d i e.1 f.2 e.2 hc hi2 hget
            refine ⟨i, expected f.2 e.2, f.2, ?_, hi2, ihf i e.1 f.2 hi2 e.2 hval hconf⟩
            rw [expectedFields_getElem fields d i e.1 f.2 hi2, hget]
          · exact Or.inl hmem)
        (by
          intro i v k t h1 h2
          rw [expectedFields_getElem fields d i k t h2] at h1
          cases hg : GoMap.get d k with
          | none =>
            left
            rw [hg] at h1
            rw [zeroFields_getElem fields i k t h2]
            exact h1
          | some val =>
            right
            exact List.mem_map.2 ⟨(k, val), GoMap.mem_of_get d k val hg, rfl⟩)
      simp [unmarshalByType, expected, hres]
    | int n => simp [conforms] at hc
    | str s => simp [conforms] at hc
    | list l => simp [conforms] at hc
    | other => simp [conforms] at hc
theorem unmarshal_expected_fields : (fields : List (Bytes × GoType)) →
    fieldsWellFormed fields = true →
    ∀ (i : Nat) (k : Bytes) (t : GoType), fields[i]? = some (k, t) → ∀ v : Value,
      v.wellFormed = true → conforms t v = true →
      unmarshalByType v t = some (expected t v)
  | [], _ => fun i k t hi => by simp at hi
  | (k0, t0) :: rest, hw => fun i k t hi => by
    simp only [fieldsWellFormed, Bool.and_eq_true, decide_eq_true_eq] at hw
    cases i with
    | zero =>
      simp only [List.getElem?_cons_zero, Option.some.injEq, Prod.mk.injEq] at hi
      rw [← hi.2]
      exact unmarshal_expected t0 hw.1.2
    | succ j =>
      simp only [List.getElem?_cons_succ] at hi
      exact unmarshal_expected_fields rest hw.2 j k t hi
end

/-- C11: for every record type (with pairwise distinct tags) and every bencoded dictionary `d`
whose values have the kinds that the record declares, `Unmarshal(Encode(d), &c)` returns no
error and leaves in `c` the record in which each field whose tag is a key of `d` holds the
corresponding value (an `int`, a `string`, a slice of the corresponding elements in order),
each field whose tag is absent holds its zero value, and the keys of `d` that match no tag
are ignored. -/
theorem Unmarshal_sets_fields (fields : List (Bytes × GoType)) (d : List (Bytes × Value))
    (hw : (GoType.struct fields).wellFormed = true) (hd : (Value.dict d).wellFormed = true)
    (hf : (Value.dict d).fitsInt = true) (hc : conforms (.struct fields) (.dict d) = true) :
    (Encode (.dict d)).map (fun data => Unmarshal data (.struct fields))
      = some (.ok (.struct (expectedFields fields d))) := by
  have henc : Encode (.dict d) = some (refEncode (.dict d)) := consume_eq_ref _ hd
  have hdec := consume_refEncode _ hd hf ((refEncode (.dict d)).length + 1) [] (by omega)
  rw [List.append_nil] at hdec
  have hun := unmarshal_expected (.struct fields) hw (.dict d) hd hc
  simp only [henc, Option.map_some', Unmarshal, Decode, hdec]
  simp only [expected] at hun
  simp [hun]

/-- C11, at the record `Container` of the tests and a dictionary with the keys `a`, `b` and
the unknown key `c`. -/
theorem Unmarshal_sets_fields_witness :
    (Encode (.dict containerDict)).map (fun data => Unmarshal data containerType)
      = some (.ok (.struct (expectedFields
          [(bytesOf "a", .slice .int), (bytesOf "b", .slice .string)] containerDict))) :=
  Unmarshal_sets_fields [(bytesOf "a", .slice .int), (bytesOf "b", .slice .string)]
    containerDict (by decide) (by decide) (by decide) (by decide)

/-- The tests of `Unmarshal`: `{"a": 42, "b": "Hello"}` into a record with an `int` and a
`string`, and `containerDict` into `Container`, whose unknown key `c` is skipped; a key absent
from the dictionary leaves its field zero. -/
theorem Unmarshal_examples :
    Unmarshal (bytesOf "d1:ai42e1:b5:Helloe")
        (.struct [(bytesOf "a", .int), (bytesOf "b", .string)])
      = .ok (.struct [.int 42, .str (bytesOf "Hello")]) ∧
    (Encode (.dict containerDict)).map (fun data => Unmarshal data containerType)
      = some (.ok (.struct [.slice [.int 42, .int 41],
          .slice [.str (bytesOf "Hello"), .str (bytesOf "World")]])) ∧
    Unmarshal (bytesOf "d1:ai42ee") (.struct [(bytesOf "a", .int), (bytesOf "b", .string)])
      = .ok (.struct [.int 42, .str []]) := by
  refine ⟨rfl, rfl, rfl⟩

end bencode

/-! ## Theorems: what the decoder rejects -/

namespace strconv

theorem parseDigits_digits (ds : Bytes) (a n : Nat) (h : parseDigits ds a = some n) :
    ∀ c ∈ ds, 48 ≤ c ∧ c ≤ 57 := by
  induction ds generalizing a with
  | nil => simp
  | cons c cs ih =>
    simp only [parseDigits] at h
    split at h
    · rename_i hc
      intro x hx
      rcases List.mem_cons.1 hx with hx | hx
      · rw [hx]; exact hc
      · exact ih _ h x hx
    · simp at h

theorem formatNat_parseDigits (ds : Bytes) (m : Nat) (h : parseDigits ds 0 = some m)
    (hne : ds ≠ []) (hlead : 2 ≤ ds.length → ds.head? ≠ some 48) : formatNat m = ds := by
  induction ds using List.reverseRecOn generalizing m with
  | nil => exact absurd rfl hne
  | append_singleton xs c ih =>
    rw [parseDigits_append] at h
    cases hxs : parseDigits xs 0 with
    | none => simp [hxs] at h
    | some a =>
      simp only [hxs, Option.some_bind, parseDigits] at h
      split at h
      · rename_i hc
        simp only [Option.some.injEq] at h
        by_cases hnil : xs = []
        · subst hnil
          simp only [parseDigits, Option.some.injEq] at hxs
          rw [← h, ← hxs, formatNat_lt _ (by omega)]
          simp only [List.nil_append, List.cons.injEq, and_true]
          omega
        · have hlen : 2 ≤ (xs ++ [c]).length := by
            have := List.length_pos.2 hnil
            simp only [List.length_append, List.length_singleton]
            omega
          have hhead : xs.head? ≠ some 48 := by
            have := hlead hlen
            cases xs with
            | nil => exact absurd rfl hnil
            | cons x rest => simpa using this
          have hxs2 := ih a hxs hnil (fun _ => hhead)
          have ha : 1 ≤ a := by
            by_contra hcon
            have h0 : a = 0 := by omega
            rw [h0, formatNat_lt 0 (by omega)] at hxs2
            rw [← hxs2] at hhead
            simp at hhead
          rw [← h, formatNat_ge _ (by omega)]
          have e1 : (a * 10 + (c - 48)) / 10 = a := by omega
          have e2 : 48 + (a * 10 + (c - 48)) % 10 = c := by omega
          rw [e1, e2, hxs2]
      · simp at h

theorem Atoi_cases (body : Bytes) (n : Int) (h : Atoi body = some n) :
    (∃ (ds : Bytes) (m : Nat), body = 45 :: ds ∧ ds ≠ [] ∧ parseDigits ds 0 = some m ∧
      n = -(m : Int)) ∨
    (∃ ds : Bytes, body = 43 :: ds) ∨
    (∃ m : Nat, body ≠ [] ∧ parseDigits body 0 = some m ∧ n = (m : Int)) := by
  cases body with
  | nil => simp [Atoi] at h
  | cons c cs =>
    by_cases h45 : c = 45
    · left
      subst h45
      simp only [Atoi, beq_self_eq_true, true_or, if_true] at h
      split at h
      · simp at h
      · rename_i hne
        cases hp : parseDigits cs 0 with
        | none => simp [hp] at h
        | some m =>
          simp [hp] at h
          exact ⟨cs, m, rfl, hne, hp, h.2.symm⟩
    · by_cases h43 : c = 43
      · right; left
        exact ⟨cs, by rw [h43]⟩
      · right; right
        have hb : (c == 45) = false := by simpa using h45
        simp only [Atoi, h45, h43, or_self, if_false, hb] at h
        split at h
        · simp at h
        · cases hp : parseDigits (c :: cs) 0 with
          | none => simp [hp] at h
          | some m =>
            simp [hp] at h
            exact ⟨m, by simp, rfl, h.2.symm⟩

end strconv

namespace bencode

theorem Decoder.readString_inv (delim : Nat) (input s r : Bytes)
    (h : Decoder.readString delim input = some (s, r)) :
    ∃ pre : Bytes, s = pre ++ [delim] ∧ delim ∉ pre ∧ input = pre ++ delim :: r := by
  induction input generalizing s with
  | nil => simp [Decoder.readString] at h
  | cons b more ih =>
    simp only [Decoder.readString] at h
    split at h
    · rename_i hb
      simp only [Option.some.injEq, Prod.mk.injEq] at h
      exact ⟨[], by rw [← h.1, hb]; rfl, by simp, by rw [← h.2, hb]; rfl⟩
    · rename_i hb
      cases hr : Decoder.readString delim more with
      | none => simp [hr] at h
      | some p =>
        obtain ⟨s1, r1⟩ := p
        simp only [hr, Option.some.injEq, Prod.mk.injEq] at h
        obtain ⟨hs1, hr1⟩ := h
        subst hr1
        obtain ⟨pre, h1, h2, h3⟩ := ih s1 hr
        refine ⟨b :: pre, by rw [← hs1, h1]; rfl, ?_, by rw [h3]; rfl⟩
        intro hmem
        rcases List.mem_cons.1 hmem with e | e
        · exact hb e.symm
        · exact h2 e

theorem Decoder.readString_pos (delim : Nat) (input s r : Bytes)
    (h : Decoder.readString delim input = some (s, r)) : 0 < s.length := by
  cases input with
  | nil => simp [Decoder.readString] at h
  | cons b more =>
    simp only [Decoder.readString] at h
    split at h
    · simp only [Option.some.injEq, Prod.mk.injEq] at h
      rw [← h.1]; simp
    · cases hr : Decoder.readString delim more with
      | none => simp [hr] at h
      | some p =>
        simp only [hr, Option.some.injEq, Prod.mk.injEq] at h
        rw [← h.1]; simp

/-- C12: `Decode` returns an error for every input that starts with an integer with a leading
zero followed by a further digit (`i03e`, `i00e`), with a negative zero (`i-0...`), with an
integer without digits (`ie`) or with a byte string whose length is negative (`-1:`); and
`i0e` is accepted and decodes to 0. -/
theorem Decode_rejects (d : Nat) (hd : 48 ≤ d ∧ d ≤ 57) (ds : Bytes) (n : Nat)
    (hds : strconv.parseDigits ds 0 = some n) (hn : 0 < n) (rest : Bytes) :
    (Decode (105 :: 48 :: d :: rest) = .error .leadingZero ∨
      Decode (105 :: 48 :: d :: rest) = .error .eof) ∧
    (Decode (105 :: 45 :: 48 :: rest) = .error .negativeZero ∨
      Decode (105 :: 45 :: 48 :: rest) = .error .eof) ∧
    Decode (105 :: 101 :: rest) = .error .shortInteger ∧
    (Decode (45 :: ds ++ 58 :: rest) = .error .negativeLength ∨
      Decode (45 :: ds ++ 58 :: rest) = .error .atoi) ∧
    Decode (105 :: 48 :: 101 :: rest) = .ok (.int 0, rest) := by
  have hd101 : d ≠ 101 := by omega
  refine ⟨?_, ?_, ?_, ?_, ?_⟩
  · cases hr : Decoder.readString 101 rest with
    | none =>
      right
      simp [Decode, Decoder.consume, Decoder.consumeInteger, Decoder.readString, hd101, hr]
    | some p =>
      left
      obtain ⟨s, r⟩ := p
      have hpos := Decoder.readString_pos 101 rest s r hr
      have hlt : ¬ (s.length + 1 + 1 + 1 < 3) := by omega
      simp [Decode, Decoder.consume, Decoder.consumeInteger, Decoder.readString, hd101, hr,
        hpos, hlt]
  · cases hr : Decoder.readString 101 rest with
    | none =>
      right
      simp [Decode, Decoder.consume, Decoder.consumeInteger, Decoder.readString, hr]
    | some p =>
      left
      obtain ⟨s, r⟩ := p
      have hpos := Decoder.readString_pos 101 rest s r hr
      have hlt : ¬ (s.length + 1 + 1 + 1 < 3) := by omega
      simp [Decode, Decoder.consume, Decoder.consumeInteger, Decoder.readString, hr, hpos,
        hlt]
  · simp [Decode, Decoder.consume, Decoder.consumeInteger, Decoder.readString]
  · have hdig := strconv.parseDigits_digits ds 0 n hds
    have hne : ds ≠ [] := by
      intro e
      rw [e] at hds
      simp [strconv.parseDigits] at hds
      omega
    have hnot : (58 : Nat) ∉ (45 :: ds) := by
      intro hmem
      rcases List.mem_cons.1 hmem with h | h
      · omega
      · have := hdig 58 h; omega
    have hread := Decoder.readString_append 58 (45 :: ds) rest hnot
    have hin : 45 :: ds ++ 58 :: rest = (45 :: ds) ++ 58 :: rest := rfl
    have hstr : Decoder.consumeString (45 :: ds ++ 58 :: rest) = .error .negativeLength ∨
        Decoder.consumeString (45 :: ds ++ 58 :: rest) = .error .atoi := by
      rw [hin]
      unfold Decoder.consumeString
      rw [hread]
      have htake : ((45 :: ds) ++ [58]).take (((45 :: ds) ++ [58]).length - 1) = 45 :: ds := by
        simp
      simp only [htake]
      by_cases hrange : inIntRange (-(n : Int))
      · left
        have hneg : -(n : Int) < 0 := by omega
        simp [strconv.Atoi, hne, hds, hrange, hneg]
      · right
        simp [strconv.Atoi, hne, hds, hrange]
    simp only [List.cons_append] at hstr
    rcases hstr with h | h
    · left
      simp [Decode, Decoder.consume]
      rw [h]
    · right
      simp [Decode, Decoder.consume]
      rw [h]
  · simp [Decode, Decoder.consume, Decoder.consumeInteger, Decoder.readString, strconv.Atoi,
      strconv.parseDigits, inIntRange]

/-- C12, at `i03e`, `i-0e`, `ie`, `-1:` and `i0e`. -/
theorem Decode_rejects_witness :
    (Decode (105 :: 48 :: 51 :: [101]) = .error .leadingZero ∨
      Decode (105 :: 48 :: 51 :: [101]) = .error .eof) ∧
    (Decode (105 :: 45 :: 48 :: [101]) = .error .negativeZero ∨
      Decode (105 :: 45 :: 48 :: [101]) = .error .eof) ∧
    Decode (105 :: 101 :: [101]) = .error .shortInteger ∧
    (Decode (45 :: [49] ++ 58 :: [101]) = .error .negativeLength ∨
      Decode (45 :: [49] ++ 58 :: [101]) = .error .atoi) ∧
    Decode (105 :: 48 :: 101 :: [101]) = .ok (.int 0, [101]) :=
  Decode_rejects 51 (by decide) [49] 1 (by decide) (by decide) [101]

/-- The decoder on the malformed inputs of the format: the empty input, `i-0e`, `i03e`, `i00e`,
`ie` and `-1:` are errors, `i0e` is 0; the length `-0` is not negative, so `-0:` decodes to
the empty string. -/
theorem Decode_error_examples :
    Decode [] = .error .eof ∧
    Decode (bytesOf "i-0e") = .error .negativeZero ∧
    Decode (bytesOf "i03e") = .error .leadingZero ∧
    Decode (bytesOf "i00e") = .error .leadingZero ∧
    Decode (bytesOf "ie") = .error .shortInteger ∧
    Decode (bytesOf "-1:") = .error .negativeLength ∧
    Decode (bytesOf "i0e") = .ok (.int 0, []) ∧
    Decode (bytesOf "-0:") = .ok (.str [], []) := by
  refine ⟨rfl, rfl, rfl, rfl, rfl, rfl, rfl, rfl⟩

theorem Decoder.consume_int (fuel : Nat) (input : Bytes) (n : Int) (rest : Bytes)
    (h : Decoder.consume fuel input = .ok (.int n, rest)) :
    Decoder.consumeInteger input = .ok (n, rest) ∧ input.head? = some 105 := by
  cases fuel with
  | zero => simp [Decoder.consume] at h
  | succ f =>
    cases input with
    | nil => simp [Decoder.consume] at h
    | cons c r =>
      simp only [Decoder.consume] at h
      split at h
      · cases hres : Decoder.listLoop (Decoder.consume f) f r [] with
        | error e => simp [hres] at h
        | ok p => simp [hres] at h
      · split at h
        · cases hres : Decoder.dictLoop (Decoder.consume f) f r [] with
          | error e => simp [hres] at h
          | ok p => simp [hres] at h
        · split at h
          · rename_i hc
            cases hres : Decoder.consumeInteger (c :: r) with
            | error e => simp [hres] at h
            | ok p =>
              obtain ⟨i, r1⟩ := p
              simp only [hres, Except.ok.injEq, Prod.mk.injEq, Value.int.injEq] at h
              rw [h.1, h.2]
              exact ⟨rfl, by simp [hc]⟩
          · cases hres : Decoder.consumeString (c :: r) with
            | error e => simp [hres] at h
            | ok p => simp [hres] at h

/-- Apart from the sign `+`, the decoder accepts an integer only in canonical form: whenever
`Decode(b)` succeeds with an integer `n` and nothing left, either `b` is `Encode(n)` or the
token starts with `i+`. -/
theorem Decode_int_canonical_or_plus (b : Bytes) (n : Int) (h : Decode b = .ok (.int n, [])) :
    Encode (.int n) = some b ∨ b.getD 1 0 = 43 := by
  obtain ⟨hci, hhead⟩ := Decoder.consume_int _ b n [] h
  unfold Decoder.consumeInteger at hci
  cases hr : Decoder.readString 101 b with
  | none => simp [hr] at hci
  | some p =>
    obtain ⟨iStr, r⟩ := p
    rw [hr] at hci
    dsimp only at hci
    obtain ⟨pre, hs, hnot, hin⟩ := Decoder.readString_inv 101 b iStr r hr
    split at hci
    · simp at hci
    · rename_i hlen3
      split at hci
      · simp at hci
      · rename_i hnz
        split at hci
        · simp at hci
        · rename_i hlz
          cases hat : strconv.Atoi (iStr.tail.take (iStr.length - 2)) with
          | none => simp [hat] at hci
          | some i =>
            simp [hat] at hci
            obtain ⟨hin1, hr1⟩ := hci
            subst hin1
            subst hr1
            cases pre with
            | nil =>
              rw [hin] at hhead
              simp at hhead
            | cons c body =>
              have hc : c = 105 := by
                rw [hin] at hhead
                simpa using hhead
              subst hc
              have hb : b = 105 :: body ++ [101] := by rw [hin]
              have hbody : iStr.tail.take (iStr.length - 2) = body := by
                rw [hs]; simp
              rw [hbody] at hat
              have h101 : (101 : Nat) ∉ body := fun e => hnot (List.mem_cons_of_mem _ e)
              have henc : ∀ fmt : Bytes, fmt = body →
                  Encoder.consumeInteger i = [105] ++ fmt ++ [101] →
                  Encode (.int i) = some b := by
                intro fmt e1 e2
                simp only [Encode, Encoder.consume, e2, e1, hb]
                rfl
              rw [hs] at hnz hlz hlen3
              rcases strconv.Atoi_cases body i hat with
                ⟨ds, m, e1, e2, e3, e4⟩ | ⟨ds, e1⟩ | ⟨m, e1, e2, e3⟩
              · left
                cases ds with
                | nil => exact absurd rfl e2
                | cons x cs =>
                  have hx : x ≠ 48 := by
                    intro e
                    apply hnz
                    rw [e1, e]
                    simp
                  have hcanon := strconv.formatNat_parseDigits (x :: cs) m e3 (by simp)
                    (fun _ => by simpa using hx)
                  have hm : 0 < m := by
                    by_contra hcon
                    have h0 : m = 0 := by omega
                    rw [h0, strconv.formatNat_lt 0 (by omega)] at hcanon
                    simp at hcanon
                    exact hx hcanon.1.symm
                  apply henc (strconv.formatInt i)
                  · have hneg : i < 0 := by omega
                    have habs : i.natAbs = m := by omega
                    simp only [strconv.formatInt, hneg, if_true, habs, hcanon, e1]
                  · rfl
              · right
                rw [hb, e1]
                rfl
              · left
                have hlead : 2 ≤ body.length → body.head? ≠ some 48 := by
                  intro hl2 hh
                  apply hlz
                  match body, hl2, hh, h101 with
                  | y :: z :: more, _, hh, h101 =>
                    simp only [List.head?_cons, Option.some.injEq] at hh
                    have hz : z ≠ 101 := fun e => h101 (by simp [e])
                    simp [hh, hz]
                have hcanon := strconv.formatNat_parseDigits body m e2 e1 hlead
                apply henc (strconv.formatInt i)
                · have hnn : ¬ i < 0 := by omega
                  have habs : i.natAbs = m := by omega
                  simp only [strconv.formatInt, hnn, if_false, habs, hcanon]
                · rfl

/-- C13: `Decode` accepts the integer tokens `i+5e` and `i+05e`, which decode to 5 with
nothing left, although the encoding of 5 is `i5e`: a sign `+` passes the checks for a leading
zero and is accepted by `strconv.Atoi`. -/
theorem Decode_accepts_plus_sign :
    Decode (bytesOf "i+5e") = .ok (.int 5, []) ∧
    Decode (bytesOf "i+05e") = .ok (.int 5, []) ∧
    Encode (.int 5) = some (bytesOf "i5e") ∧
    bytesOf "i+5e" ≠ bytesOf "i5e" := by
  refine ⟨rfl, rfl, by decide, by decide⟩

end bencode

/-! ## Theorems: the bitfield -/

namespace bitfield

theorem index_of_valid (b : Bitfield) (p : Nat) (h : p < 8 * b.length) :
    ((p : Int).tdiv 8) = ((p / 8 : Nat) : Int) ∧ ((p : Int).tmod 8) = ((p % 8 : Nat) : Int) ∧
    p / 8 < b.length ∧ p % 8 < 8 := by
  refine ⟨(Int.ofNat_tdiv p 8).symm, (Int.ofNat_tmod p 8).symm, by omega, by omega⟩

theorem shift_and_one (x o : Nat) : (((x >>> o) &&& 1) == 1) = x.testBit o := by
  rw [Nat.and_one_is_mod, Nat.shiftRight_eq_div_pow, Nat.testBit_to_div_mod]
  by_cases h : x / 2 ^ o % 2 = 1 <;> simp [h]

/-- Reading a valid index: the bit `7 - p mod 8` of the byte `p / 8`. -/
theorem HasPiece_of_valid (b : Bitfield) (p : Nat) (h : p < 8 * b.length) :
    HasPiece b (p : Int) = some ((b.getD (p / 8) 0).testBit (7 - p % 8)) := by
  obtain ⟨h1, h2, h3, h4⟩ := index_of_valid b p h
  unfold HasPiece
  simp only [h1, h2]
  have hguard : ¬ (((p / 8 : Nat) : Int) < 0 ∨ ((p / 8 : Nat) : Int) ≥ (b.length : Int)) := by
    omega
  have hoff : (7 - ((p % 8 : Nat) : Int)).toNat = 7 - p % 8 := by omega
  simp only [hguard, if_false, Int.toNat_ofNat, hoff]
  rw [List.getElem?_eq_getElem h3]
  simp only [shift_and_one]
  rw [List.getD_eq_getElem _ _ h3]

/-- C14: for every bitfield `b` and every piece index `p` with `0 <= p < 8 * len(b)`,
`HasPiece(p)` is true if and only if bit `7 - p mod 8` of the byte `b[p / 8]` is set: the bits
of a byte are numbered from the most significant one. -/
theorem HasPiece_msb_first (b : Bitfield) (p : Nat) (h : p < 8 * b.length) :
    HasPiece b (p : Int) = some ((b.getD (p / 8) 0).testBit (7 - p % 8)) :=
  HasPiece_of_valid b p h

/-- C14, at the bitfield `[0x80, 0x01]`: piece 0 is the top bit of byte 0. -/
theorem HasPiece_msb_first_witness :
    HasPiece [128, 1] ((0 : Nat) : Int)
      = some ((([128, 1] : Bitfield).getD (0 / 8) 0).testBit (7 - 0 % 8)) :=
  HasPiece_msb_first [128, 1] 0 (by decide)

/-- The bitfield `[0x80, 0x01]` holds the pieces 0 and 15 and no other. -/
theorem HasPiece_examples :
    (List.range 16).map (fun (p : Nat) => HasPiece [128, 1] (p : Int))
      = [some true, some false, some false, some false, some false, some false, some false,
         some false, some false, some false, some false, some false, some false, some false,
         some false, some true] := by
  decide

/-- Setting a valid index, then reading it. -/
theorem SetPiece_HasPiece (b : Bitfield) (i : Nat) (h : i < 8 * b.length) :
    (SetPiece b (i : Int)).bind (fun b1 => HasPiece b1 (i : Int)) = some true := by
  obtain ⟨h1, h2, h3, h4⟩ := index_of_valid b i h
  unfold SetPiece
  simp only [h1, h2]
  have hguard : ¬ (((i / 8 : Nat) : Int) < 0 ∨ ((i / 8 : Nat) : Int) ≥ (b.length : Int)) := by
    omega
  have hoff : (7 - ((i % 8 : Nat) : Int)).toNat = 7 - i % 8 := by omega
  simp only [hguard, if_false, Int.toNat_ofNat, hoff]
  rw [List.getElem?_eq_getElem h3]
  simp only [Option.some_bind]
  have hlen : i < 8 * (b.set (i / 8) (b[i / 8] ||| 1 <<< (7 - i % 8) % 256)).length := by
    simpa using h
  rw [HasPiece_of_valid _ i hlen]
  have hget : (b.set (i / 8) (b[i / 8] ||| 1 <<< (7 - i % 8) % 256)).getD (i / 8) 0
      = b[i / 8] ||| 1 <<< (7 - i % 8) % 256 := by
    rw [List.getD_eq_getElem _ _ (by simpa using h3)]
    simp
  rw [hget, Nat.testBit_or]
  have hpow : (1 <<< (7 - i % 8)) % 256 = 2 ^ (7 - i % 8) := by
    rw [Nat.one_shiftLeft]
    have : 2 ^ (7 - i % 8) < 2 ^ 8 := Nat.pow_lt_pow_right (by norm_num) (by omega)
    exact Nat.mod_eq_of_lt (by simpa using this)
  rw [hpow, Nat.testBit_two_pow_self]
  simp

/-- C15: for every bitfield `b` and every valid index `i` (`0 <= i < 8 * len(b)`), after
`SetPiece(i)` the query `HasPiece(i)` returns true. -/
theorem HasPiece_after_SetPiece (b : Bitfield) (i : Nat) (h : i < 8 * b.length) :
    (SetPiece b (i : Int)).bind (fun b1 => HasPiece b1 (i : Int)) = some true :=
  SetPiece_HasPiece b i h

/-- C15, at the empty two-byte bitfield and the index 9. -/
theorem HasPiece_after_SetPiece_witness :
    (SetPiece [0, 0] ((9 : Nat) : Int)).bind (fun b1 => HasPiece b1 ((9 : Nat) : Int))
      = some true :=
  HasPiece_after_SetPiece [0, 0] 9 (by decide)

/-- C16: for every bitfield `b` (of bytes) and every integer `p` outside `[0, 8 * len(b))`,
negative ones and the empty bitfield included, `HasPiece(p)` returns false and `SetPiece(p)`
leaves the bitfield unchanged; neither indexes out of range. -/
theorem out_of_range_safe (b : Bitfield) (hb : ∀ x ∈ b, x < 256) (p : Int)
    (hp : p < 0 ∨ 8 * (b.length : Int) ≤ p) :
    HasPiece b p = some false ∧ SetPiece b p = some b := by
  by_cases hguard : p.tdiv 8 < 0 ∨ p.tdiv 8 ≥ (b.length : Int)
  · simp [HasPiece, SetPiece, hguard]
  · have hneg : p < 0 := by
      rcases hp with hp | hp
      · exact hp
      · exfalso
        have h0 : 0 ≤ p := by omega
        rw [Int.tdiv_eq_ediv h0 (by norm_num)] at hguard
        omega
    have hsmall : -8 < p := by
      by_contra hcon
      apply hguard
      left
      have h0 : 0 ≤ -p := by omega
      have e : p.tdiv 8 = -((-p) / 8) := by
        rw [← Int.tdiv_eq_ediv h0 (by norm_num), ← Int.neg_tdiv, Int.neg_neg]
      rw [e]
      omega
    cases b with
    | nil =>
      exfalso
      apply hguard
      right
      have : p.tdiv 8 = 0 := by
        interval_cases p <;> decide
      rw [this]; simp
    | cons x rest =>
      have hx : x < 256 := hb x (by simp)
      have hshift : ∀ o, 8 ≤ o → x >>> o = 0 := by
        intro o ho
        rw [Nat.shiftRight_eq_div_pow]
        apply Nat.div_eq_of_lt
        calc x < 2 ^ 8 := by simpa using hx
          _ ≤ 2 ^ o := Nat.pow_le_pow_right (by norm_num) ho
      have hor : ∀ o, 8 ≤ o → o ≤ 14 → x ||| (1 <<< o) % 256 = x := by
        intro o h1 h2
        interval_cases o <;> simp
      have hdiv : p.tdiv 8 = 0 ∧ p.tmod 8 = p := by
        interval_cases p <;> decide
      have ho1 : 8 ≤ (7 - p).toNat := by omega
      have ho2 : (7 - p).toNat ≤ 14 := by omega
      simp [HasPiece, SetPiece, hdiv.1, hdiv.2, hshift _ ho1, hor _ ho1 ho2]

/-- C16, at the one-byte bitfield `[0xFF]` and the index -3, which Go divides to byte 0. -/
theorem out_of_range_safe_witness :
    HasPiece [255] (-3) = some false ∧ SetPiece [255] (-3) = some [255] :=
  out_of_range_safe [255] (by decide) (-3) (by decide)

end bitfield

/-! ## Theorems: the handshake -/

theorem copyInto_length (buf : Bytes) (n hi : Nat) (src : Bytes) (h : hi ≤ buf.length) :
    (copyInto buf n hi src).1.length = buf.length ∧ (copyInto buf n hi src).2 ≤ hi - n ∧
    (copyInto buf n hi src).2 ≤ src.length := by
  unfold copyInto
  simp only [List.length_append, List.length_take, List.length_drop]
  omega

theorem copyInto_exact (pre mid post src : Bytes) (n hi : Nat) (hn : n = pre.length)
    (hlen : mid.length = src.length) (hhi : pre.length + src.length ≤ hi) :
    copyInto (pre ++ mid ++ post) n hi src = (pre ++ src ++ post, src.length) := by
  subst hn
  unfold copyInto
  have hk : min (hi - pre.length) src.length = src.length := by omega
  simp only [hk, List.take_length, List.append_assoc, List.take_left']
  have hd : List.drop (pre.length + src.length) (pre ++ (mid ++ post)) = post := by
    rw [← List.append_assoc]
    exact List.drop_left' (by simp [hlen])
  rw [hd]

namespace handshake

theorem Bytes_of_lengths (h : Handshake) (hr : h.reserved.length = 8)
    (hi : h.InfoHash.length = 20) (hp : h.peerId.length = 20) :
    h.Bytes = some ([h.pstrlen % 256] ++ h.pstr ++ h.reserved ++ h.InfoHash ++ h.peerId) := by
  have hbuf0 : (List.replicate (49 + h.pstrlen) 0).set 0 (h.pstrlen % 256)
      = [h.pstrlen % 256] ++ List.replicate h.pstrlen 0 ++ List.replicate 48 0 := by
    have e : 49 + h.pstrlen = 1 + (h.pstrlen + 48) := by omega
    rw [e, List.replicate_add, List.replicate_add]
    rfl
  have hL : h.pstrlen = h.pstr.length := rfl
  have lp1 : ([h.pstrlen % 256] ++ h.pstr).length = 1 + h.pstr.length := by
    rw [List.length_append, List.length_singleton]
  have lp2 : ([h.pstrlen % 256] ++ h.pstr ++ h.reserved).length
      = 1 + h.pstr.length + h.reserved.length := by
    rw [List.length_append, lp1]
  have lp3 : ([h.pstrlen % 256] ++ h.pstr ++ h.reserved ++ h.InfoHash).length
      = 1 + h.pstr.length + h.reserved.length + h.InfoHash.length := by
    rw [List.length_append, lp2]
  have h1 := copyInto_exact [h.pstrlen % 256] (List.replicate h.pstrlen 0)
    (List.replicate 48 0) h.pstr 1 (49 + h.pstrlen) rfl
    (by rw [List.length_replicate, hL])
    (by rw [List.length_singleton, hL]; omega)
  have e48 : List.replicate 48 (0 : Nat) = List.replicate 8 0 ++ List.replicate 40 0 := rfl
  have h2 := copyInto_exact ([h.pstrlen % 256] ++ h.pstr) (List.replicate 8 0)
    (List.replicate 40 0) h.reserved (1 + h.pstr.length) (49 + h.pstrlen) lp1.symm
    (by rw [List.length_replicate, hr]) (by rw [lp1, hL, hr]; omega)
  have e40 : List.replicate 40 (0 : Nat) = List.replicate 20 0 ++ List.replicate 20 0 := rfl
  have h3 := copyInto_exact ([h.pstrlen % 256] ++ h.pstr ++ h.reserved) (List.replicate 20 0)
    (List.replicate 20 0) h.InfoHash (1 + h.pstr.length + h.reserved.length)
    (1 + h.pstr.length + h.reserved.length + 20) lp2.symm
    (by rw [List.length_replicate, hi]) (by rw [lp2, hi])
  have h4 := copyInto_exact ([h.pstrlen % 256] ++ h.pstr ++ h.reserved ++ h.InfoHash)
    (List.replicate 20 0) [] h.peerId
    (1 + h.pstr.length + h.reserved.length + h.InfoHash.length)
    (1 + h.pstr.length + h.reserved.length + h.InfoHash.length + 20) lp3.symm
    (by rw [List.length_replicate, hp]) (by rw [lp3, hp])
  simp only [List.append_nil] at h4
  unfold Handshake.Bytes
  simp only [hbuf0, h1]
  rw [e48, ← List.append_assoc, h2]
  have g1 : ¬ (1 + h.pstr.length + h.reserved.length + 20 > 49 + h.pstrlen) := by
    rw [hL, hr]; omega
  simp only [g1, if_false]
  rw [e40, ← List.append_assoc, h3]
  have g2 : ¬ (1 + h.pstr.length + h.reserved.length + h.InfoHash.length + 20
      > 49 + h.pstrlen) := by
    rw [hL, hr, hi]; omega
  simp only [g2, if_false]
  rw [h4]

theorem Bytes_length (h : Handshake) (hr : h.reserved.length ≤ 8) :
    h.Bytes.map List.length = some (49 + h.pstrlen) := by
  simp only [Handshake.Bytes]
  have hlen0 : ((List.replicate (49 + h.pstrlen) 0).set 0 (h.pstrlen % 256)).length
      = 49 + h.pstrlen := by simp
  have hL : h.pstrlen = h.pstr.length := rfl
  generalize (List.replicate (49 + h.pstrlen) 0).set 0 (h.pstrlen % 256) = buf0 at hlen0
  have l1 := copyInto_length buf0 1 (49 + h.pstrlen) h.pstr (by omega)
  have l2 := copyInto_length (copyInto buf0 1 (49 + h.pstrlen) h.pstr).1
    (1 + (copyInto buf0 1 (49 + h.pstrlen) h.pstr).2) (49 + h.pstrlen) h.reserved (by omega)
  generalize copyInto buf0 1 (49 + h.pstrlen) h.pstr = c1 at l1 l2
  generalize copyInto c1.1 (1 + c1.2) (49 + h.pstrlen) h.reserved = c2 at l2
  have g1 : ¬ (1 + c1.2 + c2.2 + 20 > 49 + h.pstrlen) := by omega
  simp only [g1, if_false]
  have l3 := copyInto_length c2.1 (1 + c1.2 + c2.2) (1 + c1.2 + c2.2 + 20) h.InfoHash
    (by omega)
  generalize copyInto c2.1 (1 + c1.2 + c2.2) (1 + c1.2 + c2.2 + 20) h.InfoHash = c3 at l3
  have g2 : ¬ (1 + c1.2 + c2.2 + c3.2 + 20 > 49 + h.pstrlen) := by omega
  simp only [g2, if_false, Option.map_some', Option.some.injEq]
  have l4 := copyInto_length c3.1 (1 + c1.2 + c2.2 + c3.2) (1 + c1.2 + c2.2 + c3.2 + 20)
    h.peerId (by omega)
  omega

/-- C17: for every 20-byte info-hash and 20-byte peer-id, `New(infoHash, peerId).Bytes()` is
the 68 bytes made of the byte 19, the 19 bytes of `BitTorrent protocol`, the reserved bytes
`00 00 00 00 00 10 00 00`, the info-hash and the peer-id; and for every handshake (of at
most 8 reserved bytes, which leaves room for the two 20-byte fields) `Bytes()` has the
length `1 + pstrlen + 8 + 20 + 20`. -/
theorem Bytes_layout (infoHash peerId : Bytes) (hi : infoHash.length = 20)
    (hp : peerId.length = 20) (h : Handshake) (hr : h.reserved.length ≤ 8) :
    (New infoHash peerId).Bytes
      = some ([19] ++ bencode.bytesOf "BitTorrent protocol" ++ [0, 0, 0, 0, 0, 16, 0, 0]
          ++ infoHash ++ peerId) ∧
    (New infoHash peerId).Bytes.map List.length = some 68 ∧
    h.Bytes.map List.length = some (1 + h.pstrlen + 8 + 20 + 20) := by
  have hnew := Bytes_of_lengths (New infoHash peerId) rfl hi hp
  have hl := Bytes_length (New infoHash peerId) (by simp [New])
  have hg := Bytes_length h hr
  refine ⟨hnew, hl, ?_⟩
  rw [hg]
  congr 1
  omega

/-- C17, at the info-hash of twenty bytes 1 and the peer-id of twenty bytes 2. -/
theorem Bytes_layout_witness :
    (New (List.replicate 20 1) (List.replicate 20 2)).Bytes
      = some ([19] ++ bencode.bytesOf "BitTorrent protocol" ++ [0, 0, 0, 0, 0, 16, 0, 0]
          ++ List.replicate 20 1 ++ List.replicate 20 2) ∧
    (New (List.replicate 20 1) (List.replicate 20 2)).Bytes.map List.length = some 68 ∧
    (New [] []).Bytes.map List.length = some (1 + (New [] []).pstrlen + 8 + 20 + 20) :=
  Bytes_layout (List.replicate 20 1) (List.replicate 20 2) (by decide) (by decide)
    (New [] []) (by decide)

/-- With more than 8 reserved bytes the slice expression for the peer-id exceeds the buffer:
`Bytes()` panics. -/
theorem Bytes_long_reserved :
    ({ pstr := [], reserved := List.replicate 9 0, InfoHash := List.replicate 20 0,
       peerId := List.replicate 20 0 } : Handshake).Bytes = none := by
  decide

theorem and_sixteen (x : Nat) : ((x &&& 16) == 16) = x.testBit 4 := by
  have h16 : (16 : Nat) = 2 ^ 4 := by norm_num
  cases hx : x.testBit 4
  · have : x &&& 16 ≠ 16 := by
      intro e
      have := congrArg (fun y => Nat.testBit y 4) e
      simp only [Nat.testBit_and, hx, Bool.false_and] at this
      rw [h16, Nat.testBit_two_pow_self] at this
      exact Bool.noConfusion this
    simpa using this
  · have : x &&& 16 = 16 := by
      apply Nat.eq_of_testBit_eq
      intro i
      rw [Nat.testBit_and, h16, Nat.testBit_two_pow]
      by_cases hi : 4 = i
      · subst hi; simp [hx]
      · simp [hi]
    simp [this]

/-- C18: for every handshake, `SupportsExtensionProtocol()` is true if and only if there are
at least 6 reserved bytes and bit `0x10` (bit 4) of the reserved byte 5 is set, whatever the
other bits; it is true for the byte `0x10`, false for `0x00`, and the handshake built by
`New` always supports the extension protocol. -/
theorem SupportsExtensionProtocol_iff (h : Handshake) (infoHash peerId : Bytes) :
    h.SupportsExtensionProtocol
      = some (decide (6 ≤ h.reserved.length) && (h.reserved.getD 5 0).testBit 4) ∧
    (16 : Nat).testBit 4 = true ∧ (0 : Nat).testBit 4 = false ∧
    (New infoHash peerId).SupportsExtensionProtocol = some true := by
  refine ⟨?_, by decide, by decide, by simp [New, Handshake.SupportsExtensionProtocol]⟩
  unfold Handshake.SupportsExtensionProtocol
  by_cases hlen : h.reserved.length < 6
  · have : ¬ (6 ≤ h.reserved.length) := by omega
    simp [hlen, this]
  · have h5 : 5 < h.reserved.length := by omega
    have : 6 ≤ h.reserved.length := by omega
    simp only [hlen, if_false, List.getElem?_eq_getElem h5, and_sixteen, this, decide_True,
      Bool.true_and]
    rw [List.getD_eq_getElem _ _ h5]

end handshake

/-! ## Theorems: peer-wire messages -/

namespace binary

theorem Uint32_eq_bigEndian (b0 b1 b2 b3 : Nat) (rest : Bytes)
    (h1 : b1 < 256) (h2 : b2 < 256) (h3 : b3 < 256) :
    Uint32 (b0 :: b1 :: b2 :: b3 :: rest) = some (bigEndian [b0, b1, b2, b3]) := by
  simp only [Uint32, bigEndian, List.foldl, Nat.shiftLeft_eq]
  have e1 : b3 ||| b2 * 2 ^ 8 = 2 ^ 8 * b2 + b3 := by
    rw [Nat.or_comm, Nat.mul_comm]
    exact (Nat.mul_add_lt_is_or (by simpa using h3) b2).symm
  have e2 : (2 ^ 8 * b2 + b3) ||| b1 * 2 ^ 16 = 2 ^ 16 * b1 + (2 ^ 8 * b2 + b3) := by
    rw [Nat.or_comm, Nat.mul_comm]
    exact (Nat.mul_add_lt_is_or (by omega) b1).symm
  have e3 : (2 ^ 16 * b1 + (2 ^ 8 * b2 + b3)) ||| b0 * 2 ^ 24
      = 2 ^ 24 * b0 + (2 ^ 16 * b1 + (2 ^ 8 * b2 + b3)) := by
    rw [Nat.or_comm, Nat.mul_comm]
    exact (Nat.mul_add_lt_is_or (by omega) b0).symm
  rw [e1, e2, e3]
  congr 1
  omega

theorem PutUint32_spec (v : Nat) (hv : v < 2 ^ 32) :
    (PutUint32 v).length = 4 ∧ (∀ x ∈ PutUint32 v, x < 256) ∧ bigEndian (PutUint32 v) = v ∧
    Uint32 (PutUint32 v) = some v := by
  have hb : bigEndian (PutUint32 v) = v := by
    simp only [PutUint32, bigEndian, List.foldl, Nat.shiftRight_eq_div_pow,
      Nat.mod_eq_of_lt hv]
    omega
  refine ⟨rfl, ?_, hb, ?_⟩
  · intro x hx
    simp only [PutUint32, List.mem_cons, List.mem_singleton, List.not_mem_nil, or_false] at hx
    rcases hx with h | h | h | h <;> (rw [h]; exact Nat.mod_lt _ (by norm_num))
  · have hu : Uint32 (PutUint32 v) = some (bigEndian (PutUint32 v)) := by
      simp only [PutUint32]
      exact Uint32_eq_bigEndian _ _ _ _ [] (Nat.mod_lt _ (by norm_num))
        (Nat.mod_lt _ (by norm_num)) (Nat.mod_lt _ (by norm_num))
    rw [hu, hb]

end binary

namespace message

/-- C19: for every non-nil message `m` (any id, payload shorter than `2^32 - 1` bytes),
`m.Bytes()` is the four-byte big-endian value `1 + len(payload)`, the id byte and the
payload; and `Read` on a stream that begins with `m.Bytes()` returns a message with the same
id and payload and leaves exactly the bytes that follow. -/
theorem Read_Bytes (m : Message) (hid : m.Id < 256) (hlen : m.Payload.length < 2 ^ 32 - 1)
    (rest : Bytes) :
    (Message.Bytes (some m)).take 4 = binary.PutUint32 (1 + m.Payload.length) ∧
    binary.bigEndian ((Message.Bytes (some m)).take 4) = 1 + m.Payload.length ∧
    (Message.Bytes (some m)).drop 4 = m.Id :: m.Payload ∧
    Read (Message.Bytes (some m) ++ rest) = .ok (some m, rest) := by
  have hv : 1 + m.Payload.length < 2 ^ 32 := by omega
  obtain ⟨hl, _, hbig, hu⟩ := binary.PutUint32_spec (1 + m.Payload.length) hv
  have hmod : m.Id % 256 = m.Id := Nat.mod_eq_of_lt hid
  have htake : (Message.Bytes (some m)).take 4 = binary.PutUint32 (1 + m.Payload.length) := by
    simp only [Message.Bytes, List.append_assoc]
    exact List.take_left' hl
  have hdrop : (Message.Bytes (some m)).drop 4 = m.Id :: m.Payload := by
    simp only [Message.Bytes, List.append_assoc, hmod]
    exact List.drop_left' hl
  refine ⟨htake, by rw [htake, hbig], hdrop, ?_⟩
  have hblen : (Message.Bytes (some m)).length = 5 + m.Payload.length := by
    simp only [Message.Bytes, List.length_append, hl, List.length_singleton]
  have htake2 : (Message.Bytes (some m) ++ rest).take 4
      = binary.PutUint32 (1 + m.Payload.length) := by
    rw [List.take_append_of_le_length (by omega), htake]
  have hdrop2 : (Message.Bytes (some m) ++ rest).drop 4 = m.Id :: (m.Payload ++ rest) := by
    rw [List.drop_append_of_le_length (by omega), hdrop]
    rfl
  unfold Read
  have hshort : ¬ ((Message.Bytes (some m) ++ rest).length < 4) := by
    rw [List.length_append]; omega
  simp only [hshort, if_false, htake2, hu, hdrop2]
  have hz : ¬ (1 + m.Payload.length = 0) := by omega
  have hs2 : ¬ ((m.Id :: (m.Payload ++ rest)).length < 1 + m.Payload.length) := by
    simp only [List.length_cons, List.length_append]; omega
  simp only [hz, hs2, if_false]
  have e1 : 1 + m.Payload.length = m.Payload.length + 1 := by omega
  rw [e1, List.take_succ_cons, List.take_left', List.drop_succ_cons, List.drop_left'] <;> rfl

/-- C19, at the `have` message for piece 1 followed by one more byte. -/
theorem Read_Bytes_witness :
    (Message.Bytes (some { Id := 4, Payload := [0, 0, 0, 1] })).take 4 = binary.PutUint32 (1 + 4) ∧
    binary.bigEndian ((Message.Bytes (some { Id := 4, Payload := [0, 0, 0, 1] })).take 4) = 1 + 4 ∧
    (Message.Bytes (some { Id := 4, Payload := [0, 0, 0, 1] })).drop 4 = 4 :: [0, 0, 0, 1] ∧
    Read (Message.Bytes (some { Id := 4, Payload := [0, 0, 0, 1] }) ++ [9])
      = .ok (some { Id := 4, Payload := [0, 0, 0, 1] }, [9]) :=
  Read_Bytes { Id := 4, Payload := [0, 0, 0, 1] } (by decide) (by decide) [9]

theorem Uint32_take (bs : Bytes) (h : 4 ≤ bs.length) (hb : ∀ x ∈ bs, x < 256) :
    binary.Uint32 (bs.take 4) = some (binary.bigEndian (bs.take 4)) := by
  match bs, h, hb with
  | b0 :: b1 :: b2 :: b3 :: rest, _, hb =>
    have e : (b0 :: b1 :: b2 :: b3 :: rest).take 4 = [b0, b1, b2, b3] := rfl
    rw [e]
    exact binary.Uint32_eq_bigEndian b0 b1 b2 b3 [] (hb b1 (by simp)) (hb b2 (by simp))
      (hb b3 (by simp))

/-- C20: `ParsePieceBlock(m)` succeeds if and only if `m` is not nil, has the id `Piece` (7)
and a payload of at least 8 bytes; on success `Index` is the big-endian `uint32` in
`payload[0:4]`, `Begin` the big-endian `uint32` in `payload[4:8]` and `Data` is exactly
`payload[8:]`. -/
theorem ParsePieceBlock_iff (m : Option Message) :
    (ParsePieceBlock m).isSome
      = (match m with
        | none => false
        | some msg => (msg.Id == 7) && decide (8 ≤ msg.Payload.length)) ∧
    ∀ msg : Message, m = some msg → (∀ x ∈ msg.Payload, x < 256) → msg.Id = 7 →
      8 ≤ msg.Payload.length →
      ParsePieceBlock m
        = some { Index := binary.bigEndian (msg.Payload.take 4),
                 Begin := binary.bigEndian ((msg.Payload.drop 4).take 4),
                 Data := msg.Payload.drop 8 } := by
  cases m with
  | none => exact ⟨rfl, fun msg h => by simp at h⟩
  | some msg0 =>
    constructor
    · by_cases hid : msg0.Id = 7
      · by_cases hlen : 8 ≤ msg0.Payload.length
        · have hnot : ¬ (msg0.Payload.length < 8) := by omega
          match hp : msg0.Payload, hlen with
          | b0 :: b1 :: b2 :: b3 :: b4 :: b5 :: b6 :: b7 :: rest, _ =>
            simp [ParsePieceBlock, Is, Piece, hid, hp, binary.Uint32]
        · have hlt : msg0.Payload.length < 8 := by omega
          simp [ParsePieceBlock, Is, Piece, hid, hlen, hlt]
      · simp [ParsePieceBlock, Is, Piece, hid]
    · intro msg hm hb hid hlen
      cases hm
      have hnot : ¬ (msg0.Payload.length < 8) := by omega
      have h1 := Uint32_take msg0.Payload (by omega) hb
      have h2 := Uint32_take (msg0.Payload.drop 4) (by rw [List.length_drop]; omega)
        (fun x hx => hb x (List.mem_of_mem_drop hx))
      simp [ParsePieceBlock, Is, Piece, hid, hnot, h1, h2]

/-- C20, at a `piece` message for index 1, begin 16384, with two bytes of data. -/
theorem ParsePieceBlock_iff_witness :
    ParsePieceBlock (some { Id := 7, Payload := [0, 0, 0, 1, 0, 0, 64, 0, 170, 187] })
      = some { Index := binary.bigEndian (([0, 0, 0, 1, 0, 0, 64, 0, 170, 187] : Bytes).take 4),
               Begin := binary.bigEndian
                 ((([0, 0, 0, 1, 0, 0, 64, 0, 170, 187] : Bytes).drop 4).take 4),
               Data := ([0, 0, 0, 1, 0, 0, 64, 0, 170, 187] : Bytes).drop 8 } :=
  (ParsePieceBlock_iff (some { Id := 7, Payload := [0, 0, 0, 1, 0, 0, 64, 0, 170, 187] })).2
    { Id := 7, Payload := [0, 0, 0, 1, 0, 0, 64, 0, 170, 187] } rfl (by decide) rfl (by decide)

/-- A `piece` message for index 1, begin 16384: the parsed block; a short payload, another id
and the nil message are refused. -/
theorem ParsePieceBlock_examples :
    ParsePieceBlock (some { Id := 7, Payload := [0, 0, 0, 1, 0, 0, 64, 0, 170, 187] })
      = some { Index := 1, Begin := 16384, Data := [170, 187] } ∧
    ParsePieceBlock (some { Id := 7, Payload := [0, 0, 0, 1, 0, 0, 64] }) = none ∧
    ParsePieceBlock (some { Id := 6, Payload := [0, 0, 0, 1, 0, 0, 64, 0] }) = none ∧
    ParsePieceBlock none = none := by
  decide

end message

/-! ## Theorems: extension messages -/

namespace message

open bencode

/-- The dictionary `{msg_type: t, piece: i}`. -/
theorem requestDict_wf (t i : Int) (ht : inIntRange t) (hi : inIntRange i) :
    (Value.dict [(bytesOf "msg_type", .int t), (bytesOf "piece", .int i)]).wellFormed = true ∧
    (Value.dict [(bytesOf "msg_type", .int t), (bytesOf "piece", .int i)]).fitsInt = true := by
  constructor
  · simp only [Value.wellFormed, wellFormedEntries, GoMap.keys, List.map, Bool.and_self,
      Bool.true_and, decide_eq_true_eq]
    decide
  · simp only [Value.fitsInt, fitsIntEntries, Bool.and_true, Bool.and_eq_true,
      decide_eq_true_eq]
    exact ⟨⟨by decide, ht⟩, by decide, hi⟩

end message

namespace extension

open bencode

theorem unmarshal_request (t i : Int) :
    unmarshalByType (.dict [(bytesOf "msg_type", .int t), (bytesOf "piece", .int i)])
      MessageType = some (.struct [.int 0, .int t, .int i, .int 0, .nilSlice]) := by
  rfl

theorem unmarshal_data (t i n : Int) :
    unmarshalByType (.dict [(bytesOf "msg_type", .int t), (bytesOf "piece", .int i),
      (bytesOf "total_size", .int n)])
      MessageType = some (.struct [.int 0, .int t, .int i, .int n, .nilSlice]) := by
  rfl

/-- `NewMessage` on an encoded dictionary followed by raw bytes. -/
theorem NewMessage_encoded (id : Nat) (d : List (Bytes × Value)) (blk : Bytes) (vs : List GoValue)
    (hw : (Value.dict d).wellFormed = true) (hf : (Value.dict d).fitsInt = true)
    (hu : unmarshalByType (.dict d) MessageType = some (.struct vs)) :
    NewMessage id (refEncode (.dict d) ++ blk)
      = match Message.ofGoValue (.struct vs) with
        | none => .error .panic
        | some msg => .ok { msg with Id := id, Metadata := blk } := by
  have hdec : Decode (refEncode (.dict d) ++ blk) = .ok (.dict d, blk) :=
    consume_refEncode (.dict d) hw hf _ blk (by simp only [List.length_append]; omega)
  simp only [NewMessage, Unmarshal, hdec, MessageType] at *
  simp only [hu]

end extension

namespace message

open bencode

theorem refEncode_request (i : Int) :
    refEncode (.dict [(bytesOf "msg_type", .int 0), (bytesOf "piece", .int i)])
      = bytesOf "d8:msg_typei0e5:piecei" ++ strconv.formatInt i ++ bytesOf "ee" := by
  have h1 : Encoder.consumeString (bytesOf "msg_type") = bytesOf "8:msg_type" := by decide
  have h2 : Encoder.consumeString (bytesOf "piece") = bytesOf "5:piece" := by decide
  have h3 : strconv.formatInt 0 = [48] := by decide
  simp only [refEncode, refEncodeDict, refString_eq_consumeString, refDecimalInt_eq_formatInt,
    h1, h2, h3]
  have e1 : bytesOf "d8:msg_typei0e5:piecei"
      = [100] ++ (bytesOf "8:msg_type" ++ ([105] ++ [48] ++ [101]
          ++ (bytesOf "5:piece" ++ [105]))) := by decide
  have e2 : bytesOf "ee" = [101, 101] := by decide
  rw [e1, e2]
  simp

theorem NewMetadataRequest_Payload (id i : Int) :
    (NewMetadataRequest id i).Payload
      = (id % 256).toNat ::
          (bytesOf "d8:msg_typei0e5:piecei" ++ strconv.formatInt i ++ bytesOf "ee") := by
  simp only [NewMetadataRequest]
  generalize bytesOf "d8:msg_typei0e5:piecei" ++ strconv.formatInt i ++ bytesOf "ee" = data
  have hbuf : (List.replicate (1 + data.length) 0).set 0 (id % 256).toNat
      = [(id % 256).toNat] ++ List.replicate data.length 0 ++ [] := by
    rw [List.replicate_add]; simp
  have hl : ((List.replicate (1 + data.length) 0).set 0 (id % 256).toNat).length
      = 1 + data.length := by simp
  rw [hl, hbuf, copyInto_exact [(id % 256).toNat] (List.replicate data.length 0) [] data 1
    (1 + data.length) rfl (by simp) (by simp)]
  simp

/-- C21: for every extension id in 1..255 and every block index `i` (a Go `int`, in
particular every `i ≥ 0`), `NewMetadataRequest(id, i)` is an `Extended` (20) message whose
payload is the byte `id` followed by exactly `Encode({msg_type: 0, piece: i})`, and
`ParseExtensionMessage` on it returns `Id = id`, `Type = 0` (request), `Piece = i`,
`TotalSize = 0` and an empty `Metadata`. -/
theorem NewMetadataRequest_parse (id : Nat) (h1 : 1 ≤ id) (h255 : id ≤ 255) (i : Int)
    (hi : inIntRange i) :
    (NewMetadataRequest id i).Id = 20 ∧
    (Encode (.dict [(bytesOf "msg_type", .int 0), (bytesOf "piece", .int i)])).map
        (fun enc => id :: enc) = some (NewMetadataRequest id i).Payload ∧
    ParseExtensionMessage (some (NewMetadataRequest id i))
      = .ok { Id := id, Type_ := extension.MessageRequest, Piece := i, TotalSize := 0,
              Metadata := [] } := by
  have hwf := requestDict_wf 0 i (by decide) hi
  have hid : ((id : Int) % 256).toNat = id := by omega
  have hpay := NewMetadataRequest_Payload id i
  rw [hid, ← refEncode_request] at hpay
  refine ⟨rfl, ?_, ?_⟩
  · rw [hpay, Encode, consume_eq_ref _ hwf.1]
    rfl
  · have hnew := extension.NewMessage_encoded id _ [] _ hwf.1 hwf.2
      (extension.unmarshal_request 0 i)
    rw [List.append_nil] at hnew
    have hId : (NewMetadataRequest id i).Id = Extended := rfl
    simp only [ParseExtensionMessage, Is, hId, hpay, beq_self_eq_true, Bool.not_true,
      List.length_cons, Bool.false_or]
    have hne : id ≠ 0 := by omega
    simp [hne, hnew, extension.Message.ofGoValue, torrent.asInt, extension.MessageRequest]

/-- C21, at extension id 3 and block 12: the payload is `03` followed by
`d8:msg_typei0e5:piecei12ee`. -/
theorem NewMetadataRequest_parse_witness :
    (NewMetadataRequest 3 12).Id = 20 ∧
    (Encode (.dict [(bytesOf "msg_type", .int 0), (bytesOf "piece", .int 12)])).map
        (fun enc => 3 :: enc) = some (NewMetadataRequest 3 12).Payload ∧
    ParseExtensionMessage (some (NewMetadataRequest 3 12))
      = .ok { Id := 3, Type_ := extension.MessageRequest, Piece := 12, TotalSize := 0,
              Metadata := [] } :=
  NewMetadataRequest_parse 3 (by decide) (by decide) 12 (by decide)

/-- The request for block 12 under extension id 3, byte for byte. -/
theorem NewMetadataRequest_example :
    (NewMetadataRequest 3 12).Payload = 3 :: bytesOf "d8:msg_typei0e5:piecei12ee" ∧
    Message.Bytes (some (NewMetadataRequest 3 12))
      = [0, 0, 0, 28, 20, 3] ++ bytesOf "d8:msg_typei0e5:piecei12ee" := by
  decide

/-- C22: for every extension id other than 0, all Go `int`s `t`, `i`, `n` and every byte
sequence `blk`, `ParseExtensionMessage` on the `Extended` message whose payload is the id
byte, then `Encode({msg_type: t, piece: i, total_size: n})`, then `blk`, returns the
extension message with `Id = id`, `Type = t`, `Piece = i`, `TotalSize = n` and `Metadata`
equal to `blk`. -/
theorem ParseExtensionMessage_data (id : Nat) (hid : id ≠ 0) (t i n : Int)
    (ht : inIntRange t) (hi : inIntRange i) (hn : inIntRange n) (blk : Bytes) :
    (Encode (.dict [(bytesOf "msg_type", .int t), (bytesOf "piece", .int i),
        (bytesOf "total_size", .int n)])).map
      (fun enc => ParseExtensionMessage (some { Id := Extended, Payload := id :: (enc ++ blk) }))
    = some (.ok { Id := id, Type_ := t, Piece := i, TotalSize := n, Metadata := blk }) := by
  have hw : (Value.dict [(bytesOf "msg_type", .int t), (bytesOf "piece", .int i),
      (bytesOf "total_size", .int n)]).wellFormed = true := by
    simp only [Value.wellFormed, wellFormedEntries, GoMap.keys, List.map, Bool.and_self,
      Bool.true_and, decide_eq_true_eq]
    decide
  have hf : (Value.dict [(bytesOf "msg_type", .int t), (bytesOf "piece", .int i),
      (bytesOf "total_size", .int n)]).fitsInt = true := by
    simp only [Value.fitsInt, fitsIntEntries, Bool.and_true, Bool.and_eq_true,
      decide_eq_true_eq]
    exact ⟨⟨by decide, ht⟩, ⟨by decide, hi⟩, by decide, hn⟩
  have hnew := extension.NewMessage_encoded id _ blk _ hw hf (extension.unmarshal_data t i n)
  rw [Encode, consume_eq_ref _ hw]
  simp only [Option.map_some', ParseExtensionMessage, Is, beq_self_eq_true, Bool.not_true,
    List.length_cons, Bool.false_or]
  simp [hid, hnew, extension.Message.ofGoValue, torrent.asInt]

/-- C22, at extension id 3 and the data message for block 1 of 20000 bytes, followed by the
raw bytes `DE AD BE EF`. -/
theorem ParseExtensionMessage_data_witness :
    (Encode (.dict [(bytesOf "msg_type", .int 1), (bytesOf "piece", .int 1),
        (bytesOf "total_size", .int 20000)])).map
      (fun enc => ParseExtensionMessage
        (some { Id := Extended, Payload := 3 :: (enc ++ [222, 173, 190, 239]) }))
    = some (.ok { Id := 3, Type_ := 1, Piece := 1, TotalSize := 20000,
                  Metadata := [222, 173, 190, 239] }) :=
  ParseExtensionMessage_data 3 (by decide) 1 1 20000 (by decide) (by decide) (by decide)
    [222, 173, 190, 239]

end message

/-! ## Theorems: the metadata buffer -/

namespace metadata

theorem float64OfInt_exact (x : Int) (h0 : 0 ≤ x) (h : x < 2 ^ 53) : float64OfInt x = x := by
  have hlt : x.natAbs < 2 ^ 53 := by omega
  unfold float64OfInt
  simp only []
  rw [if_pos hlt]

theorem ceilDiv_blocks (x : Int) (h0 : 0 ≤ x) (h : x < 2 ^ 53) :
    ceilDiv x 16384 = (x + 16383) / 16384 := by
  rw [ceilDiv, float64OfInt_exact x h0 h]
  omega

theorem ceilDiv_bytes (x : Int) (h0 : 0 ≤ x) (h : x < 2 ^ 53) :
    ceilDiv x 8 = (x + 7) / 8 := by
  rw [ceilDiv, float64OfInt_exact x h0 h]
  omega

/-- The result of `New` for a size below `2^53`, with `n = ceil(size / 16384)`: the buffer
`Data` has `n` bytes, the bitfield `ceil(n / 8)` zero bytes, the queue holds `0 .. n-1`. -/
theorem New_eq (s : Int) (h0 : 0 ≤ s) (h : s < 2 ^ 53) :
    New s = some {
      Data := List.replicate ((s + 16383) / 16384).toNat 0,
      received := List.replicate (((s + 16383) / 16384 + 7) / 8).toNat 0,
      Pieces := (List.range ((s + 16383) / 16384).toNat).map (fun (piece : Nat) => (piece : Int)) }
    := by
  have hn : ceilDiv s 16384 = (s + 16383) / 16384 := ceilDiv_blocks s h0 h
  have hn0 : 0 ≤ (s + 16383) / 16384 := by omega
  have hn1 : (s + 16383) / 16384 < 2 ^ 53 := by omega
  have hb : ceilDiv ((s + 16383) / 16384) 8 = ((s + 16383) / 16384 + 7) / 8 :=
    ceilDiv_bytes _ hn0 hn1
  simp only [New, hn, hb]
  rw [if_neg (by omega)]

/-- No bit is set in a bitfield of zero bytes. -/
theorem HasPiece_zeros (k : Nat) (p : Int) :
    bitfield.HasPiece (List.replicate k 0) p = some false := by
  unfold bitfield.HasPiece
  simp only [List.length_replicate]
  split
  · rfl
  · rename_i hidx
    have hlt : (p.tdiv 8).toNat < k := by omega
    rw [List.getElem?_eq_getElem (by simpa using hlt)]
    simp

/-- C23 (divergence): for every metadata size `s` with `1 < s < 2^53`, `metadata.New(s)`
allocates the buffer `Data` with `ceil(s / 16384)` bytes, the number of blocks, which is
fewer than the `s` bytes of the metadata. -/
theorem New_Data_length (s : Int) (h1 : 1 < s) (h : s < 2 ^ 53) :
    ∃ m, New s = some m ∧ (m.Data.length : Int) = (s + 16383) / 16384 ∧
      (m.Data.length : Int) < s := by
  refine ⟨_, New_eq s (by omega) h, ?_, ?_⟩
  · simp only [List.length_replicate]; omega
  · simp only [List.length_replicate]; omega

/-- C23 (divergence), at a size of 20000 bytes (two blocks): `Data` has two bytes. -/
theorem New_Data_length_witness :
    ∃ m, New 20000 = some m ∧ (m.Data.length : Int) = (20000 + 16383) / 16384 ∧
      (m.Data.length : Int) < 20000 :=
  New_Data_length 20000 (by decide) (by decide)

/-- The other two parts of the buffer are as described: for every size `0 < s < 2^53` the
bitfield covers the `n = ceil(s / 16384)` blocks and has no bit set, and the queue holds
each block index `0 .. n-1` exactly once, in ascending order. -/
theorem New_bitfield_queue (s : Int) (h1 : 0 < s) (h : s < 2 ^ 53) :
    ∃ m, New s = some m ∧ m.written = 0 ∧
      (s + 16383) / 16384 ≤ 8 * (m.received.length : Int) ∧
      (∀ p : Int, m.HasPiece p = some false) ∧
      m.Pieces = (List.range ((s + 16383) / 16384).toNat).map (fun (i : Nat) => (i : Int)) ∧
      m.Pieces.Nodup ∧
      (∀ i : Int, i ∈ m.Pieces ↔ 0 ≤ i ∧ i < (s + 16383) / 16384) := by
  refine ⟨_, New_eq s (by omega) h, rfl, ?_, ?_, rfl, ?_, ?_⟩
  · simp only [List.length_replicate]; omega
  · intro p; exact HasPiece_zeros _ p
  · exact (List.nodup_range _).map (fun a b hab => by simpa using hab)
  · intro i
    simp only [List.mem_map, List.mem_range]
    constructor
    · rintro ⟨a, ha, rfl⟩; omega
    · rintro ⟨hi0, hi1⟩; exact ⟨i.toNat, by omega, by omega⟩

/-- The buffers of 1, 16384, 16385 and 20000 bytes of metadata. -/
theorem New_examples :
    New 1 = some { Data := [0], received := [0], Pieces := [0] } ∧
    New 16384 = some { Data := [0], received := [0], Pieces := [0] } ∧
    New 16385 = some { Data := [0, 0], received := [0], Pieces := [0, 1] } ∧
    New 20000 = some { Data := [0, 0], received := [0], Pieces := [0, 1] } ∧
    New 0 = some { Data := [], received := [], Pieces := [] } := by
  decide

/-- On a buffer with room for the block, `Receive` works as described: the block is copied
to offset `i * 16384` (an `int`), the written count grows by the length of the block, and
block `i` is marked. -/
theorem Receive_block (m : Metadata) (msg : extension.Message) (i : Nat)
    (hi : msg.Piece = (i : Int)) (hrange : i * 16384 < 2 ^ 63)
    (hfit : i * 16384 + msg.Metadata.length ≤ m.Data.length)
    (hbit : i < 8 * m.received.length) :
    ∃ m1, m.Receive msg = some m1 ∧
      m1.Data = m.Data.take (i * 16384) ++ msg.Metadata
        ++ m.Data.drop (i * 16384 + msg.Metadata.length) ∧
      m1.written = m.written + (msg.Metadata.length : Int) ∧
      m1.HasPiece (i : Int) = some true ∧ m1.Pieces = m.Pieces := by
  have hset := bitfield.SetPiece_HasPiece m.received i hbit
  cases hs : bitfield.SetPiece m.received (i : Int) with
  | none => rw [hs] at hset; simp at hset
  | some b1 =>
    rw [hs, Option.some_bind] at hset
    have hwrap : torrent.Torrent.wrapInt ((i : Int) * 16384) = (i : Int) * 16384 :=
      torrent.wrapInt_eq _ (by omega) (by omega)
    have hoff : ((i : Int) * 16384).toNat = i * 16384 := by omega
    have hguard : ¬ ((i : Int) * 16384 < 0 ∨ (i : Int) * 16384 > (m.Data.length : Int)) := by
      omega
    have hk : min (m.Data.length - i * 16384) msg.Metadata.length = msg.Metadata.length := by
      omega
    refine ⟨{ m with
        Data := m.Data.take (i * 16384) ++ msg.Metadata
          ++ m.Data.drop (i * 16384 + msg.Metadata.length),
        written := m.written + (msg.Metadata.length : Int), received := b1 }, ?_, rfl, rfl,
      hset, rfl⟩
    simp only [Metadata.Receive, hi, hwrap, hguard, if_false, hs, copyInto, hoff, hk,
      List.take_length]

/-- C24 (divergence): on the buffer that `New(16385)` creates (two blocks), `Receive` of the
data message for block 1, whatever bytes it carries, panics on the slice `m.Data[16384:]`; and
`Receive` of block 0, carrying its 16384 bytes, copies two bytes only, counts two written
bytes and makes `Complete()` true although block 1 has not been received. -/
theorem Receive_on_New (blk0 blk1 : Bytes) (h0 : blk0.length = 16384) :
    ∃ m, New 16385 = some m ∧
      m.Receive { Type_ := 1, Piece := 1, TotalSize := 16385, Metadata := blk1 } = none ∧
      ∃ m1, m.Receive { Type_ := 1, Piece := 0, TotalSize := 16385, Metadata := blk0 }
          = some m1 ∧
        m1.Data = blk0.take 2 ∧ m1.written = 2 ∧ m1.Complete = true ∧
        m1.HasPiece 0 = some true ∧ m1.HasPiece 1 = some false := by
  have hnew : New 16385 = some { Data := [0, 0], received := [0], Pieces := [0, 1] } := by
    decide
  have hset : bitfield.SetPiece [0] 0 = some [128] := by decide
  have hp0 : bitfield.HasPiece [128] 0 = some true := by decide
  have hp1 : bitfield.HasPiece [128] 1 = some false := by decide
  refine ⟨_, hnew, ?_,
    ⟨{ Data := blk0.take 2, written := 2, received := [128], Pieces := [0, 1] },
      ?_, rfl, rfl, ?_, hp0, hp1⟩⟩
  · have hw1 : torrent.Torrent.wrapInt 16384 = 16384 := by decide
    simp [Metadata.Receive, hw1]
  · have hw0 : torrent.Torrent.wrapInt 0 = 0 := by decide
    simp [Metadata.Receive, hw0, copyInto, h0, hset]
  · simp [Metadata.Complete, h0]

/-- C24 (divergence), at a block 0 of 16384 bytes `07` and a block 1 of one byte `09`. -/
theorem Receive_on_New_witness :
    ∃ m, New 16385 = some m ∧
      m.Receive { Type_ := 1, Piece := 1, TotalSize := 16385, Metadata := [9] } = none ∧
      ∃ m1, m.Receive
          { Type_ := 1, Piece := 0, TotalSize := 16385, Metadata := List.replicate 16384 7 }
          = some m1 ∧
        m1.Data = (List.replicate 16384 7).take 2 ∧ m1.written = 2 ∧ m1.Complete = true ∧
        m1.HasPiece 0 = some true ∧ m1.HasPiece 1 = some false :=
  Receive_on_New (List.replicate 16384 7) [9] (List.length_replicate _ _)

end metadata

/-! ## Theorems: magnet links -/

namespace hex

/-- Every pair of hexadecimal digits gives one byte. -/
theorem Decode_length (src out : Bytes) (h : Decode src = some out) :
    src.length = 2 * out.length := by
  induction src using Decode.induct generalizing out with
  | case1 => simp [Decode] at h; subst h; rfl
  | case2 => simp [Decode] at h
  | case3 p q rest a b ha hb ih =>
    simp only [Decode, ha, hb, Option.map_eq_some'] at h
    obtain ⟨more, hm, rfl⟩ := h
    have := ih more hm
    simp only [List.length_cons]; omega
  | case4 p q rest hne =>
    simp only [Decode] at h
    cases h

end hex

namespace torrent

open bencode

/-- The parameters `xt=urn:btih:<hx>`, `dn=<name>`, `tr=<tracker>` of a magnet link. -/
theorem magnet_params (hx name tracker : Bytes) :
    let values : url.Values := [(bytesOf "dn", [name]), (bytesOf "tr", [tracker]),
      (bytesOf "xt", [bytesOf "urn:btih:" ++ hx])]
    values.Has (bytesOf "xt") = true ∧ values.Has (bytesOf "dn") = true ∧
    values.Has (bytesOf "tr") = true ∧ values.Get (bytesOf "xt") = bytesOf "urn:btih:" ++ hx ∧
    values.Get (bytesOf "dn") = name ∧ values.index (bytesOf "tr") = [tracker] := by
  have h1 : (bytesOf "xt" = bytesOf "dn") = False := by decide
  have h2 : (bytesOf "xt" = bytesOf "tr") = False := by decide
  have h3 : (bytesOf "tr" = bytesOf "dn") = False := by decide
  simp [url.Values.Has, url.Values.Get, url.Values.index, GoMap.get, h1, h2, h3]

/-- What `openTorrentFromMagnet` returns when it succeeds: the info-hash is the decoded
hexadecimal portion of `xt` after `urn:btih:`, whatever its length, the name is `dn`, every
`tr` is a tier of its own, and the MetaInfo is incomplete; the parameters `xt`, `dn` and `tr`
are present, `dn` is not empty and `xt` begins with `urn:btih:`. -/
theorem openTorrentFromMagnet_ok (values : url.Values) (peerId : Bytes) (t : Torrent)
    (h : openTorrentFromMagnet values peerId = .ok t) :
    values.Has (bytesOf "xt") = true ∧ values.Has (bytesOf "dn") = true ∧
    values.Has (bytesOf "tr") = true ∧ values.index (bytesOf "tr") ≠ [] ∧
    values.Get (bytesOf "dn") ≠ [] ∧
    (bytesOf "urn:btih:").isPrefixOf (values.Get (bytesOf "xt")) = true ∧
    hex.Decode ((values.Get (bytesOf "xt")).drop 9) = some t.InfoHash ∧
    t.PeerId = peerId ∧ t.MetaInfo.Info.Name = values.Get (bytesOf "dn") ∧
    t.MetaInfo.AnnounceList = (values.index (bytesOf "tr")).map (fun tracker => [tracker]) ∧
    t.MetaInfo.Incomplete = true := by
  unfold openTorrentFromMagnet at h
  split at h
  · cases h
  · rename_i hparams
    simp only [Bool.or_eq_true, Bool.not_eq_true', not_or, Bool.not_eq_false] at hparams
    obtain ⟨⟨hxt, hdn⟩, htr⟩ := hparams
    simp only [] at h
    split at h
    · cases h
    · rename_i hpre
      simp only [Bool.not_eq_true', Bool.not_eq_false] at hpre
      split at h
      · cases h
      · rename_i first more htrs
        split at h
        · cases h
        · rename_i hash hdec
          split at h
          · cases h
          · rename_i hname
            injection h with h
            subst h
            refine ⟨hxt, hdn, htr, by rw [htrs]; simp, ?_, hpre, hdec, rfl, rfl, ?_, rfl⟩
            · intro hnil; rw [hnil] at hname; exact hname rfl
            · rw [htrs]

/-- The checks of `openTorrentFromMagnet` are the only conditions: when they pass, the link
is opened. -/
theorem openTorrentFromMagnet_of_checks (values : url.Values) (peerId hash : Bytes)
    (hxt : values.Has (bytesOf "xt") = true) (hdn : values.Has (bytesOf "dn") = true)
    (htr : values.Has (bytesOf "tr") = true) (htrs : values.index (bytesOf "tr") ≠ [])
    (hname : values.Get (bytesOf "dn") ≠ [])
    (hpre : (bytesOf "urn:btih:").isPrefixOf (values.Get (bytesOf "xt")) = true)
    (hdec : hex.Decode ((values.Get (bytesOf "xt")).drop 9) = some hash) :
    ∃ t, openTorrentFromMagnet values peerId = .ok t ∧ t.InfoHash = hash := by
  have hlen : (values.Get (bytesOf "dn")).length ≠ 0 := by
    intro h; exact hname (List.length_eq_zero.mp h)
  cases hl : values.index (bytesOf "tr") with
  | nil => exact absurd hl htrs
  | cons first more =>
    refine ⟨{ MetaInfo := { AnnounceList := (first :: more).map (fun tracker => [tracker]),
                            Announce := first,
                            Info := { Name := values.Get (bytesOf "dn") } },
              InfoHash := hash, PeerId := peerId }, ?_, rfl⟩
    simp only [openTorrentFromMagnet, hxt, hdn, htr, hpre, hl, hdec, hlen, Bool.not_true,
      Bool.or_self, Bool.false_eq_true, if_false]

/-- C25 (divergence): the length of the decoded info-hash is not checked. For every string
`hx` of hexadecimal digits that decodes, to `hash` of any length, every non-empty name and
every tracker, opening the magnet link with the parameters `xt=urn:btih:<hx>`, `dn=<name>`,
`tr=<tracker>` succeeds, with `InfoHash = hash` and an incomplete MetaInfo. -/
theorem openTorrentFromMagnet_any_length (hx hash name tracker peerId : Bytes)
    (hd : hex.Decode hx = some hash) (hn : name ≠ []) :
    openTorrentFromMagnet
      [(bytesOf "dn", [name]), (bytesOf "tr", [tracker]),
       (bytesOf "xt", [bytesOf "urn:btih:" ++ hx])] peerId
    = .ok { MetaInfo := { AnnounceList := [[tracker]], Announce := tracker,
                          Info := { Name := name } },
            InfoHash := hash, PeerId := peerId } ∧
    2 * hash.length = hx.length ∧
    MetaInfo.Incomplete { AnnounceList := [[tracker]], Announce := tracker,
                          Info := { Name := name } } = true := by
  obtain ⟨p1, p2, p3, p4, p5, p6⟩ := magnet_params hx name tracker
  have hpre : (bytesOf "urn:btih:").isPrefixOf (bytesOf "urn:btih:" ++ hx) = true := by
    rw [List.isPrefixOf_iff_prefix]; exact List.prefix_append _ _
  have hdrop : (bytesOf "urn:btih:" ++ hx).drop 9 = hx := List.drop_left' (by decide)
  have hlen : name.length ≠ 0 := by
    intro h; exact hn (List.length_eq_zero.mp h)
  refine ⟨?_, (hex.Decode_length hx hash hd).symm, rfl⟩
  simp only [openTorrentFromMagnet, p1, p2, p3, p4, p5, p6, hpre, hdrop, hd, hlen,
    Bool.not_true, Bool.or_self, Bool.false_eq_true, if_false, List.map]

/-- C25 (divergence), at `magnet:?xt=urn:btih:abcd&dn=x&tr=udp://t`: the link is opened with
the two-byte info-hash `AB CD`. -/
theorem openTorrentFromMagnet_any_length_witness :
    openTorrentFromMagnet
      [(bytesOf "dn", [bytesOf "x"]), (bytesOf "tr", [bytesOf "udp://t"]),
       (bytesOf "xt", [bytesOf "urn:btih:" ++ bytesOf "abcd"])] (List.replicate 20 1)
    = .ok { MetaInfo := { AnnounceList := [[bytesOf "udp://t"]], Announce := bytesOf "udp://t",
                          Info := { Name := bytesOf "x" } },
            InfoHash := [171, 205], PeerId := List.replicate 20 1 } ∧
    2 * ([171, 205] : Bytes).length = (bytesOf "abcd").length ∧
    MetaInfo.Incomplete { AnnounceList := [[bytesOf "udp://t"]], Announce := bytesOf "udp://t",
                          Info := { Name := bytesOf "x" } } = true :=
  openTorrentFromMagnet_any_length (bytesOf "abcd") [171, 205] (bytesOf "x")
    (bytesOf "udp://t") (List.replicate 20 1) (by decide) (by decide)

end torrent

/-! ## Theorems: trackers -/

theorem mapM_option_eq_map {α β : Type} (f : α → Option β) (g : α → β) (l : List α)
    (h : ∀ a ∈ l, f a = some (g a)) : l.mapM f = some (l.map g) := by
  induction l with
  | nil => rfl
  | cons a rest ih =>
    have h1 := h a (List.mem_cons_self _ _)
    have h2 := ih (fun b hb => h b (List.mem_cons_of_mem _ hb))
    rw [List.mapM_cons, h1, h2]; rfl

namespace binary

theorem Uint16_eq_bigEndian (b0 b1 : Nat) (rest : Bytes) (h1 : b1 < 256) :
    Uint16 (b0 :: b1 :: rest) = some (bigEndian [b0, b1]) := by
  simp only [Uint16, bigEndian, List.foldl, Nat.shiftLeft_eq]
  have e1 : b1 ||| b0 * 2 ^ 8 = 2 ^ 8 * b0 + b1 := by
    rw [Nat.or_comm, Nat.mul_comm]
    exact (Nat.mul_add_lt_is_or (by simpa using h1) b0).symm
  rw [e1]
  congr 1
  omega

end binary

namespace tracker

/-- The slices of one group of six bytes. -/
theorem compactPeer_at (data : Bytes) (hb : ∀ x ∈ data, x < 256) (k : Nat)
    (hk : 6 * k + 6 ≤ data.length) :
    torrent.Torrent.sliceBytes data ((k * 6 : Nat) : Int) (((k * 6 : Nat) : Int) + 4)
      = some ((data.drop (6 * k)).take 4) ∧
    torrent.Torrent.sliceBytes data (((k * 6 : Nat) : Int) + 4) (((k * 6 : Nat) : Int) + 6)
      = some ((data.drop (6 * k + 4)).take 2) ∧
    binary.Uint16 ((data.drop (6 * k + 4)).take 2)
      = some (binary.bigEndian ((data.drop (6 * k + 4)).take 2)) := by
  have e : k * 6 = 6 * k := Nat.mul_comm _ _
  refine ⟨?_, ?_, ?_⟩
  · unfold torrent.Torrent.sliceBytes
    rw [if_pos (by omega)]
    have e1 : ((k * 6 : Nat) : Int).toNat = 6 * k := by omega
    have e2 : (((k * 6 : Nat) : Int) + 4 - ((k * 6 : Nat) : Int)).toNat = 4 := by omega
    rw [e1, e2]
  · unfold torrent.Torrent.sliceBytes
    rw [if_pos (by omega)]
    have e1 : (((k * 6 : Nat) : Int) + 4).toNat = 6 * k + 4 := by omega
    have e2 : (((k * 6 : Nat) : Int) + 6 - (((k * 6 : Nat) : Int) + 4)).toNat = 2 := by omega
    rw [e1, e2]
  · have hlen : ((data.drop (6 * k + 4)).take 2).length = 2 := by
      rw [List.length_take, List.length_drop]; omega
    match hm : (data.drop (6 * k + 4)).take 2, hlen with
    | [b0, b1], _ =>
      have hmem : b1 ∈ (data.drop (6 * k + 4)).take 2 := by rw [hm]; simp
      have hb1 : b1 < 256 := hb b1 (List.mem_of_mem_drop (List.mem_of_mem_take hmem))
      exact binary.Uint16_eq_bigEndian b0 b1 [] hb1

/-- C26: `parseCompactPeers(data)` fails if and only if `len(data)` is not a multiple of 6;
otherwise it returns exactly `len(data) / 6` peers in input order, the `k`-th having the
address `data[6k .. 6k+4)` and as port the big-endian number in `data[6k+4 .. 6k+6)`. -/
theorem parseCompactPeers_spec (data : Bytes) (hb : ∀ x ∈ data, x < 256) :
    ((∃ e, parseCompactPeers data = .error e) ↔ data.length % 6 ≠ 0) ∧
    (data.length % 6 ≠ 0 → parseCompactPeers data = .error .invalidPeerLength) ∧
    (data.length % 6 = 0 →
      parseCompactPeers data = .ok ((List.range (data.length / 6)).map (fun (k : Nat) =>
        peer.New ((data.drop (6 * k)).take 4)
          (binary.bigEndian ((data.drop (6 * k + 4)).take 2)))) ∧
      ((List.range (data.length / 6)).map (fun (k : Nat) =>
        peer.New ((data.drop (6 * k)).take 4)
          (binary.bigEndian ((data.drop (6 * k + 4)).take 2)))).length = data.length / 6) := by
  have hbad : data.length % 6 ≠ 0 → parseCompactPeers data = .error .invalidPeerLength := by
    intro h
    simp [parseCompactPeers, h]
  have hgood : data.length % 6 = 0 →
      parseCompactPeers data = .ok ((List.range (data.length / 6)).map (fun (k : Nat) =>
        peer.New ((data.drop (6 * k)).take 4)
          (binary.bigEndian ((data.drop (6 * k + 4)).take 2)))) := by
    intro h
    have hm := mapM_option_eq_map
      (fun (i : Nat) =>
        match torrent.Torrent.sliceBytes data ((i * 6 : Nat) : Int) (((i * 6 : Nat) : Int) + 4),
              torrent.Torrent.sliceBytes data (((i * 6 : Nat) : Int) + 4)
                (((i * 6 : Nat) : Int) + 6) with
        | some ip, some portBytes =>
          (binary.Uint16 portBytes).map (fun port => peer.New ip port)
        | _, _ => none)
      (fun (k : Nat) => peer.New ((data.drop (6 * k)).take 4)
          (binary.bigEndian ((data.drop (6 * k + 4)).take 2)))
      (List.range (data.length / 6))
      (by
        intro k hk
        have hk1 : 6 * k + 6 ≤ data.length := by
          have := List.mem_range.mp hk
          omega
        obtain ⟨h1, h2, h3⟩ := compactPeer_at data hb k hk1
        simp only [h1, h2, h3, Option.map_some'])
    simp only [parseCompactPeers, h, ne_eq, not_true_eq_false, if_false]
    rw [hm]
  refine ⟨?_, hbad, fun h => ⟨hgood h, by simp⟩⟩
  constructor
  · rintro ⟨e, he⟩
    by_contra hcon
    rw [hgood hcon] at he
    cases he
  · intro h; exact ⟨_, hbad h⟩

/-- C26, at the compact peers of the example: `10.0.0.1:6881` and `192.168.1.2:6889`. -/
theorem parseCompactPeers_spec_witness :
    ((∃ e, parseCompactPeers [10, 0, 0, 1, 0x1A, 0xE1, 192, 168, 1, 2, 0x1A, 0xE9] = .error e)
      ↔ ([10, 0, 0, 1, 0x1A, 0xE1, 192, 168, 1, 2, 0x1A, 0xE9] : Bytes).length % 6 ≠ 0) ∧
    parseCompactPeers [10, 0, 0, 1, 0x1A, 0xE1, 192, 168, 1, 2, 0x1A, 0xE9]
      = .ok [peer.New [10, 0, 0, 1] 6881, peer.New [192, 168, 1, 2] 6889] :=
  have h := parseCompactPeers_spec [10, 0, 0, 1, 0x1A, 0xE1, 192, 168, 1, 2, 0x1A, 0xE9]
    (by decide)
  ⟨h.1, (h.2.2 (by decide)).1⟩

/-- The compact peers of the example, and a blob of seven bytes. -/
theorem parseCompactPeers_example :
    parseCompactPeers [10, 0, 0, 1, 0x1A, 0xE1, 192, 168, 1, 2, 0x1A, 0xE9]
      = .ok [peer.New [10, 0, 0, 1] 6881, peer.New [192, 168, 1, 2] 6889] ∧
    parseCompactPeers [10, 0, 0, 1, 0x1A, 0xE1, 192] = .error .invalidPeerLength ∧
    parseCompactPeers [] = .ok [] := by
  refine ⟨?_, ?_, ?_⟩ <;> rfl

end tracker

namespace binary

theorem PutUint32_bigEndian (b0 b1 b2 b3 : Nat) (h0 : b0 < 256) (h1 : b1 < 256)
    (h2 : b2 < 256) (h3 : b3 < 256) :
    PutUint32 (bigEndian [b0, b1, b2, b3]) = [b0, b1, b2, b3] := by
  simp only [PutUint32, bigEndian, List.foldl, Nat.shiftRight_eq_div_pow]
  have hv : ((0 * 256 + b0) * 256 + b1) * 256 + b2 < 2 ^ 24 := by omega
  congr 1
  · omega
  congr 1
  · omega
  congr 1
  · omega
  congr 1
  omega

theorem Uint64_eq_bigEndian (b0 b1 b2 b3 b4 b5 b6 b7 : Nat) (rest : Bytes)
    (h1 : b1 < 256) (h2 : b2 < 256) (h3 : b3 < 256) (h4 : b4 < 256) (h5 : b5 < 256)
    (h6 : b6 < 256) (h7 : b7 < 256) :
    Uint64 (b0 :: b1 :: b2 :: b3 :: b4 :: b5 :: b6 :: b7 :: rest)
      = some (bigEndian [b0, b1, b2, b3, b4, b5, b6, b7]) := by
  simp only [Uint64, bigEndian, List.foldl, Nat.shiftLeft_eq]
  have e1 : b7 ||| b6 * 2 ^ 8 = 2 ^ 8 * b6 + b7 := by
    rw [Nat.or_comm, Nat.mul_comm]
    exact (Nat.mul_add_lt_is_or (by simpa using h7) b6).symm
  have e2 : (2 ^ 8 * b6 + b7) ||| b5 * 2 ^ 16 = 2 ^ 16 * b5 + (2 ^ 8 * b6 + b7) := by
    rw [Nat.or_comm, Nat.mul_comm]
    exact (Nat.mul_add_lt_is_or (by omega) b5).symm
  have e3 : (2 ^ 16 * b5 + (2 ^ 8 * b6 + b7)) ||| b4 * 2 ^ 24
      = 2 ^ 24 * b4 + (2 ^ 16 * b5 + (2 ^ 8 * b6 + b7)) := by
    rw [Nat.or_comm, Nat.mul_comm]
    exact (Nat.mul_add_lt_is_or (by omega) b4).symm
  have e4 : (2 ^ 24 * b4 + (2 ^ 16 * b5 + (2 ^ 8 * b6 + b7))) ||| b3 * 2 ^ 32
      = 2 ^ 32 * b3 + (2 ^ 24 * b4 + (2 ^ 16 * b5 + (2 ^ 8 * b6 + b7))) := by
    rw [Nat.or_comm, Nat.mul_comm]
    exact (Nat.mul_add_lt_is_or (by omega) b3).symm
  have e5 : (2 ^ 32 * b3 + (2 ^ 24 * b4 + (2 ^ 16 * b5 + (2 ^ 8 * b6 + b7)))) ||| b2 * 2 ^ 40
      = 2 ^ 40 * b2 + (2 ^ 32 * b3 + (2 ^ 24 * b4 + (2 ^ 16 * b5 + (2 ^ 8 * b6 + b7)))) := by
    rw [Nat.or_comm, Nat.mul_comm]
    exact (Nat.mul_add_lt_is_or (by omega) b2).symm
  have e6 : (2 ^ 40 * b2 + (2 ^ 32 * b3 + (2 ^ 24 * b4 + (2 ^ 16 * b5 + (2 ^ 8 * b6 + b7)))))
        ||| b1 * 2 ^ 48
      = 2 ^ 48 * b1 + (2 ^ 40 * b2 + (2 ^ 32 * b3 + (2 ^ 24 * b4 + (2 ^ 16 * b5
          + (2 ^ 8 * b6 + b7))))) := by
    rw [Nat.or_comm, Nat.mul_comm]
    exact (Nat.mul_add_lt_is_or (by omega) b1).symm
  have e7 : (2 ^ 48 * b1 + (2 ^ 40 * b2 + (2 ^ 32 * b3 + (2 ^ 24 * b4 + (2 ^ 16 * b5
          + (2 ^ 8 * b6 + b7)))))) ||| b0 * 2 ^ 56
      = 2 ^ 56 * b0 + (2 ^ 48 * b1 + (2 ^ 40 * b2 + (2 ^ 32 * b3 + (2 ^ 24 * b4
          + (2 ^ 16 * b5 + (2 ^ 8 * b6 + b7)))))) := by
    rw [Nat.or_comm, Nat.mul_comm]
    exact (Nat.mul_add_lt_is_or (by omega) b0).symm
  rw [e1, e2, e3, e4, e5, e6, e7]
  congr 1
  omega

theorem PutUint64_bigEndian (b0 b1 b2 b3 b4 b5 b6 b7 : Nat) (h0 : b0 < 256) (h1 : b1 < 256)
    (h2 : b2 < 256) (h3 : b3 < 256) (h4 : b4 < 256) (h5 : b5 < 256) (h6 : b6 < 256)
    (h7 : b7 < 256) :
    PutUint64 (bigEndian [b0, b1, b2, b3, b4, b5, b6, b7]) = [b0, b1, b2, b3, b4, b5, b6, b7] := by
  simp only [PutUint64, bigEndian, List.foldl, Nat.shiftRight_eq_div_pow]
  congr 1
  · omega
  congr 1
  · omega
  congr 1
  · omega
  congr 1
  · omega
  congr 1
  · omega
  congr 1
  · omega
  congr 1
  · omega
  congr 1
  omega

theorem bigEndian_PutUint64 (v : Nat) : bigEndian (PutUint64 v) = v % 2 ^ 64 := by
  simp only [PutUint64, bigEndian, List.foldl, Nat.shiftRight_eq_div_pow]
  omega

theorem bigEndian_PutUint16 (v : Nat) : bigEndian (PutUint16 v) = v % 2 ^ 16 := by
  simp only [PutUint16, bigEndian, List.foldl, Nat.shiftRight_eq_div_pow]
  omega

end binary

theorem copyInto_zeros (pre src : Bytes) (n hi m r : Nat) (hn : n = pre.length)
    (hhi : hi = n + src.length) (hm : m = src.length + r) :
    copyInto (pre ++ List.replicate m 0) n hi src
      = (pre ++ src ++ List.replicate r 0, src.length) := by
  subst hm
  rw [List.replicate_add, ← List.append_assoc]
  exact copyInto_exact pre (List.replicate src.length 0) _ src n hi hn (by simp) (by omega)

theorem drop_append_drop (a rest whole : Bytes) (n k : Nat) (h : whole.drop n = a ++ rest)
    (ha : a.length = k) : whole.drop (n + k) = rest ∧ (whole.drop n).take k = a := by
  constructor
  · rw [← List.drop_drop, h]
    exact List.drop_left' ha
  · rw [h]
    exact List.take_left' ha

/-- Thirteen consecutive writes that fill a zeroed buffer of 98 bytes. -/
theorem copyInto_fields (x1 x2 x3 x4 x5 x6 x7 x8 x9 x10 x11 x12 x13 : Bytes)
    (h1 : x1.length = 8) (h2 : x2.length = 4) (h3 : x3.length = 4) (h4 : x4.length = 20)
    (h5 : x5.length = 20) (h6 : x6.length = 8) (h7 : x7.length = 8) (h8 : x8.length = 8)
    (h9 : x9.length = 4) (h10 : x10.length = 4) (h11 : x11.length = 4) (h12 : x12.length = 4)
    (h13 : x13.length = 2) :
    (copyInto (copyInto (copyInto (copyInto (copyInto (copyInto (copyInto (copyInto (copyInto
      (copyInto (copyInto (copyInto (copyInto (List.replicate 98 0) 0 8 x1).1 8 12 x2).1
      12 16 x3).1 16 36 x4).1 36 56 x5).1 56 64 x6).1 64 72 x7).1 72 80 x8).1 80 84 x9).1
      84 88 x10).1 88 92 x11).1 92 96 x12).1 96 98 x13).1
    = x1 ++ (x2 ++ (x3 ++ (x4 ++ (x5 ++ (x6 ++ (x7 ++ (x8 ++ (x9 ++ (x10 ++ (x11 ++ (x12 ++ x13)))))))))))
    := by
  have s1 : copyInto (List.replicate 98 0) 0 8 x1 = (x1 ++ List.replicate 90 0, x1.length) :=
    copyInto_zeros [] x1 0 8 98 90 rfl (by rw [h1]) (by rw [h1])
  have l2 : (x1 ++ x2).length = 12 := by rw [List.length_append, h1, h2]
  have l3 : (x1 ++ x2 ++ x3).length = 16 := by rw [List.length_append, l2, h3]
  have l4 : (x1 ++ x2 ++ x3 ++ x4).length = 36 := by rw [List.length_append, l3, h4]
  have l5 : (x1 ++ x2 ++ x3 ++ x4 ++ x5).length = 56 := by rw [List.length_append, l4, h5]
  have l6 : (x1 ++ x2 ++ x3 ++ x4 ++ x5 ++ x6).length = 64 := by
    rw [List.length_append, l5, h6]
  have l7 : (x1 ++ x2 ++ x3 ++ x4 ++ x5 ++ x6 ++ x7).length = 72 := by
    rw [List.length_append, l6, h7]
  have l8 : (x1 ++ x2 ++ x3 ++ x4 ++ x5 ++ x6 ++ x7 ++ x8).length = 80 := by
    rw [List.length_append, l7, h8]
  have l9 : (x1 ++ x2 ++ x3 ++ x4 ++ x5 ++ x6 ++ x7 ++ x8 ++ x9).length = 84 := by
    rw [List.length_append, l8, h9]
  have l10 : (x1 ++ x2 ++ x3 ++ x4 ++ x5 ++ x6 ++ x7 ++ x8 ++ x9 ++ x10).length = 88 := by
    rw [List.length_append, l9, h10]
  have l11 : (x1 ++ x2 ++ x3 ++ x4 ++ x5 ++ x6 ++ x7 ++ x8 ++ x9 ++ x10 ++ x11).length = 92 := by
    rw [List.length_append, l10, h11]
  have l12 : (x1 ++ x2 ++ x3 ++ x4 ++ x5 ++ x6 ++ x7 ++ x8 ++ x9 ++ x10 ++ x11 ++ x12).length
      = 96 := by
    rw [List.length_append, l11, h12]
  rw [s1]
  simp only []
  rw [copyInto_zeros x1 x2 8 12 90 86 h1.symm (by rw [h2]) (by rw [h2])]
  simp only []
  rw [copyInto_zeros _ x3 12 16 86 82 l2.symm (by rw [h3]) (by rw [h3])]
  simp only []
  rw [copyInto_zeros _ x4 16 36 82 62 l3.symm (by rw [h4]) (by rw [h4])]
  simp only []
  rw [copyInto_zeros _ x5 36 56 62 42 l4.symm (by rw [h5]) (by rw [h5])]
  simp only []
  rw [copyInto_zeros _ x6 56 64 42 34 l5.symm (by rw [h6]) (by rw [h6])]
  simp only []
  rw [copyInto_zeros _ x7 64 72 34 26 l6.symm (by rw [h7]) (by rw [h7])]
  simp only []
  rw [copyInto_zeros _ x8 72 80 26 18 l7.symm (by rw [h8]) (by rw [h8])]
  simp only []
  rw [copyInto_zeros _ x9 80 84 18 14 l8.symm (by rw [h9]) (by rw [h9])]
  simp only []
  rw [copyInto_zeros _ x10 84 88 14 10 l9.symm (by rw [h10]) (by rw [h10])]
  simp only []
  rw [copyInto_zeros _ x11 88 92 10 6 l10.symm (by rw [h11]) (by rw [h11])]
  simp only []
  rw [copyInto_zeros _ x12 92 96 6 2 l11.symm (by rw [h12]) (by rw [h12])]
  simp only []
  rw [copyInto_zeros _ x13 96 98 2 0 l12.symm (by rw [h13]) (by rw [h13])]
  simp only [List.replicate_zero, List.append_nil, List.append_assoc]

namespace tracker

/-- The packet of `buildAnnouncePacket` as the sequence of its fields. -/
theorem buildAnnouncePacket_eq (t : UDPTracker) (transactionId connectionId : Bytes)
    (htx : transactionId.length = 4) (hcx : connectionId.length = 8)
    (hih : t.torrent.InfoHash.length = 20) (hpid : t.torrent.PeerId.length = 20)
    (hbt : ∀ x ∈ transactionId, x < 256) (hbc : ∀ x ∈ connectionId, x < 256) :
    t.buildAnnouncePacket transactionId connectionId = some (
      connectionId ++ (binary.PutUint32 ActionAnnounce ++ (transactionId ++
      (t.torrent.InfoHash ++ (t.torrent.PeerId ++ (binary.PutUint64 0 ++
      (binary.PutUint64 (t.torrent.Length % 2 ^ 64).toNat ++ (binary.PutUint64 0 ++
      (binary.PutUint32 0 ++ (binary.PutUint32 0 ++ (binary.PutUint32 0 ++
      (binary.PutUint32 50 ++ binary.PutUint16 (t.port % 2 ^ 16).toNat)))))))))))) := by
  have hU64 : binary.Uint64 connectionId = some (binary.bigEndian connectionId) ∧
      binary.PutUint64 (binary.bigEndian connectionId) = connectionId := by
    match connectionId, hcx, hbc with
    | [b0, b1, b2, b3, b4, b5, b6, b7], _, hbc =>
      have h0 := hbc b0 (by simp)
      have h1 := hbc b1 (by simp)
      have h2 := hbc b2 (by simp)
      have h3 := hbc b3 (by simp)
      have h4 := hbc b4 (by simp)
      have h5 := hbc b5 (by simp)
      have h6 := hbc b6 (by simp)
      have h7 := hbc b7 (by simp)
      exact ⟨binary.Uint64_eq_bigEndian b0 b1 b2 b3 b4 b5 b6 b7 [] h1 h2 h3 h4 h5 h6 h7,
        binary.PutUint64_bigEndian b0 b1 b2 b3 b4 b5 b6 b7 h0 h1 h2 h3 h4 h5 h6 h7⟩
  have hU32 : binary.Uint32 transactionId = some (binary.bigEndian transactionId) ∧
      binary.PutUint32 (binary.bigEndian transactionId) = transactionId := by
    match transactionId, htx, hbt with
    | [b0, b1, b2, b3], _, hbt =>
      have h0 := hbt b0 (by simp)
      have h1 := hbt b1 (by simp)
      have h2 := hbt b2 (by simp)
      have h3 := hbt b3 (by simp)
      exact ⟨binary.Uint32_eq_bigEndian b0 b1 b2 b3 [] h1 h2 h3,
        binary.PutUint32_bigEndian b0 b1 b2 b3 h0 h1 h2 h3⟩
  simp only [UDPTracker.buildAnnouncePacket, hU64.1, hU32.1, hU64.2, hU32.2]
  refine congrArg some ?_
  apply copyInto_fields <;> first | rfl | assumption

/-- C27: for every 4-byte transaction id, 8-byte connection id, 20-byte info-hash and peer-id,
every total length `T = t.torrent.Length()` and every port, `buildAnnouncePacket` returns
exactly 98 bytes: the connection id at `[0,8)`, the action 1 at `[8,12)`, the transaction id
at `[12,16)`, the info-hash at `[16,36)`, the peer-id at `[36,56)`, downloaded 0 at `[56,64)`,
left = `T` (as a `uint64`) at `[64,72)`, uploaded 0 at `[72,80)`, event, ip and key 0 at
`[80,92)`, num_want 50 at `[92,96)` and the port (as a `uint16`) at `[96,98)`, all numbers
big-endian. -/
theorem buildAnnouncePacket_layout (t : UDPTracker) (transactionId connectionId : Bytes)
    (htx : transactionId.length = 4) (hcx : connectionId.length = 8)
    (hih : t.torrent.InfoHash.length = 20) (hpid : t.torrent.PeerId.length = 20)
    (hbt : ∀ x ∈ transactionId, x < 256) (hbc : ∀ x ∈ connectionId, x < 256) :
    ∃ packet, t.buildAnnouncePacket transactionId connectionId = some packet ∧
      packet.length = 98 ∧
      (packet.drop 0).take 8 = connectionId ∧
      (packet.drop 8).take 4 = [0, 0, 0, 1] ∧
      (packet.drop 12).take 4 = transactionId ∧
      (packet.drop 16).take 20 = t.torrent.InfoHash ∧
      (packet.drop 36).take 20 = t.torrent.PeerId ∧
      (packet.drop 56).take 8 = List.replicate 8 0 ∧
      (binary.bigEndian ((packet.drop 64).take 8) : Int) = t.torrent.Length % 2 ^ 64 ∧
      (packet.drop 72).take 8 = List.replicate 8 0 ∧
      (packet.drop 80).take 12 = List.replicate 12 0 ∧
      (packet.drop 92).take 4 = [0, 0, 0, 50] ∧
      (binary.bigEndian ((packet.drop 96).take 2) : Int) = t.port % 2 ^ 16 := by
  refine ⟨_, buildAnnouncePacket_eq t transactionId connectionId htx hcx hih hpid hbt hbc, ?_⟩
  generalize hp : connectionId ++ (binary.PutUint32 ActionAnnounce ++ (transactionId ++
      (t.torrent.InfoHash ++ (t.torrent.PeerId ++ (binary.PutUint64 0 ++
      (binary.PutUint64 (t.torrent.Length % 2 ^ 64).toNat ++ (binary.PutUint64 0 ++
      (binary.PutUint32 0 ++ (binary.PutUint32 0 ++ (binary.PutUint32 0 ++
      (binary.PutUint32 50 ++ binary.PutUint16 (t.port % 2 ^ 16).toNat))))))))))) = packet
  have d0 : packet.drop 0 = connectionId ++ (binary.PutUint32 ActionAnnounce ++ (transactionId ++
      (t.torrent.InfoHash ++ (t.torrent.PeerId ++ (binary.PutUint64 0 ++
      (binary.PutUint64 (t.torrent.Length % 2 ^ 64).toNat ++ (binary.PutUint64 0 ++
      ((binary.PutUint32 0 ++ binary.PutUint32 0 ++ binary.PutUint32 0) ++
      (binary.PutUint32 50 ++ (binary.PutUint16 (t.port % 2 ^ 16).toNat ++ [])))))))))) := by
    rw [List.drop_zero, ← hp]
    simp only [List.append_assoc, List.append_nil]
  obtain ⟨d8, f1⟩ := drop_append_drop _ _ packet 0 8 d0 hcx
  obtain ⟨d12, f2⟩ := drop_append_drop _ _ packet 8 4 d8 rfl
  obtain ⟨d16, f3⟩ := drop_append_drop _ _ packet 12 4 d12 htx
  obtain ⟨d36, f4⟩ := drop_append_drop _ _ packet 16 20 d16 hih
  obtain ⟨d56, f5⟩ := drop_append_drop _ _ packet 36 20 d36 hpid
  obtain ⟨d64, f6⟩ := drop_append_drop _ _ packet 56 8 d56 rfl
  obtain ⟨d72, f7⟩ := drop_append_drop _ _ packet 64 8 d64 rfl
  obtain ⟨d80, f8⟩ := drop_append_drop _ _ packet 72 8 d72 rfl
  obtain ⟨d92, f9⟩ := drop_append_drop _ _ packet 80 12 d80 rfl
  obtain ⟨d96, f10⟩ := drop_append_drop _ _ packet 92 4 d92 rfl
  obtain ⟨d98, f11⟩ := drop_append_drop _ _ packet 96 2 d96 rfl
  have hlen : packet.length = 98 := by
    have h := congrArg List.length d98
    rw [List.length_drop, List.length_nil] at h
    have h2 := congrArg List.length d96
    rw [List.length_drop, List.length_append, List.length_nil] at h2
    have h3 : (binary.PutUint16 (t.port % 2 ^ 16).toNat).length = 2 := rfl
    omega
  refine ⟨hlen, f1, f2, f3, f4, f5, f6, ?_, f8, f9, f10, ?_⟩
  · rw [f7, binary.bigEndian_PutUint64]
    have h0 : 0 ≤ t.torrent.Length % 2 ^ 64 := Int.emod_nonneg _ (by norm_num)
    have h1 : t.torrent.Length % 2 ^ 64 < 2 ^ 64 := Int.emod_lt_of_pos _ (by norm_num)
    omega
  · rw [f11, binary.bigEndian_PutUint16]
    have h0 : 0 ≤ t.port % 2 ^ 16 := Int.emod_nonneg _ (by norm_num)
    have h1 : t.port % 2 ^ 16 < 2 ^ 16 := Int.emod_lt_of_pos _ (by norm_num)
    omega

/-- C27, at the tracker of the two-file torrent (65768 bytes, port 6881), the transaction id
`01 02 03 04` and the connection id `05 .. 0C`. -/
theorem buildAnnouncePacket_layout_witness :
    ∃ packet, exampleTracker.buildAnnouncePacket [1, 2, 3, 4] [5, 6, 7, 8, 9, 10, 11, 12]
        = some packet ∧
      packet.length = 98 ∧
      (packet.drop 0).take 8 = [5, 6, 7, 8, 9, 10, 11, 12] ∧
      (packet.drop 8).take 4 = [0, 0, 0, 1] ∧
      (packet.drop 12).take 4 = [1, 2, 3, 4] ∧
      (packet.drop 16).take 20 = exampleTracker.torrent.InfoHash ∧
      (packet.drop 36).take 20 = exampleTracker.torrent.PeerId ∧
      (packet.drop 56).take 8 = List.replicate 8 0 ∧
      (binary.bigEndian ((packet.drop 64).take 8) : Int)
        = exampleTracker.torrent.Length % 2 ^ 64 ∧
      (packet.drop 72).take 8 = List.replicate 8 0 ∧
      (packet.drop 80).take 12 = List.replicate 12 0 ∧
      (packet.drop 92).take 4 = [0, 0, 0, 50] ∧
      (binary.bigEndian ((packet.drop 96).take 2) : Int) = exampleTracker.port % 2 ^ 16 :=
  buildAnnouncePacket_layout exampleTracker [1, 2, 3, 4] [5, 6, 7, 8, 9, 10, 11, 12]
    (by decide) (by decide) (by decide) (by decide) (by decide) (by decide)

/-- The announce packet of the example, byte for byte: left is 65768 = `0x0100E8`, the port
6881 = `0x1AE1`. -/
theorem buildAnnouncePacket_example :
    exampleTracker.torrent.Length = 65768 ∧
    exampleTracker.buildAnnouncePacket [1, 2, 3, 4] [5, 6, 7, 8, 9, 10, 11, 12]
      = some ([5, 6, 7, 8, 9, 10, 11, 12] ++ [0, 0, 0, 1] ++ [1, 2, 3, 4]
          ++ List.replicate 20 1 ++ List.replicate 20 2
          ++ [0, 0, 0, 0, 0, 0, 0, 0] ++ [0, 0, 0, 0, 0, 1, 0, 232] ++ [0, 0, 0, 0, 0, 0, 0, 0]
          ++ [0, 0, 0, 0] ++ [0, 0, 0, 0] ++ [0, 0, 0, 0] ++ [0, 0, 0, 50] ++ [26, 225]) ∧
    exampleTracker.buildAnnouncePacket [1, 2, 3] [5, 6, 7, 8, 9, 10, 11, 12] = none := by
  decide

end tracker

namespace tracker

/-- A datagram of at least 16 bytes fills the buffer of `receiveConnect`. -/
theorem copyInto_buf_full (datagram : Bytes) (h : 16 ≤ datagram.length) :
    copyInto (List.replicate 16 0) 0 16 datagram = (datagram.take 16, 16) := by
  have hk : min (16 - 0) datagram.length = 16 := by omega
  simp [copyInto, hk]

/-- Of a shorter datagram, fewer than 16 bytes are read. -/
theorem copyInto_buf_short (datagram : Bytes) (h : datagram.length < 16) :
    (copyInto (List.replicate 16 0) 0 16 datagram).2 = datagram.length := by
  simp only [copyInto]
  omega

/-- The result of `receiveConnect` when the deadline could be set and a datagram was read. -/
theorem receiveConnect_read (t : UDPTracker) (ht : t.timeout < 8)
    (transactionId datagram : Bytes) (hb : ∀ x ∈ datagram, x < 256) :
    (t.receiveConnect transactionId (some datagram)).2 =
      if datagram.length < 16 then .error .connectTooSmall
      else if (datagram.drop 4).take 4 ≠ transactionId then .error .connectTransactionId
      else if binary.bigEndian (datagram.take 4) ≠ ActionConnect then .error .connectAction
      else .ok ((datagram.drop 8).take 8) := by
  have hdl : t.setDeadline
      = ({ t with timeout := t.timeout + 1 }, 15 * 2 ^ t.timeout * 1000000000, none) := by
    simp only [UDPTracker.setDeadline]
    rw [if_neg (by simp; omega)]
  simp only [UDPTracker.receiveConnect, hdl]
  by_cases hlen : datagram.length < 16
  · rw [copyInto_buf_short datagram hlen]
    simp [hlen]
  · rw [copyInto_buf_full datagram (by omega)]
    simp only [if_neg hlen, Nat.lt_irrefl, if_false]
    have e1 : ((datagram.take 16).drop 4).take 4 = (datagram.drop 4).take 4 := by
      rw [List.drop_take, List.take_take]; rfl
    have e2 : ((datagram.take 16).drop 8).take 8 = (datagram.drop 8).take 8 := by
      rw [List.drop_take, List.take_take]; rfl
    have e3 : (datagram.take 16).take 4 = datagram.take 4 := by
      rw [List.take_take]; rfl
    rw [e1, e2, e3]
    have hu : binary.Uint32 (datagram.take 4) = some (binary.bigEndian (datagram.take 4)) := by
      match datagram, hlen, hb with
      | b0 :: b1 :: b2 :: b3 :: rest, _, hb =>
        exact binary.Uint32_eq_bigEndian b0 b1 b2 b3 [] (hb b1 (by simp)) (hb b2 (by simp))
          (hb b3 (by simp))
      | [], h, _ => simp at h
      | [_], h, _ => simp at h
      | [_, _], h, _ => simp at h
      | [_, _, _], h, _ => simp at h
    rw [hu]
    by_cases htx : (datagram.drop 4).take 4 = transactionId
    · by_cases hact : binary.bigEndian (datagram.take 4) = ActionConnect
      · simp [htx, hact]
      · simp [htx, hact]
    · have htx2 : ¬ transactionId = (datagram.drop 4).take 4 := fun h => htx h.symm
      simp [htx, htx2]

/-- C28: for every UDP connect reply (a datagram of bytes, of which `n = min(16, len)` are
read) and every request transaction id, when the read takes place (the step counter is below
8, so `setDeadline` returns no error), `receiveConnect` accepts the reply if and only if
`n >= 16`, the bytes `[4,8)` equal the transaction id and the big-endian number in `[0,4)` is
0 (connect); when accepted, the connection id returned is exactly the bytes `[8,16)`; a reply
of 16 bytes whose echoed transaction id differs is rejected with the transaction id error. -/
theorem receiveConnect_accepts (t : UDPTracker) (ht : t.timeout < 8)
    (transactionId datagram : Bytes) (hb : ∀ x ∈ datagram, x < 256) :
    ((∃ connId, (t.receiveConnect transactionId (some datagram)).2 = .ok connId) ↔
      (16 ≤ datagram.length ∧ (datagram.drop 4).take 4 = transactionId ∧
        binary.bigEndian (datagram.take 4) = ActionConnect)) ∧
    (∀ connId, (t.receiveConnect transactionId (some datagram)).2 = .ok connId →
      connId = (datagram.drop 8).take 8) ∧
    (16 ≤ datagram.length → (datagram.drop 4).take 4 ≠ transactionId →
      (t.receiveConnect transactionId (some datagram)).2 = .error .connectTransactionId) := by
  have h := receiveConnect_read t ht transactionId datagram hb
  refine ⟨⟨?_, ?_⟩, ?_, ?_⟩
  · rintro ⟨connId, hc⟩
    rw [h] at hc
    split at hc
    · cases hc
    · rename_i h1
      split at hc
      · cases hc
      · rename_i h2
        split at hc
        · cases hc
        · rename_i h3
          exact ⟨by omega, not_not.mp h2, not_not.mp h3⟩
  · rintro ⟨h1, h2, h3⟩
    refine ⟨(datagram.drop 8).take 8, ?_⟩
    rw [h, if_neg (by omega), if_neg (not_not.mpr h2), if_neg (not_not.mpr h3)]
  · intro connId hc
    rw [h] at hc
    split at hc
    · cases hc
    · split at hc
      · cases hc
      · split at hc
        · cases hc
        · injection hc with hc; exact hc.symm
  · intro h1 h2
    rw [h, if_neg (by omega), if_pos h2]

/-- C28, at a fresh tracker, the transaction id `01 02 03 04` and the reply with action 0,
that transaction id and the connection id `05 .. 0C`. -/
theorem receiveConnect_accepts_witness :
    ((∃ connId, (exampleTracker.receiveConnect [1, 2, 3, 4]
          (some [0, 0, 0, 0, 1, 2, 3, 4, 5, 6, 7, 8, 9, 10, 11, 12])).2 = .ok connId) ↔
      (16 ≤ ([0, 0, 0, 0, 1, 2, 3, 4, 5, 6, 7, 8, 9, 10, 11, 12] : Bytes).length ∧
        (([0, 0, 0, 0, 1, 2, 3, 4, 5, 6, 7, 8, 9, 10, 11, 12] : Bytes).drop 4).take 4
          = [1, 2, 3, 4] ∧
        binary.bigEndian (([0, 0, 0, 0, 1, 2, 3, 4, 5, 6, 7, 8, 9, 10, 11, 12] : Bytes).take 4)
          = ActionConnect)) ∧
    (∀ connId, (exampleTracker.receiveConnect [1, 2, 3, 4]
          (some [0, 0, 0, 0, 1, 2, 3, 4, 5, 6, 7, 8, 9, 10, 11, 12])).2 = .ok connId →
      connId = (([0, 0, 0, 0, 1, 2, 3, 4, 5, 6, 7, 8, 9, 10, 11, 12] : Bytes).drop 8).take 8) ∧
    (16 ≤ ([0, 0, 0, 0, 1, 2, 3, 4, 5, 6, 7, 8, 9, 10, 11, 12] : Bytes).length →
      (([0, 0, 0, 0, 1, 2, 3, 4, 5, 6, 7, 8, 9, 10, 11, 12] : Bytes).drop 4).take 4
        ≠ [1, 2, 3, 4] →
      (exampleTracker.receiveConnect [1, 2, 3, 4]
          (some [0, 0, 0, 0, 1, 2, 3, 4, 5, 6, 7, 8, 9, 10, 11, 12])).2
        = .error .connectTransactionId) :=
  receiveConnect_accepts exampleTracker (by decide) [1, 2, 3, 4]
    [0, 0, 0, 0, 1, 2, 3, 4, 5, 6, 7, 8, 9, 10, 11, 12] (by decide)

/-- Connect replies at a fresh tracker for the transaction id `01 02 03 04`: the valid reply,
a reply with another transaction id, a reply with the action 3 (error), a reply of 15 bytes,
and a reply of 20 bytes, of which 16 are read. -/
theorem receiveConnect_examples :
    (exampleTracker.receiveConnect [1, 2, 3, 4]
        (some [0, 0, 0, 0, 1, 2, 3, 4, 5, 6, 7, 8, 9, 10, 11, 12])).2
      = .ok [5, 6, 7, 8, 9, 10, 11, 12] ∧
    (exampleTracker.receiveConnect [1, 2, 3, 4]
        (some [0, 0, 0, 0, 1, 2, 3, 5, 5, 6, 7, 8, 9, 10, 11, 12])).2
      = .error .connectTransactionId ∧
    (exampleTracker.receiveConnect [1, 2, 3, 4]
        (some [0, 0, 0, 3, 1, 2, 3, 4, 5, 6, 7, 8, 9, 10, 11, 12])).2
      = .error .connectAction ∧
    (exampleTracker.receiveConnect [1, 2, 3, 4]
        (some [0, 0, 0, 0, 1, 2, 3, 4, 5, 6, 7, 8, 9, 10, 11])).2
      = .error .connectTooSmall ∧
    (exampleTracker.receiveConnect [1, 2, 3, 4]
        (some [0, 0, 0, 0, 1, 2, 3, 4, 5, 6, 7, 8, 9, 10, 11, 12, 13, 14, 15, 16])).2
      = .ok [5, 6, 7, 8, 9, 10, 11, 12] ∧
    (exampleTracker.receiveConnect [1, 2, 3, 4] none).2 = .error .read := by
  refine ⟨?_, ?_, ?_, ?_, ?_, ?_⟩ <;> rfl

/-- The schedule of `setDeadline`: at step `n` (the counter before the call) the read
deadline is `15 * 2^n` seconds from now and the counter becomes `n + 1`; the call returns the
retransmission-limit error exactly when `n >= 8`, so that the deadlines after which a read
takes place are those of the steps 0 to 7. -/
theorem setDeadline_schedule (t : UDPTracker) :
    t.setDeadline.2.1 = (15 * 2 ^ t.timeout) * 1000000000 ∧
    t.setDeadline.1.timeout = t.timeout + 1 ∧
    (t.setDeadline.2.2 = some .retransmissionLimit ↔ 8 ≤ t.timeout) ∧
    (t.setDeadline.2.2 = none ↔ t.timeout ≤ 7) := by
  unfold UDPTracker.setDeadline
  by_cases h : t.timeout + 1 > 8
  · rw [if_pos h]
    refine ⟨rfl, rfl, ?_, ?_⟩
    · simp only [true_iff]; omega
    · simp only [reduceCtorEq, false_iff]; omega
  · rw [if_neg h]
    refine ⟨rfl, rfl, ?_, ?_⟩
    · simp only [reduceCtorEq, false_iff]; omega
    · simp only [true_iff]; omega

/-- C29 (divergence): at receive step `n = 8` of a UDP tracker, `setDeadline` sets the read
deadline of `15 * 2^8 = 3840` seconds and then returns the retransmission-limit error, so
`receiveConnect` returns that error without reading: whatever reply arrives, a valid one
included, is not received. The last step at which a receive is attempted is `n = 7`. -/
theorem receiveConnect_step_eight (t : UDPTracker) (h8 : t.timeout = 8)
    (transactionId : Bytes) (reply : Option Bytes) :
    t.setDeadline.2.1 = 3840 * 1000000000 ∧
    t.setDeadline.2.2 = some .retransmissionLimit ∧
    (t.receiveConnect transactionId reply).2 = .error .retransmissionLimit := by
  have hdl : t.setDeadline
      = ({ t with timeout := 9 }, 3840 * 1000000000, some .retransmissionLimit) := by
    simp only [UDPTracker.setDeadline, h8]
    rfl
  refine ⟨by rw [hdl], by rw [hdl], ?_⟩
  simp only [UDPTracker.receiveConnect, hdl]

/-- C29 (divergence), at the ninth receive step (`n = 8`) of the example tracker and the valid
connect reply for the transaction id `01 02 03 04`. -/
theorem receiveConnect_step_eight_witness :
    ({ exampleTracker with timeout := 8 } : UDPTracker).setDeadline.2.1 = 3840 * 1000000000 ∧
    ({ exampleTracker with timeout := 8 } : UDPTracker).setDeadline.2.2
      = some .retransmissionLimit ∧
    (({ exampleTracker with timeout := 8 } : UDPTracker).receiveConnect [1, 2, 3, 4]
        (some [0, 0, 0, 0, 1, 2, 3, 4, 5, 6, 7, 8, 9, 10, 11, 12])).2
      = .error .retransmissionLimit :=
  receiveConnect_step_eight { exampleTracker with timeout := 8 } rfl [1, 2, 3, 4]
    (some [0, 0, 0, 0, 1, 2, 3, 4, 5, 6, 7, 8, 9, 10, 11, 12])

/-- The receive steps of a fresh tracker, one call of `setDeadline` after the other: the
deadlines in seconds and whether the call returns the retransmission-limit error. -/
theorem setDeadline_steps :
    (List.range 10).map (fun (n : Nat) =>
        let t := (fun (t : UDPTracker) => t.setDeadline.1)^[n] exampleTracker
        (t.timeout, t.setDeadline.2.1 / 1000000000, t.setDeadline.2.2))
      = [(0, 15, none), (1, 30, none), (2, 60, none), (3, 120, none), (4, 240, none),
         (5, 480, none), (6, 960, none), (7, 1920, none),
         (8, 3840, some .retransmissionLimit), (9, 7680, some .retransmissionLimit)] := by
  decide

end tracker

/-! ## Theorems: truncated input -/

namespace bencode

namespace Decoder

theorem readString_none (delim : Nat) (xs : Bytes) (h : delim ∉ xs) :
    readString delim xs = none := by
  induction xs with
  | nil => rfl
  | cons x xs ih =>
    have hx : x ≠ delim := fun e => h (by simp [e])
    have hxs : delim ∉ xs := fun e => h (by simp [e])
    simp [readString, hx, ih hxs]

/-- A string cut short: the input ends in the length or in the bytes. -/
theorem consumeString_prefix (s p q : Bytes) (hs : s.length < 2 ^ 63)
    (halloc : s.length ≤ maxAlloc) (hq : q ≠ [])
    (h : p ++ q = Encoder.consumeString s) : consumeString p = .error .eof := by
  have hnot : (58 : Nat) ∉ strconv.formatNat s.length := by
    intro hmem
    have := strconv.formatNat_digits _ _ hmem
    omega
  have hin : inIntRange (s.length : Int) := by
    unfold inIntRange
    constructor
    · have : (0 : Int) ≤ (s.length : Int) := Int.ofNat_nonneg _
      omega
    · have : ((s.length : Nat) : Int) < ((2 ^ 63 : Nat) : Int) := Int.ofNat_lt.2 hs
      simpa using this
  have hfmt : strconv.formatInt (s.length : Int) = strconv.formatNat s.length := by
    simp [strconv.formatInt]
  have hatoi : strconv.Atoi (strconv.formatNat s.length) = some (s.length : Int) := by
    rw [← hfmt]; exact strconv.Atoi_formatInt _ hin
  have hsplit : p ++ q = strconv.formatNat s.length ++ 58 :: s := by
    rw [h]; simp [Encoder.consumeString]
  have hshort : (58 : Nat) ∉ p → consumeString p = .error .eof := by
    intro hp
    simp [consumeString, readString_none 58 p hp]
  rcases List.append_eq_append_iff.mp hsplit with ⟨a, hD, _⟩ | ⟨c, hp, hrest⟩
  · exact hshort (fun hmem => hnot (by rw [hD]; exact List.mem_append_left _ hmem))
  · cases c with
    | nil =>
      rw [List.append_nil] at hp
      exact hshort (by rw [hp]; exact hnot)
    | cons x c =>
      simp only [List.cons_append, List.cons.injEq] at hrest
      obtain ⟨hx, hsq⟩ := hrest
      subst hx
      have hqlen : 0 < q.length := List.length_pos.mpr hq
      have hslen : s.length = c.length + q.length := by rw [hsq, List.length_append]
      rw [hp]
      unfold consumeString
      rw [readString_append 58 _ _ hnot]
      simp only [List.length_append, List.length_singleton, Nat.add_sub_cancel,
        List.take_left', hatoi]
      have h1 : ¬ ((s.length : Int) < 0) := by omega
      have h2 : ¬ ((s.length : Int) = 0) := by omega
      have h3 : c.length < ((s.length : Int)).toNat := by omega
      have h4 : ¬ maxAlloc < ((s.length : Int)).toNat := by omega
      rw [if_neg h1, if_neg h2, if_pos h3, if_neg h4]

/-- An integer cut short: the input ends before the closing `e`. -/
theorem consumeInteger_prefix (n : Int) (p q : Bytes) (hq : q ≠ [])
    (h : p ++ q = Encoder.consumeInteger n) : consumeInteger p = .error .eof := by
  have hnot : (101 : Nat) ∉ (105 :: strconv.formatInt n) := by
    intro hmem
    rcases List.mem_cons.1 hmem with h1 | h1
    · omega
    · unfold strconv.formatInt at h1
      split at h1
      · rcases List.mem_cons.1 h1 with h2 | h2
        · omega
        · have := strconv.formatNat_digits _ _ h2; omega
      · have := strconv.formatNat_digits _ _ h1; omega
  have hsplit : p ++ q = (105 :: strconv.formatInt n) ++ [101] := by
    rw [h]; simp [Encoder.consumeInteger]
  have hshort : (101 : Nat) ∉ p → consumeInteger p = .error .eof := by
    intro hp
    simp [consumeInteger, readString_none 101 p hp]
  rcases List.append_eq_append_iff.mp hsplit with ⟨a, hD, _⟩ | ⟨c, hp, hrest⟩
  · exact hshort (fun hmem => hnot (by rw [hD]; exact List.mem_append_left _ hmem))
  · cases c with
    | nil =>
      rw [List.append_nil] at hp
      exact hshort (by rw [hp]; exact hnot)
    | cons x c =>
      simp only [List.cons_append, List.cons.injEq] at hrest
      have : c ++ q = [] := hrest.2.symm
      exact absurd (List.append_eq_nil.mp this).2 hq

theorem listLoop_item_ok (item : Bytes → Except DecodeError (Value × Bytes)) (n : Nat)
    (input rest : Bytes) (v : Value) (acc : List Value) (c : Nat) (cs : Bytes)
    (hin : input = c :: cs) (hc : c ≠ 101) (hitem : item input = .ok (v, rest)) :
    listLoop item (n + 1) input acc = listLoop item n rest (acc ++ [v]) := by
  subst hin
  simp only [listLoop, if_neg hc, hitem]

theorem listLoop_item_error (item : Bytes → Except DecodeError (Value × Bytes)) (n : Nat)
    (input : Bytes) (e : DecodeError) (acc : List Value) (c : Nat) (cs : Bytes)
    (hin : input = c :: cs) (hc : c ≠ 101) (hitem : item input = .error e) :
    listLoop item (n + 1) input acc = .error e := by
  subst hin
  simp only [listLoop, if_neg hc, hitem]

theorem dictLoop_entry_ok (item : Bytes → Except DecodeError (Value × Bytes)) (n : Nat)
    (input rest rest1 key : Bytes) (v : Value) (acc : GoMap Value) (c : Nat) (cs : Bytes)
    (hin : input = c :: cs) (hc : c ≠ 101) (hkey : consumeString input = .ok (key, rest))
    (hitem : item rest = .ok (v, rest1)) :
    dictLoop item (n + 1) input acc = dictLoop item n rest1 (GoMap.set acc key v) := by
  subst hin
  simp only [dictLoop, if_neg hc, hkey, hitem]

theorem dictLoop_key_error (item : Bytes → Except DecodeError (Value × Bytes)) (n : Nat)
    (input : Bytes) (e : DecodeError) (acc : GoMap Value) (c : Nat) (cs : Bytes)
    (hin : input = c :: cs) (hc : c ≠ 101) (hkey : consumeString input = .error e) :
    dictLoop item (n + 1) input acc = .error e := by
  subst hin
  simp only [dictLoop, if_neg hc, hkey]

theorem dictLoop_item_error (item : Bytes → Except DecodeError (Value × Bytes)) (n : Nat)
    (input rest key : Bytes) (e : DecodeError) (acc : GoMap Value) (c : Nat) (cs : Bytes)
    (hin : input = c :: cs) (hc : c ≠ 101) (hkey : consumeString input = .ok (key, rest))
    (hitem : item rest = .error e) :
    dictLoop item (n + 1) input acc = .error e := by
  subst hin
  simp only [dictLoop, if_neg hc, hkey, hitem]

end Decoder

mutual
/-- Decoding a strict prefix of an encoded value ends at the end of the input. -/
theorem consume_prefix : (v : Value) → v.wellFormed = true → v.fitsInt = true →
    v.allocatable = true →
    ∀ (fuel : Nat) (p q : Bytes), p ++ q = refEncode v → q ≠ [] → p.length < fuel →
      Decoder.consume fuel p = .error .eof
  | .int n, _, _, _ => fun fuel p q h hq hlen => by
    cases fuel with
    | zero => omega
    | succ f =>
      cases p with
      | nil => rfl
      | cons c cs =>
        have henc : refEncode (.int n) = Encoder.consumeInteger n := by
          simp [refEncode, Encoder.consumeInteger, refDecimalInt_eq_formatInt]
        have hc : c = 105 := by
          have h2 := h
          simp only [refEncode, List.cons_append, List.singleton_append, List.cons.injEq] at h2
          exact h2.1
        have hint := Decoder.consumeInteger_prefix n (c :: cs) q hq (by rw [h, henc])
        subst hc
        simp [Decoder.consume, hint]
  | .str s, _, hf, ha => fun fuel p q h hq hlen => by
    simp only [Value.fitsInt, decide_eq_true_eq] at hf
    simp only [Value.allocatable, decide_eq_true_eq] at ha
    cases fuel with
    | zero => omega
    | succ f =>
      cases p with
      | nil => rfl
      | cons c cs =>
        obtain ⟨c0, cs0, hc0, h1, h2⟩ := refString_append_cons s []
        rw [List.append_nil] at hc0
        have hc : c = c0 := by
          have h3 := h
          simp only [refEncode, hc0, List.cons_append, List.cons.injEq] at h3
          exact h3.1
        have hstr := Decoder.consumeString_prefix s (c :: cs) q hf ha hq
          (by rw [h, refEncode, refString_eq_consumeString])
        have e1 : c ≠ 108 := by omega
        have e2 : c ≠ 100 := by omega
        have e3 : c ≠ 105 := by omega
        simp [Decoder.consume, e1, e2, e3, hstr]
  | .list l, hw, hf, ha => fun fuel p q h hq hlen => by
    simp only [Value.wellFormed] at hw
    simp only [Value.fitsInt] at hf
    simp only [Value.allocatable] at ha
    cases fuel with
    | zero => omega
    | succ f =>
      cases p with
      | nil => rfl
      | cons c cs =>
        simp only [refEncode, List.cons_append, List.singleton_append, List.cons.injEq] at h
        obtain ⟨hc, hrest⟩ := h
        simp only [List.length_cons] at hlen
        have hloop := listLoop_prefix l hw hf ha f f cs q [] hrest hq (by omega) (by omega)
        subst hc
        simp [Decoder.consume, hloop]
  | .dict d, hw, hf, ha => fun fuel p q h hq hlen => by
    simp only [Value.wellFormed, Bool.and_eq_true, decide_eq_true_eq] at hw
    simp only [Value.fitsInt] at hf
    simp only [Value.allocatable] at ha
    cases fuel with
    | zero => omega
    | succ f =>
      cases p with
      | nil => rfl
      | cons c cs =>
        simp only [refEncode, List.cons_append, List.singleton_append, List.cons.injEq] at h
        obtain ⟨hc, hrest⟩ := h
        simp only [List.length_cons] at hlen
        have hloop := dictLoop_prefix d hw.1 hf ha f f cs q [] hrest hq (by omega) (by omega)
        subst hc
        simp [Decoder.consume, hloop]
  | .other, hw, _, _ => by simp [Value.wellFormed] at hw
/-- The loop of a list on a strict prefix of the elements and the closing `e`. -/
theorem listLoop_prefix : (l : List Value) → wellFormedList l = true →
    fitsIntList l = true → allocatableList l = true →
    ∀ (f n : Nat) (p q : Bytes) (acc : List Value), p ++ q = refEncodeList l ++ [101] →
      q ≠ [] → p.length < f → p.length < n →
      Decoder.listLoop (Decoder.consume f) n p acc = .error .eof
  | [], _, _, _ => fun f n p q acc h hq _ hn => by
    simp only [refEncodeList, List.nil_append] at h
    have hp : p = [] := by
      cases p with
      | nil => rfl
      | cons c cs =>
        simp only [List.cons_append, List.cons.injEq] at h
        exact absurd (List.append_eq_nil.mp h.2).2 hq
    subst hp
    cases n with
    | zero => omega
    | succ n => rfl
  | v :: rest, hw, hf, ha => fun f n p q acc h hq hf1 hn => by
    simp only [wellFormedList, Bool.and_eq_true] at hw
    simp only [fitsIntList, Bool.and_eq_true] at hf
    simp only [allocatableList, Bool.and_eq_true] at ha
    obtain ⟨c, cs, hc, hne⟩ := refEncode_cons v hw.1
    simp only [refEncodeList, List.append_assoc] at h
    cases n with
    | zero => omega
    | succ n =>
      have hfull : ∀ c1 : Bytes, p = refEncode v ++ c1 → refEncodeList rest ++ [101] = c1 ++ q →
          Decoder.listLoop (Decoder.consume f) (n + 1) p acc = .error .eof := by
        intro c1 hp hr
        have hplen : p.length = (refEncode v).length + c1.length := by
          rw [hp, List.length_append]
        have hpos : 0 < (refEncode v).length := by rw [hc]; simp
        have hitem := consume_refEncode v hw.1 hf.1 f c1 (by omega)
        rw [← hp] at hitem
        rw [Decoder.listLoop_item_ok _ n p c1 v acc c (cs ++ c1) (by rw [hp, hc]; rfl) hne
          hitem]
        exact listLoop_prefix rest hw.2 hf.2 ha.2 f n c1 q (acc ++ [v]) hr.symm hq (by omega)
          (by omega)
      rcases List.append_eq_append_iff.mp h with ⟨a, hv, hqa⟩ | ⟨c1, hp, hr⟩
      · cases a with
        | nil =>
          rw [List.append_nil] at hv
          exact hfull [] (by rw [List.append_nil]; exact hv.symm)
            (by rw [hqa]; rfl)
        | cons x a =>
          cases p with
          | nil => rfl
          | cons c0 cs0 =>
            have hc0 : c0 = c := by
              rw [hc] at hv
              simp only [List.cons_append, List.cons.injEq] at hv
              exact hv.1.symm
            have hitem := consume_prefix v hw.1 hf.1 ha.1 f (c0 :: cs0) (x :: a) hv.symm
              (by simp) hf1
            exact Decoder.listLoop_item_error _ n _ _ acc c0 cs0 rfl (by rw [hc0]; exact hne)
              hitem
      · exact hfull c1 hp hr
/-- The loop of a dictionary on a strict prefix of the entries and the closing `e`. -/
theorem dictLoop_prefix : (d : List (Bytes × Value)) → wellFormedEntries d = true →
    fitsIntEntries d = true → allocatableEntries d = true →
    ∀ (f n : Nat) (p q : Bytes) (acc : GoMap Value), p ++ q = refEncodeDict d ++ [101] →
      q ≠ [] → p.length < f → p.length < n →
      Decoder.dictLoop (Decoder.consume f) n p acc = .error .eof
  | [], _, _, _ => fun f n p q acc h hq _ hn => by
    simp only [refEncodeDict, List.nil_append] at h
    have hp : p = [] := by
      cases p with
      | nil => rfl
      | cons c cs =>
        simp only [List.cons_append, List.cons.injEq] at h
        exact absurd (List.append_eq_nil.mp h.2).2 hq
    subst hp
    cases n with
    | zero => omega
    | succ n => rfl
  | (k, v) :: rest, hw, hf, ha => fun f n p q acc h hq hf1 hn => by
    simp only [wellFormedEntries, Bool.and_eq_true] at hw
    simp only [fitsIntEntries, Bool.and_eq_true, decide_eq_true_eq] at hf
    simp only [allocatableEntries, Bool.and_eq_true, decide_eq_true_eq] at ha
    simp only [refEncodeDict, List.append_assoc] at h
    cases n with
    | zero => omega
    | succ n =>
      have hkpos : 0 < (refString k).length := by simp [refString]
      have hfull : ∀ c1 : Bytes, p = refString k ++ c1 →
          refEncode v ++ (refEncodeDict rest ++ [101]) = c1 ++ q →
          Decoder.dictLoop (Decoder.consume f) (n + 1) p acc = .error .eof := by
        intro c1 hp hr
        obtain ⟨c, cs, hc, h1, h2⟩ := refString_append_cons k c1
        have hne : c ≠ 101 := by omega
        have hplen : p.length = (refString k).length + c1.length := by
          rw [hp, List.length_append]
        have hkey := Decoder.consumeString_encode k c1 hf.1.1
        rw [← refString_eq_consumeString, ← hp] at hkey
        have hvfull : ∀ c2 : Bytes, c1 = refEncode v ++ c2 →
            refEncodeDict rest ++ [101] = c2 ++ q →
            Decoder.dictLoop (Decoder.consume f) (n + 1) p acc = .error .eof := by
          intro c2 hc1 hr2
          have hc1len : c1.length = (refEncode v).length + c2.length := by
            rw [hc1, List.length_append]
          have hitem := consume_refEncode v hw.1 hf.1.2 f c2 (by omega)
          rw [← hc1] at hitem
          rw [Decoder.dictLoop_entry_ok _ n p c1 c2 k v acc c cs (by rw [hp, hc]) hne hkey
            hitem]
          exact dictLoop_prefix rest hw.2 hf.2 ha.2 f n c2 q (GoMap.set acc k v) hr2.symm hq
            (by omega) (by omega)
        rcases List.append_eq_append_iff.mp hr.symm with ⟨a, hv, hqa⟩ | ⟨c2, hc1, hr2⟩
        · cases a with
          | nil =>
            rw [List.append_nil] at hv
            exact hvfull [] (by rw [List.append_nil]; exact hv.symm) (by rw [hqa]; rfl)
          | cons x a =>
            have hitem := consume_prefix v hw.1 hf.1.2 ha.1.2 f c1 (x :: a) hv.symm (by simp)
              (by omega)
            exact Decoder.dictLoop_item_error _ n p c1 k _ acc c cs (by rw [hp, hc]) hne hkey
              hitem
        · exact hvfull c2 hc1 hr2
      rcases List.append_eq_append_iff.mp h with ⟨a, hks, hqa⟩ | ⟨c1, hp, hr⟩
      · cases a with
        | nil =>
          rw [List.append_nil] at hks
          exact hfull [] (by rw [List.append_nil]; exact hks.symm) (by rw [hqa]; rfl)
        | cons x a =>
          cases p with
          | nil => rfl
          | cons c0 cs0 =>
            obtain ⟨c, cs, hc, h1, h2⟩ := refString_append_cons k []
            rw [List.append_nil] at hc
            have hc0 : c0 = c := by
              rw [hc] at hks
              simp only [List.cons_append, List.cons.injEq] at hks
              exact hks.1.symm
            have hkey := Decoder.consumeString_prefix k (c0 :: cs0) (x :: a) hf.1.1 ha.1.1
              (by simp) (by rw [← hks, refString_eq_consumeString])
            exact Decoder.dictLoop_key_error _ n _ _ acc c0 cs0 rfl (by omega) hkey
      · exact hfull c1 hp hr
end

/-- C30: for every well-formed bencoded value `v` whose byte strings can be held in memory (at
most `maxAlloc` bytes each, as every byte string of a program is) and every strict prefix `p`
of `Encode v`, the empty input included, `Decode p` returns an error, the end-of-input error
of the reader: input that ends inside a string, an integer, a list or a dictionary is never
decoded to a value, and no buffer is asked for that `make` refuses. -/
theorem Decode_strict_prefix (v : Value) (hw : v.wellFormed = true) (hf : v.fitsInt = true)
    (ha : v.allocatable = true)
    (enc p : Bytes) (henc : Encode v = some enc) (hp : p <+: enc) (hne : p ≠ enc) :
    Decode p = .error .eof := by
  obtain ⟨q, hq⟩ := hp
  have href : Encode v = some (refEncode v) := consume_eq_ref v hw
  rw [href] at henc
  injection henc with henc
  have hqne : q ≠ [] := by
    intro h0
    rw [h0, List.append_nil] at hq
    exact hne hq
  exact consume_prefix v hw hf ha (p.length + 1) p q (by rw [hq, henc]) hqne (by omega)

/-- C30, at the dictionary `{"hello": "world"}` cut after `d5:hello5:wor`. -/
theorem Decode_strict_prefix_witness :
    Decode (bytesOf "d5:hello5:wor") = .error .eof :=
  Decode_strict_prefix helloWorld (by decide) (by decide) (by decide)
    (bytesOf "d5:hello5:worlde") (bytesOf "d5:hello5:wor") (by decide) (by decide) (by decide)

/-- Every strict prefix of the encoding of `{"hello": "world", "number": 42, "values":
["foo", 24, "bar"]}`, from the empty input to the input without the last `e`, is rejected
with the end-of-input error; the whole encoding is decoded. A length prefix of at most
`maxAlloc = 2^48` with nothing after it is the end-of-input error as well; for a greater one,
which is no prefix of the encoding of a string in memory, `make` panics. -/
theorem Decode_prefix_examples :
    (List.range 52).map (fun (k : Nat) =>
        match Decode ((bytesOf "d5:hello5:world6:numberi42e6:valuesl3:fooi24e3:baree").take k)
        with
        | .error e => some e
        | .ok _ => none)
      = List.replicate 52 (some DecodeError.eof) ∧
    Decode (bytesOf "d5:hello5:world6:numberi42e6:valuesl3:fooi24e3:baree")
      = .ok (helloNumberValues, []) ∧
    Decode (bytesOf "281474976710656:") = .error .eof ∧
    Decode (bytesOf "281474976710657:") = .error .makeslice ∧
    Decode (bytesOf "9223372036854775807:") = .error .makeslice ∧
    Unmarshal (bytesOf "d9223372036854775807:") (.struct []) = .error .panic := by
  refine ⟨?_, ?_, ?_, ?_, ?_, ?_⟩
  · decide
  · rfl
  · rfl
  · rfl
  · rfl
  · rfl

end bencode

/-! ## Theorems: keep-alive and handshake framing -/

namespace message

/-- C36 (divergence): `Bytes()` of the keep-alive (nil) message is the empty byte sequence,
not the four-byte length prefix 0; `Read` applied to it finds no length prefix and returns
the read error, while `Read` applied to the prefix `00 00 00 00` returns the keep-alive. -/
theorem keepAlive_Bytes_empty :
    Message.Bytes none = [] ∧
    Message.Bytes none ≠ binary.PutUint32 0 ∧
    Read (Message.Bytes none) = .error .short ∧
    Read (binary.PutUint32 0) = .ok (none, []) := by
  refine ⟨rfl, by decide, rfl, rfl⟩

end message

namespace handshake

/-- C37: for every handshake `h` with a protocol string of 1 to 255 bytes, 8 reserved bytes, a
20-byte info-hash and a 20-byte peer-id, `Read` applied to a stream that begins with
`h.Bytes()` returns `h` (the same protocol string, reserved bytes, info-hash and peer-id)
and leaves exactly the bytes that follow: it reads `len(h.Bytes()) = 49 + pstrlen` bytes. -/
theorem Read_after_Bytes (h : Handshake) (hp1 : 1 ≤ h.pstr.length) (hp2 : h.pstr.length ≤ 255)
    (hr : h.reserved.length = 8) (hi : h.InfoHash.length = 20) (hpe : h.peerId.length = 20)
    (rest : Bytes) :
    ∃ bytes, h.Bytes = some bytes ∧ bytes.length = 49 + h.pstr.length ∧
      Read (bytes ++ rest) = .ok (h, rest) := by
  have hb := Bytes_of_lengths h hr hi hpe
  refine ⟨_, hb, ?_, ?_⟩
  · simp only [List.length_append, List.length_singleton, hr, hi, hpe]
    omega
  · have hmod : h.pstrlen % 256 = h.pstr.length := by
      unfold Handshake.pstrlen; omega
    rw [hmod]
    have hin : [h.pstr.length] ++ h.pstr ++ h.reserved ++ h.InfoHash ++ h.peerId ++ rest
        = h.pstr.length :: ((h.pstr ++ (h.reserved ++ (h.InfoHash ++ h.peerId))) ++ rest) := by
      simp
    rw [hin]
    have hlen : (h.pstr ++ (h.reserved ++ (h.InfoHash ++ h.peerId))).length
        = h.pstr.length + 48 := by
      simp only [List.length_append, hr, hi, hpe]
    have h0 : ¬ h.pstr.length = 0 := by omega
    have hshort : ¬ ((h.pstr ++ (h.reserved ++ (h.InfoHash ++ h.peerId))) ++ rest).length
        < h.pstr.length + 48 := by
      rw [List.length_append, hlen]; omega
    simp only [Read, h0, if_false, hshort]
    rw [List.take_left' hlen, List.drop_left' hlen]
    have e1 : (h.pstr ++ (h.reserved ++ (h.InfoHash ++ h.peerId))).take h.pstr.length
        = h.pstr := List.take_left' rfl
    have e2 : (h.pstr ++ (h.reserved ++ (h.InfoHash ++ h.peerId))).drop h.pstr.length
        = h.reserved ++ (h.InfoHash ++ h.peerId) := List.drop_left' rfl
    have e3 : (h.pstr ++ (h.reserved ++ (h.InfoHash ++ h.peerId))).drop (h.pstr.length + 8)
        = h.InfoHash ++ h.peerId := by
      rw [← List.drop_drop, e2]; exact List.drop_left' hr
    have e4 : (h.pstr ++ (h.reserved ++ (h.InfoHash ++ h.peerId))).drop
        (h.pstr.length + 8 + 20) = h.peerId := by
      rw [← List.drop_drop, e3]; exact List.drop_left' hi
    rw [e1, e2, e3, e4, List.take_left' hr, List.take_left' hi]
    have e5 : h.peerId.take 20 = h.peerId := by
      rw [← hpe]; exact List.take_length _
    rw [e5]

/-- C37, at the handshake of the client for the info-hash `01 .. 01` and the peer id
`02 .. 02`, followed by the bytes `09 09`. -/
theorem Read_after_Bytes_witness :
    ∃ bytes, (New (List.replicate 20 1) (List.replicate 20 2)).Bytes = some bytes ∧
      bytes.length = 49 + (New (List.replicate 20 1) (List.replicate 20 2)).pstr.length ∧
      Read (bytes ++ [9, 9]) = .ok (New (List.replicate 20 1) (List.replicate 20 2), [9, 9]) :=
  Read_after_Bytes (New (List.replicate 20 1) (List.replicate 20 2)) (by decide) (by decide)
    (by decide) (by decide) (by decide) [9, 9]

/-- Streams on which `Read` fails: the empty stream, a protocol string length of 0, and a
handshake cut after its info-hash. -/
theorem Read_examples :
    Read [] = .error .short ∧
    Read (0 :: List.replicate 48 0) = .error .zeroLength ∧
    ((New (List.replicate 20 1) (List.replicate 20 2)).Bytes.map
        (fun bytes => Read (bytes.take 48))) = some (.error .short) := by
  refine ⟨rfl, rfl, rfl⟩

end handshake

/-! ## Theorems: trackers of a torrent, write plan bounds -/

theorem mapM_option_none {α β : Type} (f : α → Option β) (l : List α)
    (h : ∃ a ∈ l, f a = none) : l.mapM f = none := by
  induction l with
  | nil => obtain ⟨a, ha, _⟩ := h; simp at ha
  | cons x rest ih =>
    rw [List.mapM_cons]
    cases hx : f x with
    | none => rfl
    | some y =>
      obtain ⟨a, ha, hfa⟩ := h
      rcases List.mem_cons.mp ha with rfl | hmem
      · rw [hx] at hfa; cases hfa
      · rw [ih ⟨a, hmem, hfa⟩]; rfl

namespace torrent

open piece bencode

/-- The cases in which `Trackers` returns: an empty announce-list gives `[announce]`, or the
empty list for an empty `announce`; an announce-list whose tiers are all non-empty gives the
first URL of each tier, in order. -/
theorem Trackers_returns (t : Torrent) :
    (t.MetaInfo.AnnounceList = [] →
      t.Trackers = some (if t.MetaInfo.Announce = [] then [] else [t.MetaInfo.Announce])) ∧
    (t.MetaInfo.AnnounceList ≠ [] → (∀ tier ∈ t.MetaInfo.AnnounceList, tier ≠ []) →
      t.Trackers = some (t.MetaInfo.AnnounceList.map (fun tier => tier.headD []))) := by
  constructor
  · intro h
    simp only [Torrent.Trackers, h, List.length_nil, if_true]
    split <;> rfl
  · intro h hall
    have hlen : ¬ t.MetaInfo.AnnounceList.length = 0 := fun h0 => h (List.length_eq_zero.mp h0)
    simp only [Torrent.Trackers, hlen, if_false]
    apply mapM_option_eq_map
    intro tier htier
    cases tier with
    | nil => exact absurd rfl (hall [] htier)
    | cons u rest => simp

/-- C40 (divergence): `Trackers()` is not total. For every torrent whose announce-list
contains an empty tier the loop evaluates `announce[0]` on that tier, which is an index out
of range: the call panics and returns no list. -/
theorem Trackers_empty_tier (t : Torrent) (h : [] ∈ t.MetaInfo.AnnounceList) :
    t.Trackers = none := by
  have hlen : ¬ t.MetaInfo.AnnounceList.length = 0 := by
    intro h0
    rw [List.length_eq_zero.mp h0] at h
    simp at h
  simp only [Torrent.Trackers, hlen, if_false]
  exact mapM_option_none _ _ ⟨[], h, rfl⟩

/-- C40 (divergence), at the torrent read from a file whose `announce-list` is `[[]]`. -/
theorem Trackers_empty_tier_witness :
    ({ MetaInfo := { AnnounceList := [[]], Announce := bytesOf "url" } } : Torrent).Trackers
      = none :=
  Trackers_empty_tier { MetaInfo := { AnnounceList := [[]], Announce := bytesOf "url" } }
    (by decide)

/-- The torrent file with the announce-list `llee` is opened without error, its announce-list
is `[[]]`, and `Trackers()` panics on it; with one URL in the tier it returns that URL. -/
theorem Trackers_examples :
    (match Open constantDigest [] id emptyTierTorrentFile with
      | .ok (t, _) => some (t.MetaInfo.AnnounceList, t.Trackers)
      | .error _ => none) = some ([[]], none) ∧
    ({ MetaInfo := { AnnounceList := [[bytesOf "a", bytesOf "b"], [bytesOf "c"]] } }
        : Torrent).Trackers = some [bytesOf "a", bytesOf "c"] ∧
    ({ MetaInfo := { Announce := bytesOf "url" } } : Torrent).Trackers = some [bytesOf "url"] ∧
    ({ MetaInfo := {} } : Torrent).Trackers = some [] := by
  refine ⟨?_, ?_, ?_, ?_⟩ <;> decide

end torrent

namespace torrent

open piece bencode

/-- The loop of `destinations` keeps every destination inside the piece, as long as no sum
leaves the range of an `int`: with file lengths that are not negative, the running offset
not beyond the offset of the piece and not further below it than `2^63` less the length of
the piece for every file to come, its sum with the lengths of the files to come below `2^63`,
and an overlap below the length of the piece, every destination added satisfies
`0 <= Start < End <= length` and `Offset >= 0`. -/
theorem destinationsLoop_bounds (name : Bytes) (offset length : Int) (hL : 0 < length)
    (ho : 0 ≤ offset) (hend : offset + length < 2 ^ 63) (files : List InfoFile) :
    ∀ (currOffset overlap : Int) (destinations : List Destination),
      (∀ f ∈ files, 0 ≤ f.Length) →
      offset - currOffset + (files.length : Int) * length < 2 ^ 63 →
      currOffset + (files.map (fun f => f.Length)).sum < 2 ^ 63 →
      currOffset ≤ offset → 0 ≤ overlap → overlap < length →
      (∀ d ∈ destinations, 0 ≤ d.Start ∧ d.Start < d.End ∧ d.End ≤ length ∧ 0 ≤ d.Offset) →
      ∀ d ∈ Torrent.destinationsLoop name offset length files currOffset overlap destinations,
        0 ≤ d.Start ∧ d.Start < d.End ∧ d.End ≤ length ∧ 0 ≤ d.Offset := by
  induction files with
  | nil =>
    intro currOffset overlap destinations _ _ _ _ _ _ hd d hmem
    exact hd d hmem
  | cons file rest ih =>
    intro currOffset overlap destinations hfiles hsteps hsum hcur hov0 hov hd d hmem
    have hfile : 0 ≤ file.Length := hfiles file (by simp)
    have hrest : ∀ f ∈ rest, 0 ≤ f.Length := fun f hf => hfiles f (List.mem_cons_of_mem _ hf)
    have hrest0 : 0 ≤ (rest.map (fun f => f.Length)).sum := by
      apply List.sum_nonneg
      intro x hx
      obtain ⟨f, hf, rfl⟩ := List.mem_map.1 hx
      exact hrest f hf
    have hr0 : 0 ≤ (rest.length : Int) * length :=
      mul_nonneg (Int.ofNat_nonneg _) (le_of_lt hL)
    have hlen : ((file :: rest).length : Int) * length = (rest.length : Int) * length + length := by
      rw [List.length_cons]; push_cast; ring
    rw [hlen] at hsteps
    simp only [List.map_cons, List.sum_cons] at hsum
    have hb : Torrent.wrapInt (currOffset + file.Length) = currOffset + file.Length :=
      wrapInt_eq _ (by omega) (by omega)
    have he : Torrent.wrapInt (offset + length) = offset + length :=
      wrapInt_eq _ (by omega) (by omega)
    have hoff : Torrent.wrapInt (offset - currOffset) = offset - currOffset :=
      wrapInt_eq _ (by omega) (by omega)
    simp only [Torrent.destinationsLoop, hb, he, hoff] at hmem
    split at hmem
    · split at hmem
      · rename_i hfit hpos
        rcases List.mem_append.mp hmem with h | h
        · exact hd d h
        · simp only [List.mem_singleton] at h
          subst h
          exact ⟨by simpa using hov0, by simpa using hov, by simp, by simp⟩
      · rename_i hfit hpos
        rcases List.mem_append.mp hmem with h | h
        · exact hd d h
        · simp only [List.mem_singleton] at h
          subst h
          exact ⟨by simp, by simpa using hL, by simp, by simp; omega⟩
    · split at hmem
      · rename_i hfit hlt
        have hov1 : Torrent.wrapInt (currOffset + file.Length - offset)
            = currOffset + file.Length - offset := wrapInt_eq _ (by omega) (by omega)
        have hd1 : Torrent.wrapInt (file.Length - (currOffset + file.Length - offset))
            = file.Length - (currOffset + file.Length - offset) :=
          wrapInt_eq _ (by omega) (by omega)
        have hc1 : Torrent.wrapInt
            (currOffset + (file.Length - (currOffset + file.Length - offset)))
            = currOffset + (file.Length - (currOffset + file.Length - offset)) :=
          wrapInt_eq _ (by omega) (by omega)
        simp only [hov1, hd1, hc1] at hmem
        refine ih _ _ _ hrest (by omega) (by omega) (by omega) (by omega) (by omega) ?_ d hmem
        intro d1 hd1
        rcases List.mem_append.mp hd1 with h | h
        · exact hd d1 h
        · simp only [List.mem_singleton] at h
          subst h
          exact ⟨by simp, by simp; omega, by simp; omega, by simp; omega⟩
      · rename_i hfit hlt
        have hd1 : Torrent.wrapInt (file.Length - overlap) = file.Length - overlap :=
          wrapInt_eq _ (by omega) (by omega)
        have hc1 : Torrent.wrapInt (currOffset + (file.Length - overlap))
            = currOffset + (file.Length - overlap) := wrapInt_eq _ (by omega) (by omega)
        simp only [hd1, hc1] at hmem
        exact ih _ _ _ hrest (by omega) (by omega) (by omega) hov0 hov hd d hmem

/-- C38 (amended): for every torrent with `n` files whose lengths are not negative and have a
sum below `2^63`, and every call `destinations(o, L)` with `o >= 0`, `L > 0` and `o + n * L`
below `2^63`, every destination returned satisfies `0 <= Start < End <= L` and
`Offset >= 0`; so for a piece with a buffer of `L` bytes and these destinations every slice
`Data[Start:End]` that `Write` takes is in bounds. -/
theorem destinations_in_bounds (t : Torrent) (o L : Int) (ho : 0 ≤ o) (hL : 0 < L)
    (hfiles : ∀ f ∈ t.MetaInfo.Info.Files, 0 ≤ f.Length)
    (hsum : (t.MetaInfo.Info.Files.map (fun f => f.Length)).sum < 2 ^ 63)
    (hsteps : o + (t.MetaInfo.Info.Files.length : Int) * L < 2 ^ 63) :
    (∀ d ∈ t.destinations o L, 0 ≤ d.Start ∧ d.Start < d.End ∧ d.End ≤ L ∧ 0 ≤ d.Offset) ∧
    (∀ p : Piece, (p.Data.length : Int) = L → p.Destinations = t.destinations o L →
      (p.Write).isSome = true) := by
  have hb : ∀ d ∈ t.destinations o L,
      0 ≤ d.Start ∧ d.Start < d.End ∧ d.End ≤ L ∧ 0 ≤ d.Offset := by
    intro d hd
    unfold Torrent.destinations at hd
    split at hd
    · simp only [List.mem_singleton] at hd
      subst hd
      exact ⟨by simp, by simpa using hL, by simp, by simpa using ho⟩
    · rename_i hmulti
      have hn : 1 ≤ t.MetaInfo.Info.Files.length := by
        by_contra hcon
        have h0 : t.MetaInfo.Info.Files.length = 0 := by omega
        simp [Torrent.IsMultipleFileMode, h0] at hmulti
      have hend : o + L < 2 ^ 63 := by
        have h1 : L ≤ (t.MetaInfo.Info.Files.length : Int) * L := by
          have : (1 : Int) ≤ (t.MetaInfo.Info.Files.length : Int) := by exact_mod_cast hn
          nlinarith
        omega
      exact destinationsLoop_bounds t.Name o L hL ho hend _ 0 0 [] hfiles (by omega)
        (by omega) ho (le_refl 0) hL (by intro d hd; simp at hd) d hd
  refine ⟨hb, ?_⟩
  intro p hlen hdst
  unfold Piece.Write
  rw [hdst]
  have hm := mapM_option_eq_map
    (fun (dst : Destination) =>
      (Torrent.sliceBytes p.Data dst.Start dst.End).map (fun data =>
        (dst.Path, dst.Offset, data)))
    (fun (dst : Destination) =>
      (dst.Path, dst.Offset, (p.Data.drop dst.Start.toNat).take (dst.End - dst.Start).toNat))
    (t.destinations o L)
    (by
      intro d hd
      obtain ⟨h1, h2, h3, _⟩ := hb d hd
      have hc : 0 ≤ d.Start ∧ d.Start ≤ d.End ∧ d.End ≤ (p.Data.length : Int) := by
        rw [hlen]; exact ⟨h1, le_of_lt h2, h3⟩
      simp only [Torrent.sliceBytes, hc, and_self, if_true, Option.map_some'])
  rw [hm]
  rfl

/-- C38, at the two-file torrent (files of 40000 and 25768 bytes) and the piece at offset
32768 of length 32768, which straddles the two files. -/
theorem destinations_in_bounds_witness :
    (∀ d ∈ twoFilesTorrent.destinations 32768 32768,
      0 ≤ d.Start ∧ d.Start < d.End ∧ d.End ≤ 32768 ∧ 0 ≤ d.Offset) ∧
    (∀ p : Piece, (p.Data.length : Int) = 32768 →
      p.Destinations = twoFilesTorrent.destinations 32768 32768 → (p.Write).isSome = true) :=
  destinations_in_bounds twoFilesTorrent 32768 32768 (by decide) (by decide) (by decide)
    (by decide) (by decide)

/-- C38 (as stated, refuted): on the torrent whose files have the lengths `2^63 - 6`, 12 and
0, none of them negative, the call `destinations(2^63 - 11, 10)` returns a second destination
with the offset -7: the boundary of the second file, `2^63 + 1`, wraps around to a negative
number, the running offset passes the offset of the piece, and for the third file
`offset - currOffset` is negative. -/
theorem destinations_negative_offset :
    (∀ f ∈ hugeFilesTorrent.MetaInfo.Info.Files, 0 ≤ f.Length) ∧
    hugeFilesTorrent.destinations (2 ^ 63 - 11) 10
      = [{ Path := bytesOf "t/a", Offset := 2 ^ 63 - 11, Start := 0, End := 5 },
         { Path := bytesOf "t/c", Offset := -7, Start := 0, End := 7 }] := by
  constructor <;> decide

/-- The destinations of the straddling piece of the two-file torrent and of a piece that runs
over three files of 10, 0 and 30 bytes: each slice lies inside the piece. With a piece of
`2^63 - 1` bytes over files of `2^63 - 2`, 0, 0 and 1 bytes, whose sum is an `int`, the
running offset falls by the overlap at each empty file, wraps around, and the last
destination has the offset -4. -/
theorem destinations_examples :
    twoFilesTorrent.destinations 32768 32768
      = [{ Path := bytesOf "t/f1", Offset := 32768, Start := 0, End := 7232 },
         { Path := bytesOf "t/f2", Offset := 0, Start := 0, End := 25768 }] ∧
    Torrent.destinationsLoop (bytesOf "t") 5 20
        [{ Length := 10, Path := [bytesOf "a"] }, { Length := 0, Path := [bytesOf "b"] },
         { Length := 30, Path := [bytesOf "c"] }] 0 0 []
      = [{ Path := bytesOf "t/a", Offset := 5, Start := 0, End := 5 },
         { Path := bytesOf "t/c", Offset := 0, Start := 5, End := 20 }] ∧
    Torrent.destinationsLoop (bytesOf "t") 0 (2 ^ 63 - 1)
        [{ Length := 2 ^ 63 - 2, Path := [bytesOf "a"] }, { Length := 0, Path := [bytesOf "b"] },
         { Length := 0, Path := [bytesOf "c"] }, { Length := 1, Path := [bytesOf "d"] }] 0 0 []
      = [{ Path := bytesOf "t/a", Offset := 0, Start := 0, End := 2 ^ 63 - 2 },
         { Path := bytesOf "t/d", Offset := -4, Start := 0, End := 5 }] := by
  refine ⟨?_, ?_, ?_⟩ <;> decide

end torrent

/-! ## Theorems: values of another kind than the field -/

namespace bencode

/-- A value that cannot be converted to the type of its field stops the loop of
`unmarshalStruct` with a run-time panic, whatever the other entries are. -/
theorem unmarshalStruct_panic (fields : List (Bytes × GoType)) :
    ∀ (d : List (Bytes × Value)) (structT : List GoValue),
      (∃ e ∈ d, ∃ i t, fieldByTag fields e.1 = some (i, t) ∧ unmarshalByType e.2 t = none) →
      unmarshalStruct d fields structT = none := by
  intro d
  induction d with
  | nil => intro _ h; obtain ⟨e, he, _⟩ := h; simp at he
  | cons entry rest ih =>
    intro structT h
    obtain ⟨tag, value⟩ := entry
    obtain ⟨e, he, i, t, hfield, hnone⟩ := h
    cases hft : fieldByTag fields tag with
    | none =>
      simp only [unmarshalStruct, hft]
      rcases List.mem_cons.mp he with rfl | hmem
      · rw [hft] at hfield; cases hfield
      · exact ih structT ⟨e, hmem, i, t, hfield, hnone⟩
    | some f =>
      obtain ⟨j, ft⟩ := f
      cases hv : unmarshalByType value ft with
      | none => simp only [unmarshalStruct, hft, hv]
      | some valueT =>
        simp only [unmarshalStruct, hft, hv]
        rcases List.mem_cons.mp he with rfl | hmem
        · rw [hft] at hfield
          injection hfield with hfield
          injection hfield with h1 h2
          subst h2
          rw [hv] at hnone; cases hnone
        · exact ih _ ⟨e, hmem, i, t, hfield, hnone⟩

/-- C31 (divergence): `Unmarshal` can end with a run-time failure. For every record schema
with an `int` field tagged `tag` and every bencoded dictionary `d` in which the key `tag`
holds a byte string or a list, `Unmarshal(Encode(d))` does not skip the key: the value is
passed to `Set` of the field, which panics, and no record and no error is returned. -/
theorem Unmarshal_kind_mismatch (fields : List (Bytes × GoType)) (d : List (Bytes × Value))
    (tag : Bytes) (value : Value) (i : Nat)
    (hw : (Value.dict d).wellFormed = true) (hf : (Value.dict d).fitsInt = true)
    (hmem : (tag, value) ∈ d) (hfield : fieldByTag fields tag = some (i, .int))
    (hkind : (∃ s, value = .str s) ∨ (∃ l, value = .list l)) :
    (Encode (.dict d)).map (fun data => Unmarshal data (.struct fields))
      = some (.error .panic) := by
  have henc : Encode (.dict d) = some (refEncode (.dict d)) := consume_eq_ref _ hw
  have hdec : Decode (refEncode (.dict d)) = .ok (.dict d, []) := by
    have h := consume_refEncode (.dict d) hw hf ((refEncode (.dict d)).length + 1) []
      (by omega)
    rw [List.append_nil] at h
    exact h
  have hnone : unmarshalByType value .int = none := by
    rcases hkind with ⟨s, rfl⟩ | ⟨l, rfl⟩ <;> simp [unmarshalByType]
  have hstruct := unmarshalStruct_panic fields d (zeroFields fields)
    ⟨(tag, value), hmem, i, .int, hfield, hnone⟩
  rw [henc]
  simp only [Option.map_some', Unmarshal, hdec, unmarshalByType, hstruct, Option.map_none']

/-- C31 (divergence), at the record `Container{A int "a"; B string "b"}` of the tests and the
dictionary `{a: "foo", b: "Hello"}`. -/
theorem Unmarshal_kind_mismatch_witness :
    (Encode (.dict [(bytesOf "a", .str (bytesOf "foo")), (bytesOf "b", .str (bytesOf "Hello"))])
      ).map (fun data => Unmarshal data (.struct [(bytesOf "a", .int), (bytesOf "b", .string)]))
      = some (.error .panic) :=
  Unmarshal_kind_mismatch [(bytesOf "a", .int), (bytesOf "b", .string)]
    [(bytesOf "a", .str (bytesOf "foo")), (bytesOf "b", .str (bytesOf "Hello"))]
    (bytesOf "a") (.str (bytesOf "foo")) 0 (by decide) (by decide) (by simp) rfl
    (Or.inl ⟨_, rfl⟩)

/-- Inputs on which `Unmarshal` panics: a string for an `int` field, an integer for a
`string` field, a string and an integer for a slice field, a list for a struct field, and a
torrent file whose `announce` is an integer. A key that matches no field is skipped. -/
theorem Unmarshal_panic_examples :
    Unmarshal (bytesOf "d1:a3:fooe") (.struct [(bytesOf "a", .int)]) = .error .panic ∧
    Unmarshal (bytesOf "d1:ai5ee") (.struct [(bytesOf "a", .string)]) = .error .panic ∧
    Unmarshal (bytesOf "d1:a3:fooe") (.struct [(bytesOf "a", .slice .int)]) = .error .panic ∧
    Unmarshal (bytesOf "d1:ai5ee") (.struct [(bytesOf "a", .slice .int)]) = .error .panic ∧
    Unmarshal (bytesOf "d1:alee") (.struct [(bytesOf "a", .struct [(bytesOf "b", .int)])])
      = .error .panic ∧
    Unmarshal (bytesOf "d8:announcei5ee") torrent.MetaInfoType = .error .panic ∧
    Unmarshal (bytesOf "d1:a3:foo1:bi7ee") (.struct [(bytesOf "b", .int)])
      = .ok (.struct [.int 7]) := by
  refine ⟨?_, ?_, ?_, ?_, ?_, ?_, ?_⟩ <;> rfl

end bencode

/-! ## Lemmas: what the methods of a client leave unchanged -/

namespace client

open piece

theorem Write_frame (conn : Conn) (data : Bytes) :
    (conn.Write data).1.reads = conn.reads ∧ (conn.Write data).1.closed = conn.closed ∧
    (conn.Write data).1.greeting = conn.greeting ∧
    (conn.Write data).1.sent = (if (conn.Write data).2 then conn.sent ++ [data] else conn.sent) := by
  unfold Conn.Write
  split
  · simp
  · simp
  · simp

theorem send_frame (c c1 : Client) (m : Option message.Message) (e : Option ClientError)
    (h : c.send m = some (c1, e)) :
    ∃ conn conn1, c.conn = some conn ∧ c1 = { c with conn := some conn1 } ∧
      conn1.reads = conn.reads ∧ conn1.closed = conn.closed ∧ conn1.greeting = conn.greeting ∧
      conn1.sent = (if e = none then conn.sent ++ [message.Message.Bytes m] else conn.sent) := by
  unfold Client.send at h
  split at h
  · simp at h
  · rename_i conn hconn
    simp only [Option.some.injEq, Prod.mk.injEq] at h
    obtain ⟨hc, he⟩ := h
    obtain ⟨h1, h2, h3, h4⟩ := Write_frame conn (message.Message.Bytes m)
    refine ⟨conn, (conn.Write (message.Message.Bytes m)).1, hconn, hc.symm, h1, h2, h3, ?_⟩
    rw [h4, ← he]
    cases (conn.Write (message.Message.Bytes m)).2 <;> simp

theorem readLoop_frame (n : Nat) (conn : Conn) :
    ∃ reads1, (readLoop n conn).1 = { conn with reads := reads1 } ∧
      reads1.length ≤ conn.reads.length ∧
      (∀ m, (readLoop n conn).2 = .ok m → reads1.length < conn.reads.length) := by
  induction n generalizing conn with
  | zero => exact ⟨conn.reads, rfl, le_refl _, by intro m hm; simp [readLoop] at hm⟩
  | succ n ih =>
    unfold readLoop
    split
    · rename_i hr
      exact ⟨conn.reads, rfl, le_refl _, by intro m hm; simp at hm⟩
    · rename_i m rest hr
      refine ⟨rest, rfl, ?_, ?_⟩
      · rw [hr]; simp
      · intro _ _; rw [hr]; simp
    · rename_i rest hr
      obtain ⟨reads1, h1, h2, h3⟩ := ih { conn with reads := rest }
      refine ⟨reads1, ?_, ?_, ?_⟩
      · rw [h1]
      · rw [hr]; simp only [List.length_cons]; simp only [] at h2; omega
      · intro m hm
        have := h3 m hm
        rw [hr]; simp only [List.length_cons]; simp only [] at this; omega
    · rename_i rest hr
      refine ⟨rest, rfl, ?_, ?_⟩
      · rw [hr]; simp
      · intro m hm; simp at hm

theorem handleHaveMessage_frame (c c1 : Client) (msg : Option message.Message)
    (e : Option ClientError) (h : c.handleHaveMessage msg = some (c1, e)) :
    ∃ buf peer, c1 = { c with haveBuf := buf, Peer := peer } := by
  unfold Client.handleHaveMessage at h
  split at h
  · simp only [Option.some.injEq, Prod.mk.injEq] at h
    exact ⟨c.haveBuf, c.Peer, h.1.symm⟩
  · simp only [] at h
    split at h
    · simp at h
    · simp only [Option.some.injEq, Prod.mk.injEq] at h
      rw [← h.1]
      split <;> split <;> exact ⟨_, _, rfl⟩

theorem handlePieceMessage_frame (c c1 : Client) (msg : Option message.Message)
    (e : Option ClientError) (h : c.handlePieceMessage msg = some (c1, e)) :
    c1 = c ∨ ∃ p data received queued, c.piece = some p ∧
      c1 = { c with piece := some { p with Data := data, Received := received,
                                           QueuedRequests := queued } } := by
  unfold Client.handlePieceMessage at h
  split at h
  · simp only [Option.some.injEq, Prod.mk.injEq] at h
    exact Or.inl h.1.symm
  · split at h
    · simp at h
    · rename_i p hp
      split at h
      · simp at h
      · simp only [Option.some.injEq, Prod.mk.injEq] at h
        exact Or.inr ⟨p, _, _, _, hp, h.1.symm⟩

theorem ReceiveMetadata_frame (shuffle : List Piece → List Piece) (s s1 : torrent.Shared)
    (msg : extension.Message) (h : s.ReceiveMetadata shuffle msg = some s1)
    (hc : s.torrent.MetaInfo.Incomplete = false) :
    s1.torrent = s.torrent ∧ s1.Pieces = s.Pieces ∧ s1.PiecesCap = s.PiecesCap := by
  unfold torrent.Shared.ReceiveMetadata at h
  split at h
  · simp at h
  · split at h
    · simp at h
    · simp only [hc, Bool.and_false] at h
      simp only [Bool.false_eq_true, if_false, Option.some.injEq] at h
      rw [← h]
      exact ⟨rfl, rfl, rfl⟩

theorem handleExtendedMessage_frame (shuffle : List Piece → List Piece) (c c1 : Client)
    (msg : Option message.Message) (e : Option ClientError)
    (h : c.handleExtendedMessage shuffle msg = some (c1, e)) :
    ∃ peer t, c1 = { c with Peer := peer, torrent := t } ∧
      (c.torrent.torrent.MetaInfo.Incomplete = false →
        t.torrent = c.torrent.torrent ∧ t.Pieces = c.torrent.Pieces ∧
        t.PiecesCap = c.torrent.PiecesCap) := by
  unfold Client.handleExtendedMessage at h
  split at h
  · split at h
    · simp at h
    · simp only [Option.some.injEq, Prod.mk.injEq] at h
      exact ⟨c.Peer, c.torrent, h.1.symm, fun _ => ⟨rfl, rfl, rfl⟩⟩
    · simp only [] at h
      split at h
      · split at h
        · simp at h
        · simp only [Option.some.injEq, Prod.mk.injEq] at h
          exact ⟨_, _, h.1.symm, fun _ => ⟨rfl, rfl, rfl⟩⟩
      · simp only [Option.some.injEq, Prod.mk.injEq] at h
        exact ⟨_, c.torrent, h.1.symm, fun _ => ⟨rfl, rfl, rfl⟩⟩
  · split at h
    · simp at h
    · simp only [Option.some.injEq, Prod.mk.injEq] at h
      exact ⟨c.Peer, c.torrent, h.1.symm, fun _ => ⟨rfl, rfl, rfl⟩⟩
    · split at h
      · split at h
        · simp at h
        · rename_i t ht
          simp only [Option.some.injEq, Prod.mk.injEq] at h
          exact ⟨c.Peer, t, h.1.symm, fun hc => ReceiveMetadata_frame shuffle _ _ _ ht hc⟩
      · simp only [Option.some.injEq, Prod.mk.injEq] at h
        exact ⟨c.Peer, c.torrent, h.1.symm, fun _ => ⟨rfl, rfl, rfl⟩⟩

/-- What `receive` leaves unchanged: the state, the bytes written, all of the connection but
the reads to come, of which it takes at least one unless it returns an error; of the piece in
flight the index, the length and the position of the next request; and the piece channel of
a torrent with complete MetaInfo. -/
theorem receive_frame (shuffle : List Piece → List Piece) (c c1 : Client)
    (e : Option ClientError) (h : c.receive shuffle = some (c1, e)) :
    c1.State = c.State ∧
    (∃ conn reads1, c.conn = some conn ∧ c1.conn = some { conn with reads := reads1 } ∧
      reads1.length ≤ conn.reads.length ∧ (e = none → reads1.length < conn.reads.length)) ∧
    (c1.piece = c.piece ∨ ∃ p data received queued, c.piece = some p ∧
      c1.piece = some { p with Data := data, Received := received,
                               QueuedRequests := queued }) ∧
    (c.torrent.torrent.MetaInfo.Incomplete = false →
      c1.torrent.torrent = c.torrent.torrent ∧ c1.torrent.Pieces = c.torrent.Pieces ∧
      c1.torrent.PiecesCap = c.torrent.PiecesCap) := by
  unfold Client.receive at h
  split at h
  · simp at h
  · rename_i conn hconn
    obtain ⟨reads1, hr1, hr2, hr3⟩ := readLoop_frame 5 conn
    simp only [] at h
    have hconnPart : ∀ (ok : e = none → ∃ m, (readLoop 5 conn).2 = .ok m),
        ∃ conn0 reads1, c.conn = some conn0 ∧
          some (readLoop 5 conn).1 = some { conn0 with reads := reads1 } ∧
          reads1.length ≤ conn0.reads.length ∧ (e = none → reads1.length < conn0.reads.length) := by
      intro ok
      refine ⟨conn, reads1, hconn, by rw [hr1], hr2, ?_⟩
      intro he
      obtain ⟨m, hm⟩ := ok he
      exact hr3 m hm
    split at h
    · rename_i err herr
      simp only [Option.some.injEq, Prod.mk.injEq] at h
      obtain ⟨rfl, rfl⟩ := h
      exact ⟨rfl, hconnPart (by intro he; simp at he), Or.inl rfl, fun _ => ⟨rfl, rfl, rfl⟩⟩
    · rename_i hok
      simp only [Option.some.injEq, Prod.mk.injEq] at h
      obtain ⟨rfl, rfl⟩ := h
      exact ⟨rfl, hconnPart (fun _ => ⟨_, hok⟩), Or.inl rfl, fun _ => ⟨rfl, rfl, rfl⟩⟩
    · rename_i msg hok
      have hcp := hconnPart (fun _ => ⟨_, hok⟩)
      split at h
      · simp only [Option.some.injEq, Prod.mk.injEq] at h
        obtain ⟨rfl, rfl⟩ := h
        exact ⟨rfl, hcp, Or.inl rfl, fun _ => ⟨rfl, rfl, rfl⟩⟩
      · split at h
        · simp only [Option.some.injEq, Prod.mk.injEq] at h
          obtain ⟨rfl, rfl⟩ := h
          exact ⟨rfl, hcp, Or.inl rfl, fun _ => ⟨rfl, rfl, rfl⟩⟩
        · split at h
          · simp only [Option.some.injEq, Prod.mk.injEq] at h
            obtain ⟨rfl, rfl⟩ := h
            exact ⟨rfl, hcp, Or.inl rfl, fun _ => ⟨rfl, rfl, rfl⟩⟩
          · split at h
            · obtain ⟨buf, peer, rfl⟩ := handleHaveMessage_frame _ _ _ _ h
              exact ⟨rfl, hcp, Or.inl rfl, fun _ => ⟨rfl, rfl, rfl⟩⟩
            · split at h
              · rcases handlePieceMessage_frame _ _ _ _ h with rfl | ⟨p, d, r, q, hp, rfl⟩
                · exact ⟨rfl, hcp, Or.inl rfl, fun _ => ⟨rfl, rfl, rfl⟩⟩
                · exact ⟨rfl, hcp, Or.inr ⟨p, d, r, q, hp, rfl⟩, fun _ => ⟨rfl, rfl, rfl⟩⟩
              · split at h
                · obtain ⟨peer, t, rfl, ht⟩ := handleExtendedMessage_frame _ _ _ _ _ h
                  exact ⟨rfl, hcp, Or.inl rfl, fun hc => ht hc⟩
                · simp only [Option.some.injEq, Prod.mk.injEq] at h
                  obtain ⟨rfl, rfl⟩ := h
                  exact ⟨rfl, hcp, Or.inl rfl, fun _ => ⟨rfl, rfl, rfl⟩⟩

end client

/-! ## Theorems: blocks received for the piece in flight -/

namespace client

open piece

/-- C39 (divergence): while a piece with a buffer of `L` bytes is in flight, a `Piece` message
whose `begin` is greater than `L` is not reported as an error: the slice expression
`c.piece.Data[block.Begin:]` is evaluated unchecked and the call panics. For a `begin` of at
most `L` the call returns nil, the buffer keeps its length, and the number of bytes copied
and counted is the smaller of `L - begin` and the length of the data. -/
theorem handlePieceMessage_begin (c : Client) (p : Piece) (msg : Option message.Message)
    (block : piece.Block) (hp : c.piece = some p)
    (hb : message.ParsePieceBlock msg = some block) :
    (p.Data.length < block.Begin → c.handlePieceMessage msg = none) ∧
    (block.Begin ≤ p.Data.length →
      ∃ q : Piece, c.handlePieceMessage msg = some ({ c with piece := some q }, none) ∧
        q.Data.length = p.Data.length ∧
        q.Data = p.Data.take block.Begin
          ++ block.Data.take (min (p.Data.length - block.Begin) block.Data.length)
          ++ p.Data.drop (block.Begin + min (p.Data.length - block.Begin) block.Data.length) ∧
        q.Received
          = p.Received + ((min (p.Data.length - block.Begin) block.Data.length : Nat) : Int)) := by
  constructor
  · intro hlt
    simp only [Client.handlePieceMessage, hb, hp]
    simp [hlt]
  · intro hle
    have hnot : ¬ block.Begin > p.Data.length := by omega
    refine ⟨{ p with Data := (copyInto p.Data block.Begin p.Data.length block.Data).1,
                     Received := p.Received
                       + (copyInto p.Data block.Begin p.Data.length block.Data).2,
                     QueuedRequests := p.QueuedRequests - 1 }, ?_, ?_, ?_, ?_⟩
    · simp only [Client.handlePieceMessage, hb, hp]
      simp [hnot]
    · simp only [copyInto, List.length_append, List.length_take, List.length_drop]
      omega
    · simp only [copyInto]
    · simp only [copyInto]

/-- C39, at a piece of 4 bytes in flight and a block with `begin = 5`: the call panics. -/
theorem handlePieceMessage_begin_witness :
    ({ New examplePeer tenPieces with piece := some smallPiece } : Client).handlePieceMessage
        (some blockBeyond) = none :=
  (handlePieceMessage_begin { New examplePeer tenPieces with piece := some smallPiece }
    smallPiece (some blockBeyond) { Index := 0, Begin := 5, Data := [1] } rfl
    (by decide)).1 (by decide)

/-- A block that reaches beyond the end of the buffer is cut; without a piece in flight the
call panics on the nil pointer; a message that is no block is an error. -/
theorem handlePieceMessage_examples :
    (({ New examplePeer tenPieces with piece := some smallPiece } : Client).handlePieceMessage
        (some blockAcrossEnd)).map (fun r => (r.1.piece.map (fun q => (q.Data, q.Received)), r.2))
      = some (some ([0, 0, 1, 2], 2), none)
    ∧ (New examplePeer tenPieces).handlePieceMessage (some blockAcrossEnd) = none
    ∧ (New examplePeer tenPieces).handlePieceMessage (some have9)
      = some (New examplePeer tenPieces, some .parsePiece) := by
  refine ⟨by decide, by decide, by decide⟩

end client

/-! ## Theorems: the state of a client after `Connect` and `Download` -/

namespace client

open piece

theorem dialLoop_mem (n : Nat) (dials : List DialResult) (conn : Conn)
    (h : dialLoop n dials = .ok conn) : DialResult.ok conn ∈ dials := by
  induction n generalizing dials with
  | zero => simp [dialLoop] at h
  | succ n ih =>
    match dials, h with
    | [], h => simp [dialLoop] at h
    | .ok conn1 :: _, h =>
      simp only [dialLoop, Except.ok.injEq] at h
      simp [h]
    | .timeout :: rest, h =>
      simp only [dialLoop] at h
      exact List.mem_cons_of_mem _ (ih rest h)
    | .failure :: _, h => simp [dialLoop] at h

theorem establishHandshake_frame (c c1 : Client) (chs : handshake.Handshake)
    (e : Option ClientError) (h : c.establishHandshake chs = some (c1, e)) :
    c1.State = c.State ∧
    ∃ conn conn1, c.conn = some conn ∧ c1.conn = some conn1 ∧ conn1.closed = conn.closed := by
  unfold Client.establishHandshake at h
  split at h
  · rename_i conn bytes hconn hbytes
    obtain ⟨_, hclosed, _, _⟩ := Write_frame conn bytes
    simp only [] at h
    split at h
    · simp only [Option.some.injEq, Prod.mk.injEq] at h
      obtain ⟨rfl, _⟩ := h
      exact ⟨rfl, conn, _, hconn, rfl, hclosed⟩
    · split at h
      · simp only [Option.some.injEq, Prod.mk.injEq] at h
        obtain ⟨rfl, _⟩ := h
        exact ⟨rfl, conn, _, hconn, rfl, hclosed⟩
      · split at h
        · simp only [Option.some.injEq, Prod.mk.injEq] at h
          obtain ⟨rfl, _⟩ := h
          exact ⟨rfl, conn, _, hconn, rfl, hclosed⟩
        · simp only [Option.some.injEq, Prod.mk.injEq] at h
          obtain ⟨rfl, _⟩ := h
          exact ⟨rfl, conn, _, hconn, rfl, hclosed⟩
  · simp at h

theorem waitForBitfield_State (shuffle : List Piece → List Piece) (fuel tries : Nat)
    (c c1 : Client) (e : Option ClientError)
    (h : c.waitForBitfield shuffle fuel tries = some (c1, e)) : c1.State = c.State := by
  induction fuel generalizing tries c with
  | zero =>
    simp only [Client.waitForBitfield, Option.some.injEq, Prod.mk.injEq] at h
    rw [← h.1]
  | succ fuel ih =>
    unfold Client.waitForBitfield at h
    split at h
    · simp only [Option.some.injEq, Prod.mk.injEq] at h
      rw [← h.1]
    · split at h
      · simp only [Option.some.injEq, Prod.mk.injEq] at h
        rw [← h.1]
      · split at h
        · simp at h
        · rename_i c2 err hrecv
          simp only [Option.some.injEq, Prod.mk.injEq] at h
          rw [← h.1]
          exact (receive_frame shuffle c c2 _ hrecv).1
        · rename_i c2 hrecv
          rw [ih _ _ h]
          exact (receive_frame shuffle c c2 _ hrecv).1

theorem flushHaveBuffer_State (c c1 : Client) (h : c.flushHaveBuffer = some c1) :
    c1.State = c.State := by
  unfold Client.flushHaveBuffer at h
  cases hfold : List.foldlM (fun (peer : peer.Peer) (p : Int) => peer.SetPiece p) c.Peer c.haveBuf with
  | none => rw [hfold] at h; simp at h
  | some peer =>
    rw [hfold] at h
    simp only [Option.map_some', Option.some.injEq] at h
    rw [← h]

/-- The state in which `Connect` returns. -/
theorem Connect_State (dials : List DialResult) (c c1 : Client) (e : Option ClientError)
    (h : c.Connect dials = some (c1, e)) :
    c1.State = (if e = none then state.Connected else state.Connecting) ∧
    (e ≠ none → c1.conn = c.conn ∨
      ∃ conn conn1, DialResult.ok conn ∈ dials ∧ c1.conn = some conn1 ∧
        conn1.closed = conn.closed) := by
  unfold Client.Connect at h
  simp only [Client.close] at h
  split at h
  · rename_i err hdial
    simp only [Option.map_some', Option.some.injEq, Prod.mk.injEq] at h
    obtain ⟨rfl, rfl⟩ := h
    exact ⟨by simp, fun _ => Or.inl rfl⟩
  · rename_i conn hdial
    split at h
    · simp at h
    · rename_i c2 err hhs
      simp only [Option.map_some', Option.some.injEq, Prod.mk.injEq] at h
      obtain ⟨rfl, rfl⟩ := h
      obtain ⟨hstate, conn0, conn1, h0, h1, hclosed⟩ := establishHandshake_frame _ _ _ _ hhs
      simp only [Option.some.injEq] at h0
      refine ⟨by simpa using hstate, fun _ => Or.inr ⟨conn, conn1, dialLoop_mem 5 dials conn hdial,
        h1, ?_⟩⟩
      rw [hclosed, ← h0]
    · rename_i c2 hhs
      simp only [Option.map_some', Option.some.injEq, Prod.mk.injEq] at h
      obtain ⟨rfl, rfl⟩ := h
      exact ⟨by simp, fun hne => absurd rfl hne⟩

/-- The state in which `Download` returns. -/
theorem Download_State (sha1 : Bytes → Bytes) (shuffle : List Piece → List Piece) (fuel : Nat)
    (c c1 : Client) (downloaded downloaded1 : List Piece) (e : Option ClientError)
    (h : c.Download sha1 shuffle fuel downloaded = some (c1, downloaded1, e)) :
    c1.State = (if e = none then state.Done else state.Downloading) ∧
    (e = none → ∃ conn, c1.conn = some conn ∧ conn.closed = true) := by
  unfold Client.Download at h
  simp only [Client.close] at h
  split at h
  · simp at h
  · rename_i c2 hmeta
    have hc2 : c2.State = state.Downloading := by
      split at hmeta
      · cases hdm : Client.downloadMetadata shuffle
            (({ c with State := state.Downloading } : Client).readsLeft + 1)
            { c with State := state.Downloading } with
        | none => rw [hdm] at hmeta; simp at hmeta
        | some r =>
          rw [hdm] at hmeta
          simp only [Option.map_some', Option.some.injEq] at hmeta
          rw [← hmeta]
      · simp only [Option.some.injEq] at hmeta
        rw [← hmeta]
    split at h
    · simp at h
    · rename_i c3 hflush
      have hc3 : c3.State = state.Downloading := by
        split at hflush
        · rw [flushHaveBuffer_State _ _ hflush, hc2]
        · simp only [Option.some.injEq] at hflush
          rw [← hflush, hc2]
      split at h
      · simp at h
      · rename_i c4 err hwait
        simp only [Option.map_some', Option.some.injEq, Prod.mk.injEq] at h
        obtain ⟨rfl, _, rfl⟩ := h
        refine ⟨?_, by intro he; simp at he⟩
        rw [waitForBitfield_State _ _ _ _ _ _ hwait, hc3]
        simp
      · rename_i c4 hwait
        have hc4 : c4.State = state.Downloading := by
          rw [waitForBitfield_State _ _ _ _ _ _ hwait, hc3]
        split at h
        · simp at h
        · rename_i c5 err hsend
          simp only [Option.map_some', Option.some.injEq, Prod.mk.injEq] at h
          obtain ⟨rfl, _, rfl⟩ := h
          obtain ⟨conn, conn1, _, rfl, _⟩ := send_frame _ _ _ _ hsend
          exact ⟨by simpa using hc4, by intro he; simp at he⟩
        · rename_i c5 hsend
          obtain ⟨conn, conn1, _, rfl, _⟩ := send_frame _ _ _ _ hsend
          split at h
          · simp at h
          · simp only [Option.map_some', Option.some.injEq, Prod.mk.injEq] at h
            obtain ⟨rfl, _, rfl⟩ := h
            exact ⟨by simpa using hc4, by intro he; simp at he⟩
          · split at h
            · simp at h
            · simp only [Option.map_some', Option.some.injEq, Prod.mk.injEq] at h
              obtain ⟨rfl, _, rfl⟩ := h
              exact ⟨by simp, fun _ => ⟨_, rfl, rfl⟩⟩

/-- C33 (divergence): when `Connect` returns an error the state of the client is `Connecting`
and when `Download` returns an error it is `Downloading`, never `Disconnected`, and a
connection that `Connect` opened is as open as the dialer returned it: the argument of
`defer c.close(err)` is evaluated when the statement is executed, where `err` is nil, so the
deferred call does nothing. When they return nil the state is `Connected`, respectively
`Done` with the connection closed. An error of the dialer makes `Connect` return it. -/
theorem close_deferred_with_nil (sha1 : Bytes → Bytes) (shuffle : List Piece → List Piece)
    (fuel : Nat) (dials : List DialResult) (c : Client) (downloaded : List Piece) :
    (∀ err, dialLoop 5 dials = .error err →
      c.Connect dials = some ({ c with State := .Connecting }, some err)) ∧
    (∀ c1 err, c.Connect dials = some (c1, some err) →
      c1.State = .Connecting ∧
      (c1.conn = c.conn ∨ ∃ conn conn1, DialResult.ok conn ∈ dials ∧ c1.conn = some conn1 ∧
        conn1.closed = conn.closed)) ∧
    (∀ c1, c.Connect dials = some (c1, none) → c1.State = .Connected) ∧
    (∀ c1 downloaded1 err,
      c.Download sha1 shuffle fuel downloaded = some (c1, downloaded1, some err) →
      c1.State = .Downloading) ∧
    (∀ c1 downloaded1, c.Download sha1 shuffle fuel downloaded = some (c1, downloaded1, none) →
      c1.State = .Done ∧ ∃ conn, c1.conn = some conn ∧ conn.closed = true) := by
  refine ⟨?_, ?_, ?_, ?_, ?_⟩
  · intro err herr
    simp [Client.Connect, herr, Client.close]
  · intro c1 err h
    obtain ⟨h1, h2⟩ := Connect_State dials c c1 _ h
    exact ⟨by simpa using h1, h2 (by simp)⟩
  · intro c1 h
    simpa using (Connect_State dials c c1 _ h).1
  · intro c1 d1 err h
    simpa using (Download_State sha1 shuffle fuel c c1 downloaded d1 _ h).1
  · intro c1 d1 h
    obtain ⟨h1, h2⟩ := Download_State sha1 shuffle fuel c c1 downloaded d1 _ h
    exact ⟨by simpa using h1, h2 rfl⟩

/-- C33, at a client whose dialer reports that the connection was refused: `Connect` returns
the error and the state is `Connecting`. -/
theorem close_deferred_with_nil_witness :
    (New examplePeer tenPieces).Connect [.failure]
      = some ({ New examplePeer tenPieces with State := .Connecting }, some .dial)
    ∧ ({ New examplePeer tenPieces with State := .Connecting } : Client).State ≠ .Disconnected :=
  ⟨(close_deferred_with_nil torrent.constantDigest id 0 [.failure] (New examplePeer tenPieces) []).1
      .dial rfl, by decide⟩

/-- A read that fails during `Download`: the error is returned, the state stays
`Downloading` and the connection open. -/
theorem Download_error_example :
    (({ New examplePeer tenPieces with conn := some {} } : Client).Download
        torrent.constantDigest id 0 []).map
      (fun r => (r.1.State, r.1.conn.map (fun conn => conn.closed), r.2.2))
      = some (.Downloading, some false, some .read) := by
  decide

end client

/-! ## Theorems: the message `Have` -/

namespace bitfield

/-- The method `SetPiece` returns, and the bitfield keeps its length. -/
theorem SetPiece_returns (b : Bitfield) (i : Nat) :
    ∃ b1, SetPiece b (i : Int) = some b1 ∧ b1.length = b.length := by
  have h1 : (i : Int).tdiv 8 = ((i / 8 : Nat) : Int) := (Int.ofNat_tdiv i 8).symm
  unfold SetPiece
  simp only [h1]
  by_cases hguard : ((i / 8 : Nat) : Int) < 0 ∨ ((i / 8 : Nat) : Int) ≥ (b.length : Int)
  · exact ⟨b, by simp only [hguard, if_true], rfl⟩
  · have h3 : i / 8 < b.length := by omega
    simp only [hguard, if_false, Int.toNat_ofNat]
    rw [List.getElem?_eq_getElem h3]
    exact ⟨_, rfl, by simp⟩

/-- Setting the bit of a piece changes the bit of no other piece. -/
theorem SetPiece_other (b b1 : Bitfield) (i j : Nat) (hij : j ≠ i)
    (h : SetPiece b (i : Int) = some b1) : HasPiece b1 (j : Int) = HasPiece b (j : Int) := by
  have h1 : (i : Int).tdiv 8 = ((i / 8 : Nat) : Int) := (Int.ofNat_tdiv i 8).symm
  have h2 : (i : Int).tmod 8 = ((i % 8 : Nat) : Int) := (Int.ofNat_tmod i 8).symm
  unfold SetPiece at h
  simp only [h1, h2] at h
  by_cases hguard : ((i / 8 : Nat) : Int) < 0 ∨ ((i / 8 : Nat) : Int) ≥ (b.length : Int)
  · simp only [hguard, if_true, Option.some.injEq] at h
    rw [h]
  · have h3 : i / 8 < b.length := by omega
    have hoff : (7 - ((i % 8 : Nat) : Int)).toNat = 7 - i % 8 := by omega
    simp only [hguard, if_false, Int.toNat_ofNat, hoff] at h
    rw [List.getElem?_eq_getElem h3] at h
    simp only [Option.some.injEq] at h
    have hlen : b1.length = b.length := by rw [← h]; simp
    by_cases hj : j < 8 * b.length
    · rw [HasPiece_of_valid b j hj, HasPiece_of_valid b1 j (by rw [hlen]; exact hj)]
      refine congrArg some ?_
      have hj3 : j / 8 < b.length := by omega
      by_cases hbyte : j / 8 = i / 8
      · have hget1 : b1.getD (j / 8) 0 = b[i / 8] ||| 1 <<< (7 - i % 8) % 256 := by
          rw [List.getD_eq_getElem _ _ (by rw [hlen]; exact hj3)]
          simp [← h, hbyte]
        have hget : b.getD (j / 8) 0 = b[i / 8] := by
          rw [List.getD_eq_getElem _ _ hj3]
          simp [hbyte]
        have hpow : (1 <<< (7 - i % 8)) % 256 = 2 ^ (7 - i % 8) := by
          rw [Nat.one_shiftLeft]
          have : 2 ^ (7 - i % 8) < 2 ^ 8 := Nat.pow_lt_pow_right (by norm_num) (by omega)
          exact Nat.mod_eq_of_lt (by simpa using this)
        rw [hget1, hget, hpow, Nat.testBit_or, Nat.testBit_two_pow]
        have hne : ¬ (7 - i % 8 = 7 - j % 8) := by omega
        simp [hne]
      · have hget1 : b1.getD (j / 8) 0 = b.getD (j / 8) 0 := by
          rw [List.getD_eq_getElem _ _ (by rw [hlen]; exact hj3), List.getD_eq_getElem _ _ hj3]
          simp only [← h]
          rw [List.getElem_set_ne (fun hcon => hbyte hcon.symm)]
        rw [hget1]
    · have hg : ∀ (l : Bitfield), l.length = b.length → HasPiece l (j : Int) = some false := by
        intro l hl
        have hj1 : (j : Int).tdiv 8 = ((j / 8 : Nat) : Int) := (Int.ofNat_tdiv j 8).symm
        unfold HasPiece
        simp only [hj1]
        have : ((j / 8 : Nat) : Int) < 0 ∨ ((j / 8 : Nat) : Int) ≥ (l.length : Int) := by
          right; omega
        simp only [this, if_true]
      rw [hg b rfl, hg b1 hlen]

end bitfield

namespace message

/-- The function `ParseHave` succeeds for the id `Have` and a payload of four bytes, exactly,
and returns the big-endian number in the payload. -/
theorem ParseHave_spec (m : Message) :
    (m.Id ≠ Have ∨ m.Payload.length ≠ 4 → ParseHave (some m) = none) ∧
    (m.Id = Have → ∀ b0 b1 b2 b3, m.Payload = [b0, b1, b2, b3] → b1 < 256 → b2 < 256 →
      b3 < 256 → ParseHave (some m) = some ((binary.bigEndian [b0, b1, b2, b3] : Nat) : Int)) ∧
    (∀ x, ParseHave (some m) = some x →
      m.Id = Have ∧ m.Payload.length = 4 ∧ ∃ i : Nat, x = (i : Int)) := by
  refine ⟨?_, ?_, ?_⟩
  · intro h
    unfold ParseHave
    rcases h with h | h
    · simp [Is, h]
    · simp [h]
  · intro hid b0 b1 b2 b3 hp h1 h2 h3
    unfold ParseHave
    simp only [Is, hid, hp, binary.Uint32_eq_bigEndian b0 b1 b2 b3 [] h1 h2 h3]
    simp
  · intro x hx
    unfold ParseHave at hx
    simp only [] at hx
    split at hx
    · simp at hx
    · rename_i hcond
      simp only [Bool.or_eq_true, Bool.not_eq_true', bne_iff_ne, ne_eq, not_or, Is,
        beq_eq_false_iff_ne, Decidable.not_not] at hcond
      cases hu : binary.Uint32 m.Payload with
      | none => rw [hu] at hx; simp at hx
      | some i =>
        rw [hu] at hx
        simp only [Option.map_some', Option.some.injEq] at hx
        exact ⟨by simpa using hcond.1, hcond.2, i, hx.symm⟩

end message

namespace client

open piece

/-- What `handleHaveMessage` does for the index `i`, with the bitfield `b0` on which the bit is
set: the one of the peer, or a new one of zero bytes. -/
theorem handleHaveMessage_parsed (c : Client) (msg : Option message.Message) (i : Nat)
    (hparse : message.ParseHave msg = some (i : Int)) :
    ∃ b1,
      bitfield.SetPiece
          (if c.Peer.bitfield.length = 0 ∧ c.torrent.torrent.MetaInfo.Incomplete = false then
            List.replicate (metadata.ceilDiv (c.torrent.PiecesCap : Int) 8).toNat 0
          else c.Peer.bitfield) (i : Int) = some b1 ∧
      c.handleHaveMessage msg
        = some ({ c with haveBuf := if c.torrent.torrent.MetaInfo.Incomplete then
                                      c.haveBuf ++ [(i : Int)]
                                    else c.haveBuf,
                         Peer := { c.Peer with bitfield := b1 } }, none) := by
  obtain ⟨b1, hb1, _⟩ := bitfield.SetPiece_returns
    (if c.Peer.bitfield.length = 0 ∧ c.torrent.torrent.MetaInfo.Incomplete = false then
      List.replicate (metadata.ceilDiv (c.torrent.PiecesCap : Int) 8).toNat 0
    else c.Peer.bitfield) i
  refine ⟨b1, hb1, ?_⟩
  unfold Client.handleHaveMessage
  cases hinc : c.torrent.torrent.MetaInfo.Incomplete
  · by_cases hbf : c.Peer.bitfield.length = 0
    · simp only [hinc, hbf, true_and, if_true] at hb1
      simp [hparse, hinc, peer.Peer.HasBitfield, peer.Peer.SetBitfield, peer.Peer.SetPiece, hbf,
        hb1]
    · simp only [hbf, false_and, if_false] at hb1
      have hpos : 0 < c.Peer.bitfield.length := by omega
      simp [hparse, hinc, peer.Peer.HasBitfield, peer.Peer.SetPiece, hpos, hb1]
  · simp only [hinc, Bool.true_eq_false, and_false, if_false] at hb1
    simp [hparse, hinc, peer.Peer.SetPiece, hb1]

/-- C35 (amended): a message that is no `Have` with a payload of exactly four bytes is an
error and changes nothing. For the index `i` of the message the call returns nil: if the
MetaInfo is incomplete, `i` is appended to the have-buffer; if the MetaInfo is complete and
the peer has no bitfield, the bit is set in a new bitfield of `ceil(N / 8)` zero bytes, `N`
being the capacity of the piece channel, the number of pieces; nothing else changes but the
bitfield of the peer, in which the bit of no other piece changes. If the MetaInfo is complete,
`i < N`, and the peer has no bitfield or one of at least `ceil(N / 8)` bytes, `HasPiece(i)`
is true afterwards. -/
theorem handleHaveMessage_spec (c : Client) (msg : Option message.Message) :
    (message.ParseHave msg = none → c.handleHaveMessage msg = some (c, some .parseHave)) ∧
    (∀ m, msg = some m → (m.Id ≠ message.Have ∨ m.Payload.length ≠ 4) →
      c.handleHaveMessage msg = some (c, some .parseHave)) ∧
    (∀ i : Nat, message.ParseHave msg = some (i : Int) →
      ∃ c1, c.handleHaveMessage msg = some (c1, none) ∧
        c1 = { c with haveBuf := c1.haveBuf, Peer := { c.Peer with bitfield := c1.Peer.bitfield } } ∧
        c1.haveBuf = (if c.torrent.torrent.MetaInfo.Incomplete then c.haveBuf ++ [(i : Int)]
                      else c.haveBuf) ∧
        (c.torrent.torrent.MetaInfo.Incomplete = false → c.Peer.HasBitfield = false →
          c.torrent.PiecesCap < 2 ^ 53 →
          bitfield.SetPiece (List.replicate ((c.torrent.PiecesCap + 7) / 8) 0) (i : Int)
            = some c1.Peer.bitfield) ∧
        (∀ j : Nat, j ≠ i → c1.Peer.HasPiece (j : Int) = c.Peer.HasPiece (j : Int)) ∧
        (c.torrent.torrent.MetaInfo.Incomplete = false → c.torrent.PiecesCap < 2 ^ 53 →
          i < c.torrent.PiecesCap →
          (c.Peer.HasBitfield = false ∨ c.torrent.PiecesCap ≤ 8 * c.Peer.bitfield.length) →
          c1.Peer.HasPiece (i : Int) = some true)) := by
  refine ⟨?_, ?_, ?_⟩
  · intro h
    simp [Client.handleHaveMessage, h]
  · intro m hm hbad
    subst hm
    simp [Client.handleHaveMessage, (message.ParseHave_spec m).1 hbad]
  · intro i hparse
    obtain ⟨b1, hb1, hres⟩ := handleHaveMessage_parsed c msg i hparse
    have hsize : c.torrent.PiecesCap < 2 ^ 53 →
        (metadata.ceilDiv (c.torrent.PiecesCap : Int) 8).toNat = (c.torrent.PiecesCap + 7) / 8 := by
      intro hN
      rw [metadata.ceilDiv_bytes _ (by omega) (by exact_mod_cast hN)]
      omega
    have hnobf : c.Peer.HasBitfield = false → c.Peer.bitfield.length = 0 := by
      intro h
      simpa [peer.Peer.HasBitfield] using h
    refine ⟨_, hres, rfl, rfl, ?_, ?_, ?_⟩
    · intro hinc hbf hN
      rw [if_pos ⟨hnobf hbf, hinc⟩, hsize hN] at hb1
      exact hb1
    · intro j hj
      simp only [peer.Peer.HasPiece]
      rw [bitfield.SetPiece_other _ b1 i j hj hb1]
      split
      · rename_i hcond
        have hnil : c.Peer.bitfield = [] := List.length_eq_zero.mp hcond.1
        rw [metadata.HasPiece_zeros, hnil]
        rfl
      · rfl
    · intro hinc hN hi hbf
      simp only [peer.Peer.HasPiece]
      by_cases hlen : c.Peer.bitfield.length = 0
      · rw [if_pos ⟨hlen, hinc⟩, hsize hN] at hb1
        have hvalid : i < 8 * (List.replicate ((c.torrent.PiecesCap + 7) / 8) 0).length := by
          rw [List.length_replicate]; omega
        have := bitfield.SetPiece_HasPiece _ i hvalid
        rw [hb1] at this
        simpa using this
      · rw [if_neg (fun hcon => hlen hcon.1)] at hb1
        have hvalid : i < 8 * c.Peer.bitfield.length := by
          rcases hbf with hbf | hbf
          · exact absurd (hnobf hbf) hlen
          · omega
        have := bitfield.SetPiece_HasPiece _ i hvalid
        rw [hb1] at this
        simpa using this

/-- C35, at a client of the torrent of ten pieces whose peer has no bitfield, and the message
`Have` for the piece 9: a bitfield of two bytes is created, and the peer has the piece. -/
theorem handleHaveMessage_spec_witness :
    ∃ c1, (New examplePeer tenPieces).handleHaveMessage (some have9) = some (c1, none) ∧
      c1.Peer.bitfield = [0, 64] ∧ c1.Peer.HasPiece 9 = some true := by
  obtain ⟨c1, h1, _, _, h4, _, h6⟩ :=
    (handleHaveMessage_spec (New examplePeer tenPieces) (some have9)).2.2 9 (by decide)
  refine ⟨c1, h1, ?_, ?_⟩
  · have := h4 (by decide) (by decide) (by decide)
    exact (Option.some.inj this).symm
  · exact h6 (by decide) (by decide) (by decide) (Or.inl (by decide))

/-- C35 (as stated, refuted), for a peer that has sent a bitfield shorter than `ceil(N / 8)`
bytes: after a `Bitfield` message of one byte and the `Have` message for the piece 9,
received for the complete torrent of ten pieces, `HasPiece(9)` is false. -/
theorem handleHaveMessage_short_bitfield :
    tenPieces.torrent.MetaInfo.Incomplete = false ∧ tenPieces.PiecesCap = 10 ∧
    (({ New examplePeer tenPieces with
          conn := some { reads := [.message (some shortBitfield), .message (some have9)] } }
        : Client).receive id).bind
      (fun r => (r.1.receive id).bind (fun r1 => r1.1.Peer.HasPiece 9))
      = some false := by
  refine ⟨by decide, by decide, by decide⟩

end client

/-! ## Theorems: the requests for the blocks of a piece -/

namespace client

open piece

theorem blockRequests_succ (index L : Int) (k m : Nat) :
    blockRequests index L k (m + 1) = blockRequest index L k :: blockRequests index L (k + 1) m := by
  unfold blockRequests
  rw [List.range_succ_eq_map]
  simp only [List.map_cons, List.map_map, Nat.add_zero]
  refine congrArg _ (List.map_congr_left ?_)
  intro j _
  simp only [Function.comp]
  congr 1
  omega

theorem blockRequests_append (index L : Int) (k m n : Nat) :
    blockRequests index L k m ++ blockRequests index L (k + m) n
      = blockRequests index L k (m + n) := by
  unfold blockRequests
  rw [List.range_add, List.map_append, List.map_map]
  refine congrArg _ (List.map_congr_left ?_)
  intro j _
  simp only [Function.comp]
  congr 1
  omega

theorem blockCount_spec (L : Int) (k : Nat) :
    (k < blockCount L ↔ 16384 * (k : Int) < L) := by
  unfold blockCount
  omega

theorem readsLeft_of_conn (c : Client) (conn : Conn) (h : c.conn = some conn) :
    c.readsLeft = conn.reads.length := by
  simp [Client.readsLeft, h]

/-- The inner loop of `requestPiece` on a piece of length `L` of which the first `k` blocks
are requested: it writes the requests for the next `m` blocks, where `m` is the smaller of
`5 - queuedRequests` and the number of blocks left, or less when a write fails. -/
theorem queueRequests_blocks (fuel : Nat) (c c1 : Client) (e : Option ClientError)
    (conn : Conn) (p : Piece) (k : Nat) (hconn : c.conn = some conn) (hp : c.piece = some p)
    (hL : 0 < p.Length) (hk : k ≤ blockCount p.Length)
    (hreq : p.Requested = min (16384 * (k : Int)) p.Length)
    (hfuel : (5 - p.QueuedRequests).toNat ≤ fuel)
    (h : c.queueRequests fuel = some (c1, e)) :
    ∃ (m : Nat) (conn1 : Conn),
      c1 = { c with conn := some conn1,
                    piece := some { p with Requested := min (16384 * ((k + m : Nat) : Int)) p.Length,
                                           QueuedRequests := p.QueuedRequests + (m : Int) } } ∧
      conn1.sent = conn.sent ++ blockRequests p.Index p.Length k m ∧
      conn1.reads = conn.reads ∧ conn1.closed = conn.closed ∧
      k + m ≤ blockCount p.Length ∧ m ≤ (5 - p.QueuedRequests).toNat ∧
      (e = none → m = min (5 - p.QueuedRequests).toNat (blockCount p.Length - k)) ∧
      e ≠ some .fuel := by
  induction fuel generalizing c conn p k with
  | zero =>
    have hq : ¬ p.QueuedRequests < 5 := by omega
    simp only [Client.queueRequests, hp, Piece.CanQueueRequest, hq, decide_False, Bool.and_false,
      Bool.not_false, if_true, Option.some.injEq, Prod.mk.injEq] at h
    obtain ⟨rfl, rfl⟩ := h
    refine ⟨0, conn, ?_, ?_, rfl, rfl, by omega, by omega, ?_, by simp⟩
    · cases c
      simp only [Nat.add_zero, Int.ofNat_zero, Int.add_zero] at *
      subst hconn hp
      rw [← hreq]
    · simp [blockRequests]
    · intro _; omega
  | succ fuel ih =>
    unfold Client.queueRequests at h
    simp only [hp] at h
    by_cases hcan : p.CanQueueRequest = true
    · simp only [hcan, Bool.not_true, Bool.false_eq_true, if_false] at h
      simp only [Piece.CanQueueRequest, Bool.and_eq_true, decide_eq_true_eq] at hcan
      obtain ⟨hlt, hq⟩ := hcan
      have hkL : 16384 * (k : Int) < p.Length := by omega
      have hklt : k < blockCount p.Length := (blockCount_spec p.Length k).2 hkL
      have hreq1 : p.Requested = 16384 * (k : Int) := by omega
      have hlen : (if p.Requested + BlockSize > p.Length then p.Length.tmod BlockSize
            else BlockSize) = min 16384 (p.Length - 16384 * (k : Int)) := by
        simp only [BlockSize]
        rw [Int.tmod_eq_emod (by omega) (by norm_num)]
        split <;> omega
      rw [hlen, hreq1] at h
      cases hsend : c.sendRequest p.Index (16384 * (k : Int))
          (min 16384 (p.Length - 16384 * (k : Int))) with
      | none => rw [hsend] at h; simp at h
      | some r =>
        obtain ⟨c2, e2⟩ := r
        rw [hsend] at h
        obtain ⟨conn0, conn2, h0, rfl, hreads, hclosed, _, hsent⟩ := send_frame _ _ _ _ hsend
        rw [hconn] at h0
        simp only [Option.some.injEq] at h0
        subst h0
        cases e2 with
        | some err =>
          simp only [Option.some.injEq, Prod.mk.injEq] at h
          obtain ⟨rfl, rfl⟩ := h
          refine ⟨0, conn2, ?_, ?_, hreads, hclosed, by omega, by omega, by intro he; simp at he,
            ?_⟩
          · cases c
            simp only [Nat.add_zero, Int.add_zero, Int.ofNat_zero] at *
            subst hp
            rw [← hreq]
          · simpa [blockRequests] using hsent
          · have := (send_frame _ _ _ _ hsend)
            intro hcon
            simp only [Option.some.injEq] at hcon
            subst hcon
            simp [Client.sendRequest, Client.send, hconn] at hsend
        | none =>
          simp only [] at h
          have hmin : 16384 * (k : Int) + min 16384 (p.Length - 16384 * (k : Int))
              = min (16384 * ((k + 1 : Nat) : Int)) p.Length := by
            push_cast; omega
          obtain ⟨m, conn3, hc1, hsent3, hreads3, hclosed3, hkm, hm, hmeq, hne⟩ :=
            ih _ conn2
              { p with Requested := 16384 * (k : Int) + min 16384 (p.Length - 16384 * (k : Int)),
                       QueuedRequests := p.QueuedRequests + 1 }
              (k + 1) rfl rfl hL (by show k + 1 ≤ blockCount p.Length; omega) hmin
              (by show (5 - (p.QueuedRequests + 1)).toNat ≤ fuel; omega) h
          refine ⟨m + 1, conn3, ?_, ?_, by rw [hreads3, hreads], by rw [hclosed3, hclosed],
            by simp only [] at hkm; omega, by simp only [] at hm; omega, ?_, hne⟩
          · rw [hc1]
            simp only [Client.mk.injEq, Option.some.injEq, Piece.mk.injEq, true_and, and_true]
            refine ⟨?_, ?_⟩
            · congr 2; push_cast; omega
            · push_cast; omega
          · rw [hsent3, hsent, blockRequests_succ]
            simp [blockRequest]
          · intro he
            have := hmeq he
            simp only [] at this
            omega
    · have hfalse : p.CanQueueRequest = false := by simpa using hcan
      simp only [hfalse, Bool.not_false, if_true, Option.some.injEq, Prod.mk.injEq] at h
      obtain ⟨rfl, rfl⟩ := h
      have hzero : min (5 - p.QueuedRequests).toNat (blockCount p.Length - k) = 0 := by
        simp only [Piece.CanQueueRequest, Bool.and_eq_false_iff, decide_eq_false_iff_not] at hfalse
        rcases hfalse with hf | hf
        · have : ¬ k < blockCount p.Length := by
            intro hcon
            have := (blockCount_spec p.Length k).1 hcon
            omega
          omega
        · omega
      refine ⟨0, conn, ?_, ?_, rfl, rfl, by omega, by omega, fun _ => hzero.symm, by simp⟩
      · cases c
        simp only [Nat.add_zero, Int.add_zero, Int.ofNat_zero] at *
        subst hconn hp
        rw [← hreq]
      · simp [blockRequests]

theorem queueRequests_returns (fuel : Nat) (c : Client) (conn : Conn) (p : Piece)
    (hconn : c.conn = some conn) (hp : c.piece = some p) :
    ∃ c1 e, c.queueRequests fuel = some (c1, e) := by
  induction fuel generalizing c conn p with
  | zero =>
    simp only [Client.queueRequests, hp]
    split <;> exact ⟨_, _, rfl⟩
  | succ fuel ih =>
    unfold Client.queueRequests
    simp only [hp]
    split
    · exact ⟨_, _, rfl⟩
    · simp only [Client.sendRequest, Client.send, hconn]
      cases (conn.Write (message.Message.Bytes (some (message.NewRequest p.Index p.Requested
          (if p.Requested + BlockSize > p.Length then p.Length.tmod BlockSize
           else BlockSize))))).2
      · exact ⟨_, _, rfl⟩
      · exact ih _ _ _ rfl rfl

/-- The queue phase of an iteration of `requestPiece`: nothing is sent while the client is
choked. -/
theorem queuePhase_blocks (c : Client) (conn : Conn) (p : Piece) (k : Nat)
    (hconn : c.conn = some conn) (hp : c.piece = some p) (hL : 0 < p.Length)
    (hk : k ≤ blockCount p.Length) (hreq : p.Requested = min (16384 * (k : Int)) p.Length) :
    ∃ (m : Nat) (conn1 : Conn) (e : Option ClientError),
      (if !c.choked then c.queueRequests (5 - p.QueuedRequests).toNat else some (c, none))
        = some ({ c with
                  conn := some conn1,
                  piece := some { p with
                                  Requested := min (16384 * ((k + m : Nat) : Int)) p.Length,
                                  QueuedRequests := p.QueuedRequests + (m : Int) } }, e) ∧
      conn1.sent = conn.sent ++ blockRequests p.Index p.Length k m ∧
      conn1.reads = conn.reads ∧ conn1.closed = conn.closed ∧
      k + m ≤ blockCount p.Length ∧
      (c.choked = true → m = 0 ∧ e = none) ∧
      (c.choked = false → e = none →
        m = min (5 - p.QueuedRequests).toNat (blockCount p.Length - k)) ∧
      m ≤ (5 - p.QueuedRequests).toNat ∧ e ≠ some .fuel := by
  cases hch : c.choked
  · obtain ⟨c1, e, hres⟩ := queueRequests_returns (5 - p.QueuedRequests).toNat c conn p hconn hp
    obtain ⟨m, conn1, hc1, hsent, hreads, hclosed, hkm, hm, hmeq, hne⟩ :=
      queueRequests_blocks _ c c1 e conn p k hconn hp hL hk hreq (le_refl _) hres
    refine ⟨m, conn1, e, ?_, hsent, hreads, hclosed, hkm, by intro hcon; simp at hcon,
      fun _ he => hmeq he, hm, hne⟩
    simp only [Bool.not_false, if_true]
    rw [hres, hc1, hch]
  · refine ⟨0, conn, none, ?_, by simp [blockRequests], rfl, rfl, by omega, fun _ => ⟨rfl, rfl⟩,
      by intro hcon; simp at hcon, by omega, by simp⟩
    simp only [Bool.not_true, Bool.false_eq_true, if_false, Option.some.injEq, Prod.mk.injEq,
      and_true]
    cases c
    simp only [Nat.add_zero, Int.add_zero, Int.ofNat_zero] at *
    subst hconn hp hch
    rw [← hreq]

/-- The loop of `requestPiece` on a piece of which the first `k` blocks are requested: in
whatever state it is left, the requests written are those for the blocks up to some `k1`. -/
theorem requestPieceLoop_blocks (shuffle : List Piece → List Piece) (fuel : Nat)
    (c c1 : Client) (e : Option ClientError) (conn : Conn) (p : Piece) (k : Nat)
    (hconn : c.conn = some conn) (hp : c.piece = some p) (hL : 0 < p.Length)
    (hk : k ≤ blockCount p.Length) (hreq : p.Requested = min (16384 * (k : Int)) p.Length)
    (h : c.requestPieceLoop shuffle fuel = some (c1, e)) :
    ∃ (k1 : Nat) (conn1 : Conn) (p1 : Piece),
      c1.conn = some conn1 ∧ c1.piece = some p1 ∧ p1.Index = p.Index ∧ p1.Length = p.Length ∧
      k ≤ k1 ∧ k1 ≤ blockCount p.Length ∧
      p1.Requested = min (16384 * (k1 : Int)) p.Length ∧
      conn1.sent = conn.sent ++ blockRequests p.Index p.Length k (k1 - k) := by
  induction fuel generalizing c conn p k with
  | zero =>
    have hc : c1 = c := by
      simp only [Client.requestPieceLoop, hp] at h
      split at h <;> simp only [Option.some.injEq, Prod.mk.injEq] at h <;> exact h.1.symm
    subst hc
    exact ⟨k, conn, p, hconn, hp, rfl, rfl, le_refl _, hk, hreq, by simp [blockRequests]⟩
  | succ fuel ih =>
    unfold Client.requestPieceLoop at h
    simp only [hp] at h
    split at h
    · simp only [Option.some.injEq, Prod.mk.injEq] at h
      obtain ⟨rfl, _⟩ := h
      exact ⟨k, conn, p, hconn, hp, rfl, rfl, le_refl _, hk, hreq, by simp [blockRequests]⟩
    · obtain ⟨m, conn1, eq, hres, hsent, _, _, hkm, _⟩ :=
        queuePhase_blocks c conn p k hconn hp hL hk hreq
      simp only [hres] at h
      cases eq with
      | some err =>
        simp only [Option.some.injEq, Prod.mk.injEq] at h
        obtain ⟨rfl, _⟩ := h
        refine ⟨k + m, conn1, _, rfl, rfl, rfl, rfl, by omega, hkm, rfl, ?_⟩
        rw [hsent]
        congr 2
        omega
      | none =>
        simp only [] at h
        split at h
        · simp at h
        · rename_i c2 err hrecv
          simp only [Option.some.injEq, Prod.mk.injEq] at h
          obtain ⟨rfl, _⟩ := h
          obtain ⟨_, ⟨conn0, reads1, h0, h1, _⟩, hpiece, _⟩ := receive_frame _ _ _ _ hrecv
          simp only [Option.some.injEq] at h0
          subst h0
          have hsent1 : ({ conn1 with reads := reads1 } : Conn).sent
              = conn.sent ++ blockRequests p.Index p.Length k (k + m - k) := by
            rw [show k + m - k = m by omega]
            exact hsent
          rcases hpiece with hpiece | ⟨p0, d, r, q, hp0, hpiece⟩
          · exact ⟨k + m, _, _, h1, hpiece, rfl, rfl, by omega, hkm, rfl, hsent1⟩
          · simp only [Option.some.injEq] at hp0
            subst hp0
            exact ⟨k + m, _, _, h1, hpiece, rfl, rfl, by omega, hkm, rfl, hsent1⟩
        · rename_i c2 hrecv
          obtain ⟨_, ⟨conn0, reads1, h0, h1, _⟩, hpiece, _⟩ := receive_frame _ _ _ _ hrecv
          simp only [Option.some.injEq] at h0
          subst h0
          have hfin : ∀ p2 : Piece, c2.piece = some p2 → p2.Index = p.Index →
              p2.Length = p.Length → p2.Requested = min (16384 * ((k + m : Nat) : Int)) p.Length →
              ∃ (k1 : Nat) (conn1 : Conn) (p1 : Piece),
                c1.conn = some conn1 ∧ c1.piece = some p1 ∧ p1.Index = p.Index ∧
                p1.Length = p.Length ∧ k ≤ k1 ∧ k1 ≤ blockCount p.Length ∧
                p1.Requested = min (16384 * (k1 : Int)) p.Length ∧
                conn1.sent = conn.sent ++ blockRequests p.Index p.Length k (k1 - k) := by
            intro p2 hp2 hi hl hr
            obtain ⟨k1, conn3, p3, g1, g2, g3, g4, g5, g6, g7, g8⟩ :=
              ih c2 _ p2 (k + m) h1 hp2 (by rw [hl]; exact hL) (by rw [hl]; exact hkm)
                (by rw [hl]; exact hr) h
            refine ⟨k1, conn3, p3, g1, g2, by rw [g3, hi], by rw [g4, hl], by omega,
              by rw [← hl]; exact g6, by rw [g7, hl], ?_⟩
            rw [g8, hi, hl]
            simp only []
            rw [hsent, List.append_assoc, blockRequests_append]
            congr 2
            omega
          rcases hpiece with hpiece | ⟨p0, d, r, q, hp0, hpiece⟩
          · exact hfin _ hpiece rfl rfl rfl
          · simp only [Option.some.injEq] at hp0
            subst hp0
            exact hfin _ hpiece rfl rfl rfl

end client

namespace client

open piece

/-- C32: in `requestPiece`, for a piece of length `L > 0` of which nothing is requested yet.
The blocks `j < ceil(L / 16384)`, from `16384 * j` of length `min(16384, L - 16384 * j)`,
follow one another and end at `L`. In a state where the first `k` blocks are requested, the
queue phase of an iteration writes the requests for the next `m` blocks, in ascending order,
and advances `requested` and `queuedRequests` accordingly: none while the client is choked,
and otherwise, if no write fails, as many as there are blocks left and requests below five.
In every state that the loop reaches, and when `requestPiece` returns, the requests written
are those for the first `k1` blocks, and `requested` is `min(16384 * k1, L)`: a multiple of
16384 or `L`, never more than `L`, and `L` only when all blocks are requested. -/
theorem requestPiece_blocks (shuffle : List Piece → List Piece) (c : Client) (conn : Conn)
    (p : Piece) (hconn : c.conn = some conn) (hL : 0 < p.Length) (hreq : p.Requested = 0) :
    ((∀ j : Nat, j < blockCount p.Length →
        0 < min 16384 (p.Length - 16384 * (j : Int)) ∧
        16384 * (j : Int) + min 16384 (p.Length - 16384 * (j : Int))
          = min (16384 * ((j + 1 : Nat) : Int)) p.Length) ∧
      min (16384 * (blockCount p.Length : Int)) p.Length = p.Length) ∧
    (∀ (c0 : Client) (conn0 : Conn) (p0 : Piece) (k : Nat), c0.conn = some conn0 →
      c0.piece = some p0 → p0.Index = p.Index → p0.Length = p.Length →
      k ≤ blockCount p.Length → p0.Requested = min (16384 * (k : Int)) p.Length →
      ∃ (m : Nat) (conn1 : Conn) (e : Option ClientError),
        (if !c0.choked then c0.queueRequests (5 - p0.QueuedRequests).toNat else some (c0, none))
          = some ({ c0 with
                    conn := some conn1,
                    piece := some { p0 with
                                    Requested := min (16384 * ((k + m : Nat) : Int)) p.Length,
                                    QueuedRequests := p0.QueuedRequests + (m : Int) } }, e) ∧
        conn1.sent = conn0.sent ++ blockRequests p.Index p.Length k m ∧
        k + m ≤ blockCount p.Length ∧
        (c0.choked = true → m = 0 ∧ e = none) ∧
        (c0.choked = false → e = none →
          m = min (5 - p0.QueuedRequests).toNat (blockCount p.Length - k)) ∧
        m ≤ (5 - p0.QueuedRequests).toNat) ∧
    (∀ (data : Bytes) (fuel : Nat) (c1 : Client) (e : Option ClientError),
      ({ c with piece := some { p with Data := data } } : Client).requestPieceLoop shuffle fuel
        = some (c1, e) →
      ∃ (k1 : Nat) (conn1 : Conn) (p1 : Piece),
        c1.conn = some conn1 ∧ c1.piece = some p1 ∧ k1 ≤ blockCount p.Length ∧
        p1.Requested = min (16384 * (k1 : Int)) p.Length ∧
        (p1.Requested % 16384 = 0 ∨ p1.Requested = p.Length) ∧ p1.Requested ≤ p.Length ∧
        conn1.sent = conn.sent ++ blockRequests p.Index p.Length 0 k1) ∧
    (∀ (c1 : Client) (p1 : Piece) (e : Option ClientError),
      c.requestPiece shuffle p = some (c1, p1, e) →
      ∃ (k1 : Nat) (conn1 : Conn),
        c1.conn = some conn1 ∧ k1 ≤ blockCount p.Length ∧
        p1.Requested = min (16384 * (k1 : Int)) p.Length ∧
        (p1.Requested = p.Length → k1 = blockCount p.Length) ∧
        conn1.sent = conn.sent ++ blockRequests p.Index p.Length 0 k1) := by
  have hloop : ∀ (data : Bytes) (fuel : Nat) (c1 : Client) (e : Option ClientError),
      ({ c with piece := some { p with Data := data } } : Client).requestPieceLoop shuffle fuel
        = some (c1, e) →
      ∃ (k1 : Nat) (conn1 : Conn) (p1 : Piece),
        c1.conn = some conn1 ∧ c1.piece = some p1 ∧ k1 ≤ blockCount p.Length ∧
        p1.Requested = min (16384 * (k1 : Int)) p.Length ∧
        (p1.Requested % 16384 = 0 ∨ p1.Requested = p.Length) ∧ p1.Requested ≤ p.Length ∧
        conn1.sent = conn.sent ++ blockRequests p.Index p.Length 0 k1 := by
    intro data fuel c1 e h
    obtain ⟨k1, conn1, p1, g1, g2, _, _, _, g6, g7, g8⟩ :=
      requestPieceLoop_blocks shuffle fuel
        ({ c with piece := some { p with Data := data } } : Client) c1 e conn
        { p with Data := data } 0 hconn rfl hL (Nat.zero_le _)
        (by show p.Requested = min (16384 * ((0 : Nat) : Int)) p.Length; rw [hreq]; omega) h
    refine ⟨k1, conn1, p1, g1, g2, g6, g7, ?_, ?_, g8⟩
    · have g7a : p1.Requested = min (16384 * (k1 : Int)) p.Length := g7
      omega
    · have g7a : p1.Requested = min (16384 * (k1 : Int)) p.Length := g7
      omega
  refine ⟨⟨?_, ?_⟩, ?_, hloop, ?_⟩
  · intro j hj
    have := (blockCount_spec p.Length j).1 hj
    refine ⟨by omega, by push_cast; omega⟩
  · have h1 := blockCount_spec p.Length (blockCount p.Length)
    have : ¬ 16384 * (blockCount p.Length : Int) < p.Length := fun hcon => by
      have := h1.2 hcon
      omega
    omega
  · intro c0 conn0 p0 k h0 hp0 hi hl hk hr
    obtain ⟨m, conn1, e, g1, g2, _, _, g5, g6, g7, g8, _⟩ :=
      queuePhase_blocks c0 conn0 p0 k h0 hp0 (by rw [hl]; exact hL) (by rw [hl]; exact hk)
        (by rw [hl]; exact hr)
    rw [← hi, ← hl]
    exact ⟨m, conn1, e, g1, g2, g5, g6, g7, g8⟩
  · intro c1 p1 e h
    unfold Client.requestPiece at h
    rw [if_neg (by omega)] at h
    simp only [] at h
    split at h
    · simp at h
    · rename_i c2 e2 hrun
      obtain ⟨k1, conn1, p2, g1, g2, g3, g4, _, _, g7⟩ := hloop _ _ _ _ hrun
      simp only [g2, Option.some.injEq, Prod.mk.injEq] at h
      obtain ⟨rfl, rfl, _⟩ := h
      refine ⟨k1, conn1, g1, g3, g4, ?_, g7⟩
      intro hfull
      have := blockCount_spec p.Length k1
      omega

/-- C32, at a client that is unchoked, with a piece of 40000 bytes in flight of which nothing
is requested. -/
theorem requestPiece_blocks_witness :
    ∃ (m : Nat) (conn1 : Conn) (e : Option ClientError),
      (if !unchokedClient.choked then
          unchokedClient.queueRequests (5 - largePiece.QueuedRequests).toNat
        else some (unchokedClient, none))
        = some ({ unchokedClient with
                  conn := some conn1,
                  piece := some { largePiece with
                                  Requested := min (16384 * ((0 + m : Nat) : Int)) largePiece.Length,
                                  QueuedRequests := largePiece.QueuedRequests + (m : Int) } }, e) ∧
      conn1.sent = ({} : Conn).sent ++ blockRequests largePiece.Index largePiece.Length 0 m ∧
      0 + m ≤ blockCount largePiece.Length ∧
      (unchokedClient.choked = true → m = 0 ∧ e = none) ∧
      (unchokedClient.choked = false → e = none →
        m = min (5 - largePiece.QueuedRequests).toNat (blockCount largePiece.Length - 0)) ∧
      m ≤ (5 - largePiece.QueuedRequests).toNat :=
  (requestPiece_blocks id unchokedClient {} largePiece rfl (by decide) rfl).2.1
    unchokedClient {} largePiece 0 rfl rfl rfl rfl (by decide) (by decide)

/-- The requests for a piece of 40000 bytes. A client that is choked sends nothing before the
message `Unchoke`; then it requests the three blocks, of 16384, 16384 and 7232 bytes, and the
loop ends with the error of the read at the end of the connection. -/
theorem requestPiece_examples :
    blockCount 40000 = 3
    ∧ blockRequests 2 40000 0 3
      = [[0, 0, 0, 13, 6, 0, 0, 0, 2, 0, 0, 0, 0, 0, 0, 64, 0],
         [0, 0, 0, 13, 6, 0, 0, 0, 2, 0, 0, 64, 0, 0, 0, 64, 0],
         [0, 0, 0, 13, 6, 0, 0, 0, 2, 0, 0, 128, 0, 0, 0, 28, 64]]
    ∧ (chokedClient.requestPieceLoop id 1).map
        (fun r => (r.1.conn.map (fun conn => conn.sent), r.1.choked, r.2))
      = some (some [], false, some .fuel)
    ∧ (chokedClient.requestPieceLoop id 2).map
        (fun r => (r.1.conn.map (fun conn => conn.sent),
                   r.1.piece.map (fun q => (q.Requested, q.QueuedRequests)), r.2))
      = some (some (blockRequests 2 40000 0 3), some (40000, 3), some .read) := by
  refine ⟨by decide, by decide, by decide, by decide⟩

end client

/-! ## Theorems: where a piece taken from the piece channel ends -/

namespace bitfield

/-- The method `HasPiece` returns for every index. -/
theorem HasPiece_returns (b : Bitfield) (p : Int) : ∃ r, HasPiece b p = some r := by
  unfold HasPiece
  simp only []
  split
  · exact ⟨false, rfl⟩
  · rename_i hguard
    have hlt : (p.tdiv 8).toNat < b.length := by omega
    rw [List.getElem?_eq_getElem hlt]
    exact ⟨_, rfl⟩

end bitfield

namespace client

open piece

theorem readLoop_ne_fuel (n : Nat) (conn : Conn) : (readLoop n conn).2 ≠ .error .fuel := by
  induction n generalizing conn with
  | zero => simp [readLoop]
  | succ n ih =>
    unfold readLoop
    split
    · simp
    · simp
    · exact ih _
    · simp

/-- The method `receive` returns none of the errors of the embedding. -/
theorem receive_ne_fuel (shuffle : List Piece → List Piece) (c c1 : Client)
    (e : Option ClientError) (h : c.receive shuffle = some (c1, e)) : e ≠ some .fuel := by
  intro hcon
  subst hcon
  unfold Client.receive at h
  split at h
  · simp at h
  · rename_i conn hconn
    simp only [] at h
    split at h
    · rename_i err herr
      simp only [Option.some.injEq, Prod.mk.injEq] at h
      have := readLoop_ne_fuel 5 conn
      rw [herr, ← h.2] at this
      simp at this
    · simp at h
    · split at h
      · simp at h
      · split at h
        · simp at h
        · split at h
          · simp at h
          · split at h
            · unfold Client.handleHaveMessage at h
              split at h
              · simp at h
              · simp only [] at h
                split at h <;> simp at h
            · split at h
              · unfold Client.handlePieceMessage at h
                split at h
                · simp at h
                · split at h
                  · simp at h
                  · split at h <;> simp at h
              · split at h
                · unfold Client.handleExtendedMessage at h
                  split at h
                  · split at h
                    · simp at h
                    · simp at h
                    · simp only [] at h
                      split at h
                      · split at h <;> simp at h
                      · simp at h
                  · split at h
                    · simp at h
                    · simp at h
                    · split at h
                      · split at h <;> simp at h
                      · simp at h
                · simp at h

theorem readsLeft_conn (c c1 : Client) (h : c1.conn = c.conn) : c1.readsLeft = c.readsLeft := by
  simp [Client.readsLeft, h]

theorem queueRequests_frame (fuel : Nat) (c c1 : Client) (e : Option ClientError) (p : Piece)
    (hp : c.piece = some p) (hfuel : (5 - p.QueuedRequests).toNat ≤ fuel)
    (h : c.queueRequests fuel = some (c1, e)) :
    e ≠ some .fuel ∧ c1.torrent = c.torrent ∧ c1.readsLeft = c.readsLeft ∧
    ∃ p1, c1.piece = some p1 ∧ p1.Index = p.Index ∧ p1.Length = p.Length ∧
      p1.Offset = p.Offset ∧ p1.Destinations = p.Destinations ∧ p1.Received = p.Received := by
  induction fuel generalizing c p with
  | zero =>
    have hq : ¬ p.QueuedRequests < 5 := by omega
    simp only [Client.queueRequests, hp, Piece.CanQueueRequest, hq, decide_False, Bool.and_false,
      Bool.not_false, if_true, Option.some.injEq, Prod.mk.injEq] at h
    obtain ⟨rfl, rfl⟩ := h
    exact ⟨by simp, rfl, rfl, p, hp, rfl, rfl, rfl, rfl, rfl⟩
  | succ fuel ih =>
    unfold Client.queueRequests at h
    simp only [hp] at h
    split at h
    · simp only [Option.some.injEq, Prod.mk.injEq] at h
      obtain ⟨rfl, rfl⟩ := h
      exact ⟨by simp, rfl, rfl, p, hp, rfl, rfl, rfl, rfl, rfl⟩
    · rename_i hcan
      split at h
      · simp at h
      · rename_i c2 err hsend
        simp only [Option.some.injEq, Prod.mk.injEq] at h
        obtain ⟨rfl, rfl⟩ := h
        obtain ⟨conn, conn2, h0, rfl, hreads, _⟩ := send_frame _ _ _ _ hsend
        refine ⟨?_, rfl, ?_, p, hp, rfl, rfl, rfl, rfl, rfl⟩
        · intro hcon
          simp only [Option.some.injEq] at hcon
          subst hcon
          simp [Client.sendRequest, Client.send, h0] at hsend
        · simp [Client.readsLeft, h0, hreads]
      · rename_i c2 hsend
        obtain ⟨conn, conn2, h0, rfl, hreads, _⟩ := send_frame _ _ _ _ hsend
        have hq : p.QueuedRequests < 5 := by
          simp [Piece.CanQueueRequest] at hcan
          exact hcan.2
        obtain ⟨g1, g2, g3, p1, g4, g5, g6, g7, g8, g9⟩ := ih _ _ rfl
          (by simp only []; omega) h
        refine ⟨g1, g2, ?_, p1, g4, g5, g6, g7, g8, g9⟩
        rw [g3]
        simp [Client.readsLeft, h0, hreads]

/-- The loop of `requestPiece`: the piece in flight stays the same piece of the torrent, the
loop returns nil only when the piece is received, it ends within one iteration more than
there are reads to come, and it leaves the piece channel of a complete torrent alone. -/
theorem requestPieceLoop_frame (shuffle : List Piece → List Piece) (fuel : Nat)
    (c c1 : Client) (e : Option ClientError) (p : Piece) (hp : c.piece = some p)
    (h : c.requestPieceLoop shuffle fuel = some (c1, e)) :
    (∃ p1, c1.piece = some p1 ∧ p1.Index = p.Index ∧ p1.Length = p.Length ∧
      p1.Offset = p.Offset ∧ p1.Destinations = p.Destinations ∧
      (e = none → p1.Incomplete = false)) ∧
    (c.readsLeft < fuel → e ≠ some .fuel) ∧
    (c.torrent.torrent.MetaInfo.Incomplete = false →
      c1.torrent.torrent = c.torrent.torrent ∧ c1.torrent.Pieces = c.torrent.Pieces ∧
      c1.torrent.PiecesCap = c.torrent.PiecesCap) := by
  induction fuel generalizing c p with
  | zero =>
    simp only [Client.requestPieceLoop, hp] at h
    split at h
    · rename_i hdone
      simp only [Option.some.injEq, Prod.mk.injEq] at h
      obtain ⟨rfl, rfl⟩ := h
      exact ⟨⟨p, hp, rfl, rfl, rfl, rfl, fun _ => by simpa using hdone⟩, by omega,
        fun _ => ⟨rfl, rfl, rfl⟩⟩
    · simp only [Option.some.injEq, Prod.mk.injEq] at h
      obtain ⟨rfl, rfl⟩ := h
      exact ⟨⟨p, hp, rfl, rfl, rfl, rfl, by intro hcon; simp at hcon⟩, by omega,
        fun _ => ⟨rfl, rfl, rfl⟩⟩
  | succ fuel ih =>
    unfold Client.requestPieceLoop at h
    simp only [hp] at h
    split at h
    · rename_i hdone
      simp only [Option.some.injEq, Prod.mk.injEq] at h
      obtain ⟨rfl, rfl⟩ := h
      exact ⟨⟨p, hp, rfl, rfl, rfl, rfl, fun _ => by simpa using hdone⟩, by simp,
        fun _ => ⟨rfl, rfl, rfl⟩⟩
    · have hqueue : ∀ cq eq,
          (if !c.choked then c.queueRequests (5 - p.QueuedRequests).toNat else some (c, none))
            = some (cq, eq) →
          eq ≠ some .fuel ∧ cq.torrent = c.torrent ∧ cq.readsLeft = c.readsLeft ∧
          ∃ p1, cq.piece = some p1 ∧ p1.Index = p.Index ∧ p1.Length = p.Length ∧
            p1.Offset = p.Offset ∧ p1.Destinations = p.Destinations ∧
            p1.Received = p.Received := by
        intro cq eq hq
        split at hq
        · exact queueRequests_frame _ c cq eq p hp (le_refl _) hq
        · simp only [Option.some.injEq, Prod.mk.injEq] at hq
          obtain ⟨rfl, rfl⟩ := hq
          exact ⟨by simp, rfl, rfl, p, hp, rfl, rfl, rfl, rfl, rfl⟩
      split at h
      · simp at h
      · rename_i cq err hq
        simp only [Option.some.injEq, Prod.mk.injEq] at h
        obtain ⟨rfl, rfl⟩ := h
        obtain ⟨g1, g2, _, p1, g4, g5, g6, g7, g8, _⟩ := hqueue _ _ hq
        exact ⟨⟨p1, g4, g5, g6, g7, g8, by intro hcon; simp at hcon⟩, fun _ => g1,
          fun _ => by rw [g2]; exact ⟨rfl, rfl, rfl⟩⟩
      · rename_i cq hq
        obtain ⟨_, g2, g3, p1, g4, g5, g6, g7, g8, _⟩ := hqueue _ _ hq
        split at h
        · simp at h
        · rename_i c2 err hrecv
          simp only [Option.some.injEq, Prod.mk.injEq] at h
          obtain ⟨rfl, rfl⟩ := h
          obtain ⟨_, _, hpiece, htor⟩ := receive_frame _ _ _ _ hrecv
          refine ⟨?_, ?_, ?_⟩
          · rcases hpiece with hpiece | ⟨p0, d, r, q, hp0, hpiece⟩
            · exact ⟨p1, by rw [hpiece, g4], g5, g6, g7, g8, by intro hcon; simp at hcon⟩
            · rw [g4] at hp0
              simp only [Option.some.injEq] at hp0
              subst hp0
              exact ⟨_, hpiece, g5, g6, g7, g8, by intro hcon; simp at hcon⟩
          · intro _
            exact receive_ne_fuel _ _ _ _ hrecv
          · intro hc
            rw [g2] at htor
            exact htor hc
        · rename_i c2 hrecv
          obtain ⟨_, ⟨conn0, reads1, h0, h1, _, hlt⟩, hpiece, htor⟩ := receive_frame _ _ _ _ hrecv
          have hreads : c2.readsLeft < c.readsLeft := by
            rw [← g3]
            simp only [Client.readsLeft, h0, h1]
            exact hlt rfl
          have hfin : ∀ p2 : Piece, c2.piece = some p2 → p2.Index = p.Index →
              p2.Length = p.Length → p2.Offset = p.Offset → p2.Destinations = p.Destinations →
              (∃ p1, c1.piece = some p1 ∧ p1.Index = p.Index ∧ p1.Length = p.Length ∧
                p1.Offset = p.Offset ∧ p1.Destinations = p.Destinations ∧
                (e = none → p1.Incomplete = false)) ∧
              (c.readsLeft < fuel + 1 → e ≠ some .fuel) ∧
              (c.torrent.torrent.MetaInfo.Incomplete = false →
                c1.torrent.torrent = c.torrent.torrent ∧ c1.torrent.Pieces = c.torrent.Pieces ∧
                c1.torrent.PiecesCap = c.torrent.PiecesCap) := by
            intro p2 hp2 hi hl ho hd
            obtain ⟨⟨p3, k1, k2, k3, k4, k5, k6⟩, kfuel, ktor⟩ := ih c2 p2 hp2 h
            refine ⟨⟨p3, k1, by rw [k2, hi], by rw [k3, hl], by rw [k4, ho], by rw [k5, hd], k6⟩,
              fun hlt2 => kfuel (by omega), ?_⟩
            intro hc
            rw [g2] at htor
            obtain ⟨t1, t2, t3⟩ := htor hc
            obtain ⟨u1, u2, u3⟩ := ktor (by rw [t1]; exact hc)
            exact ⟨by rw [u1, t1], by rw [u2, t2], by rw [u3, t3]⟩
          rcases hpiece with hpiece | ⟨p0, d, r, q, hp0, hpiece⟩
          · exact hfin p1 (by rw [hpiece, g4]) g5 g6 g7 g8
          · rw [g4] at hp0
            simp only [Option.some.injEq] at hp0
            subst hp0
            exact hfin _ hpiece g5 g6 g7 g8

end client

namespace client

open piece

/-- The method `requestPiece`, when it returns: the piece is the same piece of the torrent,
its length is not negative, nil means that it is received, and the error is one of the
program. -/
theorem requestPiece_frame (shuffle : List Piece → List Piece) (c c1 : Client) (p p1 : Piece)
    (e : Option ClientError) (h : c.requestPiece shuffle p = some (c1, p1, e)) :
    0 ≤ p.Length ∧ p1.Index = p.Index ∧ p1.Length = p.Length ∧ p1.Offset = p.Offset ∧
    p1.Destinations = p.Destinations ∧ (e = none → p1.Incomplete = false) ∧ e ≠ some .fuel ∧
    c1.piece = none ∧
    (c.torrent.torrent.MetaInfo.Incomplete = false →
      c1.torrent.torrent = c.torrent.torrent ∧ c1.torrent.Pieces = c.torrent.Pieces ∧
      c1.torrent.PiecesCap = c.torrent.PiecesCap) := by
  unfold Client.requestPiece at h
  split at h
  · simp at h
  · rename_i hlen
    simp only [] at h
    split at h
    · simp at h
    · rename_i c2 e2 hrun
      obtain ⟨⟨p2, g1, g2, g3, g4, g5, g6⟩, gfuel, gtor⟩ :=
        requestPieceLoop_frame shuffle _ _ c2 e2 _ rfl hrun
      simp only [g1, Option.some.injEq, Prod.mk.injEq] at h
      obtain ⟨rfl, rfl, rfl⟩ := h
      exact ⟨by omega, g2, g3, g4, g5, g6, gfuel (Nat.lt_succ_self _), rfl, gtor⟩

/-- The body of the loop of `requestPieces` for a piece `p` taken from the channel of a
torrent with complete MetaInfo, `c` being the client after the piece was taken. -/
theorem requestPulledPiece_places (sha1 : Bytes → Bytes) (shuffle : List Piece → List Piece)
    (c : Client) (p : Piece) (downloaded : List Piece)
    (hcomplete : c.torrent.torrent.MetaInfo.Incomplete = false) :
    (Client.requestPulledPiece sha1 shuffle c p downloaded = none →
      c.Peer.HasPiece p.Index = some true ∧
      (c.requestPiece shuffle p = none ∨
        ∃ c2 p1, c.requestPiece shuffle p = some (c2, p1, none) ∧
          torrent.Torrent.IsValidPieceHash sha1 c.torrent.torrent p1 = none)) ∧
    (∀ c1 downloaded1 e,
      Client.requestPulledPiece sha1 shuffle c p downloaded = some (c1, downloaded1, e) →
      c1.torrent.torrent = c.torrent.torrent ∧ e ≠ some .fuel ∧
      ((c.Peer.HasPiece p.Index = some false ∧ e = none ∧ downloaded1 = downloaded ∧
          c1.torrent.Pieces = c.torrent.Pieces ++ [p]) ∨
        (c.Peer.HasPiece p.Index = some true ∧ 0 ≤ p.Length ∧ downloaded1 = downloaded ∧
          c1.torrent.Pieces = c.torrent.Pieces ++
            [{ p with Data := List.replicate p.Length.toNat 0, Received := 0, Requested := 0,
                      QueuedRequests := 0 }] ∧
          ((∃ c2 p1 err, c.requestPiece shuffle p = some (c2, p1, some err) ∧ e = some err) ∨
            (e = none ∧ ∃ c2 p1, c.requestPiece shuffle p = some (c2, p1, none) ∧
              torrent.Torrent.IsValidPieceHash sha1 c.torrent.torrent p1 = some false))) ∨
        (c.Peer.HasPiece p.Index = some true ∧ e = none ∧
          c1.torrent.Pieces = c.torrent.Pieces ∧
          ∃ p1, downloaded1 = downloaded ++ [p1] ∧ p1.Index = p.Index ∧
            p1.Length = p.Length ∧ p1.Offset = p.Offset ∧ p1.Destinations = p.Destinations ∧
            p1.Incomplete = false ∧
            torrent.Torrent.IsValidPieceHash sha1 c.torrent.torrent p1 = some true))) := by
  have hreset : ∀ p1 : Piece, 0 ≤ p.Length → p1.Index = p.Index → p1.Length = p.Length →
      p1.Offset = p.Offset → p1.Destinations = p.Destinations →
      p1.Reset = some { p with Data := List.replicate p.Length.toNat 0, Received := 0,
                               Requested := 0, QueuedRequests := 0 } := by
    intro p1 h0 hi hl ho hd
    unfold Piece.Reset
    rw [if_neg (by omega)]
    cases p1
    cases p
    simp only [] at hi hl ho hd
    subst hi hl ho hd
    rfl
  obtain ⟨r, hhas⟩ := bitfield.HasPiece_returns c.Peer.bitfield p.Index
  have hhas1 : c.Peer.HasPiece p.Index = some r := hhas
  cases r with
  | false =>
    have hval : Client.requestPulledPiece sha1 shuffle c p downloaded
        = some ({ c with torrent := { c.torrent with Pieces := c.torrent.Pieces ++ [p] } },
                downloaded, none) := by
      simp only [Client.requestPulledPiece, hhas1]
    rw [hval]
    refine ⟨by intro hcon; simp at hcon, ?_⟩
    intro c1 d1 e h
    simp only [Option.some.injEq, Prod.mk.injEq] at h
    obtain ⟨rfl, rfl, rfl⟩ := h
    exact ⟨rfl, by simp, Or.inl ⟨hhas1, rfl, rfl, rfl⟩⟩
  | true =>
    cases hreq : c.requestPiece shuffle p with
    | none =>
      have hval : Client.requestPulledPiece sha1 shuffle c p downloaded = none := by
        simp only [Client.requestPulledPiece, hhas1, hreq]
      rw [hval]
      refine ⟨fun _ => ⟨hhas1, Or.inl rfl⟩, ?_⟩
      intro c1 d1 e h
      simp at h
    | some res =>
      obtain ⟨c2, p1, e2⟩ := res
      obtain ⟨g0, g1, g2, g3, g4, g5, g6, _, gtor⟩ := requestPiece_frame shuffle c c2 p p1 e2 hreq
      obtain ⟨t1, t2, _⟩ := gtor hcomplete
      have hr := hreset p1 g0 g1 g2 g3 g4
      cases e2 with
      | some err =>
        have hval : Client.requestPulledPiece sha1 shuffle c p downloaded
            = some ({ c2 with torrent := { c2.torrent with Pieces := c2.torrent.Pieces ++
                        [{ p with Data := List.replicate p.Length.toNat 0, Received := 0,
                                  Requested := 0, QueuedRequests := 0 }] } },
                    downloaded, some err) := by
          simp only [Client.requestPulledPiece, hhas1, hreq, hr]
        rw [hval]
        refine ⟨by intro hcon; simp at hcon, ?_⟩
        intro c1 d1 e h
        simp only [Option.some.injEq, Prod.mk.injEq] at h
        obtain ⟨rfl, rfl, rfl⟩ := h
        refine ⟨t1, g6, Or.inr (Or.inl ⟨hhas1, g0, rfl, ?_, Or.inl ⟨c2, p1, err, rfl, rfl⟩⟩)⟩
        show c2.torrent.Pieces ++ _ = c.torrent.Pieces ++ _
        rw [t2]
      | none =>
        cases hvalid : torrent.Torrent.IsValidPieceHash sha1 c.torrent.torrent p1 with
        | none =>
          have hval : Client.requestPulledPiece sha1 shuffle c p downloaded = none := by
            simp only [Client.requestPulledPiece, hhas1, hreq, t1, hvalid]
          rw [hval]
          refine ⟨fun _ => ⟨hhas1, Or.inr ⟨c2, p1, rfl, hvalid⟩⟩, ?_⟩
          intro c1 d1 e h
          simp at h
        | some valid =>
          cases valid with
          | false =>
            have hval : Client.requestPulledPiece sha1 shuffle c p downloaded
                = some ({ c2 with torrent := { c2.torrent with Pieces := c2.torrent.Pieces ++
                            [{ p with Data := List.replicate p.Length.toNat 0, Received := 0,
                                      Requested := 0, QueuedRequests := 0 }] } },
                        downloaded, none) := by
              simp only [Client.requestPulledPiece, hhas1, hreq, t1, hvalid, hr]
            rw [hval]
            refine ⟨by intro hcon; simp at hcon, ?_⟩
            intro c1 d1 e h
            simp only [Option.some.injEq, Prod.mk.injEq] at h
            obtain ⟨rfl, rfl, rfl⟩ := h
            refine ⟨t1, by simp, Or.inr (Or.inl ⟨hhas1, g0, rfl, ?_,
              Or.inr ⟨rfl, c2, p1, rfl, hvalid⟩⟩)⟩
            show c2.torrent.Pieces ++ _ = c.torrent.Pieces ++ _
            rw [t2]
          | true =>
            have hval : Client.requestPulledPiece sha1 shuffle c p downloaded
                = some (c2, downloaded ++ [p1], none) := by
              simp only [Client.requestPulledPiece, hhas1, hreq, t1, hvalid]
            rw [hval]
            refine ⟨by intro hcon; simp at hcon, ?_⟩
            intro c1 d1 e h
            simp only [Option.some.injEq, Prod.mk.injEq] at h
            obtain ⟨rfl, rfl, rfl⟩ := h
            exact ⟨t1, by simp, Or.inr (Or.inr ⟨hhas1, rfl, t2, p1, rfl, g1, g2, g3, g4, g5 rfl,
              hvalid⟩)⟩

end client

namespace client

open piece

theorem perm_requeue {α : Type} (x : α) (xs ys : List α) :
    List.Perm (xs ++ [x] ++ ys) (x :: xs ++ ys) :=
  (List.perm_append_comm : List.Perm (xs ++ [x]) ([x] ++ xs)).append_right ys

theorem perm_forward {α : Type} (x : α) (xs ys : List α) :
    List.Perm (xs ++ (ys ++ [x])) (x :: xs ++ ys) := by
  rw [← List.append_assoc]
  exact (List.perm_append_comm : List.Perm (xs ++ ys ++ [x]) ([x] ++ (xs ++ ys)))

/-- The loop of `requestPieces` on a torrent with complete MetaInfo: in whatever state it is
left, the pieces on the piece channel and on the channel `downloaded` together are the pieces
that were there at the start. -/
theorem requestPieces_conserves (sha1 : Bytes → Bytes) (shuffle : List Piece → List Piece)
    (fuel : Nat) (c c1 : Client) (downloaded downloaded1 : List Piece)
    (e : Option ClientError) (hcomplete : c.torrent.torrent.MetaInfo.Incomplete = false)
    (h : c.requestPieces sha1 shuffle fuel downloaded = some (c1, downloaded1, e)) :
    c1.torrent.torrent = c.torrent.torrent ∧
    List.Perm
      ((c1.torrent.Pieces ++ downloaded1).map
        (fun q => (q.Index, q.Length, q.Offset, q.Destinations)))
      ((c.torrent.Pieces ++ downloaded).map
        (fun q => (q.Index, q.Length, q.Offset, q.Destinations))) := by
  induction fuel generalizing c downloaded with
  | zero =>
    unfold Client.requestPieces at h
    split at h <;>
    · simp only [Option.some.injEq, Prod.mk.injEq] at h
      obtain ⟨rfl, rfl, _⟩ := h
      exact ⟨rfl, List.Perm.refl _⟩
  | succ fuel ih =>
    unfold Client.requestPieces at h
    split at h
    · simp only [Option.some.injEq, Prod.mk.injEq] at h
      obtain ⟨rfl, rfl, _⟩ := h
      exact ⟨rfl, List.Perm.refl _⟩
    · rename_i p rest hqueue
      have hstep : ∀ c2 d2 e2,
          Client.requestPulledPiece sha1 shuffle
            { c with torrent := { c.torrent with Pieces := rest } } p downloaded
            = some (c2, d2, e2) →
          c2.torrent.torrent = c.torrent.torrent ∧
          List.Perm
            ((c2.torrent.Pieces ++ d2).map
              (fun q => (q.Index, q.Length, q.Offset, q.Destinations)))
            ((c.torrent.Pieces ++ downloaded).map
              (fun q => (q.Index, q.Length, q.Offset, q.Destinations))) := by
        intro c2 d2 e2 hres
        obtain ⟨ht, _, hplace⟩ :=
          (requestPulledPiece_places sha1 shuffle
            { c with torrent := { c.torrent with Pieces := rest } } p downloaded hcomplete).2
            c2 d2 e2 hres
        refine ⟨ht, ?_⟩
        rw [hqueue]
        rcases hplace with ⟨_, _, hd, hq⟩ | ⟨_, _, hd, hq, _⟩ | ⟨_, _, hq, p1, hd, g1, g2, g3, g4, _⟩
        · rw [hd, hq]
          exact (perm_requeue p rest downloaded).map _
        · rw [hd, hq]
          exact (perm_requeue _ rest downloaded).map _
        · rw [hd, hq]
          have := (perm_forward p1 rest downloaded).map
            (fun q => (q.Index, q.Length, q.Offset, q.Destinations))
          simpa [g1, g2, g3, g4] using this
      split at h
      · simp at h
      · rename_i c2 d2 err hres
        simp only [Option.some.injEq, Prod.mk.injEq] at h
        obtain ⟨rfl, rfl, _⟩ := h
        exact hstep _ _ _ hres
      · rename_i c2 d2 hres
        obtain ⟨ht, hperm⟩ := hstep _ _ _ hres
        obtain ⟨ht1, hperm1⟩ := ih c2 d2 (by rw [ht]; exact hcomplete) h
        exact ⟨by rw [ht1, ht], hperm1.trans hperm⟩

/-- A message `Piece` whose block begins beyond the buffer of the piece in flight makes
`receive` panic. -/
theorem receive_block_beyond (shuffle : List Piece → List Piece) (c : Client) (conn : Conn)
    (q : Piece) (msg : message.Message) (reads : List ReadEvent) (block : piece.Block)
    (hconn : c.conn = some conn) (hreads : conn.reads = .message (some msg) :: reads)
    (hid : msg.Id = message.Piece) (hblock : message.ParsePieceBlock (some msg) = some block)
    (hq : c.piece = some q) (hbegin : q.Data.length < block.Begin) :
    c.receive shuffle = none := by
  have hread : readLoop 5 conn = ({ conn with reads := reads }, .ok (some msg)) := by
    simp [readLoop, hreads]
  have hhandle : ({ c with conn := some { conn with reads := reads } } : Client).handlePieceMessage
      (some msg) = none := by
    simp [Client.handlePieceMessage, hblock, hq, hbegin]
  unfold Client.receive
  simp only [hconn, hread]
  simp [hid, message.Piece, message.Choke, message.Unchoke, message.Bitfield, message.Have]
  simpa [hid, message.Piece] using hhandle

/-- The call `requestPiece` does not return for a piece of negative length (`make` panics),
nor when the client is choked and the first message read is a block that begins beyond the
piece. -/
theorem requestPiece_panics (shuffle : List Piece → List Piece) (c : Client) (p : Piece)
    (hbad : p.Length < 0 ∨
      (p.Received < p.Length ∧ c.choked = true ∧
        ∃ conn msg reads block, c.conn = some conn ∧
          conn.reads = .message (some msg) :: reads ∧ msg.Id = message.Piece ∧
          message.ParsePieceBlock (some msg) = some block ∧ p.Length.toNat < block.Begin)) :
    c.requestPiece shuffle p = none := by
  unfold Client.requestPiece
  by_cases hneg : p.Length < 0
  · rw [if_pos hneg]
  · rcases hbad with h | ⟨hrecv, hchoked, conn, msg, reads, block, hconn, hreads, hid, hblock,
      hbegin⟩
    · exact absurd h hneg
    · rw [if_neg hneg]
      have hnc : (!c.choked) = false := by rw [hchoked]; rfl
      have hrecvNone : ({ c with piece := some { p with Data := List.replicate p.Length.toNat 0 } }
          : Client).receive shuffle = none :=
        receive_block_beyond shuffle _ conn _ msg reads block hconn hreads hid hblock rfl
          (by rw [List.length_replicate]; exact hbegin)
      have hinc : ({ p with Data := List.replicate p.Length.toNat 0 } : Piece).Incomplete
          = true := by
        simp [Piece.Incomplete, hrecv]
      have hloop : ∀ n, Client.requestPieceLoop shuffle (n + 1)
          { c with piece := some { p with Data := List.replicate p.Length.toNat 0 } } = none := by
        intro n
        unfold Client.requestPieceLoop
        simp only [hinc, hnc, Bool.not_true, Bool.false_eq_true, if_false, hrecvNone]
      simp only [hloop]

/-- C34 (divergence): a piece that `requestPieces` takes from the piece channel can end on
neither channel. For a piece `p` at the head of the piece channel that the peer has, if the
length of `p` is negative, or if the client is choked and the first message it reads is a
`Piece` message whose block begins beyond the length of `p`, the body of the loop panics, in
`make` or in `c.piece.Data[block.Begin:]`: `requestPieces` returns nothing, and `p` is neither
put back on the piece channel nor sent on `downloaded`. -/
theorem requestPieces_drops_piece (sha1 : Bytes → Bytes) (shuffle : List Piece → List Piece)
    (c : Client) (p : Piece) (rest downloaded : List Piece)
    (hqueue : c.torrent.Pieces = p :: rest) (hhas : c.Peer.HasPiece p.Index = some true)
    (hbad : p.Length < 0 ∨
      (p.Received < p.Length ∧ c.choked = true ∧
        ∃ conn msg reads block, c.conn = some conn ∧
          conn.reads = .message (some msg) :: reads ∧ msg.Id = message.Piece ∧
          message.ParsePieceBlock (some msg) = some block ∧ p.Length.toNat < block.Begin)) :
    Client.requestPulledPiece sha1 shuffle
        { c with torrent := { c.torrent with Pieces := rest } } p downloaded = none ∧
    ∀ fuel, c.requestPieces sha1 shuffle (fuel + 1) downloaded = none := by
  have hpulled : Client.requestPulledPiece sha1 shuffle
      { c with torrent := { c.torrent with Pieces := rest } } p downloaded = none := by
    have hreq := requestPiece_panics shuffle
      { c with torrent := { c.torrent with Pieces := rest } } p hbad
    have hhas1 : ({ c with torrent := { c.torrent with Pieces := rest } } : Client).Peer.HasPiece
        p.Index = some true := hhas
    simp only [Client.requestPulledPiece, hhas1, hreq]
  refine ⟨hpulled, ?_⟩
  intro fuel
  unfold Client.requestPieces
  simp only [hqueue, hpulled]

/-- C34, at a client whose peer has the piece and sends a block with `begin = 5` for the piece
of 4 bytes: `requestPieces` does not return. -/
theorem requestPieces_drops_piece_witness :
    Client.requestPulledPiece storedDigest id
        { misledClient with torrent := { misledClient.torrent with Pieces := [] } }
        firstPiece [] = none ∧
    ∀ fuel, misledClient.requestPieces storedDigest id (fuel + 1) [] = none :=
  requestPieces_drops_piece storedDigest id misledClient firstPiece [] [] rfl (by decide)
    (Or.inr ⟨by decide, rfl, { reads := [.message (some blockBeyond)] }, blockBeyond, [],
      { Index := 0, Begin := 5, Data := [1] }, rfl, rfl, rfl, by decide, by decide⟩)

/-- Runs of `requestPieces` on the torrent of ten pieces with one piece on the channel. A peer
that sends the block: the piece is forwarded. A connection at its end: the piece is put back,
reset, and the error returned. A peer without the piece: the piece goes round and round, the
loop does not end. On the single-file torrent of 10 bytes, whose second piece has the length
-4, `requestPieces` does not return. -/
theorem requestPieces_examples :
    (({ servedClient with torrent := { tenPieces with Pieces := [firstPiece] } }
        : Client).requestPieces storedDigest id 5 []).map
      (fun r => (r.1.torrent.Pieces, r.2.1.map (fun q => q.Data), r.2.2))
      = some ([], [[1, 2, 3, 4]], none)
    ∧ (({ servedClient with torrent := { tenPieces with Pieces := [firstPiece] },
                            conn := some {} } : Client).requestPieces storedDigest id 5 []).map
      (fun r => (r.1.torrent.Pieces, r.2.1, r.2.2))
      = some ([{ firstPiece with Data := [0, 0, 0, 0] }], [], some .read)
    ∧ (({ servedClient with torrent := { tenPieces with Pieces := [firstPiece] },
                            Peer := examplePeer } : Client).requestPieces storedDigest id 5 []).map
      (fun r => (r.1.torrent.Pieces, r.2.1, r.2.2))
      = some ([firstPiece], [], some .fuel)
    ∧ singleFileClient.torrent.Pieces.map (fun q => q.Length) = [0, -4, -8]
    ∧ singleFileClient.requestPieces storedDigest id 5 [] = none := by
  refine ⟨by decide, by decide, by decide, by decide, by decide⟩

end client
